import Mathlib

/-!
# DIPlib image data model: strides, coordinates, aliasing, forging and data types

A shallow embedding of `src/src/library/image_data.cpp` and of the data type queries of
`src/include/diplib/library/datatype.h`, followed by theorems about it.

## Integer model

`dip::uint` values are modelled by `Nat` and `dip::sint` values by `Int`.  The stride,
offset and forging methods of `Image` are embedded with the 64-bit arithmetic of the machine:
a result that is stored in a `dip::uint` is reduced modulo `2^64`, a result that is stored in
a `dip::sint` is written with `wrapSint`, and a conversion between the two types with
`toUint` or `toSint`.  This holds for `ComputeStrides` and `FindDataBlockSizeAndStart`,
which `SetNormalStrides`, `Forge`, `ReForge` and `GetDataBlockSizeAndStart` call, for the
coordinates computer, and for `Offset`, `Index`, `IndexToCoordinates`, `HasNormalStrides` and
`HasValidStrides`.  Their counterparts in exact arithmetic, which carry `Exact` in their
names (`ComputeStridesExact`, `FindDataBlockSizeAndStartExact`,
`CoordinatesComputer.markedSizesExact`, `Image.HasValidStridesExact`), are what these
compute as long as the sizes, the strides and the reach of the strides fit in a `dip::sint`;
the theorems that state this carry `eq_exact` in their names, and the proofs go through them.

`Aliases` is embedded with exact sums and products (it calls
`FindSimpleStrideSizeAndStartExact`), which are the 64-bit ones for every view that lies
within an addressable storage block (`Image.Addressable` gives the bounds): there all offsets,
strides and sizes fit in 63 bits, and the 64-bit machine result of `+`, `-`, `*` (which is
exact modulo `2^64`, also through the mixed signed/unsigned conversions of C++) is the
mathematical one.  Where the source converts a signed value that can be negative on such a
view into `dip::uint`, or subtracts in `dip::uint`, and goes on with an operation that is not
compatible with reduction modulo `2^64` (a division, a remainder, a comparison), the
conversion is written out with `toUint`.  Signed `/` and `%` are the truncating `Int.tdiv`
and `Int.tmod`.  The sizes and the number of tensor elements that `ReForge` receives are
arguments, not members of a forged view, so the byte counts it compares are written out
modulo `2^64`; so is the number of bytes that `Forge` asks the allocator for, which no test
of `Forge` bounds.

Parallel arrays that the source always updates together (a stride array and its size array)
are kept as one list of (stride, size) pairs once they are only used together.
-/

namespace dip

/-! ## Machine integers -/

/-- The value of `std::numeric_limits< dip::uint >::max()`. -/
def UINT_MAX : Nat := 2 ^ 64 - 1

/-- Conversion of a signed 64-bit value to `dip::uint`: reduction modulo `2^64`. -/
def toUint (x : Int) : Nat := (x % 2 ^ 64).toNat

/-- The value of `std::numeric_limits< dip::sint >::max()`. -/
def SINT_MAX : Nat := 2 ^ 63 - 1

/-- Conversion of a `dip::uint` value to `dip::sint`: the value itself below `2^63`, and the
value minus `2^64` from there on. -/
def toSint (n : Nat) : Int :=
  if n % 2 ^ 64 < 2 ^ 63 then ((n % 2 ^ 64 : Nat) : Int) else ((n % 2 ^ 64 : Nat) : Int) - 2 ^ 64

/-- The `dip::sint` value that a 64-bit `+`, `-` or `*` leaves when its exact result is `x`:
the value in `[-2^63, 2^63)` that is congruent to `x` modulo `2^64`.  The mixed
signed/unsigned operations of the source compute in `dip::uint` and convert the result, which
gives the same value. -/
def wrapSint (x : Int) : Int := toSint (toUint x)

/-! ## Errors -/

/-- The exceptions thrown by the embedded functions (the `E::` constants and the literal
messages of `image_data.cpp`). -/
inductive Error where
  | IMAGE_NOT_FORGED
  | IMAGE_NOT_RAW
  | SIZE_EXCEEDS_LIMIT
  | ARRAY_ILLEGAL_SIZE
  | INDEX_OUT_OF_RANGE
  | INPUT_ARRAYS_NOT_SAME_SIZE
  | CANNOT_FORGE_WITHOUT_PIXELS
  | FAILED_TO_ALLOCATE
  deriving DecidableEq, Repr

/-! ## Data types (`datatype.h`) -/

/-- The enumeration `DataType::DT`. -/
inductive DataType where
  | BIN | UINT8 | SINT8 | UINT16 | SINT16 | UINT32 | SINT32
  | SFLOAT | DFLOAT | SCOMPLEX | DCOMPLEX
  deriving DecidableEq, Repr

/-- Method `DataType::SizeOf`.  The `sizeof` of the sample types (declared outside the given
sources) are those of the fixed-width types they name: `dip::bin` is one byte, the complex
types are two floats. -/
def DataType.SizeOf : DataType → Nat
  | .BIN => 1
  | .UINT8 => 1
  | .SINT8 => 1
  | .UINT16 => 2
  | .SINT16 => 2
  | .UINT32 => 4
  | .SINT32 => 4
  | .SFLOAT => 4
  | .DFLOAT => 8
  | .SCOMPLEX => 8
  | .DCOMPLEX => 16

/-! ## The image (view) -/

/-- The data members of `dip::Image` used by `image_data.cpp`.  `tensorElements` stands for
`tensor_.Elements()`.  `dataBlock_` is the identity of the storage block the shared pointer
refers to (`none` for a null pointer) and `origin_` is the position of the origin pointer
relative to the start of that block, in bytes. -/
structure Image where
  dataType_ : DataType
  sizes_ : List Nat
  strides_ : List Int
  tensorElements : Nat
  tensorStride_ : Int
  protect_ : Bool
  dataBlock_ : Option Nat
  origin_ : Int
  deriving DecidableEq, Repr

/-- Modelled from the spec: `Image::IsForged` (declared outside the given sources); a view is
forged when storage is attached to it. -/
def Image.IsForged (img : Image) : Bool := img.dataBlock_.isSome

/-! ## Internal functions -/

/-- Static function `ComputeStrides( sizes, s, strides )`: `s` is a `dip::uint`,
`s *= sizes[ ii ]` is taken modulo `2^64`, and `strides[ ii ] = s` converts to `dip::sint`. -/
def ComputeStrides : List Nat → Nat → List Int
  | [], _ => []
  | sz :: rest, s => toSint s :: ComputeStrides rest (s * sz % 2 ^ 64)

/-- The normal stride array with exact products, `s` times the product of the sizes in front.
It is what `ComputeStrides` computes as long as these products fit in a `dip::sint`
(`ComputeStrides_eq_exact`); it describes the layouts on which the theorems about `Aliases`
are stated, and the proofs go through it. -/
def ComputeStridesExact : List Nat → Nat → List Int
  | [], _ => []
  | sz :: rest, s => (s : Int) :: ComputeStridesExact rest (s * sz)

/-- The loop of `FindNumberOfPixels`, with `n` the running product. -/
def FindNumberOfPixels.loop : List Nat → Nat → Except Error Nat
  | [], n => .ok n
  | sz :: rest, n =>
    if sz ≠ 0 ∧ n > UINT_MAX / sz then .error .SIZE_EXCEEDS_LIMIT
    else FindNumberOfPixels.loop rest (n * sz)

/-- Static function `FindNumberOfPixels( sizes )`. -/
def FindNumberOfPixels (sizes : List Nat) : Except Error Nat :=
  FindNumberOfPixels.loop sizes 1

/-- The loop of `FindDataBlockSizeAndStart`, with the running `min` and `max`: the product
`( sizes[ ii ] - 1 ) * strides[ ii ]` is computed in 64 bits and stored in the `dip::sint`
`p`, and `min += p`, `max += p` are 64-bit additions. -/
def FindDataBlockSizeAndStart.loop : List Int → List Nat → Int → Int → Int × Int
  | st :: sts, sz :: szs, mn, mx =>
    let p : Int := wrapSint (((sz : Int) - 1) * st)
    if p < 0 then FindDataBlockSizeAndStart.loop sts szs (wrapSint (mn + p)) mx
    else FindDataBlockSizeAndStart.loop sts szs mn (wrapSint (mx + p))
  | _, _, mn, mx => (mn, mx)

/-- Static function `FindDataBlockSizeAndStart( strides, sizes, size, start )`; the result
is the pair `(size, start)`, with `size = static_cast< dip::uint >( max - min + 1 )`. -/
def FindDataBlockSizeAndStart (strides : List Int) (sizes : List Nat) : Nat × Int :=
  let r := FindDataBlockSizeAndStart.loop strides sizes 0 0
  (toUint (r.2 - r.1 + 1), r.1)

/-- The loop of `FindDataBlockSizeAndStart` in exact arithmetic (see
`FindDataBlockSizeAndStartExact`). -/
def FindDataBlockSizeAndStartExact.loop : List Int → List Nat → Int → Int → Int × Int
  | st :: sts, sz :: szs, mn, mx =>
    let p : Int := ((sz : Int) - 1) * st
    if p < 0 then FindDataBlockSizeAndStartExact.loop sts szs (mn + p) mx
    else FindDataBlockSizeAndStartExact.loop sts szs mn (mx + p)
  | _, _, mn, mx => (mn, mx)

/-- The extent of the data block with exact sums and products; the result is the pair
`(size, start)`.  It is what `FindDataBlockSizeAndStart` computes as long as the sum of
`( sizes[ ii ] - 1 ) * |strides[ ii ]|` fits in a `dip::sint`
(`FindDataBlockSizeAndStart_eq_exact`), which holds for every view within an addressable
block; `Aliases` is embedded with it, and the proofs go through it. -/
def FindDataBlockSizeAndStartExact (strides : List Int) (sizes : List Nat) : Nat × Int :=
  let r := FindDataBlockSizeAndStartExact.loop strides sizes 0 0
  ((r.2 - r.1 + 1).toNat, r.1)

/-- The loop of `FindSimpleStrideSizeAndStart` that finds the smallest absolute stride among
the dimensions of size larger than one, `static_cast< dip::uint >( std::abs( strides[ ii ] ) )`
(the conversion gives the absolute value also for the least `dip::sint`). -/
def FindSimpleStride.loop : List Int → List Nat → Nat → Nat
  | st :: sts, sz :: szs, sstride =>
    FindSimpleStride.loop sts szs (if sz > 1 then min sstride st.natAbs else sstride)
  | _, _, sstride => sstride

/-- The output of `FindSimpleStrideSizeAndStart`: its return value and its three output
arguments. -/
structure SimpleStride where
  found : Bool
  sstride : Nat
  size : Nat
  start : Int
  deriving DecidableEq, Repr

/-- Static function `FindSimpleStrideSizeAndStart( strides, sizes, sstride, size, start )`.
The comparison `size != ( FindNumberOfPixels( sizes ) - 1 ) * sstride + 1` is one of
`dip::uint` values. -/
def FindSimpleStrideSizeAndStart (strides : List Int) (sizes : List Nat) :
    Except Error SimpleStride :=
  if strides.length = 0 then .ok ⟨true, 1, 1, 0⟩
  else
    let sstride := FindSimpleStride.loop strides sizes UINT_MAX
    let r := FindDataBlockSizeAndStart strides sizes
    match FindNumberOfPixels sizes with
    | .error e => .error e
    | .ok n =>
      if r.1 ≠ toUint (((n : Int) - 1) * sstride + 1) then .ok ⟨false, 0, r.1, r.2⟩
      else .ok ⟨true, sstride, r.1, r.2⟩

/-- Static function `FindSimpleStrideSizeAndStart` with the extent of the data block in exact
arithmetic, which is what the function computes when the sizes are at least 1 and the reach
of the strides fits in a `dip::sint` (`FindSimpleStrideSizeAndStart_eq_exact`); `Aliases` is
embedded with it. -/
def FindSimpleStrideSizeAndStartExact (strides : List Int) (sizes : List Nat) :
    Except Error SimpleStride :=
  if strides.length = 0 then .ok ⟨true, 1, 1, 0⟩
  else
    let sstride := FindSimpleStride.loop strides sizes UINT_MAX
    let r := FindDataBlockSizeAndStartExact strides sizes
    match FindNumberOfPixels sizes with
    | .error e => .error e
    | .ok n =>
      if r.1 ≠ toUint (((n : Int) - 1) * sstride + 1) then .ok ⟨false, 0, r.1, r.2⟩
      else .ok ⟨true, sstride, r.1, r.2⟩

/-- The loop of the static `OffsetToCoordinates( offset, strides )`, which runs from the last
stride to the first: the result for `s :: rest` is obtained from the residue left by `rest`.
Returns the coordinates and the residue. -/
def OffsetToCoordinates.loop : List Nat → Nat → List Nat × Nat
  | [], offset => ([], offset)
  | s :: rest, offset =>
    let r := OffsetToCoordinates.loop rest offset
    ((r.2 / s) :: r.1, r.2 % s)

/-- Static function `OffsetToCoordinates( offset, strides )` (strides all positive). -/
def OffsetToCoordinates (offset : Nat) (strides : List Nat) : List Nat :=
  (OffsetToCoordinates.loop strides offset).1

/-- The inner loop of an insertion sort.  The elements already sorted, `data[ 0 .. ii )`, are
held in reverse order (last one first); `e` walks from the right end to the left past every
element `p` for which `shift p e` holds. -/
def insertFromRight {α : Type} (shift : α → α → Bool) (e : α) : List α → List α
  | [] => [e]
  | p :: ps => if shift p e then p :: insertFromRight shift e ps else e :: p :: ps

/-- Insertion sort as written in the source: elements are taken from left to right and each
is moved left past the elements that `shift` tells to move right. -/
def insertionSort {α : Type} (shift : α → α → Bool) (l : List α) : List α :=
  (l.foldl (fun rev e => insertFromRight shift e rev) []).reverse

/-- Modelled from the spec: `DimensionArray::sort( other )` (declared outside the given
sources), which sorts the strides from smallest to largest keeping the sizes in the same
order; an insertion sort that moves an element left past the strictly larger ones. -/
def sortStrides (dims : List (Int × Nat)) : List (Int × Nat) :=
  insertionSort (fun p e => decide (p.1 > e.1)) dims

/-! ## `CoordinatesComputer` -/

/-- The data members of `dip::CoordinatesComputer`. -/
structure CoordinatesComputer where
  index_ : List Nat
  sizes_ : List Int
  strides_ : List Int
  offset_ : Int
  deriving DecidableEq, Repr

/-- First loop of the constructor: the indices written to `index_`, in increasing order
starting at `ii`: those of the dimensions with size other than 1 and a non-zero stride. -/
def CoordinatesComputer.activeIndices : Nat → List Nat → List Int → List Nat
  | ii, sz :: szs, st :: sts =>
    if (sz : Int) ≠ 1 ∧ st ≠ 0 then ii :: CoordinatesComputer.activeIndices (ii + 1) szs sts
    else CoordinatesComputer.activeIndices (ii + 1) szs sts
  | _, _, _ => []

/-- First loop of the constructor: the array `sizes_`, an array of `dip::sint`:
`sizes_[ ii ] = sizes[ ii ]` converts the size (from `2^63` on it reads as a negative number),
and the size of a recorded dimension with a negative stride is negated, in 64 bits.  The test
`sizes_[ ii ] != 1` on the converted size holds exactly when the size is not 1. -/
def CoordinatesComputer.markedSizes : List Nat → List Int → List Int
  | sz :: szs, st :: sts =>
    (if (sz : Int) ≠ 1 ∧ st ≠ 0 ∧ st < 0 then wrapSint (-(toSint sz)) else toSint sz)
      :: CoordinatesComputer.markedSizes szs sts
  | _, _ => []

/-- The array `sizes_` of the constructor when every size fits in a `dip::sint`, so that the
conversion changes nothing (`markedSizes_eq_exact`); the proofs about the decoder go through
it. -/
def CoordinatesComputer.markedSizesExact : List Nat → List Int → List Int
  | sz :: szs, st :: sts =>
    (if (sz : Int) ≠ 1 ∧ st ≠ 0 ∧ st < 0 then -(sz : Int) else (sz : Int))
      :: CoordinatesComputer.markedSizesExact szs sts
  | _, _ => []

/-- First loop of the constructor: the array `strides_`, in which the negative stride of a
recorded dimension is replaced by its opposite, taken in 64 bits. -/
def CoordinatesComputer.positiveStrides : List Nat → List Int → List Int
  | sz :: szs, st :: sts =>
    (if (sz : Int) ≠ 1 ∧ st ≠ 0 ∧ st < 0 then wrapSint (-st) else st)
      :: CoordinatesComputer.positiveStrides szs sts
  | _, _ => []

/-- The array `strides_` of the first loop of the constructor with the exact opposite of the
negative strides, which is what the loop computes when the reach of the strides fits in a
`dip::sint` (`positiveStrides_eq_exact`); the proofs about the decoder go through it. -/
def CoordinatesComputer.positiveStridesExact : List Nat → List Int → List Int
  | sz :: szs, st :: sts =>
    (if (sz : Int) ≠ 1 ∧ st ≠ 0 ∧ st < 0 then -st else st)
      :: CoordinatesComputer.positiveStridesExact szs sts
  | _, _ => []

/-- First loop of the constructor: the exact sum of `strides_[ ii ] * ( sizes_[ ii ] - 1 )`
over the recorded dimensions with a negative stride (`strides_[ ii ]` being the stride already
made positive).  The member `offset_` is this sum reduced to 64 bits, see
`CoordinatesComputer.new`: each `+=` and `*` of the source is exact modulo `2^64`, and the
converted size `sizes_[ ii ]` is congruent to the size. -/
def CoordinatesComputer.mirrorOffset : List Nat → List Int → Int
  | sz :: szs, st :: sts =>
    (if (sz : Int) ≠ 1 ∧ st ≠ 0 ∧ st < 0 then (-st) * ((sz : Int) - 1) else 0)
      + CoordinatesComputer.mirrorOffset szs sts
  | _, _ => 0

/-- Third loop of the constructor: the indices appended to `index_`, those `ii` with
`sizes_[ ii ] == 1` or `strides_[ ii ] == 0`. -/
def CoordinatesComputer.singletonIndices : Nat → List Int → List Int → List Nat
  | ii, sz :: szs, st :: sts =>
    if sz = 1 ∨ st = 0 then ii :: CoordinatesComputer.singletonIndices (ii + 1) szs sts
    else CoordinatesComputer.singletonIndices (ii + 1) szs sts
  | _, _, _ => []

/-- Third loop of the constructor: the array `strides_`, in which the stride of every
dimension appended by that loop is set to 1. -/
def CoordinatesComputer.finalStrides : List Int → List Int → List Int
  | sz :: szs, st :: sts =>
    (if sz = 1 ∨ st = 0 then 1 else st) :: CoordinatesComputer.finalStrides szs sts
  | _, _ => []

/-- Constructor `CoordinatesComputer( sizes, strides )`.  The second loop is the insertion
sort of the recorded indices, large stride to small: the index to the left moves right while
its stride is smaller than the key. -/
def CoordinatesComputer.new (sizes : List Nat) (strides : List Int) :
    Except Error CoordinatesComputer :=
  if sizes.length ≠ strides.length then .error .INPUT_ARRAYS_NOT_SAME_SIZE
  else
    let sizes1 := CoordinatesComputer.markedSizes sizes strides
    let strides1 := CoordinatesComputer.positiveStrides sizes strides
    let index1 := CoordinatesComputer.activeIndices 0 sizes strides
    let index2 := insertionSort
      (fun p key => decide (strides1.getD p 0 < strides1.getD key 0)) index1
    .ok { index_ := index2 ++ CoordinatesComputer.singletonIndices 0 sizes1 strides1
          sizes_ := sizes1
          strides_ := CoordinatesComputer.finalStrides sizes1 strides1
          offset_ := wrapSint (CoordinatesComputer.mirrorOffset sizes strides) }

/-- The loop of `CoordinatesComputer::operator()`: `idx` is the part of `index_` still to
be visited, `offset` the running residue and `coordinates` the output array. -/
def CoordinatesComputer.loop (cc : CoordinatesComputer) : List Nat → Int → List Nat → List Nat
  | [], _, coordinates => coordinates
  | jj :: idx, offset, coordinates =>
    let q : Nat := toUint (offset.tdiv (cc.strides_.getD jj 0))
    let c : Nat :=
      if cc.sizes_.getD jj 0 < 0 then toUint (-(cc.sizes_.getD jj 0) - (q : Int) - 1) else q
    CoordinatesComputer.loop cc idx (offset.tmod (cc.strides_.getD jj 0)) (coordinates.set jj c)

/-- Method `CoordinatesComputer::operator()( offset )`; `offset += offset_` is a 64-bit
addition. -/
def CoordinatesComputer.apply (cc : CoordinatesComputer) (offset : Int) : List Nat :=
  CoordinatesComputer.loop cc cc.index_ (wrapSint (offset + cc.offset_))
    (List.replicate cc.strides_.length 0)

/-! ## Offsets and indices -/

/-- The loop of `Image::Offset( UnsignedArray const& )`;
`offset += coords[ ii ] * strides_[ ii ]` is computed in 64 bits. -/
def Image.Offset.loop : List Nat → List Nat → List Int → Int → Except Error Int
  | c :: cs, sz :: szs, st :: sts, offset =>
    if c ≥ sz then .error .INDEX_OUT_OF_RANGE
    else Image.Offset.loop cs szs sts (wrapSint (offset + (c : Int) * st))
  | _, _, _, offset => .ok offset

/-- Method `Image::Offset( UnsignedArray const& coords )`. -/
def Image.Offset (img : Image) (coords : List Nat) : Except Error Int :=
  if ¬ img.IsForged then .error .IMAGE_NOT_FORGED
  else if coords.length ≠ img.sizes_.length then .error .ARRAY_ILLEGAL_SIZE
  else Image.Offset.loop coords img.sizes_ img.strides_ 0

/-- The loop of `Image::Index`, which runs from the last dimension to the first: the index
for `c :: cs` is obtained from the one accumulated over `cs`, with `index *= sizes_[ ii ]` and
`index += coords[ ii ]` in `dip::uint`. -/
def Image.Index.loop : List Nat → List Nat → Except Error Nat
  | c :: cs, sz :: szs =>
    match Image.Index.loop cs szs with
    | .error e => .error e
    | .ok index =>
      if c ≥ sz then .error .INDEX_OUT_OF_RANGE else .ok ((index * sz + c) % 2 ^ 64)
  | _, _ => .ok 0

/-- Method `Image::Index( coords )`. -/
def Image.Index (img : Image) (coords : List Nat) : Except Error Nat :=
  if ¬ img.IsForged then .error .IMAGE_NOT_FORGED
  else if coords.length ≠ img.sizes_.length then .error .ARRAY_ILLEGAL_SIZE
  else Image.Index.loop coords img.sizes_

/-- Method `Image::OffsetToCoordinatesComputer`. -/
def Image.OffsetToCoordinatesComputer (img : Image) : Except Error CoordinatesComputer :=
  if ¬ img.IsForged then .error .IMAGE_NOT_FORGED
  else CoordinatesComputer.new img.sizes_ img.strides_

/-- Method `Image::OffsetToCoordinates( offset )`. -/
def Image.OffsetToCoordinates (img : Image) (offset : Int) : Except Error (List Nat) :=
  match img.OffsetToCoordinatesComputer with
  | .error e => .error e
  | .ok comp => .ok (comp.apply offset)

/-- Method `Image::IndexToCoordinatesComputer`. -/
def Image.IndexToCoordinatesComputer (img : Image) : Except Error CoordinatesComputer :=
  if ¬ img.IsForged then .error .IMAGE_NOT_FORGED
  else CoordinatesComputer.new img.sizes_ (ComputeStrides img.sizes_ 1)

/-- Method `Image::IndexToCoordinates( index )`; the `dip::uint` index is converted to the
`dip::sint` parameter of `operator()`. -/
def Image.IndexToCoordinates (img : Image) (index : Nat) : Except Error (List Nat) :=
  match img.IndexToCoordinatesComputer with
  | .error e => .error e
  | .ok comp => .ok (comp.apply (toSint index))

/-! ## Stride queries and forging -/

/-- The stride and size arrays with the tensor dimension added, as built by
`HasValidStrides`, `GetDataBlockSizeAndStartWithTensor` and `Aliases`: `strides_` and
`sizes_`, followed by the tensor stride and the number of tensor elements when there is more
than one tensor element. -/
def Image.stridesWithTensor (img : Image) : List Int :=
  if img.tensorElements > 1 then img.strides_ ++ [img.tensorStride_] else img.strides_

/-- See `Image.stridesWithTensor`. -/
def Image.sizesWithTensor (img : Image) : List Nat :=
  if img.tensorElements > 1 then img.sizes_ ++ [img.tensorElements] else img.sizes_

/-- The loop of `Image::HasNormalStrides`, with the running `total`, a `dip::sint`;
`total *= sizes_[ ii ]` is computed in 64 bits. -/
def Image.HasNormalStrides.loop : List Nat → List Int → Int → Bool
  | sz :: szs, st :: sts, total =>
    if st ≠ total then false
    else Image.HasNormalStrides.loop szs sts (wrapSint (total * (sz : Int)))
  | _, _, _ => true

/-- Method `Image::HasNormalStrides`. -/
def Image.HasNormalStrides (img : Image) : Except Error Bool :=
  if ¬ img.IsForged then .error .IMAGE_NOT_FORGED
  else if img.tensorStride_ ≠ 1 then .ok false
  else .ok (Image.HasNormalStrides.loop img.sizes_ img.strides_ (toSint img.tensorElements))

/-- Method `Image::GetSimpleStrideAndOrigin`: the simple stride and, when there is one, the
offset of the start pixel from the origin, in samples (the source returns the pointer
`Pointer( start )`; `none` stands for the null pointer). -/
def Image.GetSimpleStrideAndOrigin (img : Image) : Except Error (Nat × Option Int) :=
  if ¬ img.IsForged then .error .IMAGE_NOT_FORGED
  else
    match FindSimpleStrideSizeAndStart img.strides_ img.sizes_ with
    | .error e => .error e
    | .ok r => if r.found then .ok (r.sstride, some r.start) else .ok (r.sstride, none)

/-- The test loop of `Image::HasValidStrides` on the sorted (absolute stride, size) pairs:
`s[ ii + 1 ] <= s[ ii ] * ( static_cast< dip::sint >( d[ ii ] ) - 1 )`, a 64-bit product of
`dip::sint` values. -/
def Image.HasValidStrides.loop : List (Int × Nat) → Bool
  | p :: q :: rest =>
    if q.1 ≤ wrapSint (p.1 * (toSint p.2 - 1)) then false
    else Image.HasValidStrides.loop (q :: rest)
  | _ => true

/-- The test loop of `Image::HasValidStrides` in exact arithmetic, which is what the loop
computes when the sizes and the products fit in a `dip::sint`
(`HasValidStrides_loop_eq_exact`); the proofs go through it. -/
def Image.HasValidStrides.loopExact : List (Int × Nat) → Bool
  | p :: q :: rest =>
    if q.1 ≤ p.1 * ((p.2 : Int) - 1) then false else Image.HasValidStrides.loopExact (q :: rest)
  | _ => true

/-- Method `Image::HasValidStrides`.  `std::abs` is that of `dip::sint`: the least value of
the type has no absolute value in it, and the negation leaves it as it is. -/
def Image.HasValidStrides (img : Image) : Bool :=
  if img.sizes_.length ≠ img.strides_.length then false
  else
    let s := img.stridesWithTensor
    let d := img.sizesWithTensor
    if s.length < 2 then true
    else Image.HasValidStrides.loop (sortStrides ((s.map (fun st => wrapSint |st|)).zip d))

/-- Method `Image::HasValidStrides` with the absolute values and the test loop in exact
arithmetic, which is what the method computes when the strides, the sizes and the products fit
in a `dip::sint` (`Image.HasValidStrides_eq_exact`); the proofs go through it. -/
def Image.HasValidStridesExact (img : Image) : Bool :=
  if img.sizes_.length ≠ img.strides_.length then false
  else
    let s := img.stridesWithTensor
    let d := img.sizesWithTensor
    if s.length < 2 then true
    else Image.HasValidStrides.loopExact (sortStrides ((s.map (fun st => |st|)).zip d))

/-- Method `Image::SetNormalStrides`. -/
def Image.SetNormalStrides (img : Image) : Except Error Image :=
  if img.IsForged then .error .IMAGE_NOT_RAW
  else .ok { img with
    tensorStride_ := 1
    strides_ := ComputeStrides img.sizes_ img.tensorElements }

/-- Method `Image::GetDataBlockSizeAndStart`; the result is the pair `(size, start)`. -/
def Image.GetDataBlockSizeAndStart (img : Image) : Nat × Int :=
  FindDataBlockSizeAndStart img.strides_ img.sizes_

/-- Method `Image::GetDataBlockSizeAndStartWithTensor`; the result is the pair
`(size, start)`. -/
def Image.GetDataBlockSizeAndStartWithTensor (img : Image) : Nat × Int :=
  FindDataBlockSizeAndStart img.stridesWithTensor img.sizesWithTensor

/-- What `ExternalInterface::AllocateData` hands back: the storage block (`none` when it
declines) and the strides and tensor stride, which it receives by reference. -/
structure ExternalAllocation where
  dataBlock : Option Nat
  strides : List Int
  tensorStride : Int

/-- The method `AllocateData( sizes, strides, tensor, tensorStride, dataType )` of an external
interface, as a function of its arguments. -/
def ExternalInterface : Type := List Nat → List Int → Nat → Int → DataType → ExternalAllocation

/-- The default allocation of `Image::Forge` (the `if( !IsForged() )` block after the call of
the external interface); `size` is the number of samples and `malloc` the system allocator,
which returns the new block or nothing.  The number of bytes asked for, `size * sz`, is a
product of `dip::uint` values that no test of `Forge` bounds: it is taken modulo `2^64`. -/
def Image.forgeDefault (img : Image) (size : Nat) (malloc : Nat → Option Nat) :
    Except Error Image :=
  let kept : Except Error (Image × Int) :=
    if img.HasValidStrides then
      let r := img.GetDataBlockSizeAndStartWithTensor
      if r.1 ≠ size then
        match img.SetNormalStrides with
        | .error e => .error e
        | .ok img1 => .ok (img1, r.2)
      else .ok (img, r.2)
    else
      match img.SetNormalStrides with
      | .error e => .error e
      | .ok img1 => .ok (img1, 0)
  match kept with
  | .error e => .error e
  | .ok (img1, start) =>
    let sz := img1.dataType_.SizeOf
    match malloc (size * sz % 2 ^ 64) with
    | none => .error .FAILED_TO_ALLOCATE
    | some p => .ok { img1 with dataBlock_ := some p, origin_ := start * (sz : Int) }

/-- Method `Image::Forge`.  The external interface of the image (`none` when there is none)
and the system allocator are arguments.  The two tests on the number of samples come before
the first assignment to a member, so that the errors they raise leave the image as it was;
the members of the image after an error are given by `Image.Forge.onError`. -/
def Image.Forge (img : Image) (externalInterface_ : Option ExternalInterface)
    (malloc : Nat → Option Nat) : Except Error Image :=
  if img.IsForged then .ok img
  else
    match FindNumberOfPixels img.sizes_ with
    | .error e => .error e
    | .ok size =>
      if size = 0 then .error .CANNOT_FORGE_WITHOUT_PIXELS
      else if img.tensorElements > UINT_MAX / size then .error .SIZE_EXCEEDS_LIMIT
      else
        let size := size * img.tensorElements
        let img1 : Image :=
          match externalInterface_ with
          | none => img
          | some allocateData =>
            let r := allocateData img.sizes_ img.strides_ img.tensorElements img.tensorStride_
              img.dataType_
            let img0 := { img with strides_ := r.strides, tensorStride_ := r.tensorStride }
            match r.dataBlock with
            | none => img0
            | some block =>
              { img0 with
                dataBlock_ := some block
                origin_ := img0.GetDataBlockSizeAndStartWithTensor.2 *
                  (img0.dataType_.SizeOf : Int) }
        if img1.IsForged then .ok img1 else img1.forgeDefault size malloc

/-! ## `Image::Aliases` -/

/-- The sample splitting of `Aliases`: every stride is multiplied by `n` and a dimension of
stride 1 and size `n` is added. -/
def splitSamplesStrides (strides : List Int) (n : Nat) : List Int :=
  strides.map (fun st => st * (n : Int)) ++ [1]

/-- See `splitSamplesStrides`. -/
def splitSamplesSizes (sizes : List Nat) (n : Nat) : List Nat :=
  sizes ++ [n]

/-- The loop of `Aliases` that erases the dimensions of size 1 from both arrays. -/
def removeSingletons : List (Int × Nat) → List (Int × Nat)
  | [] => []
  | (st, sz) :: rest => if sz = 1 then removeSingletons rest else (st, sz) :: removeSingletons rest

/-- The loop of `Aliases` that makes all strides positive, moving the origin (a `dip::uint`)
to the other end of every dimension it flips.  Returns the new dimensions and the origin. -/
def unMirror : List (Int × Nat) → Nat → List (Int × Nat) × Nat
  | [], origin => ([], origin)
  | (st, sz) :: rest, origin =>
    if st < 0 then
      let r := unMirror rest (toUint ((origin : Int) - ((sz : Int) - 1) * (-st)))
      ((-st, sz) :: r.1, r.2)
    else
      let r := unMirror rest origin
      ((st, sz) :: r.1, r.2)

/-- One entry of the five arrays the merge walk of `Aliases` builds: `comstrides`,
`newstrides1`, `newstrides2`, `newsizes1`, `newsizes2`. -/
structure MergedDim where
  comstride : Nat
  newstride1 : Nat
  newstride2 : Nat
  newsize1 : Nat
  newsize2 : Nat
  deriving DecidableEq, Repr

/-- The entry pushed at the end of an iteration of the merge walk, from the final values of
`s1`, `s2`, `d1`, `d2`; `first` tells that `comstrides` is still empty. -/
def MergedDim.make (first : Bool) (s1 s2 d1 d2 : Nat) : MergedDim :=
  let cs := if first then 1 else Nat.gcd s1 s2
  ⟨cs, s1 / cs, s2 / cs, d1, d2⟩

/-- The merge walk of `Aliases` (the `while( i1 < ndims1 || i2 < ndims2 )` loop).  `l1` and
`l2` are the parts of the two sorted arrays from `i1` and from `i2` on.  Every iteration
advances `i1` or `i2`; the first argument bounds the number of iterations. -/
def mergeWalk : Nat → List (Int × Nat) → List (Int × Nat) → Bool → List MergedDim
  | 0, _, _, _ => []
  | fuel + 1, l1, l2, first =>
    if l1.isEmpty ∧ l2.isEmpty then []
    else
      let s1 : Nat := match l1 with
        | [] => 0
        | p :: _ => p.1.toNat
      let d1 : Nat := match l1 with
        | [] => 1
        | p :: _ => p.2
      let s2 : Nat := match l2 with
        | [] => 0
        | p :: _ => p.1.toNat
      let d2 : Nat := match l2 with
        | [] => 1
        | p :: _ => p.2
      if s1 = 0 then
        MergedDim.make first s2 s2 d1 d2 :: mergeWalk fuel l1 l2.tail false
      else if s2 = 0 then
        MergedDim.make first s1 s1 d1 d2 :: mergeWalk fuel l1.tail l2 false
      else if (match l1.tail with
          | [] => false
          | q :: _ => decide (q.1 ≤ ((s2 * (d2 - 1) : Nat) : Int))) then
        MergedDim.make first s1 s1 d1 1 :: mergeWalk fuel l1.tail l2 false
      else if (match l2.tail with
          | [] => false
          | q :: _ => decide (q.1 ≤ ((s1 * (d1 - 1) : Nat) : Int))) then
        MergedDim.make first s2 s2 1 d2 :: mergeWalk fuel l1 l2.tail false
      else
        MergedDim.make first s1 s2 d1 d2 :: mergeWalk fuel l1.tail l2.tail false

/-- The last loop of `Aliases`: false as soon as the two views do not overlap in one of the
merged dimensions. -/
def overlapCheck : List MergedDim → List Nat → List Nat → Bool
  | m :: ms, o1 :: os1, o2 :: os2 =>
    if o1 + (m.newsize1 - 1) * m.newstride1 < o2 then false
    else if o2 + (m.newsize2 - 1) * m.newstride2 < o1 then false
    else if m.newstride1 = m.newstride2 ∧ m.newstride1 > 1 ∧
        ((o1 : Int) - (o2 : Int)).tmod (m.newstride1 : Int) ≠ 0 then false
    else overlapCheck ms os1 os2
  | _, _, _ => true

/-- The general case of `Aliases` (from "Lastly, check sizes and strides" to the end), on the
stride and size arrays and the origins in units of the smaller sample. -/
def aliasesGeneral (strides1 : List Int) (sizes1 : List Nat) (origin1 : Nat)
    (strides2 : List Int) (sizes2 : List Nat) (origin2 : Nat) : Bool :=
  let u1 := unMirror (removeSingletons (strides1.zip sizes1)) origin1
  let u2 := unMirror (removeSingletons (strides2.zip sizes2)) origin2
  let dims1 := sortStrides u1.1
  let dims2 := sortStrides u2.1
  let l1 := dims1.dropWhile (fun p => decide (p.1 = 0))
  let l2 := dims2.dropWhile (fun p => decide (p.1 = 0))
  let merged := mergeWalk (l1.length + l2.length) l1 l2 true
  let comstrides := merged.map MergedDim.comstride
  overlapCheck merged (OffsetToCoordinates u1.2 comstrides) (OffsetToCoordinates u2.2 comstrides)

/-- The part of `Aliases` after the sample sizes have been made equal: the simple stride
test, the test on the data block portions, and the general case.  The sums `start1 += origin1`
and `start1 + size1` are exact here; they are the 64-bit sums of the source for the views
that `Image.Addressable` describes (`Image.extent_eq_exact`). -/
def aliasesSameSample (strides1 : List Int) (sizes1 : List Nat) (origin1 : Nat)
    (strides2 : List Int) (sizes2 : List Nat) (origin2 : Nat) : Except Error Bool :=
  match FindSimpleStrideSizeAndStartExact strides1 sizes1 with
  | .error e => .error e
  | .ok r1 =>
    match FindSimpleStrideSizeAndStartExact strides2 sizes2 with
    | .error e => .error e
    | .ok r2 =>
      let start1 : Int := r1.start + (origin1 : Int)
      let start2 : Int := r2.start + (origin2 : Int)
      if r1.sstride > 1 ∧ r1.sstride = r2.sstride ∧ toUint (start1 - start2) % r1.sstride ≠ 0
      then .ok false
      else if start1 + (r1.size : Int) ≤ start2 ∨ start2 + (r2.size : Int) ≤ start1
      then .ok false
      else .ok (aliasesGeneral strides1 sizes1 origin1 strides2 sizes2 origin2)

/-- Method `Image::Aliases( other )`. -/
def Image.Aliases (img other : Image) : Except Error Bool :=
  if ¬ img.IsForged then .error .IMAGE_NOT_FORGED
  else if ¬ other.IsForged then .error .IMAGE_NOT_FORGED
  else if img.dataBlock_ ≠ other.dataBlock_ then .ok false
  else
    let origin1 := toUint img.origin_
    let origin2 := toUint other.origin_
    if origin1 = origin2 then .ok true
    else
      let dts1 := img.dataType_.SizeOf
      let dts2 := other.dataType_.SizeOf
      if dts1 > dts2 then
        let n := dts1 / dts2
        aliasesSameSample
          (splitSamplesStrides img.stridesWithTensor n) (splitSamplesSizes img.sizesWithTensor n)
          (origin1 / dts2) other.stridesWithTensor other.sizesWithTensor (origin2 / dts2)
      else if dts1 < dts2 then
        let n := dts2 / dts1
        aliasesSameSample img.stridesWithTensor img.sizesWithTensor (origin1 / dts1)
          (splitSamplesStrides other.stridesWithTensor n)
          (splitSamplesSizes other.sizesWithTensor n) (origin2 / dts1)
      else
        aliasesSameSample img.stridesWithTensor img.sizesWithTensor (origin1 / dts1)
          other.stridesWithTensor other.sizesWithTensor (origin2 / dts1)

/-! ## Views derived without copying

The functions that forge and derive views (`Forge` on the default path with normal strides,
`SwapDimensions`, `Mirror`, `At` with a range, tensor element extraction) are not part of
`image_data.cpp`; they are modelled here to be able to speak about the views they produce. -/

/-- Modelled from the spec: the view that `SetNormalStrides` followed by `Forge` produces for
the given data type, sizes and number of tensor elements: tensor stride 1, the normal strides
(`ComputeStridesExact`, which are those of `ComputeStrides` when the number of samples fits
in a `dip::sint`), storage block `block` attached and the origin at its start. -/
def Image.forgedNormal (dt : DataType) (sizes : List Nat) (tensorElements : Nat) (block : Nat) :
    Image :=
  { dataType_ := dt
    sizes_ := sizes
    strides_ := ComputeStridesExact sizes tensorElements
    tensorElements := tensorElements
    tensorStride_ := 1
    protect_ := false
    dataBlock_ := some block
    origin_ := 0 }

/-- Modelled from the spec: `Image::SwapDimensions( dim1, dim2 )`, the dimension swap: sizes
and strides of the two dimensions are exchanged.  Nothing changes when a dimension is out of
range. -/
def Image.SwapDimensions (img : Image) (dim1 dim2 : Nat) : Image :=
  if dim1 < img.sizes_.length ∧ dim2 < img.sizes_.length ∧
      dim1 < img.strides_.length ∧ dim2 < img.strides_.length then
    { img with
      sizes_ := (img.sizes_.set dim1 (img.sizes_.getD dim2 0)).set dim2 (img.sizes_.getD dim1 0)
      strides_ :=
        (img.strides_.set dim1 (img.strides_.getD dim2 0)).set dim2 (img.strides_.getD dim1 0) }
  else img

/-- Modelled from the spec: the strides after `Image::Mirror( process )`: the stride of every
dimension to mirror is negated. -/
def mirrorStrides : List Int → List Bool → List Int
  | st :: sts, b :: bs => (if b then -st else st) :: mirrorStrides sts bs
  | sts, _ => sts

/-- Modelled from the spec: the displacement of the origin by `Image::Mirror( process )`, in
samples: the origin moves to the last pixel of every mirrored dimension. -/
def mirrorShift : List Nat → List Int → List Bool → Int
  | sz :: szs, st :: sts, b :: bs =>
    (if b then ((sz : Int) - 1) * st else 0) + mirrorShift szs sts bs
  | _, _, _ => 0

/-- Modelled from the spec: `Image::Mirror( process )`, mirroring of the dimensions selected
by `process`. -/
def Image.Mirror (img : Image) (process : List Bool) : Image :=
  { img with
    strides_ := mirrorStrides img.strides_ process
    origin_ := img.origin_ +
      mirrorShift img.sizes_ img.strides_ process * (img.dataType_.SizeOf : Int) }

/-- Modelled from the spec: `Image::At` with a range along dimension `dim` and the full
range along the others: the pixels `start, start + step, ...` up to `stop` of that dimension.
Nothing changes when the range is not within the image. -/
def Image.Slice (img : Image) (dim start stop step : Nat) : Image :=
  if dim < img.sizes_.length ∧ dim < img.strides_.length ∧ start ≤ stop ∧
      stop < img.sizes_.getD dim 0 ∧ 1 ≤ step then
    { img with
      sizes_ := img.sizes_.set dim ((stop - start) / step + 1)
      strides_ := img.strides_.set dim (img.strides_.getD dim 0 * (step : Int))
      origin_ := img.origin_ +
        (start : Int) * img.strides_.getD dim 0 * (img.dataType_.SizeOf : Int) }
  else img

/-- Modelled from the spec: `Image::operator[]( index )`, the view of one tensor element.
Nothing changes when the index is not below the number of tensor elements. -/
def Image.TensorElement (img : Image) (index : Nat) : Image :=
  if index < img.tensorElements then
    { img with
      tensorElements := 1
      origin_ := img.origin_ + (index : Int) * img.tensorStride_ * (img.dataType_.SizeOf : Int) }
  else img

/-! ## Samples and the memory they occupy -/

/-- The sum of `coords[ ii ] * strides[ ii ]` that `Image::Offset` returns. -/
def offsetSum : List Nat → List Int → Int
  | c :: cs, st :: sts => (c : Int) * st + offsetSum cs sts
  | _, _ => 0

/-- A coordinate vector is valid for the sizes: same length and every coordinate below the
size of its dimension. -/
def ValidCoords : List Nat → List Nat → Prop
  | c :: cs, sz :: szs => c < sz ∧ ValidCoords cs szs
  | [], [] => True
  | _, _ => False

/-- The position, in bytes from the start of the storage block, of the first byte of the
sample with coordinates `coords` and tensor index `t`. -/
def Image.sampleByte (img : Image) (coords : List Nat) (t : Nat) : Int :=
  img.origin_ +
    (offsetSum coords img.strides_ + (t : Int) * img.tensorStride_) * (img.dataType_.SizeOf : Int)

/-- Some sample of `a` and some sample of `b` have a byte of the same storage block in
common. -/
def Image.SharesByteWith (a b : Image) : Prop :=
  a.dataBlock_ = b.dataBlock_ ∧
  ∃ c1 t1 c2 t2, ValidCoords c1 a.sizes_ ∧ t1 < a.tensorElements ∧
    ValidCoords c2 b.sizes_ ∧ t2 < b.tensorElements ∧
    ∃ byte : Int, a.sampleByte c1 t1 ≤ byte ∧ byte < a.sampleByte c1 t1 + a.dataType_.SizeOf ∧
      b.sampleByte c2 t2 ≤ byte ∧ byte < b.sampleByte c2 t2 + b.dataType_.SizeOf

/-- The view is traversable by the single stride `s` from `start`: the offsets of its pixels
are exactly `start + k * s` for `k` from 0 to the number of pixels minus one, each of them the
offset of one pixel only. -/
def Traversable (strides : List Int) (sizes : List Nat) (start : Int) (s : Nat) : Prop :=
  (∀ c, ValidCoords c sizes →
    ∃ k : Nat, k < sizes.prod ∧ offsetSum c strides = start + (k : Int) * (s : Int)) ∧
  (∀ k : Nat, k < sizes.prod →
    ∃ c, ValidCoords c sizes ∧ offsetSum c strides = start + (k : Int) * (s : Int) ∧
      ∀ c2, ValidCoords c2 sizes → offsetSum c2 strides = start + (k : Int) * (s : Int) → c2 = c)

/-- The absolute strides paired with the sizes. -/
def absDims : List Nat → List Int → List (Nat × Nat)
  | sz :: szs, st :: sts => (sz, st.natAbs) :: absDims szs sts
  | _, _ => []

/-- The reach of the strides: the sum over the dimensions of `( size - 1 ) * |stride|`, the
largest distance between the offsets of two pixels.  The arithmetic of `dip::sint` is exact on
the offsets of a view when its reach is at most `SINT_MAX`, as it is for every view within an
addressable block. -/
def reach (sizes : List Nat) (strides : List Int) : Nat :=
  ((absDims sizes strides).map (fun q => (q.1 - 1) * q.2)).sum

/-- The strides are dominant: for every dimension with a size other than 1 and a non-zero
stride, the absolute stride is larger than the largest offset that the other dimensions of no
larger absolute stride can reach together, the sum of `(size - 1) * |stride|` over them.
(The sum below includes the dimension itself, hence the bound `size * |stride|`.)  Views
derived from a normal layout by swapping, mirroring and slicing with a step have such
strides. -/
def Dominant (dims : List (Nat × Nat)) : Prop :=
  ∀ p ∈ dims, p.1 ≠ 1 → p.2 ≠ 0 →
    ((dims.filter (fun q => decide (q.2 ≤ p.2))).map (fun q => (q.1 - 1) * q.2)).sum < p.1 * p.2

/-- What the offset decoder can recover from an offset: the coordinate itself, except in a
dimension with stride 0, where every coordinate has the same offset and 0 is returned. -/
def expectedCoords : List Nat → List Int → List Nat
  | c :: cs, st :: sts => (if st = 0 then 0 else c) :: expectedCoords cs sts
  | _, _ => []

/-! ## Descriptions of views of a normal layout

These definitions describe, for the proofs about `Aliases`, what the arrays of that function
look like for a normal layout and for the views taken from it. -/

/-- The (stride, size) pairs of a normal layout with the sizes `ps` and the first stride `s`,
without the dimensions of size 1: what `Aliases` works on for an image with normal strides
once the singleton dimensions are removed and the strides are sorted. -/
def gridDims : List Nat → Nat → List (Int × Nat)
  | [], _ => []
  | p :: ps, s => if p = 1 then gridDims ps (s * p) else ((s : Int), p) :: gridDims ps (s * p)

/-- The strides of `gridDims`, as `dip::uint` values. -/
def gridStrides : List Nat → Nat → List Nat
  | [], _ => []
  | p :: ps, s => if p = 1 then gridStrides ps (s * p) else s :: gridStrides ps (s * p)

/-- What a view takes of one dimension of a normal layout: `count` pixels, `step` apart,
starting at pixel `lo`. -/
structure SubDim where
  step : Nat
  count : Nat
  lo : Nat
  deriving DecidableEq, Repr

/-- The view described by `vs` lies within the layout of sizes `ps`: one description per
dimension, at least one pixel, and the last pixel taken is inside the dimension. -/
def SubValid : List Nat → List SubDim → Prop
  | p :: ps, v :: vs =>
    1 ≤ v.count ∧ 1 ≤ v.step ∧ v.lo + v.step * (v.count - 1) < p ∧ SubValid ps vs
  | [], [] => True
  | _, _ => False

/-- The (stride, size) pairs of the view described by `vs` in a normal layout with the sizes
`ps` and the first stride `s`, without the dimensions of which it takes one pixel only, with
positive strides and sorted. -/
def subDims : List Nat → List SubDim → Nat → List (Int × Nat)
  | p :: ps, v :: vs, s =>
    if v.count = 1 then subDims ps vs (s * p)
    else (((v.step * s : Nat) : Int), v.count) :: subDims ps vs (s * p)
  | _, _, _ => []

/-- The offset of the first pixel of the view described by `vs`. -/
def subOrigin : List Nat → List SubDim → Nat → Nat
  | p :: ps, v :: vs, s => v.lo * s + subOrigin ps vs (s * p)
  | _, _, _ => 0

/-- The first pixels of the view described by `vs` in the dimensions of size other than 1. -/
def subLos : List Nat → List SubDim → List Nat
  | p :: ps, v :: vs => if p = 1 then subLos ps vs else v.lo :: subLos ps vs
  | _, _ => []

/-- The entries the merge walk builds for a normal layout (first image) and a view of it
(second image). -/
def mergedFull : List Nat → List SubDim → Nat → List MergedDim
  | p :: ps, v :: vs, s =>
    if p = 1 then mergedFull ps vs (s * p)
    else ⟨s, 1, (if v.count = 1 then 1 else v.step), p, v.count⟩ :: mergedFull ps vs (s * p)
  | _, _, _ => []

/-- The entries the merge walk builds for a view of a normal layout (first image) and the
layout itself (second image). -/
def mergedFullRev : List Nat → List SubDim → Nat → List MergedDim
  | p :: ps, v :: vs, s =>
    if p = 1 then mergedFullRev ps vs (s * p)
    else ⟨s, (if v.count = 1 then 1 else v.step), 1, v.count, p⟩ :: mergedFullRev ps vs (s * p)
  | _, _, _ => []


/-- The view that takes all of a layout with the sizes `ps`: every pixel of every
dimension. -/
def fullSub (ps : List Nat) : List SubDim :=
  ps.map (fun p => ⟨1, p, 0⟩)


/-- The stride and size arrays `st` and `sz` are, up to the order of the dimensions, those of
a normal layout with the sizes `ps` and the first stride `s`: the strides are positive, and
once the dimensions of size 1 are removed and the strides sorted the arrays are `gridDims`. -/
def GridArrays (st : List Int) (sz : List Nat) (ps : List Nat) (s : Nat) : Prop :=
  (∀ x ∈ st, 0 ≤ x) ∧ st.length = sz.length ∧ (∀ x ∈ sz, 1 ≤ x) ∧ (∀ p ∈ ps, 1 ≤ p) ∧ 1 ≤ s ∧
    sz.prod = ps.prod ∧
    sortStrides (removeSingletons (st.zip sz)) = gridDims ps s ∧
    offsetSum (sz.map (fun x => x - 1)) st = ((s * ps.prod : Nat) : Int) - (s : Int)


/-! ## Real and imaginary parts of a complex view -/

/-- Method `DataType::IsComplex`. -/
def DataType.IsComplex : DataType → Bool
  | .SCOMPLEX => true
  | .DCOMPLEX => true
  | _ => false

/-- Method `DataType::Real`: the real data type corresponding to a complex data type. -/
def DataType.Real : DataType → DataType
  | .SCOMPLEX => .SFLOAT
  | .DCOMPLEX => .DFLOAT
  | dt => dt

/-- Modelled from the spec: `Image::Real`, the view of the real components of a complex
view: the sample type is the component type, of half the byte size, all strides are doubled
and the origin is the same.  Nothing changes when the data type is not complex. -/
def Image.Real (img : Image) : Image :=
  if img.dataType_.IsComplex then
    { img with
      dataType_ := img.dataType_.Real
      strides_ := img.strides_.map (fun st => st * 2)
      tensorStride_ := img.tensorStride_ * 2 }
  else img

/-- Modelled from the spec: `Image::Imaginary`, the view of the imaginary components of a
complex view: as `Image::Real`, with the origin one component further.  Nothing changes when
the data type is not complex. -/
def Image.Imaginary (img : Image) : Image :=
  if img.dataType_.IsComplex then
    { img with
      dataType_ := img.dataType_.Real
      strides_ := img.strides_.map (fun st => st * 2)
      tensorStride_ := img.tensorStride_ * 2
      origin_ := img.origin_ + (img.dataType_.Real.SizeOf : Int) }
  else img


/-! ## Views derived from a normal layout

A view derived from an image with normal strides by range slicing, mirroring and dimension
swapping takes, of every dimension of that image, a number of pixels a fixed step apart, and
runs through them forwards or backwards.  A `Slot` records this for one dimension of the
view. -/

/-- One dimension of a derived view: the stride and the size of the dimension of the parent
it comes from, the pixels of that dimension the view takes, and whether the view runs through
them backwards (after mirroring). -/
structure Slot where
  stride : Nat
  size : Nat
  sub : SubDim
  neg : Bool
  deriving DecidableEq, Repr

/-- The dimension of the parent a slot comes from. -/
def Slot.key (sl : Slot) : Nat × Nat := (sl.stride, sl.size)

/-- The pixels taken lie within the dimension of the parent. -/
def Slot.Valid (sl : Slot) : Prop :=
  1 ≤ sl.sub.count ∧ 1 ≤ sl.sub.step ∧ sl.sub.lo + sl.sub.step * (sl.sub.count - 1) < sl.size

/-- The stride of the view along the dimension. -/
def Slot.viewStride (sl : Slot) : Int :=
  if sl.neg then -((sl.sub.step * sl.stride : Nat) : Int) else ((sl.sub.step * sl.stride : Nat) : Int)

/-- The offset, in the parent, of the first pixel of the view along the dimension. -/
def Slot.first (sl : Slot) : Nat :=
  (if sl.neg then sl.sub.lo + sl.sub.step * (sl.sub.count - 1) else sl.sub.lo) * sl.stride

/-- The slots of the image with normal strides itself: every pixel of every dimension. -/
def normalSlots : List Nat → Nat → List Slot
  | [], _ => []
  | p :: ps, s => ⟨s, p, ⟨1, p, 0⟩, false⟩ :: normalSlots ps (s * p)

/-- The view `V` takes the pixels described by `slots` of a parent with data type `dt`, `T`
tensor elements (tensor stride 1) and the storage block `block`. -/
def Describes (slots : List Slot) (dt : DataType) (T block : Nat) (V : Image) : Prop :=
  V.dataType_ = dt ∧ V.tensorElements = T ∧ V.tensorStride_ = 1 ∧ V.dataBlock_ = some block ∧
    V.sizes_ = slots.map (fun sl => sl.sub.count) ∧
    V.strides_ = slots.map Slot.viewStride ∧
    V.origin_ = (((slots.map Slot.first).sum : Nat) : Int) * (dt.SizeOf : Int) ∧
    ∀ sl ∈ slots, sl.Valid

/-- The slot of a dimension after range slicing with `start`, `stop` and `step` along it. -/
def sliceSlot (sl : Slot) (start stop step : Nat) : Slot :=
  { sl with
    sub :=
      ⟨sl.sub.step * step, (stop - start) / step + 1,
        if sl.neg then
          sl.sub.lo + sl.sub.step * ((sl.sub.count - 1 - start) - step * ((stop - start) / step))
        else sl.sub.lo + sl.sub.step * start⟩ }

/-- The slots after mirroring the dimensions selected by `process`. -/
def mirrorSlots : List Slot → List Bool → List Slot
  | sl :: sls, b :: bs => (if b then { sl with neg := !sl.neg } else sl) :: mirrorSlots sls bs
  | sls, _ => sls


/-- The stride array of a view described by `slots`, with the tensor dimension `Aliases`
appends. -/
def tensorStrides (slots : List Slot) (T : Nat) : List Int :=
  slots.map Slot.viewStride ++ (if T > 1 then [1] else [])

/-- The size array of a view described by `slots`, with the tensor dimension `Aliases`
appends. -/
def tensorSizes (slots : List Slot) (T : Nat) : List Nat :=
  slots.map (fun sl => sl.sub.count) ++ (if T > 1 then [T] else [])

/-- What a view takes of the layout formed by the tensor dimension and the dimensions of the
parent: all tensor elements, and of the dimensions what the slots (here in the order of the
dimensions of the parent) tell. -/
def slotSubs (T : Nat) (slots : List Slot) : List SubDim :=
  ⟨1, T, 0⟩ :: slots.map Slot.sub

/-- The pair `Aliases` works with for a dimension of a derived view once its stride is made
positive. -/
def Slot.posPair (sl : Slot) : Int × Nat :=
  (((sl.sub.step * sl.stride : Nat) : Int), sl.sub.count)

/-- The distance from the first pixel of the view along the dimension to the pixel with the
lowest offset. -/
def Slot.back (sl : Slot) : Nat :=
  if sl.neg then sl.sub.step * (sl.sub.count - 1) * sl.stride else 0


/-! ## Two views of the same normal layout -/

/-- The entries the merge walk builds for two views of a normal layout with the sizes `ps` and
the first stride `s` when it pairs the dimensions of the two views that come from the same
dimension of the layout; `first` tells that no entry has been built yet. -/
def mergedPair : List Nat → List SubDim → List SubDim → Nat → Bool → List MergedDim
  | p :: ps, v1 :: vs1, v2 :: vs2, s, first =>
    if v1.count = 1 ∧ v2.count = 1 then mergedPair ps vs1 vs2 (s * p) first
    else if v2.count = 1 then
      MergedDim.make first (v1.step * s) (v1.step * s) v1.count 1 ::
        mergedPair ps vs1 vs2 (s * p) false
    else if v1.count = 1 then
      MergedDim.make first (v2.step * s) (v2.step * s) 1 v2.count ::
        mergedPair ps vs1 vs2 (s * p) false
    else
      MergedDim.make first (v1.step * s) (v2.step * s) v1.count v2.count ::
        mergedPair ps vs1 vs2 (s * p) false
  | _, _, _, _, _ => []

/-- The first dimension of `l1`, if `l2` has one, does not lie beyond the reach of the first
dimension of `l2`. -/
def HeadLe (l1 l2 : List (Int × Nat)) : Prop :=
  ∀ q2 ∈ l2.head?, ∃ q1 ∈ l1.head?, q1.1 ≤ q2.1 * ((q2.2 - 1 : Nat) : Int)

/-- The condition under which the merge walk pairs the dimensions of two views of a normal
layout as `mergedPair` tells: where only one of the views has more than one pixel along a
dimension, the next dimension of that view does not lie beyond the reach of the next dimension
of the other view. -/
def Aligned : List Nat → List SubDim → List SubDim → Nat → Prop
  | p :: ps, v1 :: vs1, v2 :: vs2, s =>
    (v1.count ≠ 1 → v2.count = 1 → HeadLe (subDims ps vs1 (s * p)) (subDims ps vs2 (s * p))) ∧
      (v2.count ≠ 1 → v1.count = 1 →
        HeadLe (subDims ps vs2 (s * p)) (subDims ps vs1 (s * p))) ∧
      Aligned ps vs1 vs2 (s * p)
  | _, _, _, _ => True


/-- The entries of `mergedPair` for two views that take all pixels along every dimension
except the one with index `n`, of which they take what `v1` and `v2` tell. -/
def mergedAt (ps : List Nat) (n : Nat) (v1 v2 : SubDim) (s : Nat) (first : Bool) :
    List MergedDim :=
  mergedPair ps ((fullSub ps).set n v1) ((fullSub ps).set n v2) s first


/-- The views obtained from `O` by mirroring and swapping dimensions, in any number and
order: `O` itself, and every view obtained from one of them by mirroring some of its
dimensions or by swapping two of its dimensions. -/
inductive Rearranged (O : Image) : Image → Prop
  | self : Rearranged O O
  | mirror (V : Image) (process : List Bool) : Rearranged O V → Rearranged O (V.Mirror process)
  | swap (V : Image) (dim1 dim2 : Nat) :
      Rearranged O V → Rearranged O (V.SwapDimensions dim1 dim2)

/-! ## Classes of data types (`datatype.h`) -/

/-- Method `DataType::IsBinary`. -/
def DataType.IsBinary (dt : DataType) : Bool := dt = .BIN

/-- Method `DataType::IsUInt`. -/
def DataType.IsUInt : DataType → Bool
  | .UINT8 => true
  | .UINT16 => true
  | .UINT32 => true
  | _ => false

/-- Method `DataType::IsSInt`. -/
def DataType.IsSInt : DataType → Bool
  | .SINT8 => true
  | .SINT16 => true
  | .SINT32 => true
  | _ => false

/-- Method `DataType::IsInteger`. -/
def DataType.IsInteger (dt : DataType) : Bool := dt.IsUInt || dt.IsSInt

/-- Method `DataType::IsFloat`. -/
def DataType.IsFloat : DataType → Bool
  | .SFLOAT => true
  | .DFLOAT => true
  | _ => false

/-- Method `DataType::IsReal`. -/
def DataType.IsReal (dt : DataType) : Bool := dt.IsInteger || dt.IsFloat

/-- Method `DataType::IsUnsigned`. -/
def DataType.IsUnsigned (dt : DataType) : Bool := dt.IsUInt || dt.IsBinary

/-- Method `DataType::IsSigned`. -/
def DataType.IsSigned (dt : DataType) : Bool := dt.IsSInt || dt.IsFloat || dt.IsComplex

/-- The value `static_cast< dip::uint >( dt )` of an enumerator of `DataType::DT`: its
position in the enumeration. -/
def DataType.toUint : DataType → Nat
  | .BIN => 0
  | .UINT8 => 1
  | .SINT8 => 2
  | .UINT16 => 3
  | .SINT16 => 4
  | .UINT32 => 5
  | .SINT32 => 6
  | .SFLOAT => 7
  | .DFLOAT => 8
  | .SCOMPLEX => 9
  | .DCOMPLEX => 10

/-- Modelled from the spec: the options type `DataType::Classes` that `DIP_DECLARE_OPTIONS`
declares (the declaration of the template is outside the given sources), a collection of data
types kept as a set of bits, one bit for each index. -/
structure Classes where
  values : Nat
  deriving DecidableEq, Repr

/-- Modelled from the spec: the collection with the single option `index`, which is what
`DIP_DEFINE_OPTION( Classes, name, index )` defines and what the conversion
`{ static_cast< dip::uint >( dt ) }` builds. -/
def Classes.option (index : Nat) : Classes := ⟨2 ^ index⟩

/-- Modelled from the spec: `operator+` of two collections, their union. -/
def Classes.add (a b : Classes) : Classes := ⟨a.values ||| b.values⟩

/-- Modelled from the spec: the membership test of options types, `a == b`: every option of
`b` is in `a`. -/
def Classes.contains (a b : Classes) : Bool := (a.values &&& b.values) = b.values

/-- The conversion `DataType::operator Classes`. -/
def DataType.toClasses (dt : DataType) : Classes := Classes.option dt.toUint

/-- Constant `DataType::Class_Bin`. -/
def Class_Bin : Classes := Classes.option DataType.BIN.toUint
/-- Constant `DataType::Class_UInt8`. -/
def Class_UInt8 : Classes := Classes.option DataType.UINT8.toUint
/-- Constant `DataType::Class_SInt8`. -/
def Class_SInt8 : Classes := Classes.option DataType.SINT8.toUint
/-- Constant `DataType::Class_UInt16`. -/
def Class_UInt16 : Classes := Classes.option DataType.UINT16.toUint
/-- Constant `DataType::Class_SInt16`. -/
def Class_SInt16 : Classes := Classes.option DataType.SINT16.toUint
/-- Constant `DataType::Class_UInt32`. -/
def Class_UInt32 : Classes := Classes.option DataType.UINT32.toUint
/-- Constant `DataType::Class_SInt32`. -/
def Class_SInt32 : Classes := Classes.option DataType.SINT32.toUint
/-- Constant `DataType::Class_SFloat`. -/
def Class_SFloat : Classes := Classes.option DataType.SFLOAT.toUint
/-- Constant `DataType::Class_DFloat`. -/
def Class_DFloat : Classes := Classes.option DataType.DFLOAT.toUint
/-- Constant `DataType::Class_SComplex`. -/
def Class_SComplex : Classes := Classes.option DataType.SCOMPLEX.toUint
/-- Constant `DataType::Class_DComplex`. -/
def Class_DComplex : Classes := Classes.option DataType.DCOMPLEX.toUint
/-- Constant `DataType::Class_Binary`. -/
def Class_Binary : Classes := Class_Bin
/-- Constant `DataType::Class_UInt`. -/
def Class_UInt : Classes := (Class_UInt8.add Class_UInt16).add Class_UInt32
/-- Constant `DataType::Class_SInt`. -/
def Class_SInt : Classes := (Class_SInt8.add Class_SInt16).add Class_SInt32
/-- Constant `DataType::Class_Integer`. -/
def Class_Integer : Classes := Class_UInt.add Class_SInt
/-- Constant `DataType::Class_IntOrBin`. -/
def Class_IntOrBin : Classes := Class_Integer.add Class_Binary
/-- Constant `DataType::Class_Float`. -/
def Class_Float : Classes := Class_SFloat.add Class_DFloat
/-- Constant `DataType::Class_Real`. -/
def Class_Real : Classes := Class_Integer.add Class_Float
/-- Constant `DataType::Class_Complex`. -/
def Class_Complex : Classes := Class_SComplex.add Class_DComplex
/-- Constant `DataType::Class_Flex`. -/
def Class_Flex : Classes := Class_Float.add Class_Complex
/-- Constant `DataType::Class_FlexBin`. -/
def Class_FlexBin : Classes := Class_Flex.add Class_Binary
/-- Constant `DataType::Class_Unsigned`. -/
def Class_Unsigned : Classes := Class_Binary.add Class_UInt
/-- Constant `DataType::Class_Signed`. -/
def Class_Signed : Classes := (Class_SInt.add Class_Float).add Class_Complex
/-- Constant `DataType::Class_NonBinary`. -/
def Class_NonBinary : Classes := Class_Real.add Class_Complex
/-- Constant `DataType::Class_NonComplex`. -/
def Class_NonComplex : Classes := Class_Binary.add Class_Real
/-- Constant `DataType::Class_Any`. -/
def Class_Any : Classes := (Class_Binary.add Class_Real).add Class_Complex

/-! ## `Image::ReForge` -/

/-- Enumeration `Option::AcceptDataTypeChange`. -/
inductive AcceptDataTypeChange where
  | DONT_ALLOW
  | DO_ALLOW
  deriving DecidableEq, Repr

/-- Modelled from the spec: `Image::Strip` (declared outside the given sources), which
releases the reference of the view to its storage block and makes the view raw; every other
member is kept. -/
def Image.Strip (img : Image) : Image :=
  { img with dataBlock_ := none, origin_ := 0 }

/-- Modelled from the spec: `Image::HasContiguousData` (declared outside the given sources):
the samples of the forged view fill their data block without gaps, that is, the extent of the
block with the tensor dimension is the number of samples. -/
def Image.HasContiguousData (img : Image) : Except Error Bool :=
  if ¬ img.IsForged then .error .IMAGE_NOT_FORGED
  else .ok (img.GetDataBlockSizeAndStartWithTensor.1 = img.sizes_.prod * img.tensorElements)

/-- The members of the image when `Image::Forge` throws.  The tests on the number of samples
come before every assignment; a failing allocation comes after the call of the external
interface, which receives the strides by reference, and after the choice between the strides
of the image and the normal strides. -/
def Image.Forge.onError (img : Image) (externalInterface_ : Option ExternalInterface) : Image :=
  if img.IsForged then img
  else
    match FindNumberOfPixels img.sizes_ with
    | .error _ => img
    | .ok size =>
      if size = 0 then img
      else if img.tensorElements > UINT_MAX / size then img
      else
        let img1 : Image :=
          match externalInterface_ with
          | none => img
          | some allocateData =>
            let r := allocateData img.sizes_ img.strides_ img.tensorElements img.tensorStride_
              img.dataType_
            { img with strides_ := r.strides, tensorStride_ := r.tensorStride }
        if img1.HasValidStrides ∧
            img1.GetDataBlockSizeAndStartWithTensor.1 = size * img.tensorElements then img1
        else { img1 with
          tensorStride_ := 1
          strides_ := ComputeStrides img1.sizes_ img1.tensorElements }

/-- The end of `Image::ReForge`, which is reached when the image is not left as it is and its
block is not used again: `Strip()`, `ResetNonDataProperties()`, the assignment of the data
type, sizes and number of tensor elements, and `Forge()`.  The result is the image when the
call ends together with the exception that ended it, if any.  `ResetNonDataProperties`
resets members that are not embedded (colour space, pixel size, tensor shape). -/
def Image.reforgeAnew (img : Image) (sizes : List Nat) (tensorElems : Nat) (dt : DataType)
    (externalInterface_ : Option ExternalInterface) (malloc : Nat → Option Nat) :
    Image × Option Error :=
  let img1 : Image :=
    { img.Strip with dataType_ := dt, sizes_ := sizes, tensorElements := tensorElems }
  match img1.Forge externalInterface_ malloc with
  | .error e => (Image.Forge.onError img1 externalInterface_, some e)
  | .ok img2 => (img2, none)

/-- Method `Image::ReForge( sizes, tensorElems, dt, acceptDataTypeChange )`.  The result is
the image when the call ends together with the exception that ended it, if any.  `shared`
is the value of `IsShared()`, whether other views refer to the storage block of the image
(the reference count of the block is not a member of the embedded image).  The two total
byte counts that are compared are products of `dip::uint` values, taken modulo `2^64`. -/
def Image.ReForge (img : Image) (sizes : List Nat) (tensorElems : Nat) (dt : DataType)
    (acceptDataTypeChange : AcceptDataTypeChange) (shared : Bool)
    (externalInterface_ : Option ExternalInterface) (malloc : Nat → Option Nat) :
    Image × Option Error :=
  let dt := if acceptDataTypeChange = .DO_ALLOW ∧ img.protect_ = true then img.dataType_ else dt
  if img.IsForged then
    if img.sizes_ = sizes ∧ img.tensorElements = tensorElems ∧ img.dataType_ = dt then
      (img, none)
    else if img.protect_ = false ∧ shared = false then
      match img.HasContiguousData with
      | .error e => (img, some e)
      | .ok contiguous =>
        if contiguous = true ∧
            (img.sizes_.prod * img.tensorElements * img.dataType_.SizeOf) % 2 ^ 64 =
              (sizes.prod * tensorElems * dt.SizeOf) % 2 ^ 64 then
          ({ img with
              dataType_ := dt
              sizes_ := sizes
              tensorElements := tensorElems
              tensorStride_ := 1
              strides_ := ComputeStrides sizes tensorElems
              origin_ := 0 }, none)
        else img.reforgeAnew sizes tensorElems dt externalInterface_ malloc
    else img.reforgeAnew sizes tensorElems dt externalInterface_ malloc
  else img.reforgeAnew sizes tensorElems dt externalInterface_ malloc

/-! ## Names of the data types (`datatype.h`) -/

/-- Method `DataType::Name`. -/
def DataType.Name : DataType → String
  | .BIN => "BIN"
  | .UINT8 => "UINT8"
  | .SINT8 => "SINT8"
  | .UINT16 => "UINT16"
  | .SINT16 => "SINT16"
  | .UINT32 => "UINT32"
  | .SINT32 => "SINT32"
  | .SFLOAT => "SFLOAT"
  | .DFLOAT => "DFLOAT"
  | .SCOMPLEX => "SCOMPLEX"
  | .DCOMPLEX => "DCOMPLEX"

/-- Constructor `DataType( String name )`; the error is the message that is thrown. -/
def DataType.ofName (name : String) : Except String DataType :=
  if name = "BIN" then .ok .BIN
  else if name = "UINT8" then .ok .UINT8
  else if name = "SINT8" then .ok .SINT8
  else if name = "UINT16" then .ok .UINT16
  else if name = "SINT16" then .ok .SINT16
  else if name = "UINT32" then .ok .UINT32
  else if name = "SINT32" then .ok .SINT32
  else if name = "SFLOAT" then .ok .SFLOAT
  else if name = "DFLOAT" then .ok .DFLOAT
  else if name = "SCOMPLEX" then .ok .SCOMPLEX
  else if name = "DCOMPLEX" then .ok .DCOMPLEX
  else .error ("Illegal data type name: " ++ name)

/-! ## The processing dimension (`framework.cpp`) -/

/-- The constant `SMALL_IMAGE` of `Framework::OptimalProcessingDim`. -/
def SMALL_IMAGE : Nat := 63

/-- The body of the loop of `Framework::OptimalProcessingDim`: the value of `processingDim`
after the iteration for `ii`. -/
def OptimalProcessingDim.step (strides : List Int) (sizes : List Nat)
    (processingDim ii : Nat) : Nat :=
  if strides.getD ii 0 < strides.getD processingDim 0 then
    if sizes.getD ii 0 > SMALL_IMAGE ∨ sizes.getD ii 0 > sizes.getD processingDim 0 then ii
    else processingDim
  else if sizes.getD processingDim 0 ≤ SMALL_IMAGE ∧
      sizes.getD ii 0 > sizes.getD processingDim 0 then ii
  else processingDim

/-- Function `Framework::OptimalProcessingDim( in )`: the loop runs over the indices from 1 to
the number of strides minus one, starting with `processingDim = 0`. -/
def OptimalProcessingDim (img : Image) : Nat :=
  (List.range' 1 (img.strides_.length - 1)).foldl
    (OptimalProcessingDim.step img.strides_ img.sizes_) 0

/-! ## `Image::HasSameDimensionOrder` -/

/-- Static function `RemoveSingletonsFromStrideArray( sizes, strides )`: the value its
parameter `strides` has at the end, the strides of the dimensions with a size above 1.  The
parameter is passed by value (`IntegerArray strides`), so that the array of the caller is not
changed by the call. -/
def RemoveSingletonsFromStrideArray : List Nat → List Int → List Int
  | sz :: szs, st :: sts =>
    if sz > 1 then st :: RemoveSingletonsFromStrideArray szs sts
    else RemoveSingletonsFromStrideArray szs sts
  | _, _ => []

/-- The test loop of `Image::HasSameDimensionOrder`: false when an element of `s2` is smaller
than the one before it. -/
def Image.HasSameDimensionOrder.loop : List Int → Bool
  | a :: b :: rest => if b < a then false else Image.HasSameDimensionOrder.loop (b :: rest)
  | _ => true

/-- Method `Image::HasSameDimensionOrder( other )`.  The two calls of
`RemoveSingletonsFromStrideArray` work on copies of `s1` and `s2` (the parameter is passed by
value), so `s1` and `s2` are still the full stride arrays after them.  `s1.sort( s2 )` is the
insertion sort of `s1` that keeps `s2` in the same order (see `sortStrides`). -/
def Image.HasSameDimensionOrder (img other : Image) : Except Error Bool :=
  if ¬ img.IsForged then .error .IMAGE_NOT_FORGED
  else if ¬ other.IsForged then .error .IMAGE_NOT_FORGED
  else
    let s1 := img.strides_
    let s2 := other.strides_
    if s1.length ≠ s2.length then .ok false
    else
      let sorted := insertionSort (fun (p e : Int × Int) => decide (p.1 > e.1)) (s1.zip s2)
      .ok (Image.HasSameDimensionOrder.loop (sorted.map Prod.snd))

end dip

namespace dip

/-! # Theorems -/

/-! ## Machine integers -/

theorem toSint_of_le (n : Nat) (h : n ≤ SINT_MAX) : toSint n = (n : Int) := by
  have h1 : SINT_MAX = 2 ^ 63 - 1 := rfl
  have h2 : n % 2 ^ 64 = n := Nat.mod_eq_of_lt (by omega)
  unfold toSint
  rw [h2, if_pos (by omega)]

theorem toSint_of_ge (n : Nat) (h1 : SINT_MAX < n) (h2 : n ≤ UINT_MAX) :
    toSint n = (n : Int) - 2 ^ 64 := by
  have e1 : SINT_MAX = 2 ^ 63 - 1 := rfl
  have e2 : UINT_MAX = 2 ^ 64 - 1 := rfl
  have h3 : n % 2 ^ 64 = n := Nat.mod_eq_of_lt (by omega)
  unfold toSint
  rw [h3, if_neg (by omega)]

theorem toSint_range (n : Nat) : -(2 ^ 63 : Int) ≤ toSint n ∧ toSint n < 2 ^ 63 := by
  unfold toSint
  have h : n % 2 ^ 64 < 2 ^ 64 := Nat.mod_lt _ (by decide)
  split_ifs with h1 <;> constructor <;> omega

theorem toSint_emod (n : Nat) : toSint n % 2 ^ 64 = (n : Int) % 2 ^ 64 := by
  unfold toSint
  split_ifs with h1
  · push_cast
    exact Int.emod_emod_of_dvd _ (dvd_refl _)
  · push_cast
    rw [Int.sub_emod, Int.emod_self, sub_zero, Int.emod_emod_of_dvd _ (dvd_refl _),
      Int.emod_emod_of_dvd _ (dvd_refl _)]

theorem toUint_lt (x : Int) : toUint x < 2 ^ 64 := by
  unfold toUint
  have h1 : 0 ≤ x % 2 ^ 64 := Int.emod_nonneg _ (by decide)
  have h2 : x % 2 ^ 64 < 2 ^ 64 := Int.emod_lt_of_pos _ (by decide)
  omega

theorem toUint_cast (x : Int) : ((toUint x : Nat) : Int) = x % 2 ^ 64 := by
  unfold toUint
  exact Int.toNat_of_nonneg (Int.emod_nonneg _ (by decide))

theorem toUint_congr (x y : Int) (h : x % 2 ^ 64 = y % 2 ^ 64) : toUint x = toUint y := by
  unfold toUint
  rw [h]

theorem wrapSint_emod (x : Int) : wrapSint x % 2 ^ 64 = x % 2 ^ 64 := by
  unfold wrapSint
  rw [toSint_emod, toUint_cast, Int.emod_emod_of_dvd _ (dvd_refl _)]

theorem wrapSint_range (x : Int) : -(2 ^ 63 : Int) ≤ wrapSint x ∧ wrapSint x < 2 ^ 63 :=
  toSint_range _

theorem wrapSint_congr (x y : Int) (h : x % 2 ^ 64 = y % 2 ^ 64) : wrapSint x = wrapSint y := by
  unfold wrapSint
  rw [toUint_congr x y h]

/-- A value within the range of `dip::sint` is left as it is. -/
theorem wrapSint_of_range (x : Int) (h1 : -(2 ^ 63 : Int) ≤ x) (h2 : x < 2 ^ 63) :
    wrapSint x = x := by
  have hr := wrapSint_range x
  have he := wrapSint_emod x
  have h3 := Int.emod_emod_of_dvd x (dvd_refl (2 ^ 64 : Int))
  have e1 : wrapSint x = wrapSint x % 2 ^ 64 + 2 ^ 64 * (wrapSint x / 2 ^ 64) :=
    (Int.emod_add_ediv _ _).symm
  have e2 : x = x % 2 ^ 64 + 2 ^ 64 * (x / 2 ^ 64) := (Int.emod_add_ediv _ _).symm
  omega

theorem wrapSint_of_le (x : Int) (h : x.natAbs ≤ SINT_MAX) : wrapSint x = x := by
  have e1 : SINT_MAX = 2 ^ 63 - 1 := rfl
  exact wrapSint_of_range x (by omega) (by omega)

theorem wrapSint_wrapSint_add (a b : Int) : wrapSint (wrapSint a + b) = wrapSint (a + b) := by
  apply wrapSint_congr
  rw [Int.add_emod, wrapSint_emod, ← Int.add_emod]

theorem wrapSint_add_wrapSint (a b : Int) : wrapSint (a + wrapSint b) = wrapSint (a + b) := by
  apply wrapSint_congr
  rw [Int.add_emod, wrapSint_emod, ← Int.add_emod]

theorem wrapSint_wrapSint_mul (a b : Int) : wrapSint (wrapSint a * b) = wrapSint (a * b) := by
  apply wrapSint_congr
  rw [Int.mul_emod, wrapSint_emod, ← Int.mul_emod]

theorem toSint_eq_wrapSint (n : Nat) : toSint n = wrapSint (n : Int) := by
  have hr := toSint_range n
  rw [← wrapSint_of_range (toSint n) hr.1 hr.2]
  exact wrapSint_congr _ _ (toSint_emod n)

theorem toSint_mod (n : Nat) : toSint (n % 2 ^ 64) = toSint n := by
  unfold toSint
  rw [Nat.mod_mod]

theorem toUint_wrapSint (x : Int) : toUint (wrapSint x) = toUint x :=
  toUint_congr _ _ (wrapSint_emod x)

theorem toUint_of_range (x : Int) (h1 : 0 ≤ x) (h2 : x < 2 ^ 64) : toUint x = x.toNat := by
  unfold toUint
  rw [Int.emod_eq_of_lt h1 h2]

end dip

namespace dip

/-! ## Aliasing: the early exits -/

/-- C7: two forged views that reference different storage blocks never alias, whatever their
shapes, strides, data types and origins. -/
theorem Aliases_different_blocks (a b : Image) (ha : a.IsForged = true)
    (hb : b.IsForged = true) (h : a.dataBlock_ ≠ b.dataBlock_) : a.Aliases b = .ok false := by
  simp [Image.Aliases, ha, hb, h]

/-- Witness of C7: two views forged independently (blocks 0 and 1) with the shape of the
test of the source. -/
theorem Aliases_different_blocks_witness :
    (Image.forgedNormal .SFLOAT [50, 80, 30] 3 0).Aliases
      (Image.forgedNormal .SFLOAT [50, 80, 30] 3 1) = .ok false :=
  Aliases_different_blocks _ _ rfl rfl (by decide)

/-- C8: a forged view aliases itself, and aliases every forged view that shares its storage
block and has the same origin, regardless of the shape, strides, tensor count and data type
of that other view. -/
theorem Aliases_same_origin (a b : Image) (ha : a.IsForged = true) (hb : b.IsForged = true)
    (h : a.dataBlock_ = b.dataBlock_) (ho : a.origin_ = b.origin_) :
    a.Aliases a = .ok true ∧ a.Aliases b = .ok true := by
  simp [Image.Aliases, ha, hb, h, ho]

/-- Witness of C8: an image of three tensor elements and the view of its first tensor
element. -/
theorem Aliases_same_origin_witness :
    (Image.forgedNormal .SFLOAT [50, 80, 30] 3 0).Aliases
        (Image.forgedNormal .SFLOAT [50, 80, 30] 3 0) = .ok true ∧
      (Image.forgedNormal .SFLOAT [50, 80, 30] 3 0).Aliases
        ((Image.forgedNormal .SFLOAT [50, 80, 30] 3 0).TensorElement 0) = .ok true :=
  Aliases_same_origin _ _ rfl rfl rfl rfl

/-! ## Aliasing: where the code goes wrong -/

/-- C4: `Aliases` is not symmetric.  From a one-dimensional image of 12 samples of one byte,
`a` takes the pixels 0, 3, 6, 9 and `b` the pixels 3, 6, 9.  Both have the simple stride 3, and
the test `( start1 - start2 ) % sstride1 != 0` is made on the difference converted to
`dip::uint`: for `a.Aliases b` the difference is -3, that is `2^64 - 3`, whose remainder
modulo 3 is 1, and the answer is false; for `b.Aliases a` the difference is 3 and the answer
is true. -/
theorem Aliases_not_symmetric :
    ((Image.forgedNormal .UINT8 [12] 1 0).Slice 0 0 9 3).Aliases
        ((Image.forgedNormal .UINT8 [12] 1 0).Slice 0 3 9 3) = .ok false ∧
      ((Image.forgedNormal .UINT8 [12] 1 0).Slice 0 3 9 3).Aliases
        ((Image.forgedNormal .UINT8 [12] 1 0).Slice 0 0 9 3) = .ok true := by
  constructor <;> rfl

/-- C6: `Aliases` reports two views of one parent as disjoint although they share a sample.
The parent has 3 pixels of 3 tensor elements of one byte.  `a` is the first tensor element of
the pixels 1 and 2, mirrored (sizes [2], strides [-3], origin 6); `b` is the pixels 0 and 2
with all tensor elements (sizes [2], strides [6], tensor stride 1, origin 0).  The sample of
`a` at coordinate 0 and the sample of `b` at coordinate 1, tensor index 0, are both byte 6 of
the block, yet `a.Aliases b` is false: the merge walk pairs the stride 3 of `a` with the
tensor stride 1 of `b`. -/
theorem Aliases_false_on_overlapping_views :
    (((Image.forgedNormal .UINT8 [3] 3 0).TensorElement 0).Slice 0 1 2 1).Mirror [true] =
        ⟨.UINT8, [2], [-3], 1, 1, false, some 0, 6⟩ ∧
      (Image.forgedNormal .UINT8 [3] 3 0).Slice 0 0 2 2 =
        ⟨.UINT8, [2], [6], 3, 1, false, some 0, 0⟩ ∧
      Image.Aliases ⟨.UINT8, [2], [-3], 1, 1, false, some 0, 6⟩
        ⟨.UINT8, [2], [6], 3, 1, false, some 0, 0⟩ = .ok false ∧
      Image.SharesByteWith ⟨.UINT8, [2], [-3], 1, 1, false, some 0, 6⟩
        ⟨.UINT8, [2], [6], 3, 1, false, some 0, 0⟩ := by
  refine ⟨rfl, rfl, rfl, rfl, [0], 0, [1], 0, ?_, ?_, ?_, ?_, 6, ?_⟩
  · simp [ValidCoords]
  · decide
  · simp [ValidCoords]
  · decide
  · simp [Image.sampleByte, offsetSum, DataType.SizeOf]

end dip

namespace dip

/-! ## The data block extent -/

theorem FindDataBlockSizeAndStartExact.loop_shift (sts : List Int) (szs : List Nat) (mn mx : Int) :
    FindDataBlockSizeAndStartExact.loop sts szs mn mx =
      (mn + (FindDataBlockSizeAndStartExact.loop sts szs 0 0).1,
       mx + (FindDataBlockSizeAndStartExact.loop sts szs 0 0).2) := by
  induction sts generalizing szs mn mx with
  | nil => simp [FindDataBlockSizeAndStartExact.loop]
  | cons st sts ih =>
    cases szs with
    | nil => simp [FindDataBlockSizeAndStartExact.loop]
    | cons sz szs =>
      simp only [FindDataBlockSizeAndStartExact.loop]
      split_ifs with h
      · rw [ih szs (mn + _) mx, ih szs (0 + _) 0]; simp [add_assoc]
      · rw [ih szs mn (mx + _), ih szs 0 (0 + _)]; simp [add_assoc]

theorem FindDataBlockSizeAndStartExact.loop_sign (sts : List Int) (szs : List Nat) :
    (FindDataBlockSizeAndStartExact.loop sts szs 0 0).1 ≤ 0 ∧
      0 ≤ (FindDataBlockSizeAndStartExact.loop sts szs 0 0).2 := by
  induction sts generalizing szs with
  | nil => simp [FindDataBlockSizeAndStartExact.loop]
  | cons st sts ih =>
    cases szs with
    | nil => simp [FindDataBlockSizeAndStartExact.loop]
    | cons sz szs =>
      simp only [FindDataBlockSizeAndStartExact.loop]
      have := ih szs
      split_ifs with h
      · rw [FindDataBlockSizeAndStartExact.loop_shift]; simp only [zero_add]; omega
      · rw [FindDataBlockSizeAndStartExact.loop_shift]; simp only [zero_add]; omega

theorem coord_mul_stride_bounds (c sz : Nat) (st : Int) (h : c < sz) :
    (if ((sz : Int) - 1) * st < 0 then ((sz : Int) - 1) * st else 0) ≤ (c : Int) * st ∧
      (c : Int) * st ≤ (if ((sz : Int) - 1) * st < 0 then 0 else ((sz : Int) - 1) * st) := by
  have hc : (c : Int) ≤ (sz : Int) - 1 := by omega
  have hc0 : (0 : Int) ≤ c := by omega
  rcases le_or_lt 0 st with hst | hst
  · have h1 : (0 : Int) ≤ (c : Int) * st := mul_nonneg hc0 hst
    have h2 : (c : Int) * st ≤ ((sz : Int) - 1) * st := mul_le_mul_of_nonneg_right hc hst
    split_ifs <;> constructor <;> linarith
  · have h1 : (c : Int) * st ≤ 0 := mul_nonpos_of_nonneg_of_nonpos hc0 hst.le
    have h2 : ((sz : Int) - 1) * st ≤ (c : Int) * st :=
      mul_le_mul_of_nonpos_right hc hst.le
    split_ifs <;> constructor <;> linarith

theorem FindDataBlockSizeAndStartExact.loop_bounds (sts : List Int) (szs : List Nat) (c : List Nat)
    (hc : ValidCoords c szs) (hlen : sts.length = szs.length) :
    (FindDataBlockSizeAndStartExact.loop sts szs 0 0).1 ≤ offsetSum c sts ∧
      offsetSum c sts ≤ (FindDataBlockSizeAndStartExact.loop sts szs 0 0).2 := by
  induction sts generalizing szs c with
  | nil =>
    cases c <;> simp [FindDataBlockSizeAndStartExact.loop, offsetSum]
  | cons st sts ih =>
    cases szs with
    | nil => simp at hlen
    | cons sz szs =>
      cases c with
      | nil => simp [ValidCoords] at hc
      | cons c cs =>
        simp only [ValidCoords] at hc
        have hb := coord_mul_stride_bounds c sz st hc.1
        have := ih szs cs hc.2 (by simpa using hlen)
        simp only [FindDataBlockSizeAndStartExact.loop, offsetSum]
        split_ifs with h
        · rw [FindDataBlockSizeAndStartExact.loop_shift]
          simp only [h, if_true, zero_add] at hb ⊢
          omega
        · rw [FindDataBlockSizeAndStartExact.loop_shift]
          simp only [h, if_false, zero_add] at hb ⊢
          omega

theorem FindDataBlockSizeAndStartExact.loop_attained (sts : List Int) (szs : List Nat)
    (hpos : ∀ sz ∈ szs, 1 ≤ sz) (hlen : sts.length = szs.length) :
    (∃ c, ValidCoords c szs ∧ offsetSum c sts = (FindDataBlockSizeAndStartExact.loop sts szs 0 0).1) ∧
      (∃ c, ValidCoords c szs ∧
        offsetSum c sts = (FindDataBlockSizeAndStartExact.loop sts szs 0 0).2) := by
  induction sts generalizing szs with
  | nil =>
    cases szs with
    | nil => exact ⟨⟨[], by simp [ValidCoords, FindDataBlockSizeAndStartExact.loop, offsetSum]⟩,
        ⟨[], by simp [ValidCoords, FindDataBlockSizeAndStartExact.loop, offsetSum]⟩⟩
    | cons sz szs => simp at hlen
  | cons st sts ih =>
    cases szs with
    | nil => simp at hlen
    | cons sz szs =>
      have hsz : 1 ≤ sz := hpos sz (by simp)
      obtain ⟨⟨c1, hv1, h1⟩, ⟨c2, hv2, h2⟩⟩ :=
        ih szs (fun s hs => hpos s (by simp [hs])) (by simpa using hlen)
      simp only [FindDataBlockSizeAndStartExact.loop]
      have hcast : ((sz - 1 : Nat) : Int) = (sz : Int) - 1 := by omega
      split_ifs with h
      · rw [FindDataBlockSizeAndStartExact.loop_shift]
        refine ⟨⟨(sz - 1) :: c1, ⟨by omega, hv1⟩, ?_⟩, ⟨0 :: c2, ⟨by omega, hv2⟩, ?_⟩⟩
        · simp only [offsetSum, hcast, h1, zero_add]
        · simp [offsetSum, h2]
      · rw [FindDataBlockSizeAndStartExact.loop_shift]
        refine ⟨⟨0 :: c1, ⟨by omega, hv1⟩, ?_⟩, ⟨(sz - 1) :: c2, ⟨by omega, hv2⟩, ?_⟩⟩
        · simp [offsetSum, h1]
        · simp only [offsetSum, hcast, h2, zero_add]

/-- In exact arithmetic `FindDataBlockSizeAndStartExact` yields the smallest offset as `start`
and the largest one as `start + size - 1`. -/
theorem FindDataBlockSizeAndStartExact_extent (strides : List Int) (sizes : List Nat)
    (hlen : strides.length = sizes.length) (hpos : ∀ sz ∈ sizes, 1 ≤ sz) :
    (FindDataBlockSizeAndStartExact strides sizes).2 ≤ 0 ∧
      (∀ c, ValidCoords c sizes →
        (FindDataBlockSizeAndStartExact strides sizes).2 ≤ offsetSum c strides ∧
        offsetSum c strides ≤ (FindDataBlockSizeAndStartExact strides sizes).2 +
          ((FindDataBlockSizeAndStartExact strides sizes).1 : Int) - 1) ∧
      (∃ c, ValidCoords c sizes ∧ offsetSum c strides = (FindDataBlockSizeAndStartExact strides sizes).2) ∧
      (∃ c, ValidCoords c sizes ∧ offsetSum c strides =
        (FindDataBlockSizeAndStartExact strides sizes).2 +
          ((FindDataBlockSizeAndStartExact strides sizes).1 : Int) - 1) := by
  have hs := FindDataBlockSizeAndStartExact.loop_sign strides sizes
  have hsize : (((FindDataBlockSizeAndStartExact strides sizes).1 : Nat) : Int) =
      (FindDataBlockSizeAndStartExact.loop strides sizes 0 0).2 -
        (FindDataBlockSizeAndStartExact.loop strides sizes 0 0).1 + 1 := by
    simp only [FindDataBlockSizeAndStartExact]
    rw [Int.toNat_of_nonneg (by omega)]
  have hstart : (FindDataBlockSizeAndStartExact strides sizes).2 =
      (FindDataBlockSizeAndStartExact.loop strides sizes 0 0).1 := rfl
  obtain ⟨⟨c1, hv1, h1⟩, ⟨c2, hv2, h2⟩⟩ :=
    FindDataBlockSizeAndStartExact.loop_attained strides sizes hpos hlen
  refine ⟨by rw [hstart]; exact hs.1, ?_, ⟨c1, hv1, by rw [hstart]; exact h1⟩,
    ⟨c2, hv2, by rw [hstart, hsize, h2]; ring⟩⟩
  intro c hc
  have := FindDataBlockSizeAndStartExact.loop_bounds strides sizes c hc hlen
  rw [hstart, hsize]
  constructor
  · exact this.1
  · linarith [this.2]

end dip

namespace dip

/-! ## The 64-bit computations and the exact ones -/

theorem reach_cons (sz : Nat) (szs : List Nat) (st : Int) (sts : List Int) :
    reach (sz :: szs) (st :: sts) = (sz - 1) * st.natAbs + reach szs sts := by
  simp [reach, absDims]

theorem reach_nil_left (sts : List Int) : reach [] sts = 0 := by
  simp [reach, absDims]

theorem reach_nil_right (szs : List Nat) : reach szs [] = 0 := by
  cases szs <;> simp [reach, absDims]

theorem natAbs_pred_mul (sz : Nat) (st : Int) (h : 1 ≤ sz) :
    (((sz : Int) - 1) * st).natAbs = (sz - 1) * st.natAbs := by
  rw [Int.natAbs_mul]
  congr 1
  omega

theorem ComputeStrides_length (sizes : List Nat) (s : Nat) :
    (ComputeStrides sizes s).length = sizes.length := by
  induction sizes generalizing s with
  | nil => rfl
  | cons sz rest ih => simp [ComputeStrides, ih]

/-- The normal strides as the machine computes them are the exact ones when the number of
samples fits in a `dip::sint`. -/
theorem ComputeStrides_eq_exact (sizes : List Nat) (s : Nat) (hpos : ∀ sz ∈ sizes, 1 ≤ sz)
    (h : s * sizes.prod ≤ SINT_MAX) : ComputeStrides sizes s = ComputeStridesExact sizes s := by
  induction sizes generalizing s with
  | nil => rfl
  | cons sz rest ih =>
    have e1 : SINT_MAX = 2 ^ 63 - 1 := rfl
    have hrest : ∀ x ∈ rest, 1 ≤ x := fun x hx => hpos x (by simp [hx])
    have hp : 1 ≤ rest.prod := Nat.one_le_iff_ne_zero.mpr
      (List.prod_ne_zero (fun h0 => by have := hrest 0 h0; omega))
    have hsz : 1 ≤ sz := hpos sz (by simp)
    rw [List.prod_cons] at h
    have h1 : s * sz * rest.prod ≤ SINT_MAX := by rw [mul_assoc]; exact h
    have h2 : s * sz ≤ s * sz * rest.prod := Nat.le_mul_of_pos_right _ hp
    have h3 : s ≤ s * sz := Nat.le_mul_of_pos_right _ hsz
    simp only [ComputeStrides, ComputeStridesExact]
    rw [toSint_of_le s (by omega), Nat.mod_eq_of_lt (by omega), ih (s * sz) hrest h1]

theorem reach_normal (sizes : List Nat) (s : Nat) (hpos : ∀ sz ∈ sizes, 1 ≤ sz) :
    reach sizes (ComputeStridesExact sizes s) + s = s * sizes.prod := by
  induction sizes generalizing s with
  | nil => simp [reach_nil_left]
  | cons sz rest ih =>
    have hrest : ∀ x ∈ rest, 1 ≤ x := fun x hx => hpos x (by simp [hx])
    have hsz : 1 ≤ sz := hpos sz (by simp)
    have := ih (s * sz) hrest
    simp only [ComputeStridesExact, reach_cons, List.prod_cons, Int.natAbs_ofNat]
    have e : (sz - 1) * s + s = s * sz := by
      obtain ⟨b, hb⟩ : ∃ b, sz = b + 1 := ⟨sz - 1, by omega⟩
      rw [hb]; simp; ring
    rw [← mul_assoc]
    omega

theorem cast_reach_term (sz : Nat) (st : Int) (h : 1 ≤ sz) :
    (((sz - 1) * st.natAbs : Nat) : Int) = |((sz : Int) - 1) * st| := by
  rw [← natAbs_pred_mul sz st h]
  simp

theorem FindDataBlockSizeAndStartExact.loop_extent (sts : List Int) (szs : List Nat)
    (hpos : ∀ sz ∈ szs, 1 ≤ sz) :
    (FindDataBlockSizeAndStartExact.loop sts szs 0 0).2 -
      (FindDataBlockSizeAndStartExact.loop sts szs 0 0).1 = (reach szs sts : Int) := by
  induction sts generalizing szs with
  | nil => simp [FindDataBlockSizeAndStartExact.loop, reach_nil_right]
  | cons st sts ih =>
    cases szs with
    | nil => simp [FindDataBlockSizeAndStartExact.loop, reach_nil_left]
    | cons sz szs =>
      have hsz : 1 ≤ sz := hpos sz (by simp)
      have := ih szs (fun x hx => hpos x (by simp [hx]))
      have hn := cast_reach_term sz st hsz
      simp only [FindDataBlockSizeAndStartExact.loop, reach_cons]
      rw [Nat.cast_add, hn]
      split_ifs with h
      · rw [FindDataBlockSizeAndStartExact.loop_shift, abs_of_neg h]
        simp only [zero_add]
        omega
      · rw [FindDataBlockSizeAndStartExact.loop_shift, abs_of_nonneg (not_lt.mp h)]
        simp only [zero_add]
        omega

theorem FindDataBlockSizeAndStart.loop_eq_exact (sts : List Int) (szs : List Nat)
    (mn mx : Int) (hpos : ∀ sz ∈ szs, 1 ≤ sz) (hmn : mn ≤ 0) (hmx : 0 ≤ mx)
    (h : -mn + mx + (reach szs sts : Int) ≤ (SINT_MAX : Int)) :
    FindDataBlockSizeAndStart.loop sts szs mn mx =
      FindDataBlockSizeAndStartExact.loop sts szs mn mx := by
  induction sts generalizing szs mn mx with
  | nil => simp [FindDataBlockSizeAndStart.loop, FindDataBlockSizeAndStartExact.loop]
  | cons st sts ih =>
    cases szs with
    | nil => simp [FindDataBlockSizeAndStart.loop, FindDataBlockSizeAndStartExact.loop]
    | cons sz szs =>
      have e1 : (SINT_MAX : Int) = 2 ^ 63 - 1 := by decide
      have hsz : 1 ≤ sz := hpos sz (by simp)
      have hrest : ∀ x ∈ szs, 1 ≤ x := fun x hx => hpos x (by simp [hx])
      have hn := cast_reach_term sz st hsz
      rw [reach_cons, Nat.cast_add, hn] at h
      have hr0 : (0 : Int) ≤ (reach szs sts : Int) := by omega
      have habs := abs_nonneg (((sz : Int) - 1) * st)
      have hle := le_abs_self (((sz : Int) - 1) * st)
      have hge := neg_abs_le (((sz : Int) - 1) * st)
      have hp : wrapSint (((sz : Int) - 1) * st) = ((sz : Int) - 1) * st :=
        wrapSint_of_range _ (by omega) (by omega)
      simp only [FindDataBlockSizeAndStart.loop, FindDataBlockSizeAndStartExact.loop, hp]
      split_ifs with hneg
      · rw [abs_of_neg hneg] at h
        rw [wrapSint_of_range _ (by omega) (by omega)]
        exact ih szs _ _ hrest (by omega) hmx (by omega)
      · rw [abs_of_nonneg (not_lt.mp hneg)] at h
        rw [wrapSint_of_range _ (by omega) (by omega)]
        exact ih szs _ _ hrest hmn (by omega) (by omega)

/-- The extent of the data block as the machine computes it is the exact one when the reach
of the strides fits in a `dip::sint`. -/
theorem FindDataBlockSizeAndStart_eq_exact (strides : List Int) (sizes : List Nat)
    (hpos : ∀ sz ∈ sizes, 1 ≤ sz) (h : reach sizes strides ≤ SINT_MAX) :
    FindDataBlockSizeAndStart strides sizes = FindDataBlockSizeAndStartExact strides sizes := by
  have e1 : SINT_MAX = 2 ^ 63 - 1 := rfl
  have hl := FindDataBlockSizeAndStart.loop_eq_exact strides sizes 0 0 hpos (le_refl 0)
    (le_refl 0) (by simp; exact_mod_cast h)
  have hext := FindDataBlockSizeAndStartExact.loop_extent strides sizes hpos
  unfold FindDataBlockSizeAndStart FindDataBlockSizeAndStartExact
  simp only [hl]
  rw [toUint_of_range _ (by omega) (by omega)]

end dip

namespace dip

/-- `FindSimpleStrideSizeAndStart` is the function in exact arithmetic when the sizes are at
least 1 and the reach of the strides fits in a `dip::sint`. -/
theorem FindSimpleStrideSizeAndStart_eq_exact (strides : List Int) (sizes : List Nat)
    (hpos : ∀ sz ∈ sizes, 1 ≤ sz) (hreach : reach sizes strides ≤ SINT_MAX) :
    FindSimpleStrideSizeAndStart strides sizes =
      FindSimpleStrideSizeAndStartExact strides sizes := by
  unfold FindSimpleStrideSizeAndStart FindSimpleStrideSizeAndStartExact
  rw [FindDataBlockSizeAndStart_eq_exact strides sizes hpos hreach]

/-- Counterexample of C17: for the strides [4] and the sizes [2^63] the product
`( sizes[ 0 ] - 1 ) * strides[ 0 ]` wraps to -4, so that `FindDataBlockSizeAndStart` yields
the size 5 and the start -4: the valid coordinate vector [1] has the offset 4, which is
larger than `start + size - 1 = 0`. -/
theorem FindDataBlockSizeAndStart_wraps :
    FindDataBlockSizeAndStart [4] [2 ^ 63] = (5, -4) ∧ ValidCoords [1] [2 ^ 63] ∧
      offsetSum [1] [4] = 4 ∧
      ¬ (offsetSum [1] [4] ≤ (FindDataBlockSizeAndStart [4] [2 ^ 63]).2 +
        ((FindDataBlockSizeAndStart [4] [2 ^ 63]).1 : Int) - 1) := by
  refine ⟨by decide, by simp [ValidCoords], by decide, by decide⟩

/-- C17 as amended: for strides and sizes of equal length with all sizes at least 1 and a
reach (the sum of `( sizes[ i ] - 1 ) * |strides[ i ]|`) that fits in a `dip::sint`,
`FindDataBlockSizeAndStart` yields as `start` the minimum and as `start + size - 1` the
maximum of the offsets `sum( c[i] * strides[i] )` over the valid coordinate vectors: `start`
is at most 0, every valid offset lies in `[start, start + size - 1]`, and both ends are
attained. -/
theorem FindDataBlockSizeAndStart_is_extent (strides : List Int) (sizes : List Nat)
    (hlen : strides.length = sizes.length) (hpos : ∀ sz ∈ sizes, 1 ≤ sz)
    (hreach : reach sizes strides ≤ SINT_MAX) :
    (FindDataBlockSizeAndStart strides sizes).2 ≤ 0 ∧
      (∀ c, ValidCoords c sizes →
        (FindDataBlockSizeAndStart strides sizes).2 ≤ offsetSum c strides ∧
        offsetSum c strides ≤ (FindDataBlockSizeAndStart strides sizes).2 +
          ((FindDataBlockSizeAndStart strides sizes).1 : Int) - 1) ∧
      (∃ c, ValidCoords c sizes ∧ offsetSum c strides = (FindDataBlockSizeAndStart strides sizes).2) ∧
      (∃ c, ValidCoords c sizes ∧ offsetSum c strides =
        (FindDataBlockSizeAndStart strides sizes).2 +
          ((FindDataBlockSizeAndStart strides sizes).1 : Int) - 1) := by
  rw [FindDataBlockSizeAndStart_eq_exact strides sizes hpos hreach]
  exact FindDataBlockSizeAndStartExact_extent strides sizes hlen hpos

/-- Witness of C17 as amended: sizes [3, 2] with strides [-2, 5]; the offsets range over [-4, 5]. -/
theorem FindDataBlockSizeAndStart_is_extent_witness :
    (FindDataBlockSizeAndStart [-2, 5] [3, 2]).2 ≤ 0 ∧
      (∀ c, ValidCoords c [3, 2] →
        (FindDataBlockSizeAndStart [-2, 5] [3, 2]).2 ≤ offsetSum c [-2, 5] ∧
        offsetSum c [-2, 5] ≤ (FindDataBlockSizeAndStart [-2, 5] [3, 2]).2 +
          ((FindDataBlockSizeAndStart [-2, 5] [3, 2]).1 : Int) - 1) ∧
      (∃ c, ValidCoords c [3, 2] ∧ offsetSum c [-2, 5] = (FindDataBlockSizeAndStart [-2, 5] [3, 2]).2) ∧
      (∃ c, ValidCoords c [3, 2] ∧ offsetSum c [-2, 5] =
        (FindDataBlockSizeAndStart [-2, 5] [3, 2]).2 +
          ((FindDataBlockSizeAndStart [-2, 5] [3, 2]).1 : Int) - 1) :=
  FindDataBlockSizeAndStart_is_extent [-2, 5] [3, 2] rfl (by decide) (by decide)

end dip

namespace dip

/-! ## The size checks of `Forge` -/

theorem FindNumberOfPixels.loop_nonzero (sizes : List Nat) (n : Nat)
    (hnz : ∀ sz ∈ sizes, sz ≠ 0) (hn : n ≤ UINT_MAX) :
    FindNumberOfPixels.loop sizes n =
      if n * sizes.prod ≤ UINT_MAX then .ok (n * sizes.prod) else .error .SIZE_EXCEEDS_LIMIT := by
  induction sizes generalizing n with
  | nil => simp [FindNumberOfPixels.loop, hn]
  | cons sz rest ih =>
    have hsz : sz ≠ 0 := hnz sz (by simp)
    have hrest : ∀ s ∈ rest, s ≠ 0 := fun s hs => hnz s (by simp [hs])
    have hprod : 1 ≤ rest.prod := Nat.one_le_iff_ne_zero.mpr
      (List.prod_ne_zero (fun h => hrest 0 h rfl))
    simp only [FindNumberOfPixels.loop, List.prod_cons]
    have hdiv : n > UINT_MAX / sz ↔ UINT_MAX < n * sz :=
      Nat.div_lt_iff_lt_mul (Nat.pos_of_ne_zero hsz)
    by_cases h : n > UINT_MAX / sz
    · have h1 : UINT_MAX < n * sz := hdiv.mp h
      have h2 : n * sz ≤ n * (sz * rest.prod) := by
        calc n * sz = n * (sz * 1) := by ring
          _ ≤ n * (sz * rest.prod) := Nat.mul_le_mul_left _ (Nat.mul_le_mul_left _ hprod)
      rw [if_pos ⟨hsz, h⟩, if_neg (by omega)]
    · have h1 : n * sz ≤ UINT_MAX := by
        by_contra hc
        exact h (hdiv.mpr (by omega))
      rw [if_neg (by tauto), ih (n * sz) hrest h1, mul_assoc]

theorem FindNumberOfPixels_nonzero (sizes : List Nat) (hnz : ∀ sz ∈ sizes, sz ≠ 0) :
    FindNumberOfPixels sizes =
      if sizes.prod ≤ UINT_MAX then .ok sizes.prod else .error .SIZE_EXCEEDS_LIMIT := by
  simp [FindNumberOfPixels, FindNumberOfPixels.loop_nonzero sizes 1 hnz (by decide)]

theorem Image.forgeDefault_ne_size_error (img : Image) (size : Nat) (malloc : Nat → Option Nat)
    (hraw : img.IsForged = false) :
    img.forgeDefault size malloc ≠ .error .SIZE_EXCEEDS_LIMIT := by
  have hset : img.SetNormalStrides = .ok { img with
      tensorStride_ := 1
      strides_ := ComputeStrides img.sizes_ img.tensorElements } := by
    simp [Image.SetNormalStrides, hraw]
  unfold Image.forgeDefault
  rw [hset]
  by_cases h1 : img.HasValidStrides = true
  · by_cases h2 : img.GetDataBlockSizeAndStartWithTensor.1 ≠ size
    · simp only [h1, h2, if_true, ne_eq, not_false_eq_true]
      cases malloc (size * img.dataType_.SizeOf % 2 ^ 64) <;> simp
    · simp only [h1, h2, if_true, if_false]
      cases malloc (size * img.dataType_.SizeOf % 2 ^ 64) <;> simp
  · simp only [h1, if_false, Bool.false_eq_true]
    cases malloc (size * img.dataType_.SizeOf % 2 ^ 64) <;> simp

/-- C20: for a raw view with all sizes non-zero (and at least one tensor element), `Forge`
fails with `SIZE_EXCEEDS_LIMIT` if and only if the exact product of all sizes times the
number of tensor elements exceeds the largest `dip::uint`; and when it does not,
`FindNumberOfPixels` returns the exact product of the sizes. -/
theorem Forge_size_exceeds_limit_iff (img : Image) (ext : Option ExternalInterface)
    (malloc : Nat → Option Nat) (hraw : img.IsForged = false)
    (hnz : ∀ sz ∈ img.sizes_, sz ≠ 0) (ht : 1 ≤ img.tensorElements) :
    (img.Forge ext malloc = .error .SIZE_EXCEEDS_LIMIT ↔
        UINT_MAX < img.sizes_.prod * img.tensorElements) ∧
      (img.sizes_.prod * img.tensorElements ≤ UINT_MAX →
        FindNumberOfPixels img.sizes_ = .ok img.sizes_.prod) := by
  have hprod : 1 ≤ img.sizes_.prod := Nat.one_le_iff_ne_zero.mpr
    (List.prod_ne_zero (fun h => hnz 0 h rfl))
  have hle : img.sizes_.prod ≤ img.sizes_.prod * img.tensorElements :=
    Nat.le_mul_of_pos_right _ ht
  constructor
  · unfold Image.Forge
    rw [FindNumberOfPixels_nonzero _ hnz]
    simp only [hraw, Bool.false_eq_true, if_false]
    by_cases h1 : img.sizes_.prod ≤ UINT_MAX
    · simp only [h1, if_true]
      rw [if_neg (by omega)]
      have hdiv : img.tensorElements > UINT_MAX / img.sizes_.prod ↔
          UINT_MAX < img.tensorElements * img.sizes_.prod :=
        Nat.div_lt_iff_lt_mul (by omega)
      by_cases h2 : img.tensorElements > UINT_MAX / img.sizes_.prod
      · rw [if_pos h2]
        have := hdiv.mp h2
        simp only [true_iff]
        rw [mul_comm]; exact this
      · rw [if_neg h2]
        have h3 : ¬ UINT_MAX < img.sizes_.prod * img.tensorElements := by
          rw [mul_comm]; exact fun h => h2 (hdiv.mpr h)
        simp only [h3, iff_false]
        cases ext with
        | none =>
          simp only [hraw, Bool.false_eq_true, if_false]
          exact Image.forgeDefault_ne_size_error _ _ _ hraw
        | some f =>
          simp only
          cases hb : (f img.sizes_ img.strides_ img.tensorElements img.tensorStride_
              img.dataType_).dataBlock with
          | none =>
            have hr : Image.IsForged
                { img with
                  strides_ := (f img.sizes_ img.strides_ img.tensorElements img.tensorStride_
                    img.dataType_).strides
                  tensorStride_ := (f img.sizes_ img.strides_ img.tensorElements
                    img.tensorStride_ img.dataType_).tensorStride } = false := by
              simpa [Image.IsForged] using hraw
            simp only [hr, Bool.false_eq_true, if_false]
            exact Image.forgeDefault_ne_size_error _ _ _ hr
          | some block => simp [Image.IsForged]
    · simp only [h1, if_false, true_iff]
      omega
  · intro h
    rw [FindNumberOfPixels_nonzero _ hnz, if_pos (by omega)]

/-- Witness of C20: a raw view of sizes [50, 80, 30] and 3 tensor elements. -/
theorem Forge_size_exceeds_limit_iff_witness :
    (Image.Forge ⟨.SFLOAT, [50, 80, 30], [], 3, 1, false, none, 0⟩ none (fun _ => some 0) =
          .error .SIZE_EXCEEDS_LIMIT ↔
        UINT_MAX < [50, 80, 30].prod * 3) ∧
      ([50, 80, 30].prod * 3 ≤ UINT_MAX →
        FindNumberOfPixels [50, 80, 30] = .ok [50, 80, 30].prod) :=
  Forge_size_exceeds_limit_iff ⟨.SFLOAT, [50, 80, 30], [], 3, 1, false, none, 0⟩ none
    (fun _ => some 0) rfl (by decide) (by decide)

end dip

namespace dip

theorem FindNumberOfPixels.loop_from_zero (sizes : List Nat) :
    FindNumberOfPixels.loop sizes 0 = .ok 0 := by
  induction sizes with
  | nil => rfl
  | cons sz rest ih =>
    simp only [FindNumberOfPixels.loop, Nat.zero_mul]
    rw [if_neg (by simp), ih]

theorem FindNumberOfPixels.loop_with_zero (sizes : List Nat) (n : Nat) (h0 : 0 ∈ sizes)
    (hn : n ≤ UINT_MAX) :
    FindNumberOfPixels.loop sizes n =
      if n * (sizes.takeWhile (fun sz => decide (sz ≠ 0))).prod ≤ UINT_MAX then .ok 0
      else .error .SIZE_EXCEEDS_LIMIT := by
  induction sizes generalizing n with
  | nil => simp at h0
  | cons sz rest ih =>
    by_cases hsz : sz = 0
    · subst hsz
      simp [FindNumberOfPixels.loop, FindNumberOfPixels.loop_from_zero, hn]
    · have hrest : 0 ∈ rest := by
        rcases List.mem_cons.mp h0 with h | h
        · exact absurd h.symm hsz
        · exact h
      have hdiv : n > UINT_MAX / sz ↔ UINT_MAX < n * sz :=
        Nat.div_lt_iff_lt_mul (Nat.pos_of_ne_zero hsz)
      have htw : (List.takeWhile (fun sz => decide (sz ≠ 0)) (sz :: rest)) =
          sz :: List.takeWhile (fun sz => decide (sz ≠ 0)) rest := by
        simp [List.takeWhile, hsz]
      rw [htw, List.prod_cons]
      simp only [FindNumberOfPixels.loop]
      by_cases h : n > UINT_MAX / sz
      · have h1 : UINT_MAX < n * sz := hdiv.mp h
        have hp : 1 ≤ (List.takeWhile (fun sz => decide (sz ≠ 0)) rest).prod := by
          apply Nat.one_le_iff_ne_zero.mpr
          apply List.prod_ne_zero
          intro hmem
          have := List.mem_takeWhile_imp hmem
          simp at this
        have h2 : n * sz ≤ n * (sz * (List.takeWhile (fun sz => decide (sz ≠ 0)) rest).prod) := by
          calc n * sz = n * (sz * 1) := by ring
            _ ≤ _ := Nat.mul_le_mul_left _ (Nat.mul_le_mul_left _ hp)
        rw [if_pos ⟨hsz, h⟩, if_neg (by omega)]
      · have h1 : n * sz ≤ UINT_MAX := by
          by_contra hc
          exact h (hdiv.mpr (by omega))
        rw [if_neg (by tauto), ih (n * sz) hrest h1, mul_assoc]

/-- Counterexample of C19: `Forge` on a raw view of sizes [0] fails with the error "Cannot
forge an image without pixels (sizes must be > 0)", which is not `SIZE_EXCEEDS_LIMIT`. -/
theorem Forge_zero_pixels_error_kind :
    Image.IsForged ⟨.UINT8, [0], [], 1, 1, false, none, 0⟩ = false ∧
      Image.Forge ⟨.UINT8, [0], [], 1, 1, false, none, 0⟩ none (fun _ => some 0) =
        .error .CANNOT_FORGE_WITHOUT_PIXELS ∧
      Image.Forge ⟨.UINT8, [0], [], 1, 1, false, none, 0⟩ none (fun _ => some 0) ≠
        .error .SIZE_EXCEEDS_LIMIT := by
  refine ⟨rfl, rfl, ?_⟩
  intro h
  have h2 : Image.Forge ⟨.UINT8, [0], [], 1, 1, false, none, 0⟩ none (fun _ => some 0) =
      .error .CANNOT_FORGE_WITHOUT_PIXELS := rfl
  rw [h2] at h
  cases h

/-- C19 as amended: `Forge` on a raw view with a dimension of size 0 fails, whatever the
external interface and the allocator, with the error "Cannot forge an image without pixels"
when the product of the sizes in front of the first zero fits in a `dip::uint`, and with
`SIZE_EXCEEDS_LIMIT` when that product already exceeds the limit; the failure comes before
anything is assigned to the view, which is left as it was, every member unchanged, and so
still raw. -/
theorem Forge_zero_pixels (img : Image) (ext : Option ExternalInterface)
    (malloc : Nat → Option Nat) (hraw : img.IsForged = false) (h0 : 0 ∈ img.sizes_) :
    img.Forge ext malloc =
        (if (img.sizes_.takeWhile (fun sz => decide (sz ≠ 0))).prod ≤ UINT_MAX
         then .error .CANNOT_FORGE_WITHOUT_PIXELS else .error .SIZE_EXCEEDS_LIMIT) ∧
      Image.Forge.onError img ext = img ∧
      (Image.Forge.onError img ext).IsForged = false := by
  have hon : Image.Forge.onError img ext = img := by
    unfold Image.Forge.onError FindNumberOfPixels
    rw [FindNumberOfPixels.loop_with_zero _ 1 h0 (by decide)]
    simp only [hraw, Bool.false_eq_true, if_false, one_mul]
    split_ifs <;> rfl
  refine ⟨?_, hon, by rw [hon]; exact hraw⟩
  unfold Image.Forge FindNumberOfPixels
  rw [FindNumberOfPixels.loop_with_zero _ 1 h0 (by decide)]
  simp only [hraw, Bool.false_eq_true, if_false, one_mul]
  split_ifs <;> simp

/-- Witness of C19 as amended: sizes [5, 0, 3]. -/
theorem Forge_zero_pixels_witness :
    Image.Forge ⟨.UINT8, [5, 0, 3], [], 1, 1, false, none, 0⟩ none (fun _ => some 0) =
        (if ([5, 0, 3].takeWhile (fun sz => decide (sz ≠ 0))).prod ≤ UINT_MAX
         then .error .CANNOT_FORGE_WITHOUT_PIXELS else .error .SIZE_EXCEEDS_LIMIT) ∧
      Image.Forge.onError ⟨.UINT8, [5, 0, 3], [], 1, 1, false, none, 0⟩ none =
        ⟨.UINT8, [5, 0, 3], [], 1, 1, false, none, 0⟩ ∧
      (Image.Forge.onError ⟨.UINT8, [5, 0, 3], [], 1, 1, false, none, 0⟩ none).IsForged = false :=
  Forge_zero_pixels ⟨.UINT8, [5, 0, 3], [], 1, 1, false, none, 0⟩ none (fun _ => some 0) rfl
    (by decide)

end dip

namespace dip

/-! ## Normal strides -/

theorem ComputeStridesExact_length (sizes : List Nat) (s : Nat) :
    (ComputeStridesExact sizes s).length = sizes.length := by
  induction sizes generalizing s with
  | nil => rfl
  | cons sz rest ih => simp [ComputeStridesExact, ih]

theorem ComputeStridesExact_getElem? (sizes : List Nat) (s i : Nat) (h : i < sizes.length) :
    (ComputeStridesExact sizes s)[i]? = some ((s * (sizes.take i).prod : Nat) : Int) := by
  induction sizes generalizing s i with
  | nil => simp at h
  | cons sz rest ih =>
    cases i with
    | zero => simp [ComputeStridesExact]
    | succ i =>
      simp only [ComputeStridesExact, List.getElem?_cons_succ, List.take_succ_cons, List.prod_cons]
      rw [ih (s * sz) i (by simpa using h), mul_assoc]

theorem Image.HasNormalStrides.loop_iff (sizes : List Nat) (strides : List Int) (total : Nat)
    (hlen : strides.length = sizes.length) :
    Image.HasNormalStrides.loop sizes strides (toSint total) = true ↔
      strides = ComputeStrides sizes total := by
  induction sizes generalizing strides total with
  | nil =>
    cases strides with
    | nil => simp [Image.HasNormalStrides.loop, ComputeStrides]
    | cons st sts => simp at hlen
  | cons sz rest ih =>
    cases strides with
    | nil => simp at hlen
    | cons st sts =>
      have hw : wrapSint (toSint total * (sz : Int)) = toSint (total * sz % 2 ^ 64) := by
        rw [toSint_mod, toSint_eq_wrapSint total, wrapSint_wrapSint_mul, toSint_eq_wrapSint]
        push_cast
        rfl
      simp only [Image.HasNormalStrides.loop, ComputeStrides, List.cons.injEq, hw]
      by_cases h : st = toSint total
      · rw [if_neg (fun hne => hne h), ih sts (total * sz % 2 ^ 64) (by simpa using hlen)]
        constructor
        · intro h2
          exact ⟨h, h2⟩
        · intro h2
          exact h2.2
      · rw [if_pos h]
        constructor
        · intro h2
          cases h2
        · intro h2
          exact absurd h2.1 h

/-- The strides that `SetNormalStrides` sets are accepted by `HasNormalStrides`. -/
theorem Image.HasNormalStrides_of_normal (v : Image) (hv : v.IsForged = true)
    (hts : v.tensorStride_ = 1)
    (hst : v.strides_ = ComputeStrides v.sizes_ v.tensorElements) :
    v.HasNormalStrides = .ok true := by
  unfold Image.HasNormalStrides
  rw [if_neg (by simp [hv]), if_neg (by simp [hts])]
  have := (Image.HasNormalStrides.loop_iff v.sizes_ v.strides_ v.tensorElements
    (by rw [hst, ComputeStrides_length])).mpr hst
  rw [this]

end dip

namespace dip

/-! ## The insertion sort -/

theorem insertFromRight_of_not_shift {α : Type} (shift : α → α → Bool) (e p : α) (ps : List α)
    (h : shift p e = false) : insertFromRight shift e (p :: ps) = e :: p :: ps := by
  simp [insertFromRight, h]

theorem insertFromRight_all_shift {α : Type} (shift : α → α → Bool) (e : α) (r : List α)
    (h : ∀ p ∈ r, shift p e = true) : insertFromRight shift e r = r ++ [e] := by
  induction r with
  | nil => rfl
  | cons p ps ih =>
    simp only [insertFromRight, h p (by simp), if_true, List.cons_append]
    rw [ih (fun q hq => h q (by simp [hq]))]

theorem insertionSort_foldl_chain {α : Type} (shift : α → α → Bool) (l : List α) (a : α)
    (rev : List α) (h : List.Chain (fun x y => shift x y = false) a l) :
    l.foldl (fun rev e => insertFromRight shift e rev) (a :: rev) = l.reverse ++ a :: rev := by
  induction l generalizing a rev with
  | nil => rfl
  | cons x xs ih =>
    rw [List.chain_cons] at h
    simp only [List.foldl_cons, insertFromRight_of_not_shift shift x a rev h.1]
    rw [ih x (a :: rev) h.2]
    simp

/-- A list in which no element has to move is left as it is by the sort. -/
theorem insertionSort_of_chain {α : Type} (shift : α → α → Bool) (l : List α)
    (h : List.Chain' (fun x y => shift x y = false) l) : insertionSort shift l = l := by
  cases l with
  | nil => rfl
  | cons a l =>
    simp only [insertionSort, List.foldl_cons, insertFromRight]
    rw [insertionSort_foldl_chain shift l a [] h]
    simp

/-- An element that is smaller than all elements of a sorted list and comes last is moved to
the front. -/
theorem insertionSort_append_singleton {α : Type} (shift : α → α → Bool) (l : List α) (x : α)
    (h : List.Chain' (fun x y => shift x y = false) l) (hx : ∀ p ∈ l, shift p x = true) :
    insertionSort shift (l ++ [x]) = x :: l := by
  have h1 : l.foldl (fun rev e => insertFromRight shift e rev) [] = l.reverse := by
    have := insertionSort_of_chain shift l h
    simp only [insertionSort] at this
    rw [← List.reverse_reverse (l.foldl _ []), this]
  simp only [insertionSort, List.foldl_append, List.foldl_cons, List.foldl_nil, h1]
  rw [insertFromRight_all_shift shift x l.reverse (fun p hp => hx p (by simpa using hp))]
  simp

theorem insertFromRight_perm {α : Type} (shift : α → α → Bool) (e : α) (r : List α) :
    (insertFromRight shift e r).Perm (e :: r) := by
  induction r with
  | nil => exact List.Perm.refl _
  | cons p ps ih =>
    simp only [insertFromRight]
    split_ifs
    · exact (List.Perm.cons p ih).trans (List.Perm.swap e p ps)
    · exact List.Perm.refl _

theorem insertionSort_foldl_perm {α : Type} (shift : α → α → Bool) (l rev : List α) :
    (l.foldl (fun rev e => insertFromRight shift e rev) rev).Perm (l ++ rev) := by
  induction l generalizing rev with
  | nil => exact List.Perm.refl _
  | cons x xs ih =>
    simp only [List.foldl_cons]
    refine (ih _).trans ?_
    refine (List.Perm.append_left xs (insertFromRight_perm shift x rev)).trans ?_
    simp

/-- The sort permutes its input. -/
theorem insertionSort_perm {α : Type} (shift : α → α → Bool) (l : List α) :
    (insertionSort shift l).Perm l := by
  have := insertionSort_foldl_perm shift l []
  simp only [List.append_nil] at this
  exact (List.reverse_perm _).trans this

theorem insertFromRight_pairwise {α : Type} (shift : α → α → Bool)
    (hasymm : ∀ a b, shift a b = true → shift b a = false)
    (htrans : ∀ a b c, shift a b = false → shift b c = false → shift a c = false)
    (e : α) (r : List α) (h : r.Pairwise (fun x y => shift y x = false)) :
    (insertFromRight shift e r).Pairwise (fun x y => shift y x = false) := by
  induction r with
  | nil => simp [insertFromRight]
  | cons p ps ih =>
    rw [List.pairwise_cons] at h
    simp only [insertFromRight]
    split_ifs with hs
    · rw [List.pairwise_cons]
      refine ⟨?_, ih h.2⟩
      intro y hy
      have hy2 := (insertFromRight_perm shift e ps).mem_iff.mp hy
      rw [List.mem_cons] at hy2
      rcases hy2 with rfl | hy2
      · exact hasymm _ _ hs
      · exact h.1 y hy2
    · have hs2 : shift p e = false := by simpa using hs
      rw [List.pairwise_cons]
      refine ⟨?_, List.pairwise_cons.mpr h⟩
      intro y hy
      rw [List.mem_cons] at hy
      rcases hy with rfl | hy
      · exact hs2
      · exact htrans _ _ _ (h.1 y hy) hs2

/-- The sort leaves no element in front of an element it would have to move behind. -/
theorem insertionSort_pairwise {α : Type} (shift : α → α → Bool)
    (hasymm : ∀ a b, shift a b = true → shift b a = false)
    (htrans : ∀ a b c, shift a b = false → shift b c = false → shift a c = false)
    (l : List α) : (insertionSort shift l).Pairwise (fun x y => shift x y = false) := by
  have key : ∀ (l rev : List α), rev.Pairwise (fun x y => shift y x = false) →
      (l.foldl (fun rev e => insertFromRight shift e rev) rev).Pairwise
        (fun x y => shift y x = false) := by
    intro l
    induction l with
    | nil => intro rev h; exact h
    | cons x xs ih =>
      intro rev h
      exact ih _ (insertFromRight_pairwise shift hasymm htrans x rev h)
  simp only [insertionSort]
  rw [List.pairwise_reverse]
  exact key l [] List.Pairwise.nil

end dip

namespace dip

/-! ## `HasValidStrides` -/

/-- Counterexample of C15: a one-dimensional view of 5 pixels with stride 1 and 3 tensor
elements with tensor stride 1 (the samples of neighbouring pixels overlap) has no valid
strides: the tensor dimension counts as a dimension in the test of the number of
dimensions. -/
theorem HasValidStrides_1D_with_tensor :
    Image.HasValidStrides ⟨.UINT8, [5], [1], 3, 1, false, none, 0⟩ = false := by
  rfl

/-- C15 as amended: for every view of dimensionality 0 or 1 whose strides array has the
length of its sizes array, and which has no dimensions or a single tensor element (so that
the stride array with the tensor dimension added has fewer than two entries),
`HasValidStrides` returns true whatever the stride and the tensor stride. -/
theorem HasValidStrides_0D_1D (img : Image) (hlen : img.strides_.length = img.sizes_.length)
    (hdim : img.sizes_.length ≤ 1) (ht : img.sizes_.length = 0 ∨ img.tensorElements ≤ 1) :
    img.HasValidStrides = true := by
  unfold Image.HasValidStrides Image.stridesWithTensor
  rw [if_neg (by omega)]
  simp only
  split_ifs with h1 h2 h3
  · rfl
  · exfalso
    simp only [List.length_append, List.length_singleton] at h2
    omega
  · rfl
  · exfalso; omega

/-- Witness of C15 as amended: a one-dimensional view with a negative stride and a single
tensor element. -/
theorem HasValidStrides_0D_1D_witness :
    Image.HasValidStrides ⟨.UINT8, [5], [-7], 1, 0, false, none, 0⟩ = true :=
  HasValidStrides_0D_1D ⟨.UINT8, [5], [-7], 1, 0, false, none, 0⟩ rfl (by decide)
    (Or.inr (by decide))

theorem ComputeStridesExact_ge (sizes : List Nat) (s : Nat) (hpos : ∀ sz ∈ sizes, 1 ≤ sz) :
    ∀ st ∈ ComputeStridesExact sizes s, (s : Int) ≤ st := by
  induction sizes generalizing s with
  | nil => simp [ComputeStridesExact]
  | cons sz rest ih =>
    intro st hst
    simp only [ComputeStridesExact, List.mem_cons] at hst
    rcases hst with rfl | hst
    · exact le_refl _
    · have h1 := ih (s * sz) (fun x hx => hpos x (by simp [hx])) st hst
      have h2 : 1 ≤ sz := hpos sz (by simp)
      have h3 : s ≤ s * sz := Nat.le_mul_of_pos_right s h2
      have h4 : (s : Int) ≤ ((s * sz : Nat) : Int) := by exact_mod_cast h3
      exact le_trans h4 h1

theorem ComputeStridesExact_map_abs (sizes : List Nat) (s : Nat) :
    (ComputeStridesExact sizes s).map (fun st => |st|) = ComputeStridesExact sizes s := by
  induction sizes generalizing s with
  | nil => rfl
  | cons sz rest ih => simp [ComputeStridesExact, ih]

theorem zip_ComputeStridesExact_mem_ge (sizes : List Nat) (s : Nat) (hpos : ∀ sz ∈ sizes, 1 ≤ sz) :
    ∀ p ∈ (ComputeStridesExact sizes s).zip sizes, (s : Int) ≤ p.1 := by
  intro p hp
  exact ComputeStridesExact_ge sizes s hpos p.1 (List.of_mem_zip hp).1

theorem zip_ComputeStridesExact_chain (sizes : List Nat) (s : Nat) (hpos : ∀ sz ∈ sizes, 1 ≤ sz) :
    List.Chain' (fun x y : Int × Nat => decide (x.1 > y.1) = false)
      ((ComputeStridesExact sizes s).zip sizes) := by
  induction sizes generalizing s with
  | nil => simp [ComputeStridesExact]
  | cons sz rest ih =>
    have hrest : ∀ x ∈ rest, 1 ≤ x := fun x hx => hpos x (by simp [hx])
    have h2 : 1 ≤ sz := hpos sz (by simp)
    simp only [ComputeStridesExact, List.zip_cons_cons]
    rw [List.chain'_cons']
    refine ⟨?_, ih (s * sz) hrest⟩
    intro y hy
    have hmem := List.mem_of_mem_head? hy
    have h1 := zip_ComputeStridesExact_mem_ge rest (s * sz) hrest y hmem
    have h3 : s ≤ s * sz := Nat.le_mul_of_pos_right s h2
    have h4 : (s : Int) ≤ ((s * sz : Nat) : Int) := by exact_mod_cast h3
    simp only [gt_iff_lt, decide_eq_false_iff_not, not_lt]
    exact le_trans h4 h1

theorem HasValidStrides.loop_normal (sizes : List Nat) (s : Nat) (hs : 1 ≤ s)
    (hpos : ∀ sz ∈ sizes, 1 ≤ sz) :
    Image.HasValidStrides.loopExact ((ComputeStridesExact sizes s).zip sizes) = true := by
  induction sizes generalizing s with
  | nil => simp [ComputeStridesExact, Image.HasValidStrides.loopExact]
  | cons sz rest ih =>
    have hrest : ∀ x ∈ rest, 1 ≤ x := fun x hx => hpos x (by simp [hx])
    have h2 : 1 ≤ sz := hpos sz (by simp)
    have hs2 : 1 ≤ s * sz := Nat.one_le_iff_ne_zero.mpr (Nat.mul_ne_zero (by omega) (by omega))
    cases rest with
    | nil => simp [ComputeStridesExact, Image.HasValidStrides.loopExact]
    | cons sz2 rest2 =>
      have := ih (s * sz) hs2 hrest
      simp only [ComputeStridesExact, List.zip_cons_cons] at this ⊢
      simp only [Image.HasValidStrides.loopExact]
      rw [if_neg, this]
      push_cast
      have hsI : (1 : Int) ≤ s := by exact_mod_cast hs
      nlinarith

/-- The normal strides pass the test of `HasValidStrides` in exact arithmetic (sizes and
number of tensor elements at least 1). -/
theorem Image.HasValidStridesExact_normal (img : Image) (hpos : ∀ sz ∈ img.sizes_, 1 ≤ sz)
    (ht : 1 ≤ img.tensorElements) (hts : img.tensorStride_ = 1)
    (hst : img.strides_ = ComputeStridesExact img.sizes_ img.tensorElements) :
    img.HasValidStridesExact = true := by
  unfold Image.HasValidStridesExact Image.stridesWithTensor Image.sizesWithTensor
  rw [if_neg (by rw [hst, ComputeStridesExact_length]; simp)]
  simp only
  split_ifs with h1 h2 h3
  · rfl
  · -- more than one tensor element: the tensor dimension moves to the front
    rw [hst, hts, List.map_append, ComputeStridesExact_map_abs, List.map_singleton,
      List.zip_append (by rw [ComputeStridesExact_length])]
    simp only [abs_one, List.zip_cons_cons, List.zip_nil_right]
    unfold sortStrides
    rw [insertionSort_append_singleton _ _ _
      (zip_ComputeStridesExact_chain img.sizes_ img.tensorElements hpos)]
    · cases hsz : img.sizes_ with
      | nil => simp [ComputeStridesExact, Image.HasValidStrides.loopExact]
      | cons sz rest =>
        have := HasValidStrides.loop_normal img.sizes_ img.tensorElements ht hpos
        rw [hsz] at this
        simp only [ComputeStridesExact, List.zip_cons_cons] at this ⊢
        simp only [Image.HasValidStrides.loopExact]
        rw [if_neg, this]
        omega
    · intro p hp
      have := zip_ComputeStridesExact_mem_ge img.sizes_ img.tensorElements hpos p hp
      simp only [gt_iff_lt, decide_eq_true_eq]
      have h4 : (2 : Int) ≤ img.tensorElements := by exact_mod_cast h1
      omega
  · rfl
  · rw [hst, ComputeStridesExact_map_abs]
    unfold sortStrides
    rw [insertionSort_of_chain _ _ (zip_ComputeStridesExact_chain img.sizes_ img.tensorElements hpos)]
    exact HasValidStrides.loop_normal img.sizes_ img.tensorElements ht hpos

theorem reach_term_le (sizes : List Nat) (strides : List Int) (q : Nat × Nat)
    (hq : q ∈ absDims sizes strides) : (q.1 - 1) * q.2 ≤ reach sizes strides := by
  unfold reach
  exact List.single_le_sum (fun _ _ => Nat.zero_le _) _
    (List.mem_map.mpr ⟨q, hq, rfl⟩)

theorem mem_zip_abs (s : List Int) (d : List Nat) (p : Int × Nat)
    (hp : p ∈ (s.map (fun st => |st|)).zip d) :
    (p.2, p.1.natAbs) ∈ absDims d s ∧ 0 ≤ p.1 := by
  induction s generalizing d with
  | nil => simp at hp
  | cons st sts ih =>
    cases d with
    | nil => simp at hp
    | cons sz szs =>
      simp only [List.map_cons, List.zip_cons_cons, List.mem_cons] at hp
      rcases hp with rfl | hp
      · simp [absDims, Int.natAbs_abs]
      · obtain ⟨h1, h2⟩ := ih szs hp
        exact ⟨by simp [absDims, h1], h2⟩

/-- The test loop of `HasValidStrides` is the exact one on pairs whose sizes and products
fit in a `dip::sint`. -/
theorem HasValidStrides_loop_eq_exact (l : List (Int × Nat))
    (h : ∀ p ∈ l, p.2 ≤ SINT_MAX ∧ (p.1 * ((p.2 : Int) - 1)).natAbs ≤ SINT_MAX) :
    Image.HasValidStrides.loop l = Image.HasValidStrides.loopExact l := by
  induction l with
  | nil => rfl
  | cons p rest ih =>
    cases rest with
    | nil => rfl
    | cons q rest2 =>
      obtain ⟨h1, h2⟩ := h p (by simp)
      simp only [Image.HasValidStrides.loop, Image.HasValidStrides.loopExact]
      rw [toSint_of_le _ h1, wrapSint_of_le _ h2, ih (fun x hx => h x (by simp [hx]))]

/-- `HasValidStrides` is the exact test on a view whose strides, sizes and reach fit in a
`dip::sint`. -/
theorem Image.HasValidStrides_eq_exact (img : Image)
    (hpos : ∀ sz ∈ img.sizesWithTensor, 1 ≤ sz)
    (hfit : ∀ sz ∈ img.sizesWithTensor, sz ≤ SINT_MAX)
    (hstr : ∀ st ∈ img.stridesWithTensor, st.natAbs ≤ SINT_MAX)
    (hreach : reach img.sizesWithTensor img.stridesWithTensor ≤ SINT_MAX) :
    img.HasValidStrides = img.HasValidStridesExact := by
  have hmap : img.stridesWithTensor.map (fun st => wrapSint |st|) =
      img.stridesWithTensor.map (fun st => |st|) := by
    apply List.map_congr_left
    intro st hst
    exact wrapSint_of_le _ (by rw [Int.natAbs_abs]; exact hstr st hst)
  unfold Image.HasValidStrides Image.HasValidStridesExact
  by_cases h1 : img.sizes_.length ≠ img.strides_.length
  · rw [if_pos h1, if_pos h1]
  · rw [if_neg h1, if_neg h1]
    simp only
    rw [hmap]
    by_cases h2 : img.stridesWithTensor.length < 2
    · rw [if_pos h2, if_pos h2]
    · rw [if_neg h2, if_neg h2]
      apply HasValidStrides_loop_eq_exact
      intro p hp
      have hp2 : p ∈ (img.stridesWithTensor.map (fun st => |st|)).zip img.sizesWithTensor :=
        (insertionSort_perm _ _).mem_iff.mp hp
      obtain ⟨hq, hnn⟩ := mem_zip_abs _ _ p hp2
      have hsz : p.2 ∈ img.sizesWithTensor := (List.of_mem_zip hp2).2
      have hle := reach_term_le _ _ _ hq
      simp only at hle
      have h1p := hpos _ hsz
      refine ⟨hfit _ hsz, ?_⟩
      rw [Int.natAbs_mul]
      have e : ((p.2 : Int) - 1).natAbs = p.2 - 1 := by omega
      rw [e, Nat.mul_comm]
      omega

theorem reach_append (sz1 sz2 : List Nat) (st1 st2 : List Int) (h : sz1.length = st1.length) :
    reach (sz1 ++ sz2) (st1 ++ st2) = reach sz1 st1 + reach sz2 st2 := by
  induction sz1 generalizing st1 with
  | nil =>
    cases st1 with
    | nil => simp [reach_nil_left]
    | cons a b => simp at h
  | cons sz szs ih =>
    cases st1 with
    | nil => simp at h
    | cons st sts =>
      simp only [List.cons_append, reach_cons, ih sts (by simpa using h)]
      omega

theorem le_prod_of_mem (l : List Nat) (hpos : ∀ x ∈ l, 1 ≤ x) (a : Nat) (ha : a ∈ l) :
    a ≤ l.prod := by
  induction l with
  | nil => simp at ha
  | cons x xs ih =>
    have hx : 1 ≤ x := hpos x (by simp)
    have hxs : ∀ y ∈ xs, 1 ≤ y := fun y hy => hpos y (by simp [hy])
    have hp : 1 ≤ xs.prod := Nat.one_le_iff_ne_zero.mpr
      (List.prod_ne_zero (fun h0 => by have := hxs 0 h0; omega))
    rw [List.prod_cons]
    rcases List.mem_cons.mp ha with rfl | ha
    · exact Nat.le_mul_of_pos_right _ hp
    · exact le_trans (ih hxs ha) (Nat.le_mul_of_pos_left _ hx)

/-- The sizes and the reach of a normal layout whose number of samples fits in a `dip::sint`
fit in it, tensor dimension included. -/
theorem Image.normal_fits (img : Image) (hpos : ∀ sz ∈ img.sizes_, 1 ≤ sz)
    (ht : 1 ≤ img.tensorElements)
    (hfit : img.sizes_.prod * img.tensorElements ≤ SINT_MAX) (hts : img.tensorStride_ = 1)
    (hst : img.strides_ = ComputeStridesExact img.sizes_ img.tensorElements) :
    (∀ sz ∈ img.sizesWithTensor, 1 ≤ sz) ∧ (∀ sz ∈ img.sizesWithTensor, sz ≤ SINT_MAX) ∧
      reach img.sizesWithTensor img.stridesWithTensor + 1 = img.sizes_.prod * img.tensorElements ∧
      reach img.sizes_ img.strides_ + img.tensorElements =
        img.sizes_.prod * img.tensorElements := by
  have hp : 1 ≤ img.sizes_.prod := Nat.one_le_iff_ne_zero.mpr
    (List.prod_ne_zero (fun h0 => by have := hpos 0 h0; omega))
  have hr := reach_normal img.sizes_ img.tensorElements hpos
  rw [Nat.mul_comm img.tensorElements] at hr
  have hszle : ∀ sz ∈ img.sizes_, sz ≤ SINT_MAX := by
    intro sz hsz
    have h1 := le_prod_of_mem _ hpos sz hsz
    have h2 : img.sizes_.prod ≤ img.sizes_.prod * img.tensorElements :=
      Nat.le_mul_of_pos_right _ ht
    omega
  have htle : img.tensorElements ≤ SINT_MAX := by
    have h2 : img.tensorElements ≤ img.sizes_.prod * img.tensorElements :=
      Nat.le_mul_of_pos_left _ hp
    omega
  unfold Image.sizesWithTensor Image.stridesWithTensor
  by_cases h1 : img.tensorElements > 1
  · rw [if_pos h1, if_pos h1]
    refine ⟨?_, ?_, ?_, by rw [hst]; exact hr⟩
    · intro sz hsz
      rcases List.mem_append.mp hsz with h | h
      · exact hpos sz h
      · simp only [List.mem_singleton] at h; omega
    · intro sz hsz
      rcases List.mem_append.mp hsz with h | h
      · exact hszle sz h
      · simp only [List.mem_singleton] at h; omega
    · rw [reach_append _ _ _ _ (by rw [hst, ComputeStridesExact_length]), hst, hts]
      simp only [reach_cons, reach_nil_left, Int.natAbs_one]
      omega
  · rw [if_neg h1, if_neg h1]
    have ht1 : img.tensorElements = 1 := by omega
    refine ⟨hpos, hszle, ?_, by rw [hst]; exact hr⟩
    rw [hst]
    omega

/-- The normal strides are between 0 and the number of samples. -/
theorem ComputeStridesExact_mem_le (sizes : List Nat) (s : Nat) (hpos : ∀ sz ∈ sizes, 1 ≤ sz) :
    ∀ st ∈ ComputeStridesExact sizes s, st.natAbs ≤ s * sizes.prod := by
  induction sizes generalizing s with
  | nil => simp [ComputeStridesExact]
  | cons sz rest ih =>
    have hrest : ∀ x ∈ rest, 1 ≤ x := fun x hx => hpos x (by simp [hx])
    have hp : 1 ≤ rest.prod := Nat.one_le_iff_ne_zero.mpr
      (List.prod_ne_zero (fun h0 => by have := hrest 0 h0; omega))
    have hsz : 1 ≤ sz := hpos sz (by simp)
    intro st hst
    simp only [ComputeStridesExact, List.mem_cons] at hst
    rw [List.prod_cons, ← mul_assoc]
    rcases hst with rfl | hst
    · rw [Int.natAbs_ofNat]
      exact le_trans (Nat.le_mul_of_pos_right s hsz) (Nat.le_mul_of_pos_right _ hp)
    · exact ih (s * sz) hrest st hst

/-- The normal strides and the tensor stride 1 fit in a `dip::sint` when the number of samples
does. -/
theorem Image.normal_strides_fit (img : Image) (hpos : ∀ sz ∈ img.sizes_, 1 ≤ sz)
    (hfit : img.sizes_.prod * img.tensorElements ≤ SINT_MAX) (hts : img.tensorStride_ = 1)
    (hst : img.strides_ = ComputeStridesExact img.sizes_ img.tensorElements) :
    ∀ st ∈ img.stridesWithTensor, st.natAbs ≤ SINT_MAX := by
  have h0 : ∀ st ∈ img.strides_, st.natAbs ≤ SINT_MAX := by
    intro st h
    rw [hst] at h
    have := ComputeStridesExact_mem_le _ _ hpos st h
    rw [Nat.mul_comm] at this
    omega
  have e1 : SINT_MAX = 2 ^ 63 - 1 := rfl
  intro st h
  unfold Image.stridesWithTensor at h
  split_ifs at h
  · rcases List.mem_append.mp h with h | h
    · exact h0 st h
    · simp only [List.mem_singleton] at h
      rw [h, hts, e1]
      decide
  · exact h0 st h

/-- The reach of the normal strides, tensor dimension included, fits in a `dip::sint` when
the number of samples does. -/
theorem Image.normal_reach_le (img : Image) (hpos : ∀ sz ∈ img.sizes_, 1 ≤ sz)
    (ht : 1 ≤ img.tensorElements)
    (hfit : img.sizes_.prod * img.tensorElements ≤ SINT_MAX) (hts : img.tensorStride_ = 1)
    (hst : img.strides_ = ComputeStrides img.sizes_ img.tensorElements) :
    reach img.sizesWithTensor img.stridesWithTensor ≤ SINT_MAX := by
  rw [ComputeStrides_eq_exact _ _ hpos (by rw [Nat.mul_comm]; exact hfit)] at hst
  have h3 := (Image.normal_fits img hpos ht hfit hts hst).2.2.1
  omega

/-- The normal strides are valid strides (sizes and number of tensor elements at least 1,
number of samples within `dip::sint`). -/
theorem Image.HasValidStrides_of_normal (img : Image) (hpos : ∀ sz ∈ img.sizes_, 1 ≤ sz)
    (ht : 1 ≤ img.tensorElements)
    (hfit : img.sizes_.prod * img.tensorElements ≤ SINT_MAX) (hts : img.tensorStride_ = 1)
    (hst : img.strides_ = ComputeStrides img.sizes_ img.tensorElements) :
    img.HasValidStrides = true := by
  rw [ComputeStrides_eq_exact _ _ hpos (by rw [Nat.mul_comm]; exact hfit)] at hst
  obtain ⟨h1, h2, h3, -⟩ := Image.normal_fits img hpos ht hfit hts hst
  rw [Image.HasValidStrides_eq_exact img h1 h2
    (Image.normal_strides_fit img hpos hfit hts hst) (by omega)]
  exact Image.HasValidStridesExact_normal img hpos ht hts hst

/-- Counterexample of C14: for the sizes [0, 5, 5] the normal strides are [1, 0, 0], and
`HasValidStrides` returns false on them (the two strides 0 fail the test).  It also returns
false when the products wrap: for the sizes [2^32, 2^32, 2, 2], all at least 1, the normal
strides are [1, 2^32, 0, 0]. -/
theorem HasValidStrides_false_on_zero_size :
    ComputeStrides [0, 5, 5] 1 = [1, 0, 0] ∧
      Image.HasValidStrides
        ⟨.UINT8, [0, 5, 5], ComputeStrides [0, 5, 5] 1, 1, 1, false, none, 0⟩ = false ∧
      ComputeStrides [2 ^ 32, 2 ^ 32, 2, 2] 1 = [1, 2 ^ 32, 0, 0] ∧
      Image.HasValidStrides ⟨.UINT8, [2 ^ 32, 2 ^ 32, 2, 2],
        ComputeStrides [2 ^ 32, 2 ^ 32, 2, 2] 1, 1, 1, false, none, 0⟩ = false := by
  refine ⟨by decide, by rfl, by decide, by rfl⟩

/-- C14 as amended: for every shape with all sizes at least 1 (any dimensionality, sizes of 1
included) and every number of tensor elements, with a number of samples that fits in a
`dip::sint`, after the normal stride assignment (tensor stride 1, strides from
`ComputeStrides`) `HasValidStrides` returns true. -/
theorem HasValidStrides_normal (img : Image) (hpos : ∀ sz ∈ img.sizes_, 1 ≤ sz)
    (ht : 1 ≤ img.tensorElements)
    (hfit : img.sizes_.prod * img.tensorElements ≤ SINT_MAX) (hts : img.tensorStride_ = 1)
    (hst : img.strides_ = ComputeStrides img.sizes_ img.tensorElements) :
    img.HasValidStrides = true :=
  Image.HasValidStrides_of_normal img hpos ht hfit hts hst

/-- Witness of C14 as amended: the shape of the test of the source, with sizes of 1 added. -/
theorem HasValidStrides_normal_witness :
    Image.HasValidStrides
      ⟨.SFLOAT, [50, 1, 80, 1, 30], ComputeStrides [50, 1, 80, 1, 30] 3, 3, 1, false, none, 0⟩
      = true :=
  HasValidStrides_normal
    ⟨.SFLOAT, [50, 1, 80, 1, 30], ComputeStrides [50, 1, 80, 1, 30] 3, 3, 1, false, none, 0⟩
    (by decide) (by decide) (by decide) rfl rfl

end dip

namespace dip

/-! ## The simple stride -/

theorem toUint_natCast (n : Nat) (h : n ≤ UINT_MAX) : toUint (n : Int) = n := by
  unfold toUint
  have h2 : (n : Int) % 2 ^ 64 = n := by
    apply Int.emod_eq_of_lt (by omega)
    have : UINT_MAX = 2 ^ 64 - 1 := rfl
    omega
  rw [h2]
  simp

/-- Counterexample of C18: for sizes [2, 2, 2] and strides [1, 3, 3]
`FindSimpleStrideSizeAndStart` reports the simple stride 1 (block size 8 = 7 * 1 + 1), but the
view is not traversable by it: the pixels (0, 1, 0) and (0, 0, 1) have the same offset 3. -/
theorem FindSimpleStride_true_not_traversable :
    FindSimpleStrideSizeAndStart [1, 3, 3] [2, 2, 2] = .ok ⟨true, 1, 8, 0⟩ ∧
      ¬ Traversable [1, 3, 3] [2, 2, 2] 0 1 := by
  refine ⟨rfl, ?_⟩
  rintro ⟨-, h⟩
  obtain ⟨c, -, -, huniq⟩ := h 3 (by decide)
  have h1 := huniq [0, 1, 0] (by simp [ValidCoords]) (by simp [offsetSum])
  have h2 := huniq [0, 0, 1] (by simp [ValidCoords]) (by simp [offsetSum])
  rw [← h2] at h1
  simp at h1

theorem FindDataBlockSizeAndStartExact_size (strides : List Int) (sizes : List Nat)
    (hpos : ∀ sz ∈ sizes, 1 ≤ sz) :
    (FindDataBlockSizeAndStartExact strides sizes).1 = reach sizes strides + 1 := by
  have hext := FindDataBlockSizeAndStartExact.loop_extent strides sizes hpos
  unfold FindDataBlockSizeAndStartExact
  simp only
  omega

/-- C18 as amended: for strides and sizes of equal length at least 1 with all sizes at least
1, with a pixel count that fits in a `dip::uint` and a reach that fits in a `dip::sint`, and
`s` the smallest absolute stride among the dimensions of size larger than 1 as the function
computes it: the function returns, with the size and the start of the data block; if the
view is traversable by the stride `s` from the start of its block, it returns true with
`sstride = s`; and whenever it returns false, `sstride` is 0, and whenever it returns true,
`sstride` is `s`.  (That it returns true only for traversable views is not claimed.) -/
theorem FindSimpleStride_of_traversable (strides : List Int) (sizes : List Nat)
    (hlen : strides.length = sizes.length) (hdim : 1 ≤ strides.length)
    (hpos : ∀ sz ∈ sizes, 1 ≤ sz) (hpix : sizes.prod ≤ UINT_MAX)
    (hreach : reach sizes strides ≤ SINT_MAX) :
    (∃ r, FindSimpleStrideSizeAndStart strides sizes = .ok r ∧
        r.size = (FindDataBlockSizeAndStart strides sizes).1 ∧
        r.start = (FindDataBlockSizeAndStart strides sizes).2 ∧
        (r.found = false → r.sstride = 0) ∧
        (r.found = true → r.sstride = FindSimpleStride.loop strides sizes UINT_MAX)) ∧
      (Traversable strides sizes (FindDataBlockSizeAndStart strides sizes).2
          (FindSimpleStride.loop strides sizes UINT_MAX) →
        FindSimpleStrideSizeAndStart strides sizes =
          .ok ⟨true, FindSimpleStride.loop strides sizes UINT_MAX,
            (FindDataBlockSizeAndStart strides sizes).1,
            (FindDataBlockSizeAndStart strides sizes).2⟩) := by
  rw [FindSimpleStrideSizeAndStart_eq_exact strides sizes hpos hreach]
  rw [FindDataBlockSizeAndStart_eq_exact strides sizes hpos hreach]
  have hnz : ∀ sz ∈ sizes, sz ≠ 0 := fun sz h => by have := hpos sz h; omega
  have hprod : 1 ≤ sizes.prod := Nat.one_le_iff_ne_zero.mpr
    (List.prod_ne_zero (fun h => hnz 0 h rfl))
  have hblock : (FindDataBlockSizeAndStartExact strides sizes).1 ≤ UINT_MAX := by
    rw [FindDataBlockSizeAndStartExact_size strides sizes hpos]
    have e1 : SINT_MAX = 2 ^ 63 - 1 := rfl
    have e2 : UINT_MAX = 2 ^ 64 - 1 := rfl
    omega
  have hun : FindSimpleStrideSizeAndStartExact strides sizes =
      if (FindDataBlockSizeAndStartExact strides sizes).1 ≠
          toUint ((((sizes.prod : Nat) : Int) - 1) *
            ((FindSimpleStride.loop strides sizes UINT_MAX : Nat) : Int) + 1)
      then .ok ⟨false, 0, (FindDataBlockSizeAndStartExact strides sizes).1,
        (FindDataBlockSizeAndStartExact strides sizes).2⟩
      else .ok ⟨true, FindSimpleStride.loop strides sizes UINT_MAX,
        (FindDataBlockSizeAndStartExact strides sizes).1,
        (FindDataBlockSizeAndStartExact strides sizes).2⟩ := by
    unfold FindSimpleStrideSizeAndStartExact
    rw [if_neg (by omega), FindNumberOfPixels_nonzero sizes hnz, if_pos hpix]
  constructor
  · rw [hun]
    split_ifs with h
    · refine ⟨_, rfl, rfl, rfl, fun _ => rfl, ?_⟩
      intro hf
      cases hf
    · refine ⟨_, rfl, rfl, rfl, ?_, fun _ => rfl⟩
      intro hf
      cases hf
  · intro htrav
    obtain ⟨-, hb, -, ⟨cmax, hvmax, hmax⟩⟩ :=
      FindDataBlockSizeAndStartExact_extent strides sizes hlen hpos
    obtain ⟨ht1, ht2⟩ := htrav
    -- the largest offset is `start + (pixels - 1) * s`
    obtain ⟨k, hk, hkoff⟩ := ht1 cmax hvmax
    obtain ⟨c, hvc, hcoff, -⟩ := ht2 (sizes.prod - 1) (by omega)
    have hle := (hb c hvc).2
    have hcast : ((sizes.prod - 1 : Nat) : Int) = (sizes.prod : Int) - 1 := by omega
    have hks : (k : Int) * (FindSimpleStride.loop strides sizes UINT_MAX : Int) ≤
        ((sizes.prod : Int) - 1) * (FindSimpleStride.loop strides sizes UINT_MAX : Int) := by
      apply mul_le_mul_of_nonneg_right _ (by omega)
      omega
    have hsize : (((FindDataBlockSizeAndStartExact strides sizes).1 : Nat) : Int) =
        ((sizes.prod : Int) - 1) * (FindSimpleStride.loop strides sizes UINT_MAX : Int) + 1 := by
      rw [hcast] at hcoff
      linarith
    rw [hun, ← hsize, toUint_natCast _ hblock]
    simp

/-- Witness of C18 as amended: sizes [2, 3] with strides [3, -1]: the offsets are -2 .. 3. -/
theorem FindSimpleStride_of_traversable_witness :
    (∃ r, FindSimpleStrideSizeAndStart [3, -1] [2, 3] = .ok r ∧
        r.size = (FindDataBlockSizeAndStart [3, -1] [2, 3]).1 ∧
        r.start = (FindDataBlockSizeAndStart [3, -1] [2, 3]).2 ∧
        (r.found = false → r.sstride = 0) ∧
        (r.found = true → r.sstride = FindSimpleStride.loop [3, -1] [2, 3] UINT_MAX)) ∧
      FindSimpleStrideSizeAndStart [3, -1] [2, 3] =
        .ok ⟨true, FindSimpleStride.loop [3, -1] [2, 3] UINT_MAX,
          (FindDataBlockSizeAndStart [3, -1] [2, 3]).1,
          (FindDataBlockSizeAndStart [3, -1] [2, 3]).2⟩ := by
  have h := FindSimpleStride_of_traversable [3, -1] [2, 3] rfl (by decide) (by decide)
    (by decide) (by decide)
  refine ⟨h.1, h.2 ⟨?_, ?_⟩⟩
  · intro c hc
    match c, hc with
    | [x, y], hc =>
      simp only [ValidCoords, and_true] at hc
      obtain ⟨hx, hy⟩ := hc
      refine ⟨3 * x + (2 - y), ?_, ?_⟩
      · simp; omega
      · have e1 : (FindDataBlockSizeAndStart [3, -1] [2, 3]).2 = -2 := by decide
        have e2 : FindSimpleStride.loop [3, -1] [2, 3] UINT_MAX = 1 := rfl
        rw [e1, e2]
        simp only [offsetSum]
        push_cast
        omega
  · intro k hk
    have e1 : (FindDataBlockSizeAndStart [3, -1] [2, 3]).2 = -2 := by decide
    have e2 : FindSimpleStride.loop [3, -1] [2, 3] UINT_MAX = 1 := rfl
    rw [e1, e2]
    have hk6 : k < 6 := by simpa using hk
    refine ⟨[k / 3, 2 - k % 3], ?_, ?_, ?_⟩
    · simp only [ValidCoords, and_true]; omega
    · simp only [offsetSum]; push_cast; omega
    · intro c2 hc2 hoff
      match c2, hc2 with
      | [x, y], hc2 =>
        simp only [ValidCoords, and_true] at hc2
        simp only [offsetSum] at hoff
        have hx : x = k / 3 := by omega
        have hy : y = 2 - k % 3 := by omega
        rw [hx, hy]

end dip

namespace dip

/-! ## Decoding an offset -/

theorem tdiv_tmod_radix (q : Nat) (S R : Int) (hS : 0 < S) (hR0 : 0 ≤ R) (hR : R < S) :
    ((q : Int) * S + R).tdiv S = q ∧ ((q : Int) * S + R).tmod S = R := by
  have hq : (0 : Int) ≤ (q : Int) * S := mul_nonneg (by omega) hS.le
  have h0 : (0 : Int) ≤ (q : Int) * S + R := by omega
  constructor
  · rw [Int.tdiv_eq_ediv h0 hS.le, add_comm, Int.add_mul_ediv_right _ _ (by omega),
      Int.ediv_eq_zero_of_lt hR0 hR]
    simp
  · rw [Int.tmod_eq_emod h0 hS.le, add_comm, Int.add_mul_emod_self, Int.emod_eq_of_lt hR0 hR]

theorem radix_sum_nonneg (S : Nat → Int) (d : Nat → Nat) (l : List Nat)
    (h : ∀ i ∈ l, 0 < S i) : 0 ≤ (l.map (fun i => (d i : Int) * S i)).sum := by
  apply List.sum_nonneg
  intro x hx
  obtain ⟨i, hi, rfl⟩ := List.mem_map.mp hx
  exact mul_nonneg (by omega) (h i hi).le

/-- The decoding loop on a list of indices whose strides dominate what follows: every visited
dimension gets its digit, and the residue is handed to the rest of the loop. -/
theorem CoordinatesComputer.loop_radix (cc : CoordinatesComputer) (d v : Nat → Nat)
    (l1 : List Nat) (R : Int) (l2 : List Nat) (coords : List Nat) (hR : 0 ≤ R)
    (hdom : ∀ j rest, (j :: rest) <:+ l1 → 0 < cc.strides_.getD j 0 ∧
      (rest.map (fun i => (d i : Int) * cc.strides_.getD i 0)).sum + R < cc.strides_.getD j 0)
    (hout : ∀ j ∈ l1,
      (if cc.sizes_.getD j 0 < 0
        then toUint (-(cc.sizes_.getD j 0) - ((toUint (d j : Int) : Nat) : Int) - 1)
        else toUint (d j : Int)) = v j) :
    CoordinatesComputer.loop cc (l1 ++ l2)
        ((l1.map (fun i => (d i : Int) * cc.strides_.getD i 0)).sum + R) coords =
      CoordinatesComputer.loop cc l2 R (l1.foldl (fun cs j => cs.set j (v j)) coords) := by
  induction l1 generalizing coords with
  | nil => simp
  | cons j rest ih =>
    have hpos : ∀ i ∈ rest, 0 < cc.strides_.getD i 0 := by
      intro i hi
      obtain ⟨a, b, hab⟩ := List.append_of_mem hi
      refine (hdom i b ⟨j :: a, ?_⟩).1
      rw [hab]; simp
    have hj := hdom j rest (List.suffix_refl _)
    have hsum : 0 ≤ (rest.map (fun i => (d i : Int) * cc.strides_.getD i 0)).sum :=
      radix_sum_nonneg (fun i => cc.strides_.getD i 0) d rest hpos
    obtain ⟨hdiv, hmod⟩ := tdiv_tmod_radix (d j) (cc.strides_.getD j 0)
      ((rest.map (fun i => (d i : Int) * cc.strides_.getD i 0)).sum + R) hj.1
      (by omega) hj.2
    simp only [List.cons_append, List.map_cons, List.sum_cons, List.foldl_cons,
      CoordinatesComputer.loop]
    rw [add_assoc, hdiv, hmod, hout j (by simp)]
    exact ih _ (fun i r hs => hdom i r (hs.trans (List.suffix_cons j rest)))
      (fun i hi => hout i (by simp [hi]))

/-- The decoding loop with residue 0 on dimensions of stride 1 that are not marked: they all
get the coordinate 0. -/
theorem CoordinatesComputer.loop_residue_zero (cc : CoordinatesComputer) (l : List Nat)
    (coords : List Nat)
    (h : ∀ j ∈ l, cc.strides_.getD j 0 = 1 ∧ 0 ≤ cc.sizes_.getD j 0) :
    CoordinatesComputer.loop cc l 0 coords = l.foldl (fun cs j => cs.set j 0) coords := by
  induction l generalizing coords with
  | nil => rfl
  | cons j rest ih =>
    obtain ⟨h1, h2⟩ := h j (by simp)
    simp only [CoordinatesComputer.loop, List.foldl_cons, h1]
    rw [if_neg (by omega)]
    have e1 : (0 : Int).tdiv 1 = 0 := by decide
    have e2 : (0 : Int).tmod 1 = 0 := by decide
    have e3 : toUint 0 = 0 := by decide
    rw [e1, e2, e3]
    exact ih _ (fun i hi => h i (by simp [hi]))

/-- Writing `v j` at every index `j` of a list that covers all positions yields the list of
the `v j`. -/
theorem foldl_set_getElem? (v : Nat → Nat) (l : List Nat) (coords : List Nat) (j : Nat) :
    (l.foldl (fun cs i => cs.set i (v i)) coords)[j]? =
      if j ∈ l ∧ j < coords.length then some (v j) else coords[j]? := by
  induction l generalizing coords with
  | nil => simp
  | cons i rest ih =>
    simp only [List.foldl_cons]
    rw [ih, List.length_set, List.getElem?_set]
    by_cases h1 : j ∈ rest
    · by_cases h2 : j < coords.length
      · simp [h1, h2]
      · have : coords[j]? = none := by simp; omega
        simp [h1, h2, this]
        omega
    · by_cases h3 : i = j
      · subst h3
        by_cases h2 : i < coords.length
        · simp [h1, h2]
        · have : coords[i]? = none := by simp; omega
          simp [h1, h2, this]
      · have : ¬ j = i := fun h => h3 h.symm
        simp [h1, h3, this]

theorem foldl_set_cover (v : Nat → Nat) (l : List Nat) (coords target : List Nat)
    (hlen : coords.length = target.length) (hcover : ∀ j, j < target.length → j ∈ l)
    (hv : ∀ j, j < target.length → target[j]? = some (v j)) :
    l.foldl (fun cs i => cs.set i (v i)) coords = target := by
  apply List.ext_getElem?
  intro j
  rw [foldl_set_getElem?]
  by_cases h : j < target.length
  · rw [if_pos ⟨hcover j h, by omega⟩, hv j h]
  · rw [if_neg (by omega)]
    have h1 : coords[j]? = none := by simp; omega
    have h2 : target[j]? = none := by simp; omega
    rw [h1, h2]

end dip

namespace dip

/-! ### The arrays built by the constructor, entry by entry -/

theorem markedSizes_length (szs : List Nat) (sts : List Int) (h : szs.length = sts.length) :
    (CoordinatesComputer.markedSizesExact szs sts).length = szs.length := by
  induction szs generalizing sts with
  | nil => cases sts <;> simp [CoordinatesComputer.markedSizesExact]
  | cons sz szs ih =>
    cases sts with
    | nil => simp at h
    | cons st sts => simp [CoordinatesComputer.markedSizesExact, ih sts (by simpa using h)]

theorem positiveStrides_length (szs : List Nat) (sts : List Int) (h : szs.length = sts.length) :
    (CoordinatesComputer.positiveStridesExact szs sts).length = szs.length := by
  induction szs generalizing sts with
  | nil => cases sts <;> simp [CoordinatesComputer.positiveStridesExact]
  | cons sz szs ih =>
    cases sts with
    | nil => simp at h
    | cons st sts => simp [CoordinatesComputer.positiveStridesExact, ih sts (by simpa using h)]

theorem finalStrides_length (szs sts : List Int) (h : szs.length = sts.length) :
    (CoordinatesComputer.finalStrides szs sts).length = szs.length := by
  induction szs generalizing sts with
  | nil => cases sts <;> simp [CoordinatesComputer.finalStrides]
  | cons sz szs ih =>
    cases sts with
    | nil => simp at h
    | cons st sts => simp [CoordinatesComputer.finalStrides, ih sts (by simpa using h)]

theorem markedSizes_getD (szs : List Nat) (sts : List Int) (k : Nat)
    (h : szs.length = sts.length) :
    (CoordinatesComputer.markedSizesExact szs sts).getD k 0 =
      if ((szs.getD k 0 : Nat) : Int) ≠ 1 ∧ sts.getD k 0 ≠ 0 ∧ sts.getD k 0 < 0
      then -((szs.getD k 0 : Nat) : Int) else ((szs.getD k 0 : Nat) : Int) := by
  induction szs generalizing sts k with
  | nil => cases sts <;> simp [CoordinatesComputer.markedSizesExact]
  | cons sz szs ih =>
    cases sts with
    | nil => simp at h
    | cons st sts =>
      cases k with
      | zero => simp [CoordinatesComputer.markedSizesExact]
      | succ k =>
        simp only [CoordinatesComputer.markedSizesExact, List.getD_cons_succ]
        exact ih sts k (by simpa using h)

theorem positiveStrides_getD (szs : List Nat) (sts : List Int) (k : Nat)
    (h : szs.length = sts.length) :
    (CoordinatesComputer.positiveStridesExact szs sts).getD k 0 =
      if ((szs.getD k 0 : Nat) : Int) ≠ 1 ∧ sts.getD k 0 ≠ 0 ∧ sts.getD k 0 < 0
      then -(sts.getD k 0) else sts.getD k 0 := by
  induction szs generalizing sts k with
  | nil =>
    cases sts with
    | nil => simp [CoordinatesComputer.positiveStridesExact]
    | cons st sts => simp at h
  | cons sz szs ih =>
    cases sts with
    | nil => simp at h
    | cons st sts =>
      cases k with
      | zero => simp [CoordinatesComputer.positiveStridesExact]
      | succ k =>
        simp only [CoordinatesComputer.positiveStridesExact, List.getD_cons_succ]
        exact ih sts k (by simpa using h)

theorem finalStrides_getD (szs sts : List Int) (k : Nat) (hk : k < szs.length)
    (h : szs.length = sts.length) :
    (CoordinatesComputer.finalStrides szs sts).getD k 0 =
      if szs.getD k 0 = 1 ∨ sts.getD k 0 = 0 then 1 else sts.getD k 0 := by
  induction szs generalizing sts k with
  | nil => simp at hk
  | cons sz szs ih =>
    cases sts with
    | nil => simp at h
    | cons st sts =>
      cases k with
      | zero => simp [CoordinatesComputer.finalStrides]
      | succ k =>
        simp only [CoordinatesComputer.finalStrides, List.getD_cons_succ]
        exact ih sts k (by simpa using hk) (by simpa using h)

theorem mem_activeIndices (szs : List Nat) (sts : List Int) (ii j : Nat) :
    j ∈ CoordinatesComputer.activeIndices ii szs sts →
      ii ≤ j ∧ j - ii < szs.length ∧ j - ii < sts.length ∧
        ((szs.getD (j - ii) 0 : Nat) : Int) ≠ 1 ∧ sts.getD (j - ii) 0 ≠ 0 := by
  induction szs generalizing sts ii with
  | nil => simp [CoordinatesComputer.activeIndices]
  | cons sz szs ih =>
    cases sts with
    | nil => simp [CoordinatesComputer.activeIndices]
    | cons st sts =>
      intro hj
      simp only [CoordinatesComputer.activeIndices] at hj
      have key : j ∈ CoordinatesComputer.activeIndices (ii + 1) szs sts →
          ii ≤ j ∧ j - ii < (sz :: szs).length ∧ j - ii < (st :: sts).length ∧
            (((sz :: szs).getD (j - ii) 0 : Nat) : Int) ≠ 1 ∧ (st :: sts).getD (j - ii) 0 ≠ 0 := by
        intro hj2
        obtain ⟨h1, h2, h3, h4, h5⟩ := ih sts (ii + 1) hj2
        have e : j - ii = (j - (ii + 1)) + 1 := by omega
        rw [e]
        simp only [List.getD_cons_succ, List.length_cons]
        exact ⟨by omega, by omega, by omega, h4, h5⟩
      split_ifs at hj with hact
      · rcases List.mem_cons.mp hj with rfl | hj2
        · simp only [Nat.sub_self, List.getD_cons_zero, List.length_cons]
          exact ⟨le_refl _, by omega, by omega, hact.1, hact.2⟩
        · exact key hj2
      · exact key hj

theorem mem_indices_cover (szs : List Nat) (sts : List Int) (ii k : Nat)
    (h : szs.length = sts.length) (hk : k < szs.length) :
    ii + k ∈ CoordinatesComputer.activeIndices ii szs sts ∨
      ii + k ∈ CoordinatesComputer.singletonIndices ii
        (CoordinatesComputer.markedSizesExact szs sts) (CoordinatesComputer.positiveStridesExact szs sts) := by
  induction szs generalizing sts ii k with
  | nil => simp at hk
  | cons sz szs ih =>
    cases sts with
    | nil => simp at h
    | cons st sts =>
      simp only [CoordinatesComputer.activeIndices, CoordinatesComputer.markedSizesExact,
        CoordinatesComputer.positiveStridesExact, CoordinatesComputer.singletonIndices]
      cases k with
      | zero =>
        by_cases hact : (sz : Int) ≠ 1 ∧ st ≠ 0
        · left; simp [hact]
        · right
          have h1 : ¬ ((sz : Int) ≠ 1 ∧ st ≠ 0 ∧ st < 0) := fun hh => hact ⟨hh.1, hh.2.1⟩
          simp only [h1, if_false]
          have h2 : (sz : Int) = 1 ∨ st = 0 := by
            by_contra hc
            push_neg at hc
            exact hact hc
          have h3 : sz = 1 ∨ st = 0 := by
            rcases h2 with h2 | h2
            · left; exact_mod_cast h2
            · right; exact h2
          simp [h3]
      | succ k =>
        have := ih sts (ii + 1) k (by simpa using h) (by simpa using hk)
        have e : ii + (k + 1) = ii + 1 + k := by omega
        rw [e]
        rcases this with h1 | h1
        · left; split_ifs <;> simp [h1]
        · right; split_ifs <;> simp [h1]

theorem mem_singletonIndices (szs : List Nat) (sts : List Int) (ii j : Nat)
    (h : szs.length = sts.length) :
    j ∈ CoordinatesComputer.singletonIndices ii
        (CoordinatesComputer.markedSizesExact szs sts) (CoordinatesComputer.positiveStridesExact szs sts) →
      ii ≤ j ∧ j - ii < szs.length ∧
        (((szs.getD (j - ii) 0 : Nat) : Int) = 1 ∨ sts.getD (j - ii) 0 = 0) := by
  induction szs generalizing sts ii with
  | nil => cases sts <;> simp [CoordinatesComputer.markedSizesExact, CoordinatesComputer.singletonIndices]
  | cons sz szs ih =>
    cases sts with
    | nil => simp at h
    | cons st sts =>
      intro hj
      simp only [CoordinatesComputer.markedSizesExact, CoordinatesComputer.positiveStridesExact,
        CoordinatesComputer.singletonIndices] at hj
      have key : j ∈ CoordinatesComputer.singletonIndices (ii + 1)
          (CoordinatesComputer.markedSizesExact szs sts) (CoordinatesComputer.positiveStridesExact szs sts) →
          ii ≤ j ∧ j - ii < (sz :: szs).length ∧
            ((((sz :: szs).getD (j - ii) 0 : Nat) : Int) = 1 ∨ (st :: sts).getD (j - ii) 0 = 0) := by
        intro hj2
        obtain ⟨h1, h2, h3⟩ := ih sts (ii + 1) (by simpa using h) hj2
        have e : j - ii = (j - (ii + 1)) + 1 := by omega
        rw [e]
        simp only [List.getD_cons_succ, List.length_cons]
        exact ⟨by omega, by omega, h3⟩
      split_ifs at hj with h1 h2 h3
      · rcases List.mem_cons.mp hj with rfl | hj2
        · exfalso
          rcases h2 with h2 | h2
          · have : (0 : Int) ≤ sz := by omega
            omega
          · omega
        · exact key hj2
      · exact key hj
      · rcases List.mem_cons.mp hj with rfl | hj2
        · simp only [Nat.sub_self, List.getD_cons_zero, List.length_cons]
          exact ⟨le_refl _, by omega, h3⟩
        · exact key hj2
      · exact key hj

end dip

namespace dip

theorem ValidCoords_length (c sizes : List Nat) (h : ValidCoords c sizes) :
    c.length = sizes.length := by
  induction c generalizing sizes with
  | nil => cases sizes <;> simp_all [ValidCoords]
  | cons x xs ih =>
    cases sizes with
    | nil => simp [ValidCoords] at h
    | cons sz szs => simp [ih szs h.2]

theorem ValidCoords_getD (c sizes : List Nat) (h : ValidCoords c sizes) (k : Nat)
    (hk : k < sizes.length) : c.getD k 0 < sizes.getD k 0 := by
  induction c generalizing sizes k with
  | nil => cases sizes <;> simp_all [ValidCoords]
  | cons x xs ih =>
    cases sizes with
    | nil => simp [ValidCoords] at h
    | cons sz szs =>
      cases k with
      | zero => simpa using h.1
      | succ k =>
        simp only [List.getD_cons_succ]
        exact ih szs h.2 k (by simpa using hk)

theorem getD_mem (l : List Nat) (k : Nat) (hk : k < l.length) : l.getD k 0 ∈ l := by
  rw [List.getD_eq_getElem _ _ hk]
  exact List.getElem_mem hk

theorem expectedCoords_length (c : List Nat) (strides : List Int)
    (h : c.length = strides.length) : (expectedCoords c strides).length = c.length := by
  induction c generalizing strides with
  | nil => cases strides <;> simp [expectedCoords]
  | cons x xs ih =>
    cases strides with
    | nil => simp at h
    | cons st sts => simp [expectedCoords, ih sts (by simpa using h)]

theorem expectedCoords_getD (c : List Nat) (strides : List Int) (k : Nat)
    (h : c.length = strides.length) :
    (expectedCoords c strides).getD k 0 = if strides.getD k 0 = 0 then 0 else c.getD k 0 := by
  induction c generalizing strides k with
  | nil =>
    cases strides with
    | nil => simp [expectedCoords]
    | cons st sts => simp at h
  | cons x xs ih =>
    cases strides with
    | nil => simp at h
    | cons st sts =>
      cases k with
      | zero => simp [expectedCoords]
      | succ k =>
        simp only [expectedCoords, List.getD_cons_succ]
        exact ih sts k (by simpa using h)

/-- The sum of digit times stride over the recorded dimensions is the offset plus the
correction `offset_`. -/
theorem activeIndices_sum (szs : List Nat) (sts : List Int) (cs : List Nat) (ii : Nat)
    (F : Nat → Int) (hc : ValidCoords cs szs) (hlen : szs.length = sts.length)
    (hF : ∀ k, k < szs.length → ((szs.getD k 0 : Nat) : Int) ≠ 1 → sts.getD k 0 ≠ 0 →
      F (ii + k) = if sts.getD k 0 < 0
        then (((szs.getD k 0 : Nat) : Int) - 1 - ((cs.getD k 0 : Nat) : Int)) * (-(sts.getD k 0))
        else ((cs.getD k 0 : Nat) : Int) * sts.getD k 0) :
    ((CoordinatesComputer.activeIndices ii szs sts).map F).sum =
      offsetSum cs sts + CoordinatesComputer.mirrorOffset szs sts := by
  induction szs generalizing sts cs ii with
  | nil =>
    cases sts with
    | nil => cases cs <;> simp [CoordinatesComputer.activeIndices, offsetSum,
        CoordinatesComputer.mirrorOffset]
    | cons st sts => simp at hlen
  | cons sz szs ih =>
    cases sts with
    | nil => simp at hlen
    | cons st sts =>
      cases cs with
      | nil => simp [ValidCoords] at hc
      | cons c cs =>
        have hrec := ih sts cs (ii + 1) hc.2 (by simpa using hlen) (by
          intro k hk h1 h2
          have := hF (k + 1) (by simpa using hk) (by simpa using h1) (by simpa using h2)
          simp only [List.getD_cons_succ] at this
          rw [← this]
          congr 1
          omega)
        have h0 := hF 0 (by simp)
        simp only [List.getD_cons_zero, Nat.add_zero] at h0
        simp only [CoordinatesComputer.activeIndices, offsetSum,
          CoordinatesComputer.mirrorOffset]
        by_cases hact : (sz : Int) ≠ 1 ∧ st ≠ 0
        · rw [if_pos hact, List.map_cons, List.sum_cons, hrec, h0 hact.1 hact.2]
          by_cases hneg : st < 0
          · rw [if_pos hneg, if_pos ⟨hact.1, hact.2, hneg⟩]; ring
          · rw [if_neg hneg, if_neg (fun hh => hneg hh.2.2)]; ring
        · rw [if_neg hact, hrec, if_neg (fun hh => hact ⟨hh.1, hh.2.1⟩)]
          have hz : (c : Int) * st = 0 := by
            by_cases h1 : (sz : Int) = 1
            · have : c < sz := hc.1
              have : c = 0 := by omega
              simp [this]
            · have : st = 0 := by
                by_contra h2
                exact hact ⟨h1, h2⟩
              simp [this]
          rw [hz]; ring

/-- The recorded dimensions, with their sizes and absolute strides, form a sublist of all
dimensions. -/
theorem activeIndices_sublist (szs : List Nat) (sts : List Int) (ii : Nat)
    (P : Nat → Nat × Nat) (hlen : szs.length = sts.length)
    (hP : ∀ k, k < szs.length → P (ii + k) = (szs.getD k 0, (sts.getD k 0).natAbs)) :
    ((CoordinatesComputer.activeIndices ii szs sts).map P).Sublist (absDims szs sts) := by
  induction szs generalizing sts ii with
  | nil => cases sts <;> simp [CoordinatesComputer.activeIndices, absDims]
  | cons sz szs ih =>
    cases sts with
    | nil => simp at hlen
    | cons st sts =>
      have hrec := ih sts (ii + 1) (by simpa using hlen) (by
        intro k hk
        have := hP (k + 1) (by simpa using hk)
        simp only [List.getD_cons_succ] at this
        rw [← this]
        congr 1
        omega)
      have h0 := hP 0 (by simp)
      simp only [List.getD_cons_zero, Nat.add_zero] at h0
      simp only [CoordinatesComputer.activeIndices, absDims]
      split_ifs
      · rw [List.map_cons, h0]
        exact List.Sublist.cons₂ _ hrec
      · exact List.Sublist.cons _ hrec

theorem Subperm_sum_le (l1 l2 : List Nat) (h : l1.Subperm l2) : l1.sum ≤ l2.sum := by
  obtain ⟨l, hl, hs⟩ := h
  rw [← hl.sum_eq]
  exact List.Sublist.sum_le_sum hs (fun _ _ => Nat.zero_le _)

end dip

namespace dip

theorem CoordinatesComputer.loop_residue_zero_values (cc : CoordinatesComputer) (v : Nat → Nat)
    (l : List Nat) (coords : List Nat)
    (h : ∀ j ∈ l, cc.strides_.getD j 0 = 1 ∧ 0 ≤ cc.sizes_.getD j 0 ∧ v j = 0) :
    CoordinatesComputer.loop cc l 0 coords = l.foldl (fun cs j => cs.set j (v j)) coords := by
  rw [CoordinatesComputer.loop_residue_zero cc l coords (fun j hj => ⟨(h j hj).1, (h j hj).2.1⟩)]
  induction l generalizing coords with
  | nil => rfl
  | cons j rest ih =>
    simp only [List.foldl_cons, (h j (by simp)).2.2]
    exact ih _ (fun i hi => h i (by simp [hi]))

theorem ValidCoords_pos (c sizes : List Nat) (hc : ValidCoords c sizes) :
    ∀ sz ∈ sizes, 1 ≤ sz := by
  intro sz hsz
  obtain ⟨k, hk, rfl⟩ := List.getElem_of_mem hsz
  have := ValidCoords_getD c sizes hc k hk
  rw [List.getD_eq_getElem _ _ hk] at this
  omega

theorem markedSizes_eq_exact (szs : List Nat) (sts : List Int)
    (hfit : ∀ sz ∈ szs, sz ≤ SINT_MAX) :
    CoordinatesComputer.markedSizes szs sts = CoordinatesComputer.markedSizesExact szs sts := by
  induction szs generalizing sts with
  | nil => cases sts <;> rfl
  | cons sz szs ih =>
    cases sts with
    | nil => rfl
    | cons st sts =>
      simp only [CoordinatesComputer.markedSizes, CoordinatesComputer.markedSizesExact]
      have hsz := hfit sz (by simp)
      rw [toSint_of_le sz hsz, wrapSint_of_le _ (by rw [Int.natAbs_neg]; exact_mod_cast hsz),
        ih sts (fun x hx => hfit x (by simp [hx]))]

theorem positiveStrides_eq_exact (szs : List Nat) (sts : List Int)
    (hpos : ∀ sz ∈ szs, 1 ≤ sz) (hreach : reach szs sts ≤ SINT_MAX) :
    CoordinatesComputer.positiveStrides szs sts =
      CoordinatesComputer.positiveStridesExact szs sts := by
  induction szs generalizing sts with
  | nil => cases sts <;> rfl
  | cons sz szs ih =>
    cases sts with
    | nil => rfl
    | cons st sts =>
      rw [reach_cons] at hreach
      simp only [CoordinatesComputer.positiveStrides, CoordinatesComputer.positiveStridesExact]
      rw [ih sts (fun x hx => hpos x (by simp [hx])) (by omega)]
      congr 1
      split_ifs with h
      · apply wrapSint_of_le
        rw [Int.natAbs_neg]
        have h1 : 1 ≤ sz := hpos sz (by simp)
        have h2 : sz ≠ 1 := fun e => h.1 (by rw [e]; rfl)
        have h3 : st.natAbs ≤ (sz - 1) * st.natAbs := Nat.le_mul_of_pos_left _ (by omega)
        omega
      · rfl

/-- The offset of a valid coordinate vector, corrected by the exact `offset_`, and that
correction itself lie between 0 and the reach of the strides. -/
theorem mirror_sum_bounds (szs : List Nat) (sts : List Int) (cs : List Nat)
    (hc : ValidCoords cs szs) (hlen : szs.length = sts.length) :
    0 ≤ offsetSum cs sts + CoordinatesComputer.mirrorOffset szs sts ∧
      offsetSum cs sts + CoordinatesComputer.mirrorOffset szs sts ≤ (reach szs sts : Int) ∧
      0 ≤ CoordinatesComputer.mirrorOffset szs sts ∧
      CoordinatesComputer.mirrorOffset szs sts ≤ (reach szs sts : Int) := by
  induction szs generalizing sts cs with
  | nil =>
    cases sts with
    | nil => cases cs <;> simp [offsetSum, CoordinatesComputer.mirrorOffset, reach_nil_left]
    | cons st sts => simp at hlen
  | cons sz szs ih =>
    cases sts with
    | nil => simp at hlen
    | cons st sts =>
      cases cs with
      | nil => simp [ValidCoords] at hc
      | cons c cs =>
        obtain ⟨i1, i2, i3, i4⟩ := ih sts cs hc.2 (by simpa using hlen)
        have hcs : c < sz := hc.1
        have hsz : 1 ≤ sz := by omega
        have hn := cast_reach_term sz st hsz
        simp only [offsetSum, CoordinatesComputer.mirrorOffset, reach_cons]
        rw [Nat.cast_add, hn]
        have hcI : (c : Int) ≤ (sz : Int) - 1 := by omega
        have hc0 : (0 : Int) ≤ (c : Int) := by omega
        by_cases hneg : st < 0
        · have hp : ((sz : Int) - 1) * st ≤ 0 :=
            mul_nonpos_of_nonneg_of_nonpos (by omega) hneg.le
          rw [abs_of_nonpos hp]
          have k1 : ((sz : Int) - 1) * st ≤ (c : Int) * st :=
            mul_le_mul_of_nonpos_right hcI hneg.le
          have k2 : (c : Int) * st ≤ 0 := mul_nonpos_of_nonneg_of_nonpos hc0 hneg.le
          by_cases hact : (sz : Int) ≠ 1 ∧ st ≠ 0 ∧ st < 0
          · rw [if_pos hact]
            have e : -st * ((sz : Int) - 1) = -(((sz : Int) - 1) * st) := by ring
            rw [e]
            refine ⟨by linarith, by linarith, by linarith, by linarith⟩
          · rw [if_neg hact]
            have hs1 : (sz : Int) = 1 := by
              by_contra h1
              exact hact ⟨h1, by omega, hneg⟩
            have hc00 : c = 0 := by omega
            subst hc00
            simp only [Nat.cast_zero, zero_mul, zero_add, add_zero]
            refine ⟨i1, by linarith, i3, by linarith⟩
        · have hst : 0 ≤ st := not_lt.mp hneg
          have hp : 0 ≤ ((sz : Int) - 1) * st := mul_nonneg (by omega) hst
          rw [abs_of_nonneg hp, if_neg (fun h => hneg h.2.2)]
          have k1 : (c : Int) * st ≤ ((sz : Int) - 1) * st := mul_le_mul_of_nonneg_right hcI hst
          have k2 : 0 ≤ (c : Int) * st := mul_nonneg hc0 hst
          refine ⟨by linarith, by linarith, by linarith, by linarith⟩

theorem offsetSum_bounds (szs : List Nat) (sts : List Int) (cs : List Nat)
    (hc : ValidCoords cs szs) (hlen : szs.length = sts.length) :
    -(reach szs sts : Int) ≤ offsetSum cs sts ∧ offsetSum cs sts ≤ (reach szs sts : Int) := by
  obtain ⟨h1, h2, h3, h4⟩ := mirror_sum_bounds szs sts cs hc hlen
  constructor <;> linarith

/-- The decoder inverts `Offset` on dominant strides: for sizes and a reach that fit in a
`dip::sint`, strides of the same length that are dominant and a valid coordinate vector `c`, the
`CoordinatesComputer` built from the sizes and strides, applied to the offset of `c`, returns
`c`, with 0 in the dimensions of stride 0. -/
theorem CoordinatesComputer.decode_offset (sizes : List Nat) (strides : List Int)
    (c : List Nat) (hlen : sizes.length = strides.length) (hc : ValidCoords c sizes)
    (hfit : ∀ sz ∈ sizes, sz ≤ SINT_MAX) (hreach : reach sizes strides ≤ SINT_MAX)
    (hdom : Dominant (absDims sizes strides)) :
    ∃ cc, CoordinatesComputer.new sizes strides = .ok cc ∧
      cc.apply (offsetSum c strides) = expectedCoords c strides := by
  have hclen := ValidCoords_length c sizes hc
  have hfitU : ∀ sz ∈ sizes, sz ≤ UINT_MAX := fun sz h => le_trans (hfit sz h) (by decide)
  have e1 : SINT_MAX = 2 ^ 63 - 1 := rfl
  obtain ⟨hb1, hb2, hb3, hb4⟩ := mirror_sum_bounds sizes strides c hc hlen
  have hoff : wrapSint (CoordinatesComputer.mirrorOffset sizes strides) =
      CoordinatesComputer.mirrorOffset sizes strides :=
    wrapSint_of_range _ (by omega) (by omega)
  have hwrap : wrapSint (offsetSum c strides + CoordinatesComputer.mirrorOffset sizes strides) =
      offsetSum c strides + CoordinatesComputer.mirrorOffset sizes strides :=
    wrapSint_of_range _ (by omega) (by omega)
  have hnew : CoordinatesComputer.new sizes strides = .ok
      { index_ := insertionSort
          (fun p key => decide ((CoordinatesComputer.positiveStridesExact sizes strides).getD p 0 <
            (CoordinatesComputer.positiveStridesExact sizes strides).getD key 0))
          (CoordinatesComputer.activeIndices 0 sizes strides) ++
          CoordinatesComputer.singletonIndices 0 (CoordinatesComputer.markedSizesExact sizes strides)
            (CoordinatesComputer.positiveStridesExact sizes strides)
        sizes_ := CoordinatesComputer.markedSizesExact sizes strides
        strides_ := CoordinatesComputer.finalStrides
          (CoordinatesComputer.markedSizesExact sizes strides)
          (CoordinatesComputer.positiveStridesExact sizes strides)
        offset_ := CoordinatesComputer.mirrorOffset sizes strides } := by
    unfold CoordinatesComputer.new
    rw [if_neg (by simp [hlen]), markedSizes_eq_exact sizes strides hfit,
      positiveStrides_eq_exact sizes strides (ValidCoords_pos c sizes hc) hreach, hoff]
  refine ⟨_, hnew, ?_⟩
  simp only [CoordinatesComputer.apply, hwrap]
  -- the processing order and the arrays
  generalize hidx2 : insertionSort
    (fun p key => decide ((CoordinatesComputer.positiveStridesExact sizes strides).getD p 0 <
      (CoordinatesComputer.positiveStridesExact sizes strides).getD key 0))
    (CoordinatesComputer.activeIndices 0 sizes strides) = index2
  have hperm : index2.Perm (CoordinatesComputer.activeIndices 0 sizes strides) := by
    rw [← hidx2]; exact insertionSort_perm _ _
  have hsorted : index2.Pairwise (fun x y =>
      ¬ ((CoordinatesComputer.positiveStridesExact sizes strides).getD x 0 <
        (CoordinatesComputer.positiveStridesExact sizes strides).getD y 0)) := by
    have := insertionSort_pairwise
      (fun p key => decide ((CoordinatesComputer.positiveStridesExact sizes strides).getD p 0 <
        (CoordinatesComputer.positiveStridesExact sizes strides).getD key 0))
      (by intro a b h; simp only [decide_eq_true_eq, decide_eq_false_iff_not] at h ⊢; omega)
      (by intro a b c h1 h2; simp only [decide_eq_false_iff_not] at h1 h2 ⊢; omega)
      (CoordinatesComputer.activeIndices 0 sizes strides)
    rw [hidx2] at this
    simpa using this
  have hlen1 := markedSizes_length sizes strides hlen
  have hlen2 := positiveStrides_length sizes strides hlen
  -- facts about a recorded dimension
  have hact : ∀ j ∈ index2, j < sizes.length ∧ 2 ≤ sizes.getD j 0 ∧ strides.getD j 0 ≠ 0 ∧
      c.getD j 0 < sizes.getD j 0 ∧ sizes.getD j 0 ≤ UINT_MAX ∧
      (CoordinatesComputer.positiveStridesExact sizes strides).getD j 0 =
        ((strides.getD j 0).natAbs : Int) ∧
      (CoordinatesComputer.finalStrides (CoordinatesComputer.markedSizesExact sizes strides)
        (CoordinatesComputer.positiveStridesExact sizes strides)).getD j 0 =
        ((strides.getD j 0).natAbs : Int) ∧
      (CoordinatesComputer.markedSizesExact sizes strides).getD j 0 =
        if strides.getD j 0 < 0 then -((sizes.getD j 0 : Nat) : Int)
        else ((sizes.getD j 0 : Nat) : Int) := by
    intro j hj
    obtain ⟨-, h2, -, h4, h5⟩ := mem_activeIndices sizes strides 0 j (hperm.mem_iff.mp hj)
    simp only [Nat.sub_zero] at h2 h4 h5
    have hcj := ValidCoords_getD c sizes hc j h2
    have hsz : 2 ≤ sizes.getD j 0 := by
      have : sizes.getD j 0 ≠ 1 := by exact_mod_cast h4
      omega
    have hm := markedSizes_getD sizes strides j hlen
    have hp := positiveStrides_getD sizes strides j hlen
    have hf := finalStrides_getD (CoordinatesComputer.markedSizesExact sizes strides)
      (CoordinatesComputer.positiveStridesExact sizes strides) j (by omega) (by omega)
    have hp2 : (CoordinatesComputer.positiveStridesExact sizes strides).getD j 0 =
        ((strides.getD j 0).natAbs : Int) := by
      rw [hp]
      split_ifs with hh
      · have := hh.2.2; omega
      · have : ¬ strides.getD j 0 < 0 := fun h => hh ⟨h4, h5, h⟩
        omega
    have hm2 : (CoordinatesComputer.markedSizesExact sizes strides).getD j 0 =
        if strides.getD j 0 < 0 then -((sizes.getD j 0 : Nat) : Int)
        else ((sizes.getD j 0 : Nat) : Int) := by
      rw [hm]
      by_cases hneg : strides.getD j 0 < 0
      · rw [if_pos ⟨h4, h5, hneg⟩, if_pos hneg]
      · rw [if_neg (fun hh => hneg hh.2.2), if_neg hneg]
    refine ⟨h2, hsz, h5, hcj, hfitU _ (getD_mem sizes j h2), hp2, ?_, hm2⟩
    rw [hf, hm2, hp2, if_neg]
    intro hh
    rcases hh with hh | hh
    · split_ifs at hh <;> omega
    · omega
  -- the digits
  let d : Nat → Nat := fun j =>
    if strides.getD j 0 < 0 then sizes.getD j 0 - 1 - c.getD j 0 else c.getD j 0
  let v : Nat → Nat := fun j => (expectedCoords c strides).getD j 0
  have hsum : offsetSum c strides + CoordinatesComputer.mirrorOffset sizes strides =
      (index2.map (fun i => (d i : Int) *
        (CoordinatesComputer.finalStrides (CoordinatesComputer.markedSizesExact sizes strides)
          (CoordinatesComputer.positiveStridesExact sizes strides)).getD i 0)).sum + 0 := by
    rw [add_zero, (hperm.map _).sum_eq]
    symm
    apply activeIndices_sum sizes strides c 0 _ hc hlen
    intro k hk h1 h2
    have hmem : k ∈ index2 := by
      apply hperm.mem_iff.mpr
      have := mem_indices_cover sizes strides 0 k hlen hk
      simp only [Nat.zero_add] at this
      rcases this with h | h
      · exact h
      · obtain ⟨-, -, h3⟩ := mem_singletonIndices sizes strides 0 k hlen h
        simp only [Nat.sub_zero] at h3
        rcases h3 with h3 | h3
        · exact absurd h3 h1
        · exact absurd h3 h2
    obtain ⟨-, hsz, -, hcj, -, -, hfs, -⟩ := hact k hmem
    simp only [Nat.zero_add, hfs, d]
    by_cases hneg : strides.getD k 0 < 0
    · rw [if_pos hneg, if_pos hneg]
      have e1 : ((sizes.getD k 0 - 1 - c.getD k 0 : Nat) : Int) =
          ((sizes.getD k 0 : Nat) : Int) - 1 - ((c.getD k 0 : Nat) : Int) := by omega
      have e2 : ((strides.getD k 0).natAbs : Int) = -(strides.getD k 0) := by omega
      rw [e1, e2]
    · rw [if_neg hneg, if_neg hneg]
      have e2 : ((strides.getD k 0).natAbs : Int) = strides.getD k 0 := by omega
      rw [e2]
  show CoordinatesComputer.loop _ (index2 ++ _) (offsetSum c strides +
    CoordinatesComputer.mirrorOffset sizes strides) _ = _
  rw [hsum]
  rw [CoordinatesComputer.loop_radix _ d v index2 0 _ _ (le_refl 0)]
  · rw [CoordinatesComputer.loop_residue_zero_values _ v, ← List.foldl_append]
    · apply foldl_set_cover
      · rw [List.length_replicate, finalStrides_length _ _ (by omega), hlen1,
          expectedCoords_length c strides (by omega), hclen]
      · intro j hj
        rw [expectedCoords_length c strides (by omega), hclen] at hj
        have := mem_indices_cover sizes strides 0 j hlen hj
        simp only [Nat.zero_add] at this
        rcases this with h | h
        · exact List.mem_append_left _ (hperm.mem_iff.mpr h)
        · exact List.mem_append_right _ h
      · intro j hj
        simp only [v]
        rw [List.getD_eq_getElem _ _ hj, List.getElem?_eq_getElem hj]
    · intro j hj
      obtain ⟨-, h2, h3⟩ := mem_singletonIndices sizes strides 0 j hlen hj
      simp only [Nat.sub_zero] at h2 h3
      have hm := markedSizes_getD sizes strides j hlen
      have hp := positiveStrides_getD sizes strides j hlen
      have hf := finalStrides_getD (CoordinatesComputer.markedSizesExact sizes strides)
        (CoordinatesComputer.positiveStridesExact sizes strides) j (by omega) (by omega)
      have hnm : ¬ (((sizes.getD j 0 : Nat) : Int) ≠ 1 ∧ strides.getD j 0 ≠ 0 ∧
          strides.getD j 0 < 0) := by
        intro hh
        rcases h3 with h3 | h3
        · exact hh.1 h3
        · exact hh.2.1 h3
      rw [if_neg hnm] at hm hp
      refine ⟨?_, ?_, ?_⟩
      · show (CoordinatesComputer.finalStrides _ _).getD j 0 = 1
        rw [hf, hm, hp, if_pos h3]
      · show 0 ≤ (CoordinatesComputer.markedSizesExact sizes strides).getD j 0
        rw [hm]; omega
      · simp only [v]
        rw [expectedCoords_getD c strides j (by omega)]
        split_ifs with h0
        · rfl
        · rcases h3 with h3 | h3
          · have := ValidCoords_getD c sizes hc j h2
            have : sizes.getD j 0 = 1 := by exact_mod_cast h3
            omega
          · exact absurd h3 h0
  · -- dominance along the sorted order
    intro j rest hsuf
    have hjmem : j ∈ index2 := hsuf.subset (by simp)
    obtain ⟨hjn, hjsz, hjst, -, -, hjps, hjfs, -⟩ := hact j hjmem
    have hpos : (0 : Int) < ((strides.getD j 0).natAbs : Int) := by omega
    refine ⟨by show (0 : Int) < (CoordinatesComputer.finalStrides _ _).getD j 0; rw [hjfs]; exact hpos, ?_⟩
    show (rest.map (fun i => (d i : Int) * (CoordinatesComputer.finalStrides _ _).getD i 0)).sum + 0 <
      (CoordinatesComputer.finalStrides _ _).getD j 0
    rw [hjfs, add_zero]
    -- the weights of the dimensions from `j` on
    let P : Nat → Nat × Nat := fun i => (sizes.getD i 0, (strides.getD i 0).natAbs)
    have hsub : ((j :: rest).map P).Subperm
        ((absDims sizes strides).filter (fun q => decide (q.2 ≤ (strides.getD j 0).natAbs))) := by
      have h1 : ((j :: rest).map P).Subperm (absDims sizes strides) := by
        have s1 : ((j :: rest).map P).Sublist (index2.map P) := hsuf.sublist.map P
        have s2 : (index2.map P).Perm ((CoordinatesComputer.activeIndices 0 sizes strides).map P) :=
          hperm.map P
        have s3 := activeIndices_sublist sizes strides 0 P hlen (by intro k _; simp [P])
        exact (s1.subperm.trans s2.subperm).trans s3.subperm
      have h2 := List.Subperm.filter (fun q : Nat × Nat =>
        decide (q.2 ≤ (strides.getD j 0).natAbs)) h1
      have h3 : ((j :: rest).map P).filter
          (fun q : Nat × Nat => decide (q.2 ≤ (strides.getD j 0).natAbs)) = (j :: rest).map P := by
        rw [List.filter_eq_self]
        intro q hq
        obtain ⟨i, hi, rfl⟩ := List.mem_map.mp hq
        simp only [P, decide_eq_true_eq]
        rcases List.mem_cons.mp hi with rfl | hi
        · exact le_refl _
        · have hpw := hsorted.sublist hsuf.sublist
          rw [List.pairwise_cons] at hpw
          have := hpw.1 i hi
          obtain ⟨-, -, -, -, -, hips, -, -⟩ := hact i (hsuf.subset (by simp [hi]))
          rw [hjps, hips] at this
          omega
      rw [h3] at h2
      exact h2
    have hsub2 : (((j :: rest).map P).map (fun q : Nat × Nat => (q.1 - 1) * q.2)).Subperm
        (((absDims sizes strides).filter
          (fun q => decide (q.2 ≤ (strides.getD j 0).natAbs))).map
            (fun q : Nat × Nat => (q.1 - 1) * q.2)) := by
      obtain ⟨l, hl, hs⟩ := hsub
      exact ⟨l.map _, hl.map _, hs.map _⟩
    have hw := Subperm_sum_le _ _ hsub2
    have hpj : P j ∈ absDims sizes strides := by
      have s3 := activeIndices_sublist sizes strides 0 P hlen (by intro k _; simp [P])
      apply s3.subset
      exact List.mem_map.mpr ⟨j, hperm.mem_iff.mp hjmem, rfl⟩
    have hD := hdom (P j) hpj (by simp only [P]; omega) (by simp only [P]; omega)
    simp only [P, List.map_cons, List.sum_cons, List.map_map] at hw hD
    have hmul : sizes.getD j 0 * (strides.getD j 0).natAbs =
        (sizes.getD j 0 - 1) * (strides.getD j 0).natAbs + (strides.getD j 0).natAbs := by
      obtain ⟨b, hb⟩ : ∃ b, sizes.getD j 0 = b + 1 := ⟨sizes.getD j 0 - 1, by omega⟩
      rw [hb]; simp; ring
    have hnat : (rest.map ((fun q : Nat × Nat => (q.1 - 1) * q.2) ∘
        fun i => (sizes.getD i 0, (strides.getD i 0).natAbs))).sum < (strides.getD j 0).natAbs := by
      omega
    -- the digits are below the sizes
    have hdig : (rest.map (fun i => (d i : Int) * ((strides.getD i 0).natAbs : Int))).sum ≤
        (rest.map (fun i => (((sizes.getD i 0 - 1) * (strides.getD i 0).natAbs : Nat) : Int))).sum := by
      apply List.sum_le_sum
      intro i hi
      obtain ⟨-, hisz, -, hic, -, -, -, -⟩ := hact i (hsuf.subset (by simp [hi]))
      have hd : d i ≤ sizes.getD i 0 - 1 := by
        simp only [d]
        split_ifs <;> omega
      have hmul2 : d i * (strides.getD i 0).natAbs ≤
          (sizes.getD i 0 - 1) * (strides.getD i 0).natAbs := Nat.mul_le_mul_right _ hd
      exact_mod_cast hmul2
    have hfs : ∀ i ∈ rest, (CoordinatesComputer.finalStrides
        (CoordinatesComputer.markedSizesExact sizes strides)
        (CoordinatesComputer.positiveStridesExact sizes strides)).getD i 0 =
        ((strides.getD i 0).natAbs : Int) := by
      intro i hi
      exact (hact i (hsuf.subset (by simp [hi]))).2.2.2.2.2.2.1
    have hcongr : (rest.map (fun i => (d i : Int) * (CoordinatesComputer.finalStrides
        (CoordinatesComputer.markedSizesExact sizes strides)
        (CoordinatesComputer.positiveStridesExact sizes strides)).getD i 0)) =
        (rest.map (fun i => (d i : Int) * ((strides.getD i 0).natAbs : Int))) := by
      apply List.map_congr_left
      intro i hi
      rw [hfs i hi]
    rw [hcongr]
    have hcast : (rest.map (fun i => (((sizes.getD i 0 - 1) * (strides.getD i 0).natAbs : Nat) : Int))).sum =
        (((rest.map ((fun q : Nat × Nat => (q.1 - 1) * q.2) ∘
          fun i => (sizes.getD i 0, (strides.getD i 0).natAbs))).sum : Nat) : Int) := by
      rw [Nat.cast_list_sum, List.map_map]
      rfl
    rw [hcast] at hdig
    have : (((rest.map ((fun q : Nat × Nat => (q.1 - 1) * q.2) ∘
          fun i => (sizes.getD i 0, (strides.getD i 0).natAbs))).sum : Nat) : Int) <
        ((strides.getD j 0).natAbs : Int) := by exact_mod_cast hnat
    omega
  · -- the coordinates written
    intro j hj
    obtain ⟨hjn, hjsz, hjst, hjc, hjfit, -, -, hjm⟩ := hact j hj
    show (if (CoordinatesComputer.markedSizesExact sizes strides).getD j 0 < 0
      then toUint (-((CoordinatesComputer.markedSizesExact sizes strides).getD j 0) -
        ((toUint (d j : Int) : Nat) : Int) - 1)
      else toUint (d j : Int)) = v j
    have hv : v j = c.getD j 0 := by
      simp only [v]
      rw [expectedCoords_getD c strides j (by omega), if_neg hjst]
    have hdfit : d j ≤ UINT_MAX := by
      simp only [d]
      split_ifs <;> omega
    rw [hjm, hv, toUint_natCast _ hdfit]
    by_cases hneg : strides.getD j 0 < 0
    · rw [if_pos hneg, if_pos (by omega)]
      have e : -(-((sizes.getD j 0 : Nat) : Int)) - ((d j : Nat) : Int) - 1 =
          ((c.getD j 0 : Nat) : Int) := by
        simp only [d, if_pos hneg]
        omega
      rw [e, toUint_natCast _ (by omega)]
    · rw [if_neg hneg, if_neg (by omega)]
      simp only [d, if_neg hneg]

end dip

namespace dip

/-! ### Dominant strides -/

theorem Dominant_of_perm (l1 l2 : List (Nat × Nat)) (h : l1.Perm l2) (hd : Dominant l1) :
    Dominant l2 := by
  intro p hp h1 h2
  have := hd p (h.mem_iff.mpr hp) h1 h2
  rwa [((h.filter _).map _).sum_eq] at this

theorem absDims_length (sizes : List Nat) (strides : List Int)
    (h : sizes.length = strides.length) : (absDims sizes strides).length = sizes.length := by
  induction sizes generalizing strides with
  | nil => cases strides <;> simp [absDims]
  | cons sz szs ih =>
    cases strides with
    | nil => simp at h
    | cons st sts => simp [absDims, ih sts (by simpa using h)]

theorem absDims_set (sizes : List Nat) (strides : List Int) (i : Nat) (a : Nat) (b : Int) :
    absDims (sizes.set i a) (strides.set i b) = (absDims sizes strides).set i (a, b.natAbs) := by
  induction sizes generalizing strides i with
  | nil => cases strides <;> simp [absDims]
  | cons sz szs ih =>
    cases strides with
    | nil => simp [absDims]
    | cons st sts =>
      cases i with
      | zero => simp [absDims]
      | succ i => simp [absDims, ih sts i]

theorem absDims_getD (sizes : List Nat) (strides : List Int) (i : Nat)
    (h : sizes.length = strides.length) :
    (absDims sizes strides).getD i (0, 0) = (sizes.getD i 0, (strides.getD i 0).natAbs) := by
  induction sizes generalizing strides i with
  | nil =>
    cases strides with
    | nil => simp [absDims]
    | cons st sts => simp at h
  | cons sz szs ih =>
    cases strides with
    | nil => simp at h
    | cons st sts =>
      cases i with
      | zero => simp [absDims]
      | succ i =>
        simp only [absDims, List.getD_cons_succ]
        exact ih sts i (by simpa using h)

/-- Exchanging two entries of a list permutes it. -/
theorem swap_perm {α : Type} [DecidableEq α] (l : List α) (i j : Nat) (d : α)
    (hi : i < l.length) (hj : j < l.length) :
    ((l.set i (l.getD j d)).set j (l.getD i d)).Perm l := by
  rw [List.perm_iff_count]
  intro b
  rw [List.getD_eq_getElem _ _ hi, List.getD_eq_getElem _ _ hj]
  rw [List.count_set _ _ _ _ (by simpa using hj), List.count_set _ _ _ _ hi]
  rw [List.getElem_set]
  have hci : l[i] = b → 0 < l.count b := by
    intro h
    rw [List.count_pos_iff]
    rw [← h]
    exact List.getElem_mem hi
  by_cases h1 : l[i] = b <;> by_cases h2 : l[j] = b
  · have := hci h1
    simp [h1, h2]
    omega
  · have := hci h1
    simp [h1, h2]
    omega
  · simp [h1, h2]
  · simp [h1, h2]

theorem absDims_mirror (sizes : List Nat) (strides : List Int) (process : List Bool) :
    absDims sizes (mirrorStrides strides process) = absDims sizes strides := by
  induction sizes generalizing strides process with
  | nil => cases strides <;> cases process <;> simp [absDims, mirrorStrides]
  | cons sz szs ih =>
    cases strides with
    | nil => cases process <;> simp [absDims, mirrorStrides]
    | cons st sts =>
      cases process with
      | nil => simp [mirrorStrides]
      | cons b bs =>
        simp only [mirrorStrides, absDims, ih sts bs]
        split_ifs <;> simp

theorem mirrorStrides_length (strides : List Int) (process : List Bool) :
    (mirrorStrides strides process).length = strides.length := by
  induction strides generalizing process with
  | nil => cases process <;> simp [mirrorStrides]
  | cons st sts ih => cases process <;> simp [mirrorStrides, ih]

theorem absDims_normal_ge (sizes : List Nat) (s : Nat) (hpos : ∀ sz ∈ sizes, 1 ≤ sz) :
    ∀ q ∈ absDims sizes (ComputeStridesExact sizes s), s ≤ q.2 := by
  induction sizes generalizing s with
  | nil => simp [absDims, ComputeStridesExact]
  | cons sz rest ih =>
    intro q hq
    simp only [ComputeStridesExact, absDims, List.mem_cons] at hq
    rcases hq with rfl | hq
    · simp
    · have h1 := ih (s * sz) (fun x hx => hpos x (by simp [hx])) q hq
      have h2 : 1 ≤ sz := hpos sz (by simp)
      have h3 : s ≤ s * sz := Nat.le_mul_of_pos_right s h2
      omega

theorem absDims_normal_bound (sizes : List Nat) (s : Nat) (hs : 1 ≤ s)
    (hpos : ∀ sz ∈ sizes, 1 ≤ sz) :
    ∀ p ∈ absDims sizes (ComputeStridesExact sizes s), p.1 ≠ 1 →
      (((absDims sizes (ComputeStridesExact sizes s)).filter (fun q => decide (q.2 ≤ p.2))).map
        (fun q => (q.1 - 1) * q.2)).sum + s ≤ p.1 * p.2 := by
  induction sizes generalizing s with
  | nil => simp [absDims, ComputeStridesExact]
  | cons sz rest ih =>
    have hrest : ∀ x ∈ rest, 1 ≤ x := fun x hx => hpos x (by simp [hx])
    have h2 : 1 ≤ sz := hpos sz (by simp)
    have hs2 : 1 ≤ s * sz := Nat.one_le_iff_ne_zero.mpr (Nat.mul_ne_zero (by omega) (by omega))
    have hmul : sz * s = (sz - 1) * s + s := by
      obtain ⟨b, hb⟩ : ∃ b, sz = b + 1 := ⟨sz - 1, by omega⟩
      rw [hb]; simp; ring
    intro p hp hp1
    simp only [ComputeStridesExact, absDims, List.mem_cons, Int.natAbs_ofNat] at hp ⊢
    rcases hp with rfl | hp
    · -- the first dimension: nothing behind it has a stride as small
      simp only at hp1
      have hnone : (absDims rest (ComputeStridesExact rest (s * sz))).filter
          (fun q => decide (q.2 ≤ s)) = [] := by
        rw [List.filter_eq_nil_iff]
        intro q hq
        have := absDims_normal_ge rest (s * sz) hrest q hq
        have h3 : s * 2 ≤ s * sz := Nat.mul_le_mul_left s (by omega)
        simp only [decide_eq_true_eq, not_le]
        omega
      simp only [List.filter_cons, le_refl, decide_True, if_true, hnone, List.map_cons,
        List.map_nil, List.sum_cons, List.sum_nil]
      omega
    · have hge := absDims_normal_ge rest (s * sz) hrest p hp
      have h3 : s ≤ s * sz := Nat.le_mul_of_pos_right s h2
      have hin : s ≤ p.2 := by omega
      have := ih (s * sz) hs2 hrest p hp hp1
      simp only [List.filter_cons, hin, decide_True, if_true, List.map_cons, List.sum_cons]
      have e : s * sz = sz * s := Nat.mul_comm _ _
      omega

/-- Normal strides are dominant. -/
theorem Dominant_normal (sizes : List Nat) (s : Nat) (hs : 1 ≤ s)
    (hpos : ∀ sz ∈ sizes, 1 ≤ sz) : Dominant (absDims sizes (ComputeStridesExact sizes s)) := by
  intro p hp h1 _
  have := absDims_normal_bound sizes s hs hpos p hp h1
  omega

end dip

namespace dip

/-! ### Round trips -/

theorem Image.Offset_loop_valid (c sizes : List Nat) (strides : List Int) (acc : Int)
    (hc : ValidCoords c sizes) (hlen : sizes.length = strides.length) :
    Image.Offset.loop c sizes strides (wrapSint acc) =
      .ok (wrapSint (acc + offsetSum c strides)) := by
  induction c generalizing sizes strides acc with
  | nil =>
    cases sizes with
    | nil => cases strides <;> simp [Image.Offset.loop, offsetSum]
    | cons sz szs => simp [ValidCoords] at hc
  | cons x xs ih =>
    cases sizes with
    | nil => simp [ValidCoords] at hc
    | cons sz szs =>
      cases strides with
      | nil => simp at hlen
      | cons st sts =>
        simp only [Image.Offset.loop, offsetSum]
        rw [if_neg (by have := hc.1; omega), wrapSint_wrapSint_add,
          ih szs sts _ hc.2 (by simpa using hlen), add_assoc]

/-- On valid coordinates `Offset` returns the sum of `coords[ ii ] * strides_[ ii ]` reduced
to 64 bits. -/
theorem Image.Offset_wrap (img : Image) (c : List Nat) (hf : img.IsForged = true)
    (hlen : img.sizes_.length = img.strides_.length) (hc : ValidCoords c img.sizes_) :
    img.Offset c = .ok (wrapSint (offsetSum c img.strides_)) := by
  have h0 : wrapSint 0 = 0 := by decide
  have := Image.Offset_loop_valid c img.sizes_ img.strides_ 0 hc hlen
  rw [h0, zero_add] at this
  unfold Image.Offset
  rw [if_neg (by simp [hf]), if_neg (by simp [ValidCoords_length c _ hc]), this]

/-- On valid coordinates of a view whose reach fits in a `dip::sint`, `Offset` returns the
exact sum of `coords[ ii ] * strides_[ ii ]`. -/
theorem Image.Offset_valid (img : Image) (c : List Nat) (hf : img.IsForged = true)
    (hlen : img.sizes_.length = img.strides_.length) (hc : ValidCoords c img.sizes_)
    (hreach : reach img.sizes_ img.strides_ ≤ SINT_MAX) :
    img.Offset c = .ok (offsetSum c img.strides_) := by
  have e1 : SINT_MAX = 2 ^ 63 - 1 := rfl
  obtain ⟨h1, h2⟩ := offsetSum_bounds img.sizes_ img.strides_ c hc hlen
  rw [Image.Offset_wrap img c hf hlen hc, wrapSint_of_range _ (by omega) (by omega)]

theorem Image.Index_loop_valid (c sizes : List Nat) (hc : ValidCoords c sizes)
    (hfit : sizes.prod ≤ UINT_MAX) :
    ∃ k : Nat, Image.Index.loop c sizes = .ok k ∧ k < sizes.prod ∧
      ∀ s : Nat, offsetSum c (ComputeStridesExact sizes s) = ((s * k : Nat) : Int) := by
  induction c generalizing sizes with
  | nil =>
    cases sizes with
    | nil => exact ⟨0, rfl, by simp, by simp [offsetSum, ComputeStridesExact]⟩
    | cons sz szs => simp [ValidCoords] at hc
  | cons x xs ih =>
    cases sizes with
    | nil => simp [ValidCoords] at hc
    | cons sz szs =>
      have e2 : UINT_MAX = 2 ^ 64 - 1 := rfl
      have hx : x < sz := hc.1
      rw [List.prod_cons] at hfit
      have hle : szs.prod ≤ sz * szs.prod := Nat.le_mul_of_pos_left _ (by omega)
      obtain ⟨k, hk, hkp, hks⟩ := ih szs hc.2 (by omega)
      have hlt : k * sz + x < sz * szs.prod := by
        calc k * sz + x < k * sz + sz := by omega
          _ = (k + 1) * sz := by ring
          _ ≤ szs.prod * sz := Nat.mul_le_mul_right sz hkp
          _ = sz * szs.prod := Nat.mul_comm _ _
      refine ⟨k * sz + x, ?_, by rw [List.prod_cons]; exact hlt, ?_⟩
      · simp only [Image.Index.loop, hk]
        rw [if_neg (by omega), Nat.mod_eq_of_lt (by omega)]
      · intro s
        simp only [ComputeStridesExact, offsetSum, hks (s * sz)]
        push_cast
        ring

theorem expectedCoords_eq_self (c sizes : List Nat) (strides : List Int)
    (hc : ValidCoords c sizes) (hlen : sizes.length = strides.length)
    (hz : ∀ p ∈ absDims sizes strides, p.2 = 0 → p.1 = 1) : expectedCoords c strides = c := by
  induction c generalizing sizes strides with
  | nil => cases strides <;> simp [expectedCoords]
  | cons x xs ih =>
    cases sizes with
    | nil => simp [ValidCoords] at hc
    | cons sz szs =>
      cases strides with
      | nil => simp at hlen
      | cons st sts =>
        simp only [expectedCoords]
        rw [ih szs sts hc.2 (by simpa using hlen) (fun p hp => hz p (by simp [absDims, hp]))]
        by_cases h0 : st = 0
        · have := hz (sz, st.natAbs) (by simp [absDims]) (by simp [h0])
          have hx := hc.1
          simp only at this
          rw [if_pos h0]
          congr 1
          omega
        · rw [if_neg h0]

/-- Counterexample of C3: a view with one dimension of size 2 and stride 0 (singleton
expanded).  The coordinate vector [1] is valid and has offset 0, which the decoder turns into
[0]. -/
theorem OffsetToCoordinates_zero_stride :
    ValidCoords [1] [2] ∧
      Image.Offset ⟨.UINT8, [2], [0], 1, 1, false, some 0, 0⟩ [1] = .ok 0 ∧
      Image.OffsetToCoordinates ⟨.UINT8, [2], [0], 1, 1, false, some 0, 0⟩ 0 = .ok [0] ∧
      ([0] : List Nat) ≠ [1] := by
  refine ⟨by simp [ValidCoords], rfl, rfl, by decide⟩

/-- C3 as amended: for any forged view whose sizes and reach (the sum of
`( sizes[ i ] - 1 ) * |strides[ i ]|`) fit in a `dip::sint` and whose strides (negative ones,
strides enlarged by slicing with a step and zero strides included) are dominant, and any
valid coordinate vector `c`, `OffsetToCoordinates( Offset( c ) )` is `c` with the coordinate
replaced by 0 in every dimension of stride 0; it is `c` itself when the only dimensions of
stride 0 are of size 1. -/
theorem OffsetToCoordinates_Offset (img : Image) (c : List Nat) (hf : img.IsForged = true)
    (hlen : img.sizes_.length = img.strides_.length)
    (hfit : ∀ sz ∈ img.sizes_, sz ≤ SINT_MAX)
    (hreach : reach img.sizes_ img.strides_ ≤ SINT_MAX)
    (hdom : Dominant (absDims img.sizes_ img.strides_)) (hc : ValidCoords c img.sizes_) :
    ∃ offset, img.Offset c = .ok offset ∧
      img.OffsetToCoordinates offset = .ok (expectedCoords c img.strides_) ∧
      ((∀ p ∈ absDims img.sizes_ img.strides_, p.2 = 0 → p.1 = 1) →
        img.OffsetToCoordinates offset = .ok c) := by
  obtain ⟨cc, hcc, happ⟩ := CoordinatesComputer.decode_offset img.sizes_ img.strides_ c hlen hc
    hfit hreach hdom
  have h1 : img.OffsetToCoordinates (offsetSum c img.strides_) =
      .ok (expectedCoords c img.strides_) := by
    unfold Image.OffsetToCoordinates Image.OffsetToCoordinatesComputer
    rw [if_neg (by simp [hf]), hcc]
    simp only [happ]
  refine ⟨_, Image.Offset_valid img c hf hlen hc hreach, h1, ?_⟩
  intro hz
  rw [h1, expectedCoords_eq_self c _ _ hc hlen hz]

/-- Witness of C3 as amended: 3 by 4 pixels seen with a step of 2 along the first dimension
and mirrored along the second (strides [2, -3]), and the coordinates (1, 2). -/
theorem OffsetToCoordinates_Offset_witness :
    ∃ offset, Image.Offset ⟨.UINT8, [2, 4], [2, -3], 1, 1, false, some 0, 9⟩ [1, 2] = .ok offset ∧
      Image.OffsetToCoordinates ⟨.UINT8, [2, 4], [2, -3], 1, 1, false, some 0, 9⟩ offset =
        .ok (expectedCoords [1, 2] [2, -3]) ∧
      ((∀ p ∈ absDims [2, 4] [2, -3], p.2 = 0 → p.1 = 1) →
        Image.OffsetToCoordinates ⟨.UINT8, [2, 4], [2, -3], 1, 1, false, some 0, 9⟩ offset =
          .ok [1, 2]) :=
  OffsetToCoordinates_Offset ⟨.UINT8, [2, 4], [2, -3], 1, 1, false, some 0, 9⟩ [1, 2] rfl rfl
    (by decide) (by decide) (by
      intro p hp h1 h2
      simp only [absDims, Int.natAbs_ofNat, Int.natAbs_neg, List.mem_cons, List.mem_singleton,
        List.not_mem_nil, or_false] at hp
      rcases hp with rfl | rfl <;> decide) (by simp [ValidCoords])

/-- Counterexample of C2: the forged view of `dip::uint16` samples with the sizes [2^63 + 1]
(the view that `ReForge` leaves on a block of 2 bytes).  The coordinate vector [5] is valid
and has the index 5, which `IndexToCoordinates` decodes to [2^63 - 7]: the decoder keeps the
size in a `dip::sint`, reads it as negative and so as the mark of a mirrored dimension. -/
theorem IndexToCoordinates_large_size :
    ValidCoords [5] [2 ^ 63 + 1] ∧
      Image.Index ⟨.UINT16, [2 ^ 63 + 1], [1], 1, 1, false, some 0, 0⟩ [5] = .ok 5 ∧
      Image.IndexToCoordinates ⟨.UINT16, [2 ^ 63 + 1], [1], 1, 1, false, some 0, 0⟩ 5 =
        .ok [2 ^ 63 - 7] ∧
      ([2 ^ 63 - 7] : List Nat) ≠ [5] := by
  refine ⟨by simp [ValidCoords], rfl, rfl, by decide⟩

/-- The index decoder inverts `Index` on a view whose number of pixels fits in a
`dip::sint`. -/
theorem Image.IndexToCoordinates_loop (img : Image) (c : List Nat) (k : Nat)
    (hf : img.IsForged = true) (hfit : img.sizes_.prod ≤ SINT_MAX)
    (hc : ValidCoords c img.sizes_) (hk : Image.Index.loop c img.sizes_ = .ok k) :
    img.IndexToCoordinates k = .ok c := by
  have e1 : SINT_MAX = 2 ^ 63 - 1 := rfl
  have e2 : UINT_MAX = 2 ^ 64 - 1 := rfl
  have hpos := ValidCoords_pos c img.sizes_ hc
  obtain ⟨k2, hk2, hkp, hks⟩ := Image.Index_loop_valid c img.sizes_ hc (by omega)
  rw [hk] at hk2
  simp only [Except.ok.injEq] at hk2
  subst hk2
  have hlen : img.sizes_.length = (ComputeStridesExact img.sizes_ 1).length :=
    (ComputeStridesExact_length _ _).symm
  have hszle : ∀ sz ∈ img.sizes_, sz ≤ SINT_MAX := fun sz hsz =>
    le_trans (le_prod_of_mem _ hpos sz hsz) hfit
  have hr := reach_normal img.sizes_ 1 hpos
  obtain ⟨cc, hcc, happ⟩ := CoordinatesComputer.decode_offset img.sizes_
    (ComputeStridesExact img.sizes_ 1) c hlen hc hszle (by omega)
    (Dominant_normal _ 1 (le_refl 1) hpos)
  unfold Image.IndexToCoordinates Image.IndexToCoordinatesComputer
  rw [if_neg (by simp [hf]), ComputeStrides_eq_exact _ _ hpos (by omega), hcc]
  simp only
  have h1 := hks 1
  rw [Nat.one_mul] at h1
  rw [toSint_of_le k (by omega), ← h1, happ, expectedCoords_eq_self c _ _ hc hlen]
  intro p hp h0
  have := absDims_normal_ge img.sizes_ 1 hpos p hp
  omega

/-- C2 as amended: for every forged view whose number of pixels fits in a `dip::sint`,
whatever its strides, and every valid coordinate vector `c` (so that all sizes are at least
1), `IndexToCoordinates( Index( c ) )` is `c`. -/
theorem IndexToCoordinates_Index (img : Image) (c : List Nat) (hf : img.IsForged = true)
    (hfit : img.sizes_.prod ≤ SINT_MAX) (hc : ValidCoords c img.sizes_) :
    ∃ index, img.Index c = .ok index ∧ img.IndexToCoordinates index = .ok c := by
  have e1 : SINT_MAX = 2 ^ 63 - 1 := rfl
  have e2 : UINT_MAX = 2 ^ 64 - 1 := rfl
  obtain ⟨k, hk, -, -⟩ := Image.Index_loop_valid c img.sizes_ hc (by omega)
  refine ⟨k, ?_, Image.IndexToCoordinates_loop img c k hf hfit hc hk⟩
  unfold Image.Index
  rw [if_neg (by simp [hf]), if_neg (by simp [ValidCoords_length c _ hc]), hk]

/-- Witness of C2 as amended: a view of 3 by 4 pixels with mirrored, exchanged strides. -/
theorem IndexToCoordinates_Index_witness :
    ∃ index, Image.Index ⟨.UINT8, [3, 4], [-4, 1], 1, 1, false, some 0, 8⟩ [2, 1] = .ok index ∧
      Image.IndexToCoordinates ⟨.UINT8, [3, 4], [-4, 1], 1, 1, false, some 0, 8⟩ index =
        .ok [2, 1] :=
  IndexToCoordinates_Index ⟨.UINT8, [3, 4], [-4, 1], 1, 1, false, some 0, 8⟩ [2, 1] rfl
    (by decide) (by simp [ValidCoords])

end dip

namespace dip

/-! ### Swapped and mirrored normal layouts -/

theorem decodable_SwapDimensions (v : Image) (i j : Nat)
    (h : v.IsForged = true ∧ v.sizes_.length = v.strides_.length ∧
      (∀ sz ∈ v.sizes_, sz ≤ SINT_MAX) ∧ Dominant (absDims v.sizes_ v.strides_) ∧
      (∀ p ∈ absDims v.sizes_ v.strides_, p.2 ≠ 0) ∧
      reach v.sizes_ v.strides_ ≤ SINT_MAX) :
    (v.SwapDimensions i j).IsForged = true ∧
      (v.SwapDimensions i j).sizes_.length = (v.SwapDimensions i j).strides_.length ∧
      (∀ sz ∈ (v.SwapDimensions i j).sizes_, sz ≤ SINT_MAX) ∧
      Dominant (absDims (v.SwapDimensions i j).sizes_ (v.SwapDimensions i j).strides_) ∧
      (∀ p ∈ absDims (v.SwapDimensions i j).sizes_ (v.SwapDimensions i j).strides_, p.2 ≠ 0) ∧
      reach (v.SwapDimensions i j).sizes_ (v.SwapDimensions i j).strides_ ≤ SINT_MAX := by
  obtain ⟨hf, hlen, hfit, hdom, hnz, hreach⟩ := h
  unfold Image.SwapDimensions
  split_ifs with hcond
  · obtain ⟨hi, hj, hi2, hj2⟩ := hcond
    have hperm1 := swap_perm v.sizes_ i j 0 hi hj
    have hD : absDims ((v.sizes_.set i (v.sizes_.getD j 0)).set j (v.sizes_.getD i 0))
        ((v.strides_.set i (v.strides_.getD j 0)).set j (v.strides_.getD i 0)) =
        ((absDims v.sizes_ v.strides_).set i ((absDims v.sizes_ v.strides_).getD j (0, 0))).set j
          ((absDims v.sizes_ v.strides_).getD i (0, 0)) := by
      rw [absDims_set, absDims_set, absDims_getD _ _ i hlen, absDims_getD _ _ j hlen]
    have hperm2 := swap_perm (absDims v.sizes_ v.strides_) i j (0, 0)
      (by rw [absDims_length _ _ hlen]; exact hi) (by rw [absDims_length _ _ hlen]; exact hj)
    refine ⟨hf, by simp [hlen], ?_, ?_, ?_, ?_⟩
    · intro sz hsz
      exact hfit sz (hperm1.mem_iff.mp hsz)
    · show Dominant (absDims _ _)
      rw [hD]
      exact Dominant_of_perm _ _ hperm2.symm hdom
    · intro p hp
      have hp2 : p ∈ absDims ((v.sizes_.set i (v.sizes_.getD j 0)).set j (v.sizes_.getD i 0))
          ((v.strides_.set i (v.strides_.getD j 0)).set j (v.strides_.getD i 0)) := hp
      rw [hD] at hp2
      exact hnz p (hperm2.mem_iff.mp hp2)
    · show reach ((v.sizes_.set i (v.sizes_.getD j 0)).set j (v.sizes_.getD i 0))
        ((v.strides_.set i (v.strides_.getD j 0)).set j (v.strides_.getD i 0)) ≤ SINT_MAX
      unfold reach at hreach ⊢
      rw [hD, (hperm2.map _).sum_eq]
      exact hreach
  · exact ⟨hf, hlen, hfit, hdom, hnz, hreach⟩

theorem decodable_swaps (swaps : List (Nat × Nat)) (v : Image)
    (h : v.IsForged = true ∧ v.sizes_.length = v.strides_.length ∧
      (∀ sz ∈ v.sizes_, sz ≤ SINT_MAX) ∧ Dominant (absDims v.sizes_ v.strides_) ∧
      (∀ p ∈ absDims v.sizes_ v.strides_, p.2 ≠ 0) ∧
      reach v.sizes_ v.strides_ ≤ SINT_MAX) :
    (swaps.foldl (fun w p => w.SwapDimensions p.1 p.2) v).IsForged = true ∧
      (swaps.foldl (fun w p => w.SwapDimensions p.1 p.2) v).sizes_.length =
        (swaps.foldl (fun w p => w.SwapDimensions p.1 p.2) v).strides_.length ∧
      (∀ sz ∈ (swaps.foldl (fun w p => w.SwapDimensions p.1 p.2) v).sizes_, sz ≤ SINT_MAX) ∧
      Dominant (absDims (swaps.foldl (fun w p => w.SwapDimensions p.1 p.2) v).sizes_
        (swaps.foldl (fun w p => w.SwapDimensions p.1 p.2) v).strides_) ∧
      (∀ p ∈ absDims (swaps.foldl (fun w p => w.SwapDimensions p.1 p.2) v).sizes_
        (swaps.foldl (fun w p => w.SwapDimensions p.1 p.2) v).strides_, p.2 ≠ 0) ∧
      reach (swaps.foldl (fun w p => w.SwapDimensions p.1 p.2) v).sizes_
        (swaps.foldl (fun w p => w.SwapDimensions p.1 p.2) v).strides_ ≤ SINT_MAX := by
  induction swaps generalizing v with
  | nil => exact h
  | cons p rest ih => exact ih _ (decodable_SwapDimensions v p.1 p.2 h)

/-- Counterexample of C1: the normal layout with the single size 2^63 + 1 (no swap, no
mirroring), the strides of the view that `ReForge` leaves on a block of 2 bytes.  The
coordinate vector [5] is valid and has the offset 5, which the `CoordinatesComputer` built
from the sizes and strides decodes to [2^63 - 7]: it keeps the size in a `dip::sint`, where it
reads as -(2^63 - 1), the mark of a mirrored dimension. -/
theorem CoordinatesComputer_large_size :
    ValidCoords [5] (Image.forgedNormal .UINT16 [2 ^ 63 + 1] 1 0).sizes_ ∧
      (Image.forgedNormal .UINT16 [2 ^ 63 + 1] 1 0).Offset [5] = .ok 5 ∧
      (Image.forgedNormal .UINT16 [2 ^ 63 + 1] 1 0).OffsetToCoordinatesComputer =
        .ok ⟨[0], [-(2 ^ 63 - 1)], [1], 0⟩ ∧
      (⟨[0], [-(2 ^ 63 - 1)], [1], 0⟩ : CoordinatesComputer).apply 5 = [2 ^ 63 - 7] ∧
      ([2 ^ 63 - 7] : List Nat) ≠ [5] := by
  refine ⟨?_, rfl, rfl, rfl, by decide⟩
  show ValidCoords [5] [2 ^ 63 + 1]
  simp [ValidCoords]

/-- C1 as amended: for every view obtained from a normal-stride layout (any dimensionality,
in particular 1 to 8, every size at least 1, one tensor element) with a number of pixels that
fits in a `dip::sint`, by any sequence of dimension swaps followed by the mirroring of any
subset of the dimensions, and for every valid coordinate vector `c`, the
`CoordinatesComputer` built from the sizes and strides of the view, applied to `Offset( c )`,
returns exactly `c`. -/
theorem CoordinatesComputer_inverts_Offset (dt : DataType) (sizes : List Nat) (block : Nat)
    (swaps : List (Nat × Nat)) (mirror : List Bool) (c : List Nat)
    (hpos : ∀ sz ∈ sizes, 1 ≤ sz) (hfit : sizes.prod ≤ SINT_MAX)
    (hc : ValidCoords c
      ((swaps.foldl (fun w p => w.SwapDimensions p.1 p.2)
        (Image.forgedNormal dt sizes 1 block)).Mirror mirror).sizes_) :
    ∃ offset cc,
      ((swaps.foldl (fun w p => w.SwapDimensions p.1 p.2)
        (Image.forgedNormal dt sizes 1 block)).Mirror mirror).Offset c = .ok offset ∧
      ((swaps.foldl (fun w p => w.SwapDimensions p.1 p.2)
        (Image.forgedNormal dt sizes 1 block)).Mirror mirror).OffsetToCoordinatesComputer
          = .ok cc ∧
      cc.apply offset = c := by
  have hr := reach_normal sizes 1 hpos
  have h0 : (Image.forgedNormal dt sizes 1 block).IsForged = true ∧
      (Image.forgedNormal dt sizes 1 block).sizes_.length =
        (Image.forgedNormal dt sizes 1 block).strides_.length ∧
      (∀ sz ∈ (Image.forgedNormal dt sizes 1 block).sizes_, sz ≤ SINT_MAX) ∧
      Dominant (absDims (Image.forgedNormal dt sizes 1 block).sizes_
        (Image.forgedNormal dt sizes 1 block).strides_) ∧
      (∀ p ∈ absDims (Image.forgedNormal dt sizes 1 block).sizes_
        (Image.forgedNormal dt sizes 1 block).strides_, p.2 ≠ 0) ∧
      reach (Image.forgedNormal dt sizes 1 block).sizes_
        (Image.forgedNormal dt sizes 1 block).strides_ ≤ SINT_MAX := by
    refine ⟨rfl, (ComputeStridesExact_length _ _).symm,
      fun sz hsz => le_trans (le_prod_of_mem _ hpos sz hsz) hfit,
      Dominant_normal _ 1 (le_refl 1) hpos, ?_, ?_⟩
    · intro p hp
      have := absDims_normal_ge sizes 1 hpos p hp
      omega
    · show reach sizes (ComputeStridesExact sizes 1) ≤ SINT_MAX
      omega
  obtain ⟨hf, hlen, hfit2, hdom, hnz, hreach⟩ := decodable_swaps swaps _ h0
  generalize swaps.foldl (fun w p => w.SwapDimensions p.1 p.2)
    (Image.forgedNormal dt sizes 1 block) = v at hf hlen hfit2 hdom hnz hreach hc ⊢
  have hlenM : (v.Mirror mirror).sizes_.length = (v.Mirror mirror).strides_.length := by
    show v.sizes_.length = (mirrorStrides v.strides_ mirror).length
    rw [mirrorStrides_length, hlen]
  have hD : absDims (v.Mirror mirror).sizes_ (v.Mirror mirror).strides_ =
      absDims v.sizes_ v.strides_ := absDims_mirror _ _ _
  have hreachM : reach (v.Mirror mirror).sizes_ (v.Mirror mirror).strides_ ≤ SINT_MAX := by
    unfold reach at hreach ⊢
    rw [hD]
    exact hreach
  obtain ⟨cc, hcc, happ⟩ := CoordinatesComputer.decode_offset (v.Mirror mirror).sizes_
    (v.Mirror mirror).strides_ c hlenM hc hfit2 hreachM (by rw [hD]; exact hdom)
  refine ⟨_, cc, Image.Offset_valid _ c hf hlenM hc hreachM, ?_, ?_⟩
  · unfold Image.OffsetToCoordinatesComputer
    rw [if_neg (by
      have : (v.Mirror mirror).IsForged = true := hf
      simp [this])]
    exact hcc
  · rw [happ]
    apply expectedCoords_eq_self c _ _ hc hlenM
    intro p hp h0
    rw [hD] at hp
    exact absurd h0 (hnz p hp)

/-- Witness of C1 as amended: sizes [3, 4, 2], the dimensions 0 and 2 swapped, then 1 and 2,
mirrored along the first and last dimension, at the coordinates (1, 2, 3). -/
theorem CoordinatesComputer_inverts_Offset_witness :
    ∃ offset cc,
      (([(0, 2), (1, 2)].foldl (fun w p => w.SwapDimensions p.1 p.2)
        (Image.forgedNormal .UINT8 [3, 4, 2] 1 0)).Mirror [true, false, true]).Offset [1, 2, 3]
          = .ok offset ∧
      (([(0, 2), (1, 2)].foldl (fun w p => w.SwapDimensions p.1 p.2)
        (Image.forgedNormal .UINT8 [3, 4, 2] 1 0)).Mirror
          [true, false, true]).OffsetToCoordinatesComputer = .ok cc ∧
      cc.apply offset = [1, 2, 3] :=
  CoordinatesComputer_inverts_Offset .UINT8 [3, 4, 2] 0 [(0, 2), (1, 2)] [true, false, true]
    [1, 2, 3] (by decide) (by decide) (by
      show ValidCoords [1, 2, 3] [2, 3, 4]
      simp [ValidCoords])

end dip

namespace dip

/-! ## Aliasing: the tests before the general case -/

theorem FindSimpleStrideSizeAndStartExact_extent (strides : List Int) (sizes : List Nat)
    (r : SimpleStride) (h : FindSimpleStrideSizeAndStartExact strides sizes = .ok r) :
    r.size = (FindDataBlockSizeAndStartExact strides sizes).1 ∧
      r.start = (FindDataBlockSizeAndStartExact strides sizes).2 := by
  unfold FindSimpleStrideSizeAndStartExact at h
  split_ifs at h with h0
  · cases h
    have : strides = [] := List.length_eq_zero.mp h0
    subst this
    simp [FindDataBlockSizeAndStartExact, FindDataBlockSizeAndStartExact.loop]
  · simp only at h
    split at h
    · cases h
    · split_ifs at h <;> (cases h; exact ⟨rfl, rfl⟩)

theorem Image.Aliases_same_block (a b : Image) (hfa : a.IsForged = true)
    (hfb : b.IsForged = true) (hbl : a.dataBlock_ = b.dataBlock_) :
    a.Aliases b =
      if toUint a.origin_ = toUint b.origin_ then .ok true
      else if a.dataType_.SizeOf > b.dataType_.SizeOf then
        aliasesSameSample
          (splitSamplesStrides a.stridesWithTensor (a.dataType_.SizeOf / b.dataType_.SizeOf))
          (splitSamplesSizes a.sizesWithTensor (a.dataType_.SizeOf / b.dataType_.SizeOf))
          (toUint a.origin_ / b.dataType_.SizeOf) b.stridesWithTensor b.sizesWithTensor
          (toUint b.origin_ / b.dataType_.SizeOf)
      else if a.dataType_.SizeOf < b.dataType_.SizeOf then
        aliasesSameSample a.stridesWithTensor a.sizesWithTensor
          (toUint a.origin_ / a.dataType_.SizeOf)
          (splitSamplesStrides b.stridesWithTensor (b.dataType_.SizeOf / a.dataType_.SizeOf))
          (splitSamplesSizes b.sizesWithTensor (b.dataType_.SizeOf / a.dataType_.SizeOf))
          (toUint b.origin_ / a.dataType_.SizeOf)
      else
        aliasesSameSample a.stridesWithTensor a.sizesWithTensor
          (toUint a.origin_ / a.dataType_.SizeOf) b.stridesWithTensor b.sizesWithTensor
          (toUint b.origin_ / a.dataType_.SizeOf) := by
  unfold Image.Aliases
  rw [if_neg (by simp [hfa]), if_neg (by simp [hfb]), if_neg (by simp [hbl])]

end dip

namespace dip

/-! ## The merge walk, one iteration at a time -/

theorem mergeWalk_left_end (fuel : Nat) (n2 d2 : Nat) (t2 : List (Int × Nat)) (first : Bool) :
    mergeWalk (fuel + 1) [] ((((n2 : Nat) : Int), d2) :: t2) first =
      MergedDim.make first n2 n2 1 d2 :: mergeWalk fuel [] t2 false := by
  simp [mergeWalk]

theorem mergeWalk_right_end (fuel : Nat) (n1 d1 : Nat) (t1 : List (Int × Nat)) (first : Bool)
    (h1 : n1 ≠ 0) :
    mergeWalk (fuel + 1) ((((n1 : Nat) : Int), d1) :: t1) [] first =
      MergedDim.make first n1 n1 d1 1 :: mergeWalk fuel t1 [] false := by
  simp [mergeWalk, h1]

theorem mergeWalk_test_false (x : Int) (t : List (Int × Nat)) :
    (∀ q ∈ t.head?, x < q.1) →
      (match t with
        | [] => false
        | q :: _ => decide (q.1 ≤ x)) = false := by
  intro h
  cases t with
  | nil => rfl
  | cons q t => have := h q (by simp); simp only [decide_eq_false_iff_not, not_le]; exact this

theorem mergeWalk_match (fuel : Nat) (n1 d1 n2 d2 : Nat) (t1 t2 : List (Int × Nat))
    (first : Bool) (h1 : n1 ≠ 0) (h2 : n2 ≠ 0)
    (h3 : ∀ q ∈ t1.head?, ((n2 * (d2 - 1) : Nat) : Int) < q.1)
    (h4 : ∀ q ∈ t2.head?, ((n1 * (d1 - 1) : Nat) : Int) < q.1) :
    mergeWalk (fuel + 1) ((((n1 : Nat) : Int), d1) :: t1) ((((n2 : Nat) : Int), d2) :: t2) first =
      MergedDim.make first n1 n2 d1 d2 :: mergeWalk fuel t1 t2 false := by
  have e3 := mergeWalk_test_false _ t1 h3
  have e4 := mergeWalk_test_false _ t2 h4
  simp only [mergeWalk, List.isEmpty_cons, Bool.false_eq_true, false_and, if_false,
    Int.toNat_ofNat, h1, h2, List.tail_cons, e3, e4]

theorem mergeWalk_skip_second (fuel : Nat) (n1 d1 n2 d2 : Nat) (q : Int × Nat)
    (t1 t2 : List (Int × Nat)) (first : Bool) (h1 : n1 ≠ 0) (h2 : n2 ≠ 0)
    (h3 : q.1 ≤ ((n2 * (d2 - 1) : Nat) : Int)) :
    mergeWalk (fuel + 1) ((((n1 : Nat) : Int), d1) :: q :: t1) ((((n2 : Nat) : Int), d2) :: t2)
        first =
      MergedDim.make first n1 n1 d1 1 ::
        mergeWalk fuel (q :: t1) ((((n2 : Nat) : Int), d2) :: t2) false := by
  simp only [mergeWalk, List.isEmpty_cons, Bool.false_eq_true, false_and, if_false,
    Int.toNat_ofNat, h1, h2, List.tail_cons, h3, decide_True, if_true]

theorem mergeWalk_skip_first (fuel : Nat) (n1 d1 n2 d2 : Nat) (q : Int × Nat)
    (t1 t2 : List (Int × Nat)) (first : Bool) (h1 : n1 ≠ 0) (h2 : n2 ≠ 0)
    (h3 : ∀ q1 ∈ t1.head?, ((n2 * (d2 - 1) : Nat) : Int) < q1.1)
    (h4 : q.1 ≤ ((n1 * (d1 - 1) : Nat) : Int)) :
    mergeWalk (fuel + 1) ((((n1 : Nat) : Int), d1) :: t1) ((((n2 : Nat) : Int), d2) :: q :: t2)
        first =
      MergedDim.make first n2 n2 1 d2 ::
        mergeWalk fuel ((((n1 : Nat) : Int), d1) :: t1) (q :: t2) false := by
  have e3 := mergeWalk_test_false _ t1 h3
  simp only [mergeWalk, List.isEmpty_cons, Bool.false_eq_true, false_and, if_false,
    Int.toNat_ofNat, h1, h2, List.tail_cons, e3, h4, decide_True, if_true]

theorem mergeWalk_nil (fuel : Nat) (first : Bool) : mergeWalk fuel [] [] first = [] := by
  cases fuel <;> simp [mergeWalk]

theorem MergedDim.make_same (first : Bool) (s d1 d2 : Nat) (hs : 1 ≤ s)
    (hf : first = true → s = 1) :
    MergedDim.make first s s d1 d2 = ⟨s, 1, 1, d1, d2⟩ := by
  unfold MergedDim.make
  cases first with
  | true => have := hf rfl; subst this; simp
  | false =>
    simp only [Bool.false_eq_true, if_false, Nat.gcd_self]
    rw [Nat.div_self (by omega)]

theorem MergedDim.make_multiple (first : Bool) (s k d1 d2 : Nat) (hs : 1 ≤ s)
    (hf : first = true → s = 1) :
    MergedDim.make first s (k * s) d1 d2 = ⟨s, 1, k, d1, d2⟩ ∧
      MergedDim.make first (k * s) s d1 d2 = ⟨s, k, 1, d1, d2⟩ := by
  unfold MergedDim.make
  cases first with
  | true => have := hf rfl; subst this; simp
  | false =>
    simp only [Bool.false_eq_true, if_false, Nat.gcd_mul_left_right, Nat.gcd_mul_left_left]
    rw [Nat.div_self (by omega), Nat.mul_div_cancel _ (by omega)]
    exact ⟨rfl, rfl⟩

end dip

namespace dip

/-! ## A normal layout against a view of it -/

theorem SubValid_cons (p : Nat) (ps : List Nat) (v : SubDim) (vs : List SubDim)
    (h : SubValid (p :: ps) (v :: vs)) :
    1 ≤ v.count ∧ 1 ≤ v.step ∧ v.lo + v.step * (v.count - 1) < p ∧ SubValid ps vs := h

theorem SubValid_length (ps : List Nat) (vs : List SubDim) (h : SubValid ps vs) :
    vs.length = ps.length := by
  induction ps generalizing vs with
  | nil => cases vs <;> simp_all [SubValid]
  | cons p ps ih =>
    cases vs with
    | nil => simp [SubValid] at h
    | cons v vs => simp [ih vs h.2.2.2]

theorem SubValid_pos (ps : List Nat) (vs : List SubDim) (h : SubValid ps vs) :
    ∀ p ∈ ps, 1 ≤ p := by
  induction ps generalizing vs with
  | nil => simp
  | cons p ps ih =>
    cases vs with
    | nil => simp [SubValid] at h
    | cons v vs =>
      obtain ⟨-, -, h3, h4⟩ := SubValid_cons p ps v vs h
      intro x hx
      rcases List.mem_cons.mp hx with rfl | hx
      · omega
      · exact ih vs h4 x hx

theorem SubValid_count_one (p : Nat) (v : SubDim) (h1 : 1 ≤ v.count) (h2 : 1 ≤ v.step)
    (h3 : v.lo + v.step * (v.count - 1) < p) (hp : p = 1) : v.count = 1 ∧ v.lo = 0 := by
  subst hp
  have : v.step * (v.count - 1) = 0 := by omega
  rcases Nat.mul_eq_zero.mp this with h | h
  · omega
  · omega

theorem step_count_lt (p : Nat) (v : SubDim) (_h2 : 1 ≤ v.step)
    (h3 : v.lo + v.step * (v.count - 1) < p) (s : Nat) (hs : 1 ≤ s) :
    v.step * s * (v.count - 1) < s * p ∧ v.lo * s + s ≤ s * p := by
  have h4 : v.step * (v.count - 1) + 1 ≤ p := by omega
  have h5 : v.lo + 1 ≤ p := by omega
  constructor
  · calc v.step * s * (v.count - 1) = s * (v.step * (v.count - 1)) := by ring
      _ < s * (v.step * (v.count - 1)) + s := by omega
      _ = s * (v.step * (v.count - 1) + 1) := by ring
      _ ≤ s * p := Nat.mul_le_mul_left s h4
  · calc v.lo * s + s = s * (v.lo + 1) := by ring
      _ ≤ s * p := Nat.mul_le_mul_left s h5

theorem gridDims_form (ps : List Nat) (s : Nat) (hpos : ∀ p ∈ ps, 1 ≤ p) :
    ∀ q ∈ gridDims ps s, ∃ n : Nat, q.1 = (n : Int) ∧ s ≤ n ∧ 2 ≤ q.2 := by
  induction ps generalizing s with
  | nil => simp [gridDims]
  | cons p ps ih =>
    have hp : 1 ≤ p := hpos p (by simp)
    have hle : s ≤ s * p := Nat.le_mul_of_pos_right s hp
    intro q hq
    simp only [gridDims] at hq
    split_ifs at hq with h1
    · obtain ⟨n, e1, e2, e3⟩ := ih (s * p) (fun x hx => hpos x (by simp [hx])) q hq
      exact ⟨n, e1, by omega, e3⟩
    · rcases List.mem_cons.mp hq with rfl | hq
      · exact ⟨s, rfl, le_refl _, by simp only; omega⟩
      · obtain ⟨n, e1, e2, e3⟩ := ih (s * p) (fun x hx => hpos x (by simp [hx])) q hq
        exact ⟨n, e1, by omega, e3⟩

theorem subDims_form (ps : List Nat) (vs : List SubDim) (s : Nat) (hv : SubValid ps vs) :
    ∀ q ∈ subDims ps vs s, ∃ n : Nat, q.1 = (n : Int) ∧ s ≤ n ∧ 2 ≤ q.2 := by
  induction ps generalizing vs s with
  | nil => cases vs <;> simp [subDims]
  | cons p ps ih =>
    cases vs with
    | nil => simp [subDims]
    | cons v vs =>
      obtain ⟨h1, h2, h3, h4⟩ := SubValid_cons p ps v vs hv
      have hp : 1 ≤ p := by omega
      have hle : s ≤ s * p := Nat.le_mul_of_pos_right s hp
      intro q hq
      simp only [subDims] at hq
      split_ifs at hq with hc
      · obtain ⟨n, e1, e2, e3⟩ := ih vs (s * p) h4 q hq
        exact ⟨n, e1, by omega, e3⟩
      · rcases List.mem_cons.mp hq with rfl | hq
        · refine ⟨v.step * s, rfl, ?_, by simp only; omega⟩
          calc s = 1 * s := by ring
            _ ≤ v.step * s := Nat.mul_le_mul_right s h2
        · obtain ⟨n, e1, e2, e3⟩ := ih vs (s * p) h4 q hq
          exact ⟨n, e1, by omega, e3⟩

theorem gridDims_head_le (ps : List Nat) (vs : List SubDim) (s : Nat) (hv : SubValid ps vs)
    (q2 : Int × Nat) (t2 : List (Int × Nat)) (h : subDims ps vs s = q2 :: t2) :
    ∃ q1 t1, gridDims ps s = q1 :: t1 ∧ q1.1 ≤ q2.1 := by
  induction ps generalizing vs s with
  | nil => cases vs <;> simp [subDims] at h
  | cons p ps ih =>
    cases vs with
    | nil => simp [subDims] at h
    | cons v vs =>
      obtain ⟨h1, h2, h3, h4⟩ := SubValid_cons p ps v vs hv
      by_cases hp : p = 1
      · obtain ⟨hc, -⟩ := SubValid_count_one p v h1 h2 h3 hp
        simp only [subDims, hc, if_true] at h
        simp only [gridDims, hp, if_true]
        rw [hp] at h
        exact ih vs _ h4 h
      · simp only [gridDims, hp, if_false]
        refine ⟨_, _, rfl, ?_⟩
        obtain ⟨n, e1, e2, -⟩ := subDims_form (p :: ps) (v :: vs) s hv q2 (by rw [h]; simp)
        simp only [e1]
        exact_mod_cast e2

/-- The merge walk of a normal layout (first) and a view of it (second). -/
theorem mergeWalk_full (ps : List Nat) (vs : List SubDim) (s : Nat) (first : Bool)
    (fuel : Nat) (hv : SubValid ps vs) (hs : 1 ≤ s) (hf : first = true → s = 1)
    (hfuel : (gridDims ps s).length + (subDims ps vs s).length ≤ fuel) :
    mergeWalk fuel (gridDims ps s) (subDims ps vs s) first = mergedFull ps vs s := by
  induction ps generalizing vs s first fuel with
  | nil =>
    cases vs with
    | nil => simp [gridDims, subDims, mergedFull, mergeWalk_nil]
    | cons v vs => simp [SubValid] at hv
  | cons p ps ih =>
    cases vs with
    | nil => simp [SubValid] at hv
    | cons v vs =>
      obtain ⟨h1, h2, h3, h4⟩ := SubValid_cons p ps v vs hv
      have hsp : 1 ≤ s * p := Nat.one_le_iff_ne_zero.mpr (Nat.mul_ne_zero (by omega) (by omega))
      by_cases hp : p = 1
      · obtain ⟨hc, -⟩ := SubValid_count_one p v h1 h2 h3 hp
        simp only [gridDims, subDims, mergedFull, hp, hc, if_true] at hfuel ⊢
        exact ih vs _ first fuel h4 (by omega) (by simpa using hf) hfuel
      · have hpos := SubValid_pos ps vs h4
        obtain ⟨hlt1, -⟩ := step_count_lt p v h2 h3 s hs
        by_cases hc : v.count = 1
        · simp only [gridDims, subDims, mergedFull, hp, hc, if_true, if_false,
            List.length_cons] at hfuel ⊢
          obtain ⟨f, rfl⟩ : ∃ f, fuel = f + 1 := ⟨fuel - 1, by omega⟩
          have hrec := ih vs (s * p) false f h4 hsp (by simp) (by omega)
          cases hl2 : subDims ps vs (s * p) with
          | nil =>
            rw [mergeWalk_right_end _ _ _ _ _ (by omega), MergedDim.make_same _ _ _ _ hs hf]
            rw [hl2] at hrec
            rw [hrec]
          | cons q2 t2 =>
            obtain ⟨n2, e1, e2, e3⟩ := subDims_form ps vs (s * p) h4 q2 (by rw [hl2]; simp)
            obtain ⟨q1, t1, hl1, hle⟩ := gridDims_head_le ps vs (s * p) h4 q2 t2 hl2
            have hq2 : q2 = (((n2 : Nat) : Int), q2.2) := by
              rw [← e1]
            rw [hl2] at hrec
            rw [hl1] at hrec ⊢
            rw [hq2] at hrec ⊢
            rw [mergeWalk_skip_second _ _ _ _ _ _ _ _ _ (by omega) (by omega),
              MergedDim.make_same _ _ _ _ hs hf, hrec]
            · have : n2 ≤ n2 * (q2.2 - 1) := Nat.le_mul_of_pos_right n2 (by omega)
              rw [e1] at hle
              have h5 : ((n2 : Nat) : Int) ≤ ((n2 * (q2.2 - 1) : Nat) : Int) := by
                exact_mod_cast this
              exact le_trans hle h5
        · simp only [gridDims, subDims, mergedFull, hp, hc, if_false, List.length_cons] at hfuel ⊢
          obtain ⟨f, rfl⟩ : ∃ f, fuel = f + 1 := ⟨fuel - 1, by omega⟩
          have hrec := ih vs (s * p) false f h4 hsp (by simp) (by omega)
          have hk : v.step * s ≠ 0 := Nat.mul_ne_zero (by omega) (by omega)
          rw [mergeWalk_match _ _ _ _ _ _ _ _ (by omega) hk, (MergedDim.make_multiple _ _ _ _ _ hs hf).1,
            hrec]
          · intro q hq
            obtain ⟨n, e1, e2, -⟩ := gridDims_form ps (s * p) hpos q (List.mem_of_mem_head? hq)
            rw [e1]
            have : v.step * s * (v.count - 1) < n := by omega
            exact_mod_cast this
          · intro q hq
            obtain ⟨n, e1, e2, -⟩ := subDims_form ps vs (s * p) h4 q (List.mem_of_mem_head? hq)
            rw [e1]
            have h6 : s * (p - 1) < s * p := Nat.mul_lt_mul_of_pos_left (by omega) (by omega)
            have : s * (p - 1) < n := by omega
            exact_mod_cast this

/-- The merge walk of a view of a normal layout (first) and the layout itself (second). -/
theorem mergeWalk_full_rev (ps : List Nat) (vs : List SubDim) (s : Nat) (first : Bool)
    (fuel : Nat) (hv : SubValid ps vs) (hs : 1 ≤ s) (hf : first = true → s = 1)
    (hfuel : (gridDims ps s).length + (subDims ps vs s).length ≤ fuel) :
    mergeWalk fuel (subDims ps vs s) (gridDims ps s) first = mergedFullRev ps vs s := by
  induction ps generalizing vs s first fuel with
  | nil =>
    cases vs with
    | nil => simp [gridDims, subDims, mergedFullRev, mergeWalk_nil]
    | cons v vs => simp [SubValid] at hv
  | cons p ps ih =>
    cases vs with
    | nil => simp [SubValid] at hv
    | cons v vs =>
      obtain ⟨h1, h2, h3, h4⟩ := SubValid_cons p ps v vs hv
      have hsp : 1 ≤ s * p := Nat.one_le_iff_ne_zero.mpr (Nat.mul_ne_zero (by omega) (by omega))
      by_cases hp : p = 1
      · obtain ⟨hc, -⟩ := SubValid_count_one p v h1 h2 h3 hp
        simp only [gridDims, subDims, mergedFullRev, hp, hc, if_true] at hfuel ⊢
        exact ih vs _ first fuel h4 (by omega) (by simpa using hf) hfuel
      · have hpos := SubValid_pos ps vs h4
        obtain ⟨hlt1, -⟩ := step_count_lt p v h2 h3 s hs
        have h6 : s * (p - 1) < s * p := Nat.mul_lt_mul_of_pos_left (by omega) (by omega)
        by_cases hc : v.count = 1
        · simp only [gridDims, subDims, mergedFullRev, hp, hc, if_true, if_false,
            List.length_cons] at hfuel ⊢
          obtain ⟨f, rfl⟩ : ∃ f, fuel = f + 1 := ⟨fuel - 1, by omega⟩
          have hrec := ih vs (s * p) false f h4 hsp (by simp) (by omega)
          cases hl2 : subDims ps vs (s * p) with
          | nil =>
            rw [mergeWalk_left_end, MergedDim.make_same _ _ _ _ hs hf]
            rw [hl2] at hrec
            rw [hrec]
          | cons q2 t2 =>
            obtain ⟨n2, e1, e2, e3⟩ := subDims_form ps vs (s * p) h4 q2 (by rw [hl2]; simp)
            obtain ⟨q1, t1, hl1, hle⟩ := gridDims_head_le ps vs (s * p) h4 q2 t2 hl2
            have hq2 : q2 = (((n2 : Nat) : Int), q2.2) := by
              rw [← e1]
            rw [hl2] at hrec
            rw [hl1] at hrec ⊢
            rw [hq2] at hrec ⊢
            rw [mergeWalk_skip_first _ _ _ _ _ _ _ _ _ (by omega) (by omega),
              MergedDim.make_same _ _ _ _ hs hf, hrec]
            · intro q hq
              have hq3 : q ∈ subDims ps vs (s * p) := by
                rw [hl2]
                exact List.mem_cons_of_mem _ (List.mem_of_mem_head? hq)
              obtain ⟨n, e4, e5, -⟩ := subDims_form ps vs (s * p) h4 q hq3
              rw [e4]
              have : s * (p - 1) < n := by omega
              exact_mod_cast this
            · have : n2 ≤ n2 * (q2.2 - 1) := Nat.le_mul_of_pos_right n2 (by omega)
              rw [e1] at hle
              have h5 : ((n2 : Nat) : Int) ≤ ((n2 * (q2.2 - 1) : Nat) : Int) := by
                exact_mod_cast this
              exact le_trans hle h5
        · simp only [gridDims, subDims, mergedFullRev, hp, hc, if_false, List.length_cons]
            at hfuel ⊢
          obtain ⟨f, rfl⟩ : ∃ f, fuel = f + 1 := ⟨fuel - 1, by omega⟩
          have hrec := ih vs (s * p) false f h4 hsp (by simp) (by omega)
          have hk : v.step * s ≠ 0 := Nat.mul_ne_zero (by omega) (by omega)
          rw [mergeWalk_match _ _ _ _ _ _ _ _ hk (by omega),
            (MergedDim.make_multiple _ _ _ _ _ hs hf).2, hrec]
          · intro q hq
            obtain ⟨n, e1, e2, -⟩ := subDims_form ps vs (s * p) h4 q (List.mem_of_mem_head? hq)
            rw [e1]
            have : s * (p - 1) < n := by omega
            exact_mod_cast this
          · intro q hq
            obtain ⟨n, e1, e2, -⟩ := gridDims_form ps (s * p) hpos q (List.mem_of_mem_head? hq)
            rw [e1]
            have : v.step * s * (v.count - 1) < n := by omega
            exact_mod_cast this

end dip

namespace dip

/-! ## The arrays of `Aliases` for a normal layout -/

theorem removeSingletons_zip_ComputeStridesExact (sizes : List Nat) (s : Nat) :
    removeSingletons ((ComputeStridesExact sizes s).zip sizes) = gridDims sizes s := by
  induction sizes generalizing s with
  | nil => simp [ComputeStridesExact, removeSingletons, gridDims]
  | cons p ps ih =>
    show removeSingletons (((s : Int), p) :: (ComputeStridesExact ps (s * p)).zip ps) = _
    simp only [removeSingletons, gridDims, ih]

theorem removeSingletons_append (l1 l2 : List (Int × Nat)) :
    removeSingletons (l1 ++ l2) = removeSingletons l1 ++ removeSingletons l2 := by
  induction l1 with
  | nil => simp [removeSingletons]
  | cons q l1 ih =>
    obtain ⟨st, sz⟩ := q
    simp only [List.cons_append, removeSingletons]
    split_ifs <;> simp [ih]

theorem unMirror_nonneg (l : List (Int × Nat)) (o : Nat) (h : ∀ q ∈ l, 0 ≤ q.1) :
    unMirror l o = (l, o) := by
  induction l generalizing o with
  | nil => simp [unMirror]
  | cons q l ih =>
    obtain ⟨st, sz⟩ := q
    have h0 : ¬ st < 0 := by
      have := h (st, sz) (by simp)
      simpa using this
    simp only [unMirror, if_neg h0, ih o (fun q hq => h q (by simp [hq]))]

theorem dropWhile_of_all_false {α : Type} (p : α → Bool) (l : List α)
    (h : ∀ q ∈ l, p q = false) : l.dropWhile p = l := by
  cases l with
  | nil => simp
  | cons a l => simp [List.dropWhile, h a (by simp)]

theorem gridDims_chain (ps : List Nat) (s : Nat) (hpos : ∀ p ∈ ps, 1 ≤ p) :
    List.Chain' (fun x y : Int × Nat => decide (x.1 > y.1) = false) (gridDims ps s) := by
  induction ps generalizing s with
  | nil => simp [gridDims]
  | cons p ps ih =>
    have hp : 1 ≤ p := hpos p (by simp)
    have hpos2 : ∀ x ∈ ps, 1 ≤ x := fun x hx => hpos x (by simp [hx])
    simp only [gridDims]
    split_ifs with h1
    · exact ih _ hpos2
    · rw [List.chain'_cons']
      refine ⟨?_, ih _ hpos2⟩
      intro q hq
      obtain ⟨n, e1, e2, -⟩ := gridDims_form ps (s * p) hpos2 q (List.mem_of_mem_head? hq)
      have hle : s ≤ s * p := Nat.le_mul_of_pos_right s hp
      simp only [gt_iff_lt, decide_eq_false_iff_not, not_lt, e1]
      exact_mod_cast le_trans hle e2

theorem sortStrides_gridDims (ps : List Nat) (s : Nat) (hpos : ∀ p ∈ ps, 1 ≤ p) :
    sortStrides (gridDims ps s) = gridDims ps s :=
  insertionSort_of_chain _ _ (gridDims_chain ps s hpos)

theorem sortStrides_gridDims_append (ps : List Nat) (s p : Nat) (hpos : ∀ p ∈ ps, 1 ≤ p)
    (hs : 1 ≤ s) (hp : 2 ≤ p) :
    sortStrides (gridDims ps (s * p) ++ [((s : Int), p)]) = gridDims (p :: ps) s := by
  unfold sortStrides
  rw [insertionSort_append_singleton _ _ _ (gridDims_chain ps (s * p) hpos)]
  · simp only [gridDims]
    rw [if_neg (by omega)]
  · intro q hq
    obtain ⟨n, e1, e2, -⟩ := gridDims_form ps (s * p) hpos q hq
    have : s * 2 ≤ s * p := Nat.mul_le_mul_left s hp
    have h3 : s < n := by omega
    simp only [gt_iff_lt, decide_eq_true_eq, e1]
    exact_mod_cast h3

theorem dropWhile_gridDims (ps : List Nat) (s : Nat) (hpos : ∀ p ∈ ps, 1 ≤ p) (hs : 1 ≤ s) :
    (gridDims ps s).dropWhile (fun p => decide (p.1 = 0)) = gridDims ps s := by
  apply dropWhile_of_all_false
  intro q hq
  obtain ⟨n, e1, e2, -⟩ := gridDims_form ps s hpos q hq
  simp only [decide_eq_false_iff_not, e1]
  have : n ≠ 0 := by omega
  exact_mod_cast this

theorem subDims_fullSub (ps : List Nat) (s : Nat) : subDims ps (fullSub ps) s = gridDims ps s := by
  induction ps generalizing s with
  | nil => simp [fullSub, subDims, gridDims]
  | cons p ps ih =>
    have := ih (s * p)
    simp only [fullSub] at this
    simp only [fullSub, List.map_cons, subDims, gridDims, this, Nat.one_mul]

theorem subOrigin_fullSub (ps : List Nat) (s : Nat) : subOrigin ps (fullSub ps) s = 0 := by
  induction ps generalizing s with
  | nil => simp [fullSub, subOrigin]
  | cons p ps ih =>
    have := ih (s * p)
    simp only [fullSub] at this
    simp only [fullSub, List.map_cons, subOrigin, this]
    simp

theorem SubValid_fullSub (ps : List Nat) (hpos : ∀ p ∈ ps, 1 ≤ p) : SubValid ps (fullSub ps) := by
  induction ps with
  | nil => simp [fullSub, SubValid]
  | cons p ps ih =>
    have hp : 1 ≤ p := hpos p (by simp)
    have := ih (fun x hx => hpos x (by simp [hx]))
    simp only [fullSub] at this
    simp only [fullSub, List.map_cons, SubValid]
    refine ⟨hp, le_refl _, ?_, this⟩
    omega

/-! ## The coordinates of the origins and the last loop of `Aliases` -/

theorem mergedFull_comstrides (ps : List Nat) (vs : List SubDim) (s : Nat)
    (hv : SubValid ps vs) :
    (mergedFull ps vs s).map MergedDim.comstride = gridStrides ps s := by
  induction ps generalizing vs s with
  | nil => cases vs <;> simp [mergedFull, gridStrides]
  | cons p ps ih =>
    cases vs with
    | nil => simp [SubValid] at hv
    | cons v vs =>
      by_cases hp : p = 1
      · simp [mergedFull, gridStrides, hp, ih vs _ hv.2.2.2]
      · simp [mergedFull, gridStrides, hp, ih vs _ hv.2.2.2]

theorem mergedFullRev_comstrides (ps : List Nat) (vs : List SubDim) (s : Nat)
    (hv : SubValid ps vs) :
    (mergedFullRev ps vs s).map MergedDim.comstride = gridStrides ps s := by
  induction ps generalizing vs s with
  | nil => cases vs <;> simp [mergedFullRev, gridStrides]
  | cons p ps ih =>
    cases vs with
    | nil => simp [SubValid] at hv
    | cons v vs =>
      by_cases hp : p = 1
      · simp [mergedFullRev, gridStrides, hp, ih vs _ hv.2.2.2]
      · simp [mergedFullRev, gridStrides, hp, ih vs _ hv.2.2.2]

theorem OffsetToCoordinates_loop_sub (ps : List Nat) (vs : List SubDim) (s r : Nat)
    (hv : SubValid ps vs) (hs : 1 ≤ s) (hr : r < s) :
    OffsetToCoordinates.loop (gridStrides ps s) (subOrigin ps vs s + r) = (subLos ps vs, r) := by
  induction ps generalizing vs s r with
  | nil => cases vs <;> simp [gridStrides, subOrigin, subLos, OffsetToCoordinates.loop]
  | cons p ps ih =>
    cases vs with
    | nil => simp [SubValid] at hv
    | cons v vs =>
      obtain ⟨h1, h2, h3, h4⟩ := SubValid_cons p ps v vs hv
      have hsp : 1 ≤ s * p := Nat.one_le_iff_ne_zero.mpr (Nat.mul_ne_zero (by omega) (by omega))
      obtain ⟨-, hlo⟩ := step_count_lt p v h2 h3 s hs
      have hrec := ih vs (s * p) (v.lo * s + r) h4 hsp (by omega)
      have heq : subOrigin (p :: ps) (v :: vs) s + r = subOrigin ps vs (s * p) + (v.lo * s + r) := by
        simp only [subOrigin]
        omega
      rw [heq]
      simp only [gridStrides, subLos]
      by_cases hp : p = 1
      · obtain ⟨-, hl0⟩ := SubValid_count_one p v h1 h2 h3 hp
        rw [if_pos hp, if_pos hp, hrec, hl0]
        simp
      · rw [if_neg hp, if_neg hp]
        simp only [OffsetToCoordinates.loop, hrec]
        have hs0 : 0 < s := by omega
        have e1 : (v.lo * s + r) / s = v.lo := by
          rw [Nat.add_comm, Nat.add_mul_div_right _ _ hs0, Nat.div_eq_of_lt hr]
          simp
        have e2 : (v.lo * s + r) % s = r := by
          rw [Nat.add_comm, Nat.add_mul_mod_self_right, Nat.mod_eq_of_lt hr]
        rw [e1, e2]

theorem overlapCheck_mergedFull (ps : List Nat) (vs : List SubDim) (s : Nat)
    (hv : SubValid ps vs) :
    overlapCheck (mergedFull ps vs s) (subLos ps (fullSub ps)) (subLos ps vs) = true := by
  induction ps generalizing vs s with
  | nil => cases vs <;> simp [mergedFull, overlapCheck]
  | cons p ps ih =>
    cases vs with
    | nil => simp [SubValid] at hv
    | cons v vs =>
      obtain ⟨h1, h2, h3, h4⟩ := SubValid_cons p ps v vs hv
      have hrec := ih vs (s * p) h4
      simp only [fullSub] at hrec
      simp only [mergedFull, subLos, fullSub, List.map_cons]
      by_cases hp : p = 1
      · rw [if_pos hp, if_pos hp, if_pos hp]
        exact hrec
      · rw [if_neg hp, if_neg hp, if_neg hp]
        simp only [overlapCheck, hrec]
        have hlo : v.lo ≤ p - 1 := by omega
        rw [if_neg (by simp; omega), if_neg (by simp)]
        simp

theorem overlapCheck_mergedFullRev (ps : List Nat) (vs : List SubDim) (s : Nat)
    (hv : SubValid ps vs) :
    overlapCheck (mergedFullRev ps vs s) (subLos ps vs) (subLos ps (fullSub ps)) = true := by
  induction ps generalizing vs s with
  | nil => cases vs <;> simp [mergedFullRev, overlapCheck]
  | cons p ps ih =>
    cases vs with
    | nil => simp [SubValid] at hv
    | cons v vs =>
      obtain ⟨h1, h2, h3, h4⟩ := SubValid_cons p ps v vs hv
      have hrec := ih vs (s * p) h4
      simp only [fullSub] at hrec
      simp only [mergedFullRev, subLos, fullSub, List.map_cons]
      by_cases hp : p = 1
      · rw [if_pos hp, if_pos hp, if_pos hp]
        exact hrec
      · rw [if_neg hp, if_neg hp, if_neg hp]
        simp only [overlapCheck, hrec]
        have hlo : v.lo ≤ p - 1 := by omega
        rw [if_neg (by simp), if_neg (by simp; omega)]
        by_cases hc : v.count = 1 <;> by_cases hk : v.step = 1 <;> simp [hc, hk]

end dip

namespace dip

/-! ## The general case of `Aliases` for a normal layout and its views -/

theorem OffsetToCoordinates_sub_grid (ps : List Nat) (vs : List SubDim) (hv : SubValid ps vs) :
    OffsetToCoordinates (subOrigin ps vs 1) (gridStrides ps 1) = subLos ps vs := by
  have := OffsetToCoordinates_loop_sub ps vs 1 0 hv (le_refl 1) (by omega)
  simp only [Nat.add_zero] at this
  simp [OffsetToCoordinates, this]

theorem OffsetToCoordinates_zero_grid (ps : List Nat) (hpos : ∀ p ∈ ps, 1 ≤ p) :
    OffsetToCoordinates 0 (gridStrides ps 1) = subLos ps (fullSub ps) := by
  have := OffsetToCoordinates_sub_grid ps (fullSub ps) (SubValid_fullSub ps hpos)
  rwa [subOrigin_fullSub] at this

theorem aliasesGeneral_forms (st1 : List Int) (sz1 : List Nat) (o1 : Nat) (st2 : List Int)
    (sz2 : List Nat) (o2 : Nat) (d1 d2 l1 l2 : List (Int × Nat)) (u1 u2 : Nat)
    (h1 : unMirror (removeSingletons (st1.zip sz1)) o1 = (d1, u1))
    (h1s : (sortStrides d1).dropWhile (fun p => decide (p.1 = 0)) = l1)
    (h2 : unMirror (removeSingletons (st2.zip sz2)) o2 = (d2, u2))
    (h2s : (sortStrides d2).dropWhile (fun p => decide (p.1 = 0)) = l2) :
    aliasesGeneral st1 sz1 o1 st2 sz2 o2 =
      overlapCheck (mergeWalk (l1.length + l2.length) l1 l2 true)
        (OffsetToCoordinates u1 ((mergeWalk (l1.length + l2.length) l1 l2 true).map
          MergedDim.comstride))
        (OffsetToCoordinates u2 ((mergeWalk (l1.length + l2.length) l1 l2 true).map
          MergedDim.comstride)) := by
  unfold aliasesGeneral
  simp only [h1, h2, h1s, h2s]

/-- The general case answers true for a normal layout and a view of it, in both orders. -/
theorem aliasesGeneral_grid_sub (st1 : List Int) (sz1 : List Nat) (o1 : Nat) (st2 : List Int)
    (sz2 : List Nat) (o2 : Nat) (d1 d2 : List (Int × Nat)) (ps : List Nat) (vs : List SubDim)
    (hv : SubValid ps vs)
    (h1 : unMirror (removeSingletons (st1.zip sz1)) o1 = (d1, 0))
    (h1s : (sortStrides d1).dropWhile (fun p => decide (p.1 = 0)) = gridDims ps 1)
    (h2 : unMirror (removeSingletons (st2.zip sz2)) o2 = (d2, subOrigin ps vs 1))
    (h2s : (sortStrides d2).dropWhile (fun p => decide (p.1 = 0)) = subDims ps vs 1) :
    aliasesGeneral st1 sz1 o1 st2 sz2 o2 = true ∧ aliasesGeneral st2 sz2 o2 st1 sz1 o1 = true := by
  have hpos := SubValid_pos ps vs hv
  constructor
  · rw [aliasesGeneral_forms _ _ _ _ _ _ _ _ _ _ _ _ h1 h1s h2 h2s,
      mergeWalk_full ps vs 1 true _ hv (le_refl 1) (fun _ => rfl) (le_refl _),
      mergedFull_comstrides ps vs 1 hv, OffsetToCoordinates_zero_grid ps hpos,
      OffsetToCoordinates_sub_grid ps vs hv]
    exact overlapCheck_mergedFull ps vs 1 hv
  · rw [aliasesGeneral_forms _ _ _ _ _ _ _ _ _ _ _ _ h2 h2s h1 h1s,
      mergeWalk_full_rev ps vs 1 true _ hv (le_refl 1) (fun _ => rfl) (by omega),
      mergedFullRev_comstrides ps vs 1 hv, OffsetToCoordinates_zero_grid ps hpos,
      OffsetToCoordinates_sub_grid ps vs hv]
    exact overlapCheck_mergedFullRev ps vs 1 hv

theorem gridDims_eq_nil (ps : List Nat) (s : Nat) (h : gridDims ps s = []) : ∀ p ∈ ps, p = 1 := by
  induction ps generalizing s with
  | nil => simp
  | cons p ps ih =>
    simp only [gridDims] at h
    split_ifs at h with hp
    intro x hx
    rcases List.mem_cons.mp hx with rfl | hx
    · exact hp
    · exact ih _ h x hx

/-- The last loop of `Aliases` answers false for two copies of a normal layout with a first
stride of at least 2 when the origins differ by less than that stride. -/
theorem overlapCheck_same_grid (ps : List Nat) (s o1 o2 : Nat) (hpos : ∀ p ∈ ps, 1 ≤ p)
    (hs : 2 ≤ s) (h1 : o1 < s) (h2 : o2 < s) (hne : o1 ≠ o2) (hnil : gridDims ps s ≠ []) :
    overlapCheck (mergeWalk ((gridDims ps s).length + (gridDims ps s).length)
        (gridDims ps s) (gridDims ps s) true)
      (OffsetToCoordinates o1 ((mergeWalk ((gridDims ps s).length + (gridDims ps s).length)
        (gridDims ps s) (gridDims ps s) true).map MergedDim.comstride))
      (OffsetToCoordinates o2 ((mergeWalk ((gridDims ps s).length + (gridDims ps s).length)
        (gridDims ps s) (gridDims ps s) true).map MergedDim.comstride)) = false := by
  induction ps generalizing s with
  | nil => simp [gridDims] at hnil
  | cons p ps ih =>
    have hp : 1 ≤ p := hpos p (by simp)
    have hpos2 : ∀ x ∈ ps, 1 ≤ x := fun x hx => hpos x (by simp [hx])
    by_cases hp1 : p = 1
    · subst hp1
      simp only [gridDims, if_true, Nat.mul_one] at hnil ⊢
      exact ih s hpos2 hs h1 h2 hnil
    · have hp2 : 2 ≤ p := by omega
      have hsp : 1 ≤ s * p := Nat.one_le_iff_ne_zero.mpr (Nat.mul_ne_zero (by omega) (by omega))
      have hlt : s * (p - 1) < s * p := Nat.mul_lt_mul_of_pos_left (by omega) (by omega)
      have hle : s ≤ s * (p - 1) := Nat.le_mul_of_pos_right s (by omega)
      have hhead : ∀ q ∈ (gridDims ps (s * p)).head?, ((s * (p - 1) : Nat) : Int) < q.1 := by
        intro q hq
        obtain ⟨n, e1, e2, -⟩ := gridDims_form ps (s * p) hpos2 q (List.mem_of_mem_head? hq)
        rw [e1]
        have : s * (p - 1) < n := by omega
        exact_mod_cast this
      have hv := SubValid_fullSub ps hpos2
      have hwalk := mergeWalk_full ps (fullSub ps) (s * p) false
        ((gridDims ps (s * p)).length + (gridDims ps (s * p)).length + 1) hv hsp (by simp)
        (by rw [subDims_fullSub]; omega)
      rw [subDims_fullSub] at hwalk
      simp only [gridDims, if_neg hp1, List.length_cons]
      rw [show (gridDims ps (s * p)).length + 1 + ((gridDims ps (s * p)).length + 1) =
        ((gridDims ps (s * p)).length + (gridDims ps (s * p)).length + 1) + 1 by omega,
        mergeWalk_match _ _ _ _ _ _ _ _ (by omega) (by omega) hhead hhead, hwalk]
      have hmk : MergedDim.make true s s p p = ⟨1, s, s, p, p⟩ := by
        simp [MergedDim.make]
      rw [hmk]
      simp only [List.map_cons, mergedFull_comstrides ps (fullSub ps) (s * p) hv]
      have hd1 := OffsetToCoordinates_loop_sub ps (fullSub ps) (s * p) o1 hv hsp (by omega)
      have hd2 := OffsetToCoordinates_loop_sub ps (fullSub ps) (s * p) o2 hv hsp (by omega)
      rw [subOrigin_fullSub, Nat.zero_add] at hd1 hd2
      simp only [OffsetToCoordinates, OffsetToCoordinates.loop, hd1, hd2, Nat.div_one,
        overlapCheck]
      have hle2 : s ≤ (p - 1) * s := by rw [Nat.mul_comm]; exact hle
      rw [if_neg (by omega), if_neg (by omega), if_pos]
      refine ⟨trivial, by omega, ?_⟩
      intro h0
      have hdvd : (s : Int) ∣ (o1 : Int) - (o2 : Int) := Int.dvd_of_tmod_eq_zero h0
      have habs : ((o1 : Int) - (o2 : Int)).natAbs < s := by omega
      have hz := Int.eq_zero_of_abs_lt_dvd hdvd (by
        rw [Int.abs_eq_natAbs]
        exact_mod_cast habs)
      omega

end dip

namespace dip

/-! ## The early tests of `Aliases` on arrays with non-negative strides -/

theorem DataType.SizeOf_pos (dt : DataType) : 1 ≤ dt.SizeOf := by
  cases dt <;> simp [DataType.SizeOf]

theorem aliasesSameSample_eq (st1 : List Int) (sz1 : List Nat) (o1 : Nat) (st2 : List Int)
    (sz2 : List Nat) (o2 : Nat) (r1 r2 : SimpleStride)
    (h1 : FindSimpleStrideSizeAndStartExact st1 sz1 = .ok r1)
    (h2 : FindSimpleStrideSizeAndStartExact st2 sz2 = .ok r2) :
    aliasesSameSample st1 sz1 o1 st2 sz2 o2 =
      if r1.sstride > 1 ∧ r1.sstride = r2.sstride ∧
          toUint (r1.start + (o1 : Int) - (r2.start + (o2 : Int))) % r1.sstride ≠ 0
      then .ok false
      else if r1.start + (o1 : Int) + (r1.size : Int) ≤ r2.start + (o2 : Int) ∨
          r2.start + (o2 : Int) + (r2.size : Int) ≤ r1.start + (o1 : Int)
      then .ok false
      else .ok (aliasesGeneral st1 sz1 o1 st2 sz2 o2) := by
  unfold aliasesSameSample
  simp only [h1, h2]

theorem FindSimpleStride.loop_le_init (sts : List Int) (szs : List Nat) (init : Nat) :
    FindSimpleStride.loop sts szs init ≤ init := by
  induction sts generalizing szs init with
  | nil => simp [FindSimpleStride.loop]
  | cons st sts ih =>
    cases szs with
    | nil => simp [FindSimpleStride.loop]
    | cons sz szs =>
      simp only [FindSimpleStride.loop]
      refine le_trans (ih szs _) ?_
      split_ifs
      · exact min_le_left _ _
      · exact le_refl _

theorem FindSimpleStride.loop_le_of_mem (sts : List Int) (szs : List Nat) (init : Nat)
    (q : Int × Nat) (hq : q ∈ sts.zip szs) (h1 : 1 < q.2) :
    FindSimpleStride.loop sts szs init ≤ q.1.natAbs := by
  induction sts generalizing szs init with
  | nil => simp at hq
  | cons st sts ih =>
    cases szs with
    | nil => simp at hq
    | cons sz szs =>
      simp only [FindSimpleStride.loop]
      rw [List.zip_cons_cons] at hq
      rcases List.mem_cons.mp hq with rfl | hq
      · refine le_trans (FindSimpleStride.loop_le_init sts szs _) ?_
        rw [if_pos h1]
        exact min_le_right _ _
      · exact ih szs _ hq

/-- The result of `FindSimpleStrideSizeAndStartExact` when the pixel count does not overflow. -/
theorem FindSimpleStrideSizeAndStartExact_ok (strides : List Int) (sizes : List Nat)
    (hnz : ∀ sz ∈ sizes, sz ≠ 0) (hprod : sizes.prod ≤ UINT_MAX) :
    ∃ r, FindSimpleStrideSizeAndStartExact strides sizes = .ok r ∧
      r.size = (FindDataBlockSizeAndStartExact strides sizes).1 ∧
      r.start = (FindDataBlockSizeAndStartExact strides sizes).2 ∧
      (r.sstride = 0 ∨ strides = [] ∧ r.sstride = 1 ∨
        r.sstride = FindSimpleStride.loop strides sizes UINT_MAX) := by
  have hex : ∃ r, FindSimpleStrideSizeAndStartExact strides sizes = .ok r ∧
      (r.sstride = 0 ∨ strides = [] ∧ r.sstride = 1 ∨
        r.sstride = FindSimpleStride.loop strides sizes UINT_MAX) := by
    unfold FindSimpleStrideSizeAndStartExact
    split_ifs with h0
    · exact ⟨_, rfl, Or.inr (Or.inl ⟨List.length_eq_zero.mp h0, rfl⟩)⟩
    · simp only [FindNumberOfPixels_nonzero sizes hnz, if_pos hprod]
      split_ifs
      · exact ⟨_, rfl, Or.inl rfl⟩
      · exact ⟨_, rfl, Or.inr (Or.inr rfl)⟩
  obtain ⟨r, hr, hs⟩ := hex
  obtain ⟨e1, e2⟩ := FindSimpleStrideSizeAndStartExact_extent strides sizes r hr
  exact ⟨r, hr, e1, e2, hs⟩

theorem FindDataBlockSizeAndStartExact.loop_nonneg (sts : List Int) (szs : List Nat)
    (hnn : ∀ st ∈ sts, 0 ≤ st) (hpos : ∀ sz ∈ szs, 1 ≤ sz) :
    FindDataBlockSizeAndStartExact.loop sts szs 0 0 = (0, offsetSum (szs.map (fun sz => sz - 1)) sts) := by
  induction sts generalizing szs with
  | nil => cases szs <;> simp [FindDataBlockSizeAndStartExact.loop, offsetSum]
  | cons st sts ih =>
    cases szs with
    | nil => simp [FindDataBlockSizeAndStartExact.loop, offsetSum]
    | cons sz szs =>
      have h1 : 1 ≤ sz := hpos sz (by simp)
      have h2 : 0 ≤ st := hnn st (by simp)
      have h3 : ((sz - 1 : Nat) : Int) = (sz : Int) - 1 := by omega
      have h4 : ¬ ((sz : Int) - 1) * st < 0 := by
        have : 0 ≤ ((sz : Int) - 1) * st := mul_nonneg (by omega) h2
        omega
      simp only [FindDataBlockSizeAndStartExact.loop, if_neg h4, List.map_cons, offsetSum]
      rw [FindDataBlockSizeAndStartExact.loop_shift,
        ih szs (fun x hx => hnn x (by simp [hx])) (fun x hx => hpos x (by simp [hx])), h3]
      simp

theorem offsetSum_nonneg (cs : List Nat) (sts : List Int) (hnn : ∀ st ∈ sts, 0 ≤ st) :
    0 ≤ offsetSum cs sts := by
  induction cs generalizing sts with
  | nil => simp [offsetSum]
  | cons c cs ih =>
    cases sts with
    | nil => simp [offsetSum]
    | cons st sts =>
      simp only [offsetSum]
      have h2 : 0 ≤ st := hnn st (by simp)
      have := ih sts (fun x hx => hnn x (by simp [hx]))
      have h3 : 0 ≤ (c : Int) * st := mul_nonneg (by omega) h2
      omega

theorem FindDataBlockSizeAndStartExact_nonneg (sts : List Int) (szs : List Nat)
    (hnn : ∀ st ∈ sts, 0 ≤ st) (hpos : ∀ sz ∈ szs, 1 ≤ sz) :
    ((FindDataBlockSizeAndStartExact sts szs).1 : Int) =
        offsetSum (szs.map (fun sz => sz - 1)) sts + 1 ∧
      (FindDataBlockSizeAndStartExact sts szs).2 = 0 := by
  unfold FindDataBlockSizeAndStartExact
  simp only [FindDataBlockSizeAndStartExact.loop_nonneg sts szs hnn hpos]
  have := offsetSum_nonneg (szs.map (fun sz => sz - 1)) sts hnn
  refine ⟨?_, trivial⟩
  rw [Int.toNat_of_nonneg (by omega)]
  omega

theorem offsetSum_append (cs1 cs2 : List Nat) (sts1 sts2 : List Int)
    (hlen : cs1.length = sts1.length) :
    offsetSum (cs1 ++ cs2) (sts1 ++ sts2) = offsetSum cs1 sts1 + offsetSum cs2 sts2 := by
  induction cs1 generalizing sts1 with
  | nil =>
    cases sts1 with
    | nil => simp [offsetSum]
    | cons st sts1 => simp at hlen
  | cons c cs1 ih =>
    cases sts1 with
    | nil => simp at hlen
    | cons st sts1 =>
      have := ih sts1 (by simpa using hlen)
      show (c : Int) * st + offsetSum (cs1 ++ cs2) (sts1 ++ sts2) =
        (c : Int) * st + offsetSum cs1 sts1 + offsetSum cs2 sts2
      rw [this]
      ring

theorem offsetSum_ComputeStridesExact (ps : List Nat) (s : Nat) (hpos : ∀ p ∈ ps, 1 ≤ p) :
    offsetSum (ps.map (fun sz => sz - 1)) (ComputeStridesExact ps s) =
      ((s * ps.prod : Nat) : Int) - (s : Int) := by
  induction ps generalizing s with
  | nil => simp [offsetSum, ComputeStridesExact]
  | cons p ps ih =>
    have hp : 1 ≤ p := hpos p (by simp)
    have h3 : ((p - 1 : Nat) : Int) = (p : Int) - 1 := by omega
    simp only [List.map_cons, ComputeStridesExact, offsetSum, List.prod_cons,
      ih (s * p) (fun x hx => hpos x (by simp [hx])), h3]
    push_cast
    ring

theorem ComputeStridesExact_map_mul (ps : List Nat) (s n : Nat) :
    (ComputeStridesExact ps s).map (fun st => st * (n : Int)) = ComputeStridesExact ps (s * n) := by
  induction ps generalizing s with
  | nil => simp [ComputeStridesExact]
  | cons p ps ih =>
    simp only [ComputeStridesExact, List.map_cons, ih]
    have : s * p * n = s * n * p := by ring
    rw [this]
    push_cast
    rfl

/-! ## Sorting an array with one more, smallest, stride -/

theorem insertionSort_append_min {α : Type} (shift : α → α → Bool) (l : List α) (x : α)
    (hx : ∀ p ∈ l, shift p x = true) :
    insertionSort shift (l ++ [x]) = x :: insertionSort shift l := by
  unfold insertionSort
  rw [List.foldl_append]
  simp only [List.foldl_cons, List.foldl_nil]
  rw [insertFromRight_all_shift]
  · simp
  · intro p hp
    have := (insertionSort_foldl_perm shift l []).subset hp
    exact hx p (by simpa using this)

theorem sortStrides_append_grid (l : List (Int × Nat)) (ps : List Nat) (s p : Nat)
    (hpos : ∀ p ∈ ps, 1 ≤ p) (hs : 1 ≤ s) (hp : 1 ≤ p)
    (hsort : sortStrides l = gridDims ps (s * p)) :
    sortStrides (l ++ removeSingletons [((s : Int), p)]) = gridDims (p :: ps) s := by
  by_cases hp1 : p = 1
  · simp only [removeSingletons, hp1, if_true, List.append_nil, gridDims]
    rw [hsort, hp1]
  · simp only [removeSingletons, if_neg hp1, gridDims]
    unfold sortStrides at hsort ⊢
    rw [insertionSort_append_min, hsort]
    intro q hq
    have hq2 : q ∈ gridDims ps (s * p) := by
      rw [← hsort]
      exact (insertionSort_perm _ l).symm.subset hq
    obtain ⟨n, e1, e2, -⟩ := gridDims_form ps (s * p) hpos q hq2
    have : s * 2 ≤ s * p := Nat.mul_le_mul_left s (by omega)
    have h3 : s < n := by omega
    simp only [gt_iff_lt, decide_eq_true_eq, e1]
    exact_mod_cast h3

end dip

namespace dip

/-! ## Arrays of a normal layout in any order of the dimensions -/

theorem GridArrays_ComputeStridesExact (ps : List Nat) (s : Nat) (hpos : ∀ p ∈ ps, 1 ≤ p)
    (hs : 1 ≤ s) : GridArrays (ComputeStridesExact ps s) ps ps s := by
  refine ⟨?_, ComputeStridesExact_length ps s, hpos, hpos, hs, rfl, ?_, offsetSum_ComputeStridesExact ps s hpos⟩
  · intro x hx
    have := ComputeStridesExact_ge ps s hpos x hx
    omega
  · rw [removeSingletons_zip_ComputeStridesExact, sortStrides_gridDims ps s hpos]

theorem GridArrays_append (st : List Int) (sz : List Nat) (ps : List Nat) (s p : Nat)
    (h : GridArrays st sz ps (s * p)) (hs : 1 ≤ s) (hp : 1 ≤ p) :
    GridArrays (st ++ [(s : Int)]) (sz ++ [p]) (p :: ps) s := by
  obtain ⟨h1, h2, h3, h4, h5, h6, h7, h8⟩ := h
  refine ⟨?_, by simp [h2], ?_, ?_, hs, ?_, ?_, ?_⟩
  · intro x hx
    rcases List.mem_append.mp hx with hx | hx
    · exact h1 x hx
    · simp only [List.mem_singleton] at hx
      omega
  · intro x hx
    rcases List.mem_append.mp hx with hx | hx
    · exact h3 x hx
    · simp only [List.mem_singleton] at hx
      omega
  · intro x hx
    rcases List.mem_cons.mp hx with hx | hx
    · omega
    · exact h4 x hx
  · simp [h6, Nat.mul_comm]
  · rw [List.zip_append h2, removeSingletons_append]
    exact sortStrides_append_grid _ ps s p h4 hs hp h7
  · rw [List.map_append, offsetSum_append _ _ _ _ (by simp [h2]), h8]
    have h3 : ((p - 1 : Nat) : Int) = (p : Int) - 1 := by omega
    simp only [List.map_cons, List.map_nil, offsetSum, h3, List.prod_cons]
    push_cast
    ring

theorem GridArrays_one (st : List Int) (sz : List Nat) (ps : List Nat) (s : Nat)
    (h : GridArrays st sz ps s) : GridArrays st sz (1 :: ps) s := by
  obtain ⟨h1, h2, h3, h4, h5, h6, h7, h8⟩ := h
  refine ⟨h1, h2, h3, ?_, h5, by simpa using h6, ?_, by simpa using h8⟩
  · intro x hx
    rcases List.mem_cons.mp hx with hx | hx
    · omega
    · exact h4 x hx
  · simpa [gridDims] using h7

theorem mem_removeSingletons (l : List (Int × Nat)) (q : Int × Nat)
    (h : q ∈ removeSingletons l) : q ∈ l ∧ q.2 ≠ 1 := by
  induction l with
  | nil => simp [removeSingletons] at h
  | cons a l ih =>
    obtain ⟨st, sz⟩ := a
    simp only [removeSingletons] at h
    split_ifs at h with h1
    · exact ⟨List.mem_cons_of_mem _ (ih h).1, (ih h).2⟩
    · rcases List.mem_cons.mp h with rfl | h
      · exact ⟨by simp, h1⟩
      · exact ⟨List.mem_cons_of_mem _ (ih h).1, (ih h).2⟩

theorem gridDims_head (ps : List Nat) (s : Nat) (q : Int × Nat) (t : List (Int × Nat))
    (h : gridDims ps s = q :: t) : q.1 = (s : Int) := by
  induction ps generalizing s with
  | nil => simp [gridDims] at h
  | cons p ps ih =>
    simp only [gridDims] at h
    split_ifs at h with hp
    · have := ih (s * p) h
      rw [this, hp]
      simp
    · simp only [List.cons.injEq] at h
      rw [← h.1]

/-- What `Aliases` works on for such arrays, and what its early tests see. -/
theorem GridArrays_forms (st : List Int) (sz : List Nat) (ps : List Nat) (s : Nat) (o : Nat)
    (h : GridArrays st sz ps s) (hlim : ps.prod ≤ UINT_MAX) :
    unMirror (removeSingletons (st.zip sz)) o = (removeSingletons (st.zip sz), o) ∧
      (sortStrides (removeSingletons (st.zip sz))).dropWhile (fun p => decide (p.1 = 0)) =
        gridDims ps s ∧
      ∃ r, FindSimpleStrideSizeAndStartExact st sz = .ok r ∧ r.start = 0 ∧
        (r.size : Int) = ((s * ps.prod : Nat) : Int) - (s : Int) + 1 ∧
        (gridDims ps s ≠ [] → r.sstride ≤ s) := by
  obtain ⟨h1, h2, h3, h4, h5, h6, h7, h8⟩ := h
  refine ⟨?_, ?_, ?_⟩
  · apply unMirror_nonneg
    intro q hq
    exact h1 q.1 (List.of_mem_zip (mem_removeSingletons _ q hq).1).1
  · rw [h7, dropWhile_gridDims ps s h4 h5]
  · obtain ⟨r, hr, e1, e2, e3⟩ := FindSimpleStrideSizeAndStartExact_ok st sz
      (fun x hx => by have := h3 x hx; omega) (by rw [h6]; exact hlim)
    obtain ⟨f1, f2⟩ := FindDataBlockSizeAndStartExact_nonneg st sz h1 h3
    refine ⟨r, hr, by rw [e2, f2], by rw [e1, f1, h8], ?_⟩
    intro hne
    rcases e3 with e3 | ⟨e3, e4⟩ | e3
    · omega
    · omega
    · obtain ⟨q, t, hqt⟩ := List.exists_cons_of_ne_nil hne
      have hq1 : q ∈ gridDims ps s := by rw [hqt]; simp
      have hq2 : q ∈ removeSingletons (st.zip sz) := by
        have : q ∈ sortStrides (removeSingletons (st.zip sz)) := by rw [h7]; exact hq1
        exact (insertionSort_perm _ _).subset this
      have hq3 := (mem_removeSingletons _ q hq2).1
      have hq4 : 1 ≤ q.2 := h3 q.2 (List.of_mem_zip hq3).2
      have hq5 := (mem_removeSingletons _ q hq2).2
      have hle := FindSimpleStride.loop_le_of_mem st sz UINT_MAX q hq3 (by omega)
      have hhead : q.1 = (s : Int) := gridDims_head ps s q t hqt
      rw [e3]
      rw [hhead] at hle
      simpa using hle

end dip

namespace dip

/-! ## `Aliases` on a normal layout and a view of it, after the sample sizes are made equal -/

theorem prod_pos_of_pos (ps : List Nat) (hpos : ∀ p ∈ ps, 1 ≤ p) : 1 ≤ ps.prod := by
  induction ps with
  | nil => simp
  | cons p ps ih =>
    have h1 := hpos p (by simp)
    have h2 := ih (fun x hx => hpos x (by simp [hx]))
    rw [List.prod_cons]
    exact Nat.one_le_iff_ne_zero.mpr (Nat.mul_ne_zero (by omega) (by omega))

theorem aliasesSameSample_grid_sub (st1 : List Int) (sz1 : List Nat) (st2 : List Int)
    (sz2 : List Nat) (ps : List Nat) (vs : List SubDim) (ps2 : List Nat) (s2 o2 : Nat)
    (hg1 : GridArrays st1 sz1 ps 1) (hg2 : GridArrays st2 sz2 ps2 s2) (hv : SubValid ps vs)
    (hsub : gridDims ps2 s2 = subDims ps vs 1) (ho : o2 = subOrigin ps vs 1)
    (hlim : ps.prod ≤ UINT_MAX) (hlim2 : ps2.prod ≤ UINT_MAX) (ho2 : 0 < o2)
    (ho3 : o2 < ps.prod) :
    aliasesSameSample st1 sz1 0 st2 sz2 o2 = .ok true ∧
      aliasesSameSample st2 sz2 o2 st1 sz1 0 = .ok true := by
  obtain ⟨a1, a2, r1, a3, a4, a5, a6⟩ := GridArrays_forms st1 sz1 ps 1 0 hg1 hlim
  obtain ⟨b1, b2, r2, b3, b4, b5, -⟩ := GridArrays_forms st2 sz2 ps2 s2 o2 hg2 hlim2
  have hne : gridDims ps 1 ≠ [] := by
    intro h0
    have := List.prod_eq_one (gridDims_eq_nil ps 1 h0)
    omega
  have hss : r1.sstride ≤ 1 := a6 hne
  have hsz1 : r1.size = ps.prod := by
    have h := a5
    simp only [Nat.one_mul] at h
    omega
  have hp2 := prod_pos_of_pos ps2 hg2.2.2.2.1
  have hsz2 : (1 : Int) ≤ (r2.size : Int) := by
    rw [b5]
    have : s2 ≤ s2 * ps2.prod := Nat.le_mul_of_pos_right s2 hp2
    have h2 : (s2 : Int) ≤ ((s2 * ps2.prod : Nat) : Int) := by exact_mod_cast this
    omega
  rw [ho] at b1
  rw [hsub] at b2
  obtain ⟨g1, g2⟩ := aliasesGeneral_grid_sub st1 sz1 0 st2 sz2 (subOrigin ps vs 1) _ _ ps vs hv
    a1 a2 b1 b2
  rw [← ho] at g1 g2
  constructor
  · rw [aliasesSameSample_eq _ _ _ _ _ _ r1 r2 a3 b3, if_neg (by omega), if_neg, g1]
    rw [a4, b4, hsz1]
    omega
  · rw [aliasesSameSample_eq _ _ _ _ _ _ r2 r1 b3 a3, if_neg (by omega), if_neg, g2]
    rw [a4, b4, hsz1]
    omega

theorem aliasesSameSample_same_grid (st : List Int) (sz : List Nat) (ps : List Nat)
    (s o1 o2 : Nat) (hg : GridArrays st sz ps s) (hlim : ps.prod ≤ UINT_MAX) (hs : 2 ≤ s)
    (h1 : o1 < s) (h2 : o2 < s) (hne : o1 ≠ o2) :
    aliasesSameSample st sz o1 st sz o2 = .ok false := by
  obtain ⟨a1, a2, r, a3, a4, a5, -⟩ := GridArrays_forms st sz ps s o1 hg hlim
  obtain ⟨b1, -, -⟩ := GridArrays_forms st sz ps s o2 hg hlim
  rw [aliasesSameSample_eq _ _ _ _ _ _ r r a3 a3]
  split_ifs with hq hr
  · rfl
  · rfl
  · by_cases hnil : gridDims ps s = []
    · exfalso
      apply hr
      have := List.prod_eq_one (gridDims_eq_nil ps s hnil)
      rw [this] at a5
      rw [a4, a5]
      push_cast
      omega
    · rw [aliasesGeneral_forms _ _ _ _ _ _ _ _ _ _ _ _ a1 a2 b1 a2,
        overlapCheck_same_grid ps s o1 o2 hg.2.2.2.1 hs h1 h2 hne hnil]

end dip

namespace dip

/-! ## Tensor element views -/

end dip

namespace dip

/-! ## Real and imaginary parts of a complex view -/

theorem GridArrays_tensor (sizes : List Nat) (s T : Nat) (hpos : ∀ p ∈ sizes, 1 ≤ p)
    (hs : 1 ≤ s) (hT : 1 ≤ T) :
    GridArrays (if T > 1 then ComputeStridesExact sizes (s * T) ++ [(s : Int)]
        else ComputeStridesExact sizes (s * T))
      (if T > 1 then sizes ++ [T] else sizes) (T :: sizes) s := by
  have hsT : 1 ≤ s * T := Nat.one_le_iff_ne_zero.mpr (Nat.mul_ne_zero (by omega) (by omega))
  have h0 := GridArrays_ComputeStridesExact sizes (s * T) hpos hsT
  split_ifs with h1
  · exact GridArrays_append _ _ _ s T h0 hs hT
  · have hT1 : T = 1 := by omega
    subst hT1
    rw [Nat.mul_one] at h0 ⊢
    exact GridArrays_one _ _ _ _ h0

theorem DataType.SizeOf_complex (dt : DataType) (h : dt.IsComplex = true) :
    dt.SizeOf = 2 * dt.Real.SizeOf ∧ dt.Real.SizeOf ≤ 8 := by
  cases dt <;> simp [DataType.IsComplex] at h <;> simp [DataType.SizeOf, DataType.Real]

/-- C13: for a complex-typed view `C` forged with normal strides (a non-empty shape whose byte
count the size check of `Forge` accepts, any number of tensor elements), the real-part view
`R` and the imaginary-part view `I` satisfy: `R.Aliases( I )` is false, and `C.Aliases( R )`,
`C.Aliases( I )` and `I.Aliases( C )` are true. -/
theorem Aliases_real_imaginary (dt : DataType) (sizes : List Nat) (T block : Nat)
    (hc : dt.IsComplex = true) (hT : 1 ≤ T) (hpos : ∀ p ∈ sizes, 1 ≤ p)
    (hsize : sizes.prod * T * dt.SizeOf ≤ UINT_MAX) :
    (Image.forgedNormal dt sizes T block).Real.Aliases
        (Image.forgedNormal dt sizes T block).Imaginary = .ok false ∧
      (Image.forgedNormal dt sizes T block).Aliases
        (Image.forgedNormal dt sizes T block).Real = .ok true ∧
      (Image.forgedNormal dt sizes T block).Aliases
        (Image.forgedNormal dt sizes T block).Imaginary = .ok true ∧
      (Image.forgedNormal dt sizes T block).Imaginary.Aliases
        (Image.forgedNormal dt sizes T block) = .ok true := by
  obtain ⟨hsz, hsz8⟩ := DataType.SizeOf_complex dt hc
  have hcs := DataType.SizeOf_pos dt.Real
  have hprod := prod_pos_of_pos sizes hpos
  have hlim3 : 2 * (T * sizes.prod) ≤ UINT_MAX := by
    have h1 : sizes.prod * T * 2 ≤ sizes.prod * T * dt.SizeOf := Nat.mul_le_mul_left _ (by omega)
    have h2 : 2 * (T * sizes.prod) = sizes.prod * T * 2 := by ring
    omega
  have hlim2 : T * sizes.prod ≤ UINT_MAX := by omega
  have hTP : 1 ≤ T * sizes.prod :=
    Nat.one_le_iff_ne_zero.mpr (Nat.mul_ne_zero (by omega) (by omega))
  have h0 : toUint 0 = 0 := by simp [toUint]
  have ho : toUint ((0 : Int) + (dt.Real.SizeOf : Int)) = dt.Real.SizeOf := by
    rw [Int.zero_add]
    apply toUint_natCast
    simp only [UINT_MAX]
    omega
  have hdiv : dt.Real.SizeOf / dt.Real.SizeOf = 1 := Nat.div_self (by omega)
  have hn : dt.SizeOf / dt.Real.SizeOf = 2 := by
    rw [hsz]
    exact Nat.mul_div_cancel 2 (by omega)
  -- the arrays of the parts and of the split complex view
  have hgr := GridArrays_tensor sizes 2 T hpos (by omega) hT
  have hgc : GridArrays
      ((if T > 1 then ComputeStridesExact sizes (2 * T) ++ [((2 : Nat) : Int)]
        else ComputeStridesExact sizes (2 * T)) ++ [((1 : Nat) : Int)])
      ((if T > 1 then sizes ++ [T] else sizes) ++ [2]) (2 :: T :: sizes) 1 :=
    GridArrays_append _ _ _ 1 2 (by simpa using hgr) (le_refl 1) (by omega)
  have hstR : (Image.forgedNormal dt sizes T block).Real.stridesWithTensor =
      (if T > 1 then ComputeStridesExact sizes (2 * T) ++ [((2 : Nat) : Int)]
        else ComputeStridesExact sizes (2 * T)) := by
    simp only [Image.Real, Image.forgedNormal, hc, if_true, Image.stridesWithTensor]
    have := ComputeStridesExact_map_mul sizes T 2
    simp only [Nat.cast_ofNat] at this
    rw [this, Nat.mul_comm T 2]
    simp
  have hszR : (Image.forgedNormal dt sizes T block).Real.sizesWithTensor =
      (if T > 1 then sizes ++ [T] else sizes) := by
    simp only [Image.Real, Image.forgedNormal, hc, if_true, Image.sizesWithTensor]
  have hstI : (Image.forgedNormal dt sizes T block).Imaginary.stridesWithTensor =
      (if T > 1 then ComputeStridesExact sizes (2 * T) ++ [((2 : Nat) : Int)]
        else ComputeStridesExact sizes (2 * T)) := by
    simp only [Image.Imaginary, Image.forgedNormal, hc, if_true, Image.stridesWithTensor]
    have := ComputeStridesExact_map_mul sizes T 2
    simp only [Nat.cast_ofNat] at this
    rw [this, Nat.mul_comm T 2]
    simp
  have hszI : (Image.forgedNormal dt sizes T block).Imaginary.sizesWithTensor =
      (if T > 1 then sizes ++ [T] else sizes) := by
    simp only [Image.Imaginary, Image.forgedNormal, hc, if_true, Image.sizesWithTensor]
  have hstC : splitSamplesStrides (Image.forgedNormal dt sizes T block).stridesWithTensor 2 =
      (if T > 1 then ComputeStridesExact sizes (2 * T) ++ [((2 : Nat) : Int)]
        else ComputeStridesExact sizes (2 * T)) ++ [((1 : Nat) : Int)] := by
    simp only [splitSamplesStrides, Image.forgedNormal, Image.stridesWithTensor]
    have := ComputeStridesExact_map_mul sizes T 2
    split_ifs
    · rw [List.map_append, this, Nat.mul_comm T 2]
      simp
    · rw [this, Nat.mul_comm T 2]
      simp
  have hszC : splitSamplesSizes (Image.forgedNormal dt sizes T block).sizesWithTensor 2 =
      (if T > 1 then sizes ++ [T] else sizes) ++ [2] := by
    simp only [splitSamplesSizes, Image.forgedNormal, Image.sizesWithTensor]
  have hdtR : (Image.forgedNormal dt sizes T block).Real.dataType_ = dt.Real := by
    simp [Image.Real, Image.forgedNormal, hc]
  have hdtI : (Image.forgedNormal dt sizes T block).Imaginary.dataType_ = dt.Real := by
    simp [Image.Imaginary, Image.forgedNormal, hc]
  have hoR : (Image.forgedNormal dt sizes T block).Real.origin_ = 0 := by
    simp [Image.Real, Image.forgedNormal, hc]
  have hoI : (Image.forgedNormal dt sizes T block).Imaginary.origin_ =
      0 + (dt.Real.SizeOf : Int) := by
    simp [Image.Imaginary, Image.forgedNormal, hc]
  have hfR : (Image.forgedNormal dt sizes T block).Real.IsForged = true := by
    simp [Image.Real, Image.forgedNormal, hc, Image.IsForged]
  have hfI : (Image.forgedNormal dt sizes T block).Imaginary.IsForged = true := by
    simp [Image.Imaginary, Image.forgedNormal, hc, Image.IsForged]
  have hbR : (Image.forgedNormal dt sizes T block).Real.dataBlock_ = some block := by
    simp [Image.Real, Image.forgedNormal, hc]
  have hbI : (Image.forgedNormal dt sizes T block).Imaginary.dataBlock_ = some block := by
    simp [Image.Imaginary, Image.forgedNormal, hc]
  have hfC : (Image.forgedNormal dt sizes T block).IsForged = true := rfl
  have hbC : (Image.forgedNormal dt sizes T block).dataBlock_ = some block := rfl
  have hoC : (Image.forgedNormal dt sizes T block).origin_ = 0 := rfl
  have hdtC : (Image.forgedNormal dt sizes T block).dataType_ = dt := rfl
  have hne0 : ¬ (0 = dt.Real.SizeOf) := by omega
  have hne1 : ¬ (dt.Real.SizeOf = 0) := by omega
  have hgt : dt.SizeOf > dt.Real.SizeOf := by omega
  have hngt : ¬ dt.Real.SizeOf > dt.SizeOf := by omega
  have hlt : dt.Real.SizeOf < dt.SizeOf := by omega
  have hsub := aliasesSameSample_grid_sub _ _ _ _ (2 :: T :: sizes)
    (⟨1, 1, 1⟩ :: fullSub (T :: sizes)) (T :: sizes) 2 1 hgc hgr
    ⟨le_refl 1, le_refl 1, by simp, SubValid_fullSub (T :: sizes) (by
      intro p hp
      rcases List.mem_cons.mp hp with hp | hp
      · omega
      · exact hpos p hp)⟩
    (by
      show gridDims (T :: sizes) 2 = subDims (T :: sizes) (fullSub (T :: sizes)) (1 * 2)
      rw [subDims_fullSub])
    (by
      show 1 = 1 * 1 + subOrigin (T :: sizes) (fullSub (T :: sizes)) (1 * 2)
      rw [subOrigin_fullSub])
    (by simpa [List.prod_cons] using hlim3) (by simpa [List.prod_cons] using hlim2)
    (by omega) (by simp only [List.prod_cons]; omega)
  refine ⟨?_, ?_, ?_, ?_⟩
  · rw [Image.Aliases_same_block _ _ hfR hfI (by rw [hbR, hbI])]
    simp only [hoR, hoI, h0, ho, hdtR, hdtI, if_neg hne0, gt_iff_lt, lt_irrefl, if_false,
      hstR, hszR, hstI, hszI, hdiv, Nat.zero_div]
    exact aliasesSameSample_same_grid _ _ (T :: sizes) 2 0 1 hgr
      (by simpa [List.prod_cons] using hlim2) (le_refl 2) (by omega) (by omega) (by omega)
  · rw [Image.Aliases_same_block _ _ hfC hfR (by rw [hbR, hbC])]
    simp [hoR, hoC]
  · rw [Image.Aliases_same_block _ _ hfC hfI (by rw [hbI, hbC])]
    simp only [hoC, hoI, h0, ho, hdtC, hdtI, if_neg hne0, if_pos hgt, hn, hstC, hszC, hstI,
      hszI, hdiv, Nat.zero_div]
    exact hsub.1
  · rw [Image.Aliases_same_block _ _ hfI hfC (by rw [hbI, hbC])]
    simp only [hoC, hoI, h0, ho, hdtC, hdtI, if_neg hne1, if_neg hngt, if_pos hlt, hn, hstC,
      hszC, hstI, hszI, hdiv, Nat.zero_div]
    exact hsub.2

theorem Aliases_real_imaginary_witness :
    (Image.forgedNormal .SCOMPLEX [5, 4] 3 0).Real.Aliases
        (Image.forgedNormal .SCOMPLEX [5, 4] 3 0).Imaginary = .ok false ∧
      (Image.forgedNormal .SCOMPLEX [5, 4] 3 0).Aliases
        (Image.forgedNormal .SCOMPLEX [5, 4] 3 0).Real = .ok true ∧
      (Image.forgedNormal .SCOMPLEX [5, 4] 3 0).Aliases
        (Image.forgedNormal .SCOMPLEX [5, 4] 3 0).Imaginary = .ok true ∧
      (Image.forgedNormal .SCOMPLEX [5, 4] 3 0).Imaginary.Aliases
        (Image.forgedNormal .SCOMPLEX [5, 4] 3 0) = .ok true :=
  Aliases_real_imaginary .SCOMPLEX [5, 4] 3 0 rfl (by decide) (by decide)
    (by simp [DataType.SizeOf, UINT_MAX])

end dip

namespace dip

/-! ## Derived views are described by slots -/

theorem normalSlots_facts (ps : List Nat) (s : Nat) (hpos : ∀ p ∈ ps, 1 ≤ p) :
    (normalSlots ps s).map (fun sl => sl.sub.count) = ps ∧
      (normalSlots ps s).map Slot.viewStride = ComputeStridesExact ps s ∧
      ((normalSlots ps s).map Slot.first).sum = 0 ∧
      ∀ sl ∈ normalSlots ps s, sl.Valid := by
  induction ps generalizing s with
  | nil => simp [normalSlots, ComputeStridesExact]
  | cons p ps ih =>
    have hp : 1 ≤ p := hpos p (by simp)
    obtain ⟨h1, h2, h3, h4⟩ := ih (s * p) (fun x hx => hpos x (by simp [hx]))
    refine ⟨by simp [normalSlots, h1], ?_, ?_, ?_⟩
    · simp [normalSlots, ComputeStridesExact, h2, Slot.viewStride]
    · simp only [normalSlots, List.map_cons, List.sum_cons, h3]
      simp [Slot.first]
    · intro sl hsl
      simp only [normalSlots, List.mem_cons] at hsl
      rcases hsl with rfl | hsl
      · refine ⟨hp, le_refl 1, ?_⟩
        simp only
        omega
      · exact h4 sl hsl

theorem Describes_parent (dt : DataType) (sizes : List Nat) (T block : Nat)
    (hpos : ∀ p ∈ sizes, 1 ≤ p) :
    Describes (normalSlots sizes T) dt T block (Image.forgedNormal dt sizes T block) := by
  obtain ⟨h1, h2, h3, h4⟩ := normalSlots_facts sizes T hpos
  refine ⟨rfl, rfl, rfl, rfl, ?_, ?_, ?_, h4⟩
  · simp [Image.forgedNormal, h1]
  · simp [Image.forgedNormal, h2]
  · simp [Image.forgedNormal, h3]

theorem Slot.flip_first (sl : Slot) (hv : sl.Valid) :
    (({ sl with neg := !sl.neg } : Slot).first : Int) =
      (sl.first : Int) + ((sl.sub.count : Int) - 1) * sl.viewStride := by
  obtain ⟨h1, h2, h3⟩ := hv
  have hc : (sl.sub.count : Int) - 1 = ((sl.sub.count - 1 : Nat) : Int) := by omega
  rw [hc]
  cases hn : sl.neg
  · simp only [Slot.first, Slot.viewStride, hn, Bool.not_false, if_true]
    simp only [Bool.false_eq_true, if_false]
    push_cast
    ring
  · simp only [Slot.first, Slot.viewStride, hn, Bool.not_true, if_true]
    simp only [Bool.false_eq_true, if_false]
    push_cast
    ring

theorem mirrorSlots_facts (slots : List Slot) (process : List Bool)
    (hv : ∀ sl ∈ slots, sl.Valid) :
    (mirrorSlots slots process).map Slot.key = slots.map Slot.key ∧
      (mirrorSlots slots process).map (fun sl => sl.sub.count) =
        slots.map (fun sl => sl.sub.count) ∧
      (mirrorSlots slots process).map Slot.viewStride =
        mirrorStrides (slots.map Slot.viewStride) process ∧
      ((((mirrorSlots slots process).map Slot.first).sum : Nat) : Int) =
        (((slots.map Slot.first).sum : Nat) : Int) +
          mirrorShift (slots.map (fun sl => sl.sub.count)) (slots.map Slot.viewStride) process ∧
      ∀ sl ∈ mirrorSlots slots process, sl.Valid := by
  induction slots generalizing process with
  | nil => cases process <;> simp [mirrorSlots, mirrorStrides, mirrorShift]
  | cons sl sls ih =>
    cases process with
    | nil =>
      refine ⟨by simp [mirrorSlots], by simp [mirrorSlots], by simp [mirrorSlots, mirrorStrides],
        by simp [mirrorSlots, mirrorShift], ?_⟩
      simpa [mirrorSlots] using hv
    | cons b bs =>
      obtain ⟨h1, h2, h3, h4, h5⟩ := ih bs (fun x hx => hv x (by simp [hx]))
      have hsl := hv sl (by simp)
      cases b
      · refine ⟨?_, ?_, ?_, ?_, ?_⟩
        · simp [mirrorSlots, h1]
        · simp [mirrorSlots, h2]
        · simp [mirrorSlots, mirrorStrides, h3]
        · simp only [mirrorSlots, Bool.false_eq_true, if_false, List.map_cons, List.sum_cons,
            mirrorShift]
          push_cast at h4 ⊢
          rw [h4]
          ring
        · intro x hx
          simp only [mirrorSlots, Bool.false_eq_true, if_false, List.mem_cons] at hx
          rcases hx with rfl | hx
          · exact hsl
          · exact h5 x hx
      · refine ⟨?_, ?_, ?_, ?_, ?_⟩
        · simp [mirrorSlots, h1, Slot.key]
        · simp [mirrorSlots, h2]
        · simp only [mirrorSlots, if_true, List.map_cons, mirrorStrides, h3]
          congr 1
          cases hn : sl.neg <;> simp [Slot.viewStride, hn]
        · simp only [mirrorSlots, if_true, List.map_cons, List.sum_cons, mirrorShift]
          push_cast at h4 ⊢
          rw [h4, Slot.flip_first sl hsl]
          ring
        · intro x hx
          simp only [mirrorSlots, if_true, List.mem_cons] at hx
          rcases hx with rfl | hx
          · exact hsl
          · exact h5 x hx

theorem Describes_Mirror (slots : List Slot) (dt : DataType) (T block : Nat) (V : Image)
    (process : List Bool) (h : Describes slots dt T block V) :
    Describes (mirrorSlots slots process) dt T block (V.Mirror process) ∧
      (mirrorSlots slots process).map Slot.key = slots.map Slot.key := by
  obtain ⟨a1, a2, a3, a4, a5, a6, a7, a8⟩ := h
  obtain ⟨h1, h2, h3, h4, h5⟩ := mirrorSlots_facts slots process a8
  refine ⟨⟨a1, a2, a3, a4, ?_, ?_, ?_, h5⟩, h1⟩
  · simp only [Image.Mirror, a5, h2]
  · simp only [Image.Mirror, a6, h3]
  · simp only [Image.Mirror, a5, a6, a7, a1, h4]
    ring

end dip

namespace dip

theorem set_getD_same {α : Type} (l : List α) (i : Nat) (d : α) : l.set i (l.getD i d) = l := by
  induction l generalizing i with
  | nil => simp
  | cons a l ih =>
    cases i with
    | zero => simp
    | succ i =>
      have := ih i
      simp only [List.getD_cons_succ, List.set_cons_succ, this]

theorem sum_map_set_getD (l : List Slot) (f : Slot → Int) (i : Nat) (d a : Slot)
    (hi : i < l.length) :
    ((l.set i a).map f).sum = (l.map f).sum + (f a - f (l.getD i d)) := by
  induction l generalizing i with
  | nil => simp at hi
  | cons b l ih =>
    cases i with
    | zero =>
      simp
      ring
    | succ i =>
      simp only [List.set_cons_succ, List.map_cons, List.sum_cons, List.getD_cons_succ]
      rw [ih i (by simpa using hi)]
      ring

theorem getD_mem_of_lt {α : Type} (l : List α) (i : Nat) (d : α) (hi : i < l.length) :
    l.getD i d ∈ l := by
  rw [List.getD_eq_getElem _ _ hi]
  exact List.getElem_mem hi

theorem mem_set_cases {α : Type} (l : List α) (i : Nat) (a x : α) (h : x ∈ l.set i a) :
    x = a ∨ x ∈ l := by
  induction l generalizing i with
  | nil => simp at h
  | cons b l ih =>
    cases i with
    | zero =>
      simp only [List.set_cons_zero, List.mem_cons] at h
      rcases h with h | h
      · exact Or.inl h
      · exact Or.inr (List.mem_cons_of_mem _ h)
    | succ i =>
      simp only [List.set_cons_succ, List.mem_cons] at h
      rcases h with h | h
      · exact Or.inr (by simp [h])
      · rcases ih i h with h | h
        · exact Or.inl h
        · exact Or.inr (List.mem_cons_of_mem _ h)

theorem cast_sum_first (l : List Slot) :
    (((l.map Slot.first).sum : Nat) : Int) = (l.map (fun sl => (sl.first : Int))).sum := by
  induction l with
  | nil => simp
  | cons a l ih =>
    simp only [List.map_cons, List.sum_cons]
    rw [← ih]
    push_cast
    rfl

theorem Describes_SwapDimensions (slots : List Slot) (dt : DataType) (T block : Nat) (V : Image)
    (dim1 dim2 : Nat) (h : Describes slots dt T block V) :
    ∃ slots2, Describes slots2 dt T block (V.SwapDimensions dim1 dim2) ∧ slots2.Perm slots := by
  obtain ⟨a1, a2, a3, a4, a5, a6, a7, a8⟩ := h
  unfold Image.SwapDimensions
  split_ifs with hc
  · obtain ⟨h1, h2, -, -⟩ := hc
    rw [a5, List.length_map] at h1 h2
    have hperm := swap_perm slots dim1 dim2 ⟨0, 0, ⟨0, 0, 0⟩, false⟩ h1 h2
    refine ⟨_, ⟨a1, a2, a3, a4, ?_, ?_, ?_, ?_⟩, hperm⟩
    · simp only [a5, List.map_set]
      rw [← List.getD_map slots ⟨0, 0, ⟨0, 0, 0⟩, false⟩ (fun sl => sl.sub.count),
        ← List.getD_map slots ⟨0, 0, ⟨0, 0, 0⟩, false⟩ (fun sl => sl.sub.count)]
    · simp only [a6, List.map_set]
      rw [← List.getD_map slots ⟨0, 0, ⟨0, 0, 0⟩, false⟩ Slot.viewStride,
        ← List.getD_map slots ⟨0, 0, ⟨0, 0, 0⟩, false⟩ Slot.viewStride]
      simp [Slot.viewStride]
    · simp only [a7]
      rw [(hperm.map Slot.first).sum_eq]
    · intro sl hsl
      exact a8 sl (hperm.mem_iff.mp hsl)
  · exact ⟨slots, ⟨a1, a2, a3, a4, a5, a6, a7, a8⟩, List.Perm.refl _⟩

theorem sliceSlot_facts (sl : Slot) (start stop step : Nat) (hv : sl.Valid)
    (h1 : start ≤ stop) (h2 : stop < sl.sub.count) (h3 : 1 ≤ step) :
    (sliceSlot sl start stop step).Valid ∧
      (sliceSlot sl start stop step).viewStride = sl.viewStride * (step : Int) ∧
      ((sliceSlot sl start stop step).first : Int) =
        (sl.first : Int) + (start : Int) * sl.viewStride := by
  obtain ⟨v1, v2, v3⟩ := hv
  have hq : step * ((stop - start) / step) ≤ stop - start := Nat.mul_div_le _ _
  refine ⟨⟨?_, ?_, ?_⟩, ?_, ?_⟩
  · simp [sliceSlot]
  · simp only [sliceSlot]
    exact Nat.one_le_iff_ne_zero.mpr (Nat.mul_ne_zero (by omega) (by omega))
  · simp only [sliceSlot, Nat.add_sub_cancel]
    have e : sl.sub.step * step * ((stop - start) / step) =
        sl.sub.step * (step * ((stop - start) / step)) := by ring
    rw [e]
    split_ifs
    · have : sl.sub.step * ((sl.sub.count - 1 - start) - step * ((stop - start) / step)) +
          sl.sub.step * (step * ((stop - start) / step)) ≤ sl.sub.step * (sl.sub.count - 1) := by
        rw [← Nat.mul_add]
        exact Nat.mul_le_mul_left _ (by omega)
      omega
    · have : sl.sub.step * start + sl.sub.step * (step * ((stop - start) / step)) ≤
          sl.sub.step * (sl.sub.count - 1) := by
        rw [← Nat.mul_add]
        exact Nat.mul_le_mul_left _ (by omega)
      omega
  · cases hn : sl.neg <;> simp [sliceSlot, Slot.viewStride, hn] <;> ring
  · simp only [sliceSlot, Slot.first, Slot.viewStride, Nat.add_sub_cancel]
    cases hn : sl.neg
    · simp only [Bool.false_eq_true, if_false]
      push_cast
      ring
    · simp only [if_true]
      have e : sl.sub.step * ((sl.sub.count - 1 - start) - step * ((stop - start) / step)) +
          sl.sub.step * step * ((stop - start) / step) + sl.sub.step * start =
          sl.sub.step * (sl.sub.count - 1) := by
        have : sl.sub.step * step * ((stop - start) / step) =
            sl.sub.step * (step * ((stop - start) / step)) := by ring
        rw [this, ← Nat.mul_add, ← Nat.mul_add]
        congr 1
        omega
      have e2 : ((sl.sub.lo + sl.sub.step * ((sl.sub.count - 1 - start) -
          step * ((stop - start) / step)) + sl.sub.step * step * ((stop - start) / step) : Nat) :
            Int) = ((sl.sub.lo + sl.sub.step * (sl.sub.count - 1) : Nat) : Int) -
              ((sl.sub.step * start : Nat) : Int) := by
        have : sl.sub.lo + sl.sub.step * ((sl.sub.count - 1 - start) -
            step * ((stop - start) / step)) + sl.sub.step * step * ((stop - start) / step) +
            sl.sub.step * start = sl.sub.lo + sl.sub.step * (sl.sub.count - 1) := by omega
        omega
      have e3 : (((sl.sub.lo + sl.sub.step * ((sl.sub.count - 1 - start) -
          step * ((stop - start) / step)) + sl.sub.step * step * ((stop - start) / step)) *
            sl.stride : Nat) : Int) =
          (((sl.sub.lo + sl.sub.step * (sl.sub.count - 1) : Nat) : Int) -
              ((sl.sub.step * start : Nat) : Int)) * (sl.stride : Int) := by
        rw [← e2]
        push_cast
        ring
      rw [e3]
      push_cast
      ring

theorem Describes_Slice (slots : List Slot) (dt : DataType) (T block : Nat) (V : Image)
    (dim start stop step : Nat) (h : Describes slots dt T block V) :
    Describes (if dim < slots.length ∧ start ≤ stop ∧
          stop < (slots.getD dim ⟨0, 0, ⟨0, 0, 0⟩, false⟩).sub.count ∧ 1 ≤ step
        then slots.set dim (sliceSlot (slots.getD dim ⟨0, 0, ⟨0, 0, 0⟩, false⟩) start stop step)
        else slots) dt T block (V.Slice dim start stop step) ∧
      (if dim < slots.length ∧ start ≤ stop ∧
          stop < (slots.getD dim ⟨0, 0, ⟨0, 0, 0⟩, false⟩).sub.count ∧ 1 ≤ step
        then slots.set dim (sliceSlot (slots.getD dim ⟨0, 0, ⟨0, 0, 0⟩, false⟩) start stop step)
        else slots).map Slot.key = slots.map Slot.key := by
  obtain ⟨a1, a2, a3, a4, a5, a6, a7, a8⟩ := h
  have hsz : V.sizes_.getD dim 0 = (slots.getD dim ⟨0, 0, ⟨0, 0, 0⟩, false⟩).sub.count := by
    rw [a5]
    exact List.getD_map slots ⟨0, 0, ⟨0, 0, 0⟩, false⟩ (fun sl => sl.sub.count)
  have hst : V.strides_.getD dim 0 = (slots.getD dim ⟨0, 0, ⟨0, 0, 0⟩, false⟩).viewStride := by
    rw [a6]
    have := List.getD_map slots ⟨0, 0, ⟨0, 0, 0⟩, false⟩ (n := dim) Slot.viewStride
    rw [← this]
    simp [Slot.viewStride]
  have hl1 : V.sizes_.length = slots.length := by rw [a5, List.length_map]
  have hl2 : V.strides_.length = slots.length := by rw [a6, List.length_map]
  unfold Image.Slice
  by_cases hc : dim < slots.length ∧ start ≤ stop ∧
      stop < (slots.getD dim ⟨0, 0, ⟨0, 0, 0⟩, false⟩).sub.count ∧ 1 ≤ step
  · obtain ⟨c1, c2, c3, c4⟩ := hc
    rw [if_pos ⟨c1, c2, c3, c4⟩, if_pos ⟨by omega, by omega, c2, by omega, c4⟩]
    have hmem := getD_mem_of_lt slots dim ⟨0, 0, ⟨0, 0, 0⟩, false⟩ c1
    obtain ⟨f1, f2, f3⟩ := sliceSlot_facts (slots.getD dim ⟨0, 0, ⟨0, 0, 0⟩, false⟩) start stop
      step (a8 _ hmem) c2 c3 c4
    refine ⟨⟨a1, a2, a3, a4, ?_, ?_, ?_, ?_⟩, ?_⟩
    · simp only [a5, List.map_set]
      simp [sliceSlot]
    · simp only [List.map_set, f2, hst]
      rw [a6]
    · simp only [hst, a7, a1]
      rw [cast_sum_first, cast_sum_first,
        sum_map_set_getD slots _ dim ⟨0, 0, ⟨0, 0, 0⟩, false⟩ _ c1, f3]
      ring
    · intro sl hsl
      rcases mem_set_cases _ _ _ _ hsl with rfl | hsl
      · exact f1
      · exact a8 sl hsl
    · rw [List.map_set]
      have : (sliceSlot (slots.getD dim ⟨0, 0, ⟨0, 0, 0⟩, false⟩) start stop step).key =
          (slots.map Slot.key).getD dim (Slot.key ⟨0, 0, ⟨0, 0, 0⟩, false⟩) := by
        rw [List.getD_map]
        simp [sliceSlot, Slot.key]
      rw [this, set_getD_same]
  · rw [if_neg hc, if_neg]
    · exact ⟨⟨a1, a2, a3, a4, a5, a6, a7, a8⟩, rfl⟩
    · intro hc2
      apply hc
      obtain ⟨c1, c2, c3, c4, c5⟩ := hc2
      exact ⟨by omega, c3, by omega, c5⟩

end dip

namespace dip

/-! ## What `Aliases` works on for a derived view -/

theorem perm_map_inv {α β : Type} [DecidableEq α] (f : α → β) (l : List α) (l2 : List β)
    (h : (l.map f).Perm l2) : ∃ l3, l.Perm l3 ∧ l3.map f = l2 := by
  induction l2 generalizing l with
  | nil =>
    have : l = [] := by
      have := h.length_eq
      simpa using this
    exact ⟨[], by rw [this], rfl⟩
  | cons b l2 ih =>
    have hb : b ∈ l.map f := h.symm.subset (by simp)
    obtain ⟨a, ha, hab⟩ := List.mem_map.mp hb
    have hp := List.perm_cons_erase ha
    have h2 : (f a :: (l.erase a).map f).Perm (b :: l2) := by
      have := (hp.map f).symm.trans h
      simpa using this
    rw [hab] at h2
    obtain ⟨l3, h3, h4⟩ := ih (l.erase a) h2.cons_inv
    exact ⟨a :: l3, hp.trans (h3.cons a), by simp [h4, hab]⟩

theorem Describes_arrays (slots : List Slot) (dt : DataType) (T block : Nat) (V : Image)
    (h : Describes slots dt T block V) :
    V.stridesWithTensor = tensorStrides slots T ∧ V.sizesWithTensor = tensorSizes slots T := by
  obtain ⟨a1, a2, a3, a4, a5, a6, a7, a8⟩ := h
  constructor
  · simp only [Image.stridesWithTensor, tensorStrides, a2, a3, a6]
    split_ifs <;> simp
  · simp only [Image.sizesWithTensor, tensorSizes, a2, a5]
    split_ifs <;> simp

theorem removeSingletons_slots (slots : List Slot) :
    removeSingletons (slots.map (fun sl => (sl.viewStride, sl.sub.count))) =
      (slots.filter (fun sl => decide (sl.sub.count ≠ 1))).map
        (fun sl => (sl.viewStride, sl.sub.count)) := by
  induction slots with
  | nil => simp [removeSingletons]
  | cons sl sls ih =>
    simp only [List.map_cons, removeSingletons, ih, List.filter_cons]
    by_cases h : sl.sub.count = 1 <;> simp [h]

theorem tensor_zip (slots : List Slot) (T : Nat) :
    removeSingletons ((tensorStrides slots T).zip (tensorSizes slots T)) =
      (slots.filter (fun sl => decide (sl.sub.count ≠ 1))).map
          (fun sl => (sl.viewStride, sl.sub.count)) ++
        (if T > 1 then [((1 : Int), T)] else []) := by
  unfold tensorStrides tensorSizes
  rw [List.zip_append (by simp), removeSingletons_append, List.zip_map', removeSingletons_slots]
  congr 1
  split_ifs with h
  · have : T ≠ 1 := by omega
    simp [removeSingletons, this]
  · simp [removeSingletons]

theorem Slot.first_eq (sl : Slot) : sl.first = sl.sub.lo * sl.stride + sl.back := by
  cases hn : sl.neg
  · simp [Slot.first, Slot.back, hn]
  · simp [Slot.first, Slot.back, hn]
    ring

theorem unMirror_slots (slots : List Slot) (B : List (Int × Nat)) (o : Nat)
    (hv : ∀ sl ∈ slots, sl.Valid) (hB : ∀ q ∈ B, 0 ≤ q.1) (ho : o ≤ UINT_MAX)
    (hsum : (slots.map Slot.back).sum ≤ o) :
    unMirror ((slots.filter (fun sl => decide (sl.sub.count ≠ 1))).map
        (fun sl => (sl.viewStride, sl.sub.count)) ++ B) o =
      ((slots.filter (fun sl => decide (sl.sub.count ≠ 1))).map Slot.posPair ++ B,
        o - (slots.map Slot.back).sum) := by
  induction slots generalizing o with
  | nil => simp [unMirror_nonneg B o hB]
  | cons sl sls ih =>
    have hsl := hv sl (by simp)
    have hv2 : ∀ x ∈ sls, x.Valid := fun x hx => hv x (by simp [hx])
    simp only [List.map_cons, List.sum_cons] at hsum
    by_cases hc : sl.sub.count = 1
    · have hb : sl.back = 0 := by
        simp [Slot.back, hc]
      simp only [List.filter_cons, hc, ne_eq, not_true_eq_false, decide_False,
        Bool.false_eq_true, if_false, List.map_cons, List.sum_cons, hb, Nat.zero_add]
      exact ih o hv2 ho (by omega)
    · simp only [List.filter_cons, hc, ne_eq, not_false_eq_true, decide_True, if_true,
        List.map_cons, List.sum_cons, List.cons_append, unMirror]
      obtain ⟨v1, v2, v3⟩ := hsl
      cases hn : sl.neg
      · have hb : sl.back = 0 := by simp [Slot.back, hn]
        have hvs : sl.viewStride = ((sl.sub.step * sl.stride : Nat) : Int) := by
          simp [Slot.viewStride, hn]
        have hnn : ¬ sl.viewStride < 0 := by
          rw [hvs]
          omega
        rw [if_neg hnn, ih o hv2 ho (by omega), hb, Nat.zero_add]
        simp only [Slot.posPair, hvs]
      · have hb : sl.back = sl.sub.step * (sl.sub.count - 1) * sl.stride := by
          simp [Slot.back, hn]
        have hvs : sl.viewStride = -((sl.sub.step * sl.stride : Nat) : Int) := by
          simp [Slot.viewStride, hn]
        by_cases hz : sl.sub.step * sl.stride = 0
        · have hb0 : sl.back = 0 := by
            rw [hb]
            have : sl.sub.step * (sl.sub.count - 1) * sl.stride =
                sl.sub.step * sl.stride * (sl.sub.count - 1) := by ring
            rw [this, hz, Nat.zero_mul]
          have hnn : ¬ sl.viewStride < 0 := by
            rw [hvs, hz]
            simp
          rw [if_neg hnn, ih o hv2 ho (by omega), hb0, Nat.zero_add]
          simp only [Slot.posPair, hvs, hz]
          simp
        · have hneg : sl.viewStride < 0 := by
            rw [hvs]
            have : 0 < sl.sub.step * sl.stride := Nat.pos_of_ne_zero hz
            omega
          have hle : sl.back ≤ o := by omega
          have e1 : (o : Int) - ((sl.sub.count : Int) - 1) * (-sl.viewStride) =
              ((o - sl.back : Nat) : Int) := by
            have hc1 : (sl.sub.count : Int) - 1 = ((sl.sub.count - 1 : Nat) : Int) := by omega
            have hbk : ((sl.back : Nat) : Int) =
                ((sl.sub.count : Int) - 1) * ((sl.sub.step * sl.stride : Nat) : Int) := by
              rw [hb, hc1]
              push_cast
              ring
            rw [hvs, neg_neg, ← hbk]
            exact (Nat.cast_sub hle).symm
          rw [if_pos hneg, e1, toUint_natCast _ (by omega), ih (o - sl.back) hv2 (by omega)
            (by omega)]
          simp only [Slot.posPair, hvs, neg_neg]
          congr 1
          omega

end dip

namespace dip

theorem gridSlots_cons (p : Nat) (ps : List Nat) (s : Nat) (slots : List Slot)
    (hkey : slots.map Slot.key = (normalSlots (p :: ps) s).map Slot.key) :
    ∃ sl sls, slots = sl :: sls ∧ sl.stride = s ∧ sl.size = p ∧
      sls.map Slot.key = (normalSlots ps (s * p)).map Slot.key := by
  cases slots with
  | nil => simp [normalSlots] at hkey
  | cons sl sls =>
    simp only [normalSlots, List.map_cons, List.cons.injEq, Slot.key, Prod.mk.injEq] at hkey
    exact ⟨sl, sls, rfl, hkey.1.1, hkey.1.2, hkey.2⟩

theorem gridSlots_facts (ps : List Nat) (s : Nat) (slots : List Slot)
    (hkey : slots.map Slot.key = (normalSlots ps s).map Slot.key)
    (hv : ∀ sl ∈ slots, sl.Valid) :
    subDims ps (slots.map Slot.sub) s =
        (slots.filter (fun sl => decide (sl.sub.count ≠ 1))).map Slot.posPair ∧
      subOrigin ps (slots.map Slot.sub) s = (slots.map (fun sl => sl.sub.lo * sl.stride)).sum ∧
      SubValid ps (slots.map Slot.sub) := by
  induction ps generalizing s slots with
  | nil =>
    have : slots = [] := by simpa [normalSlots] using hkey
    subst this
    simp [subDims, subOrigin, SubValid]
  | cons p ps ih =>
    obtain ⟨sl, sls, rfl, h1, h2, h3⟩ := gridSlots_cons p ps s slots hkey
    obtain ⟨i1, i2, i3⟩ := ih (s * p) sls h3 (fun x hx => hv x (by simp [hx]))
    obtain ⟨v1, v2, v3⟩ := hv sl (by simp)
    refine ⟨?_, ?_, ?_⟩
    · simp only [List.map_cons, subDims, i1, List.filter_cons]
      by_cases hc : sl.sub.count = 1
      · simp [hc]
      · simp [hc, Slot.posPair, h1]
    · simp only [List.map_cons, subOrigin, i2, List.sum_cons, h1]
    · simp only [List.map_cons, SubValid]
      exact ⟨v1, v2, by rw [← h2]; exact v3, i3⟩

theorem subDims_sorted (ps : List Nat) (vs : List SubDim) (s : Nat) (hv : SubValid ps vs)
    (hs : 1 ≤ s) : (subDims ps vs s).Pairwise (fun x y => x.1 < y.1) := by
  induction ps generalizing vs s with
  | nil => cases vs <;> simp [subDims]
  | cons p ps ih =>
    cases vs with
    | nil => simp [subDims]
    | cons v vs =>
      obtain ⟨h1, h2, h3, h4⟩ := SubValid_cons p ps v vs hv
      have hsp : 1 ≤ s * p := Nat.one_le_iff_ne_zero.mpr (Nat.mul_ne_zero (by omega) (by omega))
      simp only [subDims]
      split_ifs with hc
      · exact ih vs _ h4 hsp
      · rw [List.pairwise_cons]
        refine ⟨?_, ih vs _ h4 hsp⟩
        intro y hy
        obtain ⟨n, e1, e2, -⟩ := subDims_form ps vs (s * p) h4 y hy
        obtain ⟨hlt, -⟩ := step_count_lt p v h2 h3 s hs
        have : v.step * s ≤ v.step * s * (v.count - 1) := Nat.le_mul_of_pos_right _ (by omega)
        have h5 : v.step * s < n := by omega
        have h6 : ((v.step * s : Nat) : Int) < (n : Int) := by exact_mod_cast h5
        rw [e1]
        exact h6

theorem eq_of_sorted_key (l : List (Int × Nat)) (h : l.Pairwise (fun x y => x.1 < y.1))
    (a b : Int × Nat) (ha : a ∈ l) (hb : b ∈ l) (hab : a.1 = b.1) : a = b := by
  induction l with
  | nil => simp at ha
  | cons c l ih =>
    rw [List.pairwise_cons] at h
    rcases List.mem_cons.mp ha with h1 | h1
    · rcases List.mem_cons.mp hb with h2 | h2
      · rw [h1, h2]
      · have := h.1 b h2
        rw [← h1] at this
        omega
    · rcases List.mem_cons.mp hb with h2 | h2
      · have := h.1 a h1
        rw [← h2] at this
        omega
      · exact ih h.2 h1 h2

theorem sortStrides_eq_of_perm (l l2 : List (Int × Nat)) (hp : l.Perm l2)
    (hs : l2.Pairwise (fun x y => x.1 < y.1)) : sortStrides l = l2 := by
  have hperm : (sortStrides l).Perm l2 := (insertionSort_perm _ l).trans hp
  have hsorted : (sortStrides l).Pairwise (fun x y : Int × Nat => x.1 ≤ y.1) := by
    have := insertionSort_pairwise (fun p e : Int × Nat => decide (p.1 > e.1))
      (by
        intro a b hab
        simp only [gt_iff_lt, decide_eq_true_eq, decide_eq_false_iff_not, not_lt] at hab ⊢
        omega)
      (by
        intro a b c hab hbc
        simp only [gt_iff_lt, decide_eq_false_iff_not, not_lt] at hab hbc ⊢
        omega) l
    refine this.imp ?_
    intro a b hab
    simpa using hab
  refine List.Perm.eq_of_sorted ?_ hsorted (hs.imp (fun h => le_of_lt h)) hperm
  intro a b ha hb h1 h2
  exact eq_of_sorted_key l2 hs a b (hperm.subset ha) hb (by omega)

theorem FindDataBlockSizeAndStartExact.loop_cons_fst (st : Int) (sts : List Int) (sz : Nat)
    (szs : List Nat) :
    (FindDataBlockSizeAndStartExact.loop (st :: sts) (sz :: szs) 0 0).1 =
      (if ((sz : Int) - 1) * st < 0 then ((sz : Int) - 1) * st else 0) +
        (FindDataBlockSizeAndStartExact.loop sts szs 0 0).1 := by
  simp only [FindDataBlockSizeAndStartExact.loop]
  split_ifs
  · rw [FindDataBlockSizeAndStartExact.loop_shift]
    simp
  · rw [FindDataBlockSizeAndStartExact.loop_shift]

theorem FindDataBlockSizeAndStartExact.loop_slots (slots : List Slot) (B1 : List Int) (B2 : List Nat)
    (hv : ∀ sl ∈ slots, sl.Valid) :
    (FindDataBlockSizeAndStartExact.loop (slots.map Slot.viewStride ++ B1)
        (slots.map (fun sl => sl.sub.count) ++ B2) 0 0).1 =
      -(((slots.map Slot.back).sum : Nat) : Int) + (FindDataBlockSizeAndStartExact.loop B1 B2 0 0).1 := by
  induction slots with
  | nil => simp
  | cons sl sls ih =>
    obtain ⟨v1, v2, v3⟩ := hv sl (by simp)
    have hrec := ih (fun x hx => hv x (by simp [hx]))
    have hc1 : (sl.sub.count : Int) - 1 = ((sl.sub.count - 1 : Nat) : Int) := by omega
    rw [List.map_cons, List.map_cons, List.cons_append, List.cons_append,
      FindDataBlockSizeAndStartExact.loop_cons_fst, hrec, List.map_cons, List.sum_cons]
    cases hn : sl.neg
    · have hvs : sl.viewStride = ((sl.sub.step * sl.stride : Nat) : Int) := by
        simp [Slot.viewStride, hn]
      have hb : sl.back = 0 := by simp [Slot.back, hn]
      have hnn : ¬ ((sl.sub.count : Int) - 1) * sl.viewStride < 0 := by
        rw [hvs, hc1]
        have : (0 : Int) ≤ ((sl.sub.count - 1 : Nat) : Int) * ((sl.sub.step * sl.stride : Nat) : Int) :=
          mul_nonneg (by omega) (by omega)
        omega
      rw [if_neg hnn, hb]
      simp
    · have hvs : sl.viewStride = -((sl.sub.step * sl.stride : Nat) : Int) := by
        simp [Slot.viewStride, hn]
      have hb : ((sl.back : Nat) : Int) = -(((sl.sub.count : Int) - 1) * sl.viewStride) := by
        simp only [Slot.back, hn, if_true, hvs, hc1]
        push_cast
        ring
      by_cases hneg : ((sl.sub.count : Int) - 1) * sl.viewStride < 0
      · rw [if_pos hneg]
        push_cast
        rw [hb]
        ring
      · rw [if_neg hneg]
        have h0 : ((sl.back : Nat) : Int) = 0 := by
          have : (0 : Int) ≤ ((sl.back : Nat) : Int) := by omega
          omega
        push_cast
        rw [h0]
        ring

theorem normalSlots_weight (ps : List Nat) (s : Nat) (hpos : ∀ p ∈ ps, 1 ≤ p) :
    (((normalSlots ps s).map Slot.key).map (fun q => (q.2 - 1) * q.1)).sum + s = s * ps.prod ∧
      (((normalSlots ps s).map Slot.key).map (fun q => q.2)).prod = ps.prod := by
  induction ps generalizing s with
  | nil => simp [normalSlots]
  | cons p ps ih =>
    have hp : 1 ≤ p := hpos p (by simp)
    obtain ⟨h1, h2⟩ := ih (s * p) (fun x hx => hpos x (by simp [hx]))
    constructor
    · simp only [normalSlots, List.map_cons, List.sum_cons, List.prod_cons, Slot.key]
      have e : (p - 1) * s + s = s * p := by
        have : p - 1 + 1 = p := by omega
        calc (p - 1) * s + s = (p - 1 + 1) * s := by ring
          _ = s * p := by rw [this, Nat.mul_comm]
      have e2 : s * (p * ps.prod) = s * p * ps.prod := by ring
      omega
    · simp only [normalSlots, List.map_cons, List.prod_cons, Slot.key, h2]

theorem Slot.first_le (sl : Slot) (hv : sl.Valid) :
    sl.sub.lo * sl.stride ≤ sl.first ∧ sl.first ≤ (sl.size - 1) * sl.stride ∧
      sl.sub.count ≤ sl.size := by
  obtain ⟨v1, v2, v3⟩ := hv
  refine ⟨?_, ?_, ?_⟩
  · rw [Slot.first_eq]
    omega
  · unfold Slot.first
    apply Nat.mul_le_mul_right
    split_ifs <;> omega
  · have : sl.sub.count - 1 ≤ sl.sub.step * (sl.sub.count - 1) := Nat.le_mul_of_pos_left _ v2
    omega

theorem slots_bounds (slots : List Slot) (hv : ∀ sl ∈ slots, sl.Valid) :
    (slots.map (fun sl => sl.sub.lo * sl.stride)).sum + (slots.map Slot.back).sum =
        (slots.map Slot.first).sum ∧
      (slots.map Slot.first).sum ≤ ((slots.map Slot.key).map (fun q => (q.2 - 1) * q.1)).sum ∧
      (slots.map (fun sl => sl.sub.count)).prod ≤ ((slots.map Slot.key).map (fun q => q.2)).prod ∧
      ∀ x ∈ slots.map (fun sl => sl.sub.count), 1 ≤ x := by
  induction slots with
  | nil => simp
  | cons sl sls ih =>
    obtain ⟨h1, h2, h3, h4⟩ := ih (fun x hx => hv x (by simp [hx]))
    have hsl := hv sl (by simp)
    obtain ⟨f1, f2, f3⟩ := Slot.first_le sl hsl
    have f0 := Slot.first_eq sl
    refine ⟨?_, ?_, ?_, ?_⟩
    · simp only [List.map_cons, List.sum_cons]
      omega
    · simp only [List.map_cons, List.sum_cons, Slot.key] at h2 ⊢
      omega
    · simp only [List.map_cons, List.prod_cons, Slot.key] at h3 ⊢
      exact Nat.mul_le_mul f3 h3
    · intro x hx
      simp only [List.map_cons, List.mem_cons] at hx
      rcases hx with rfl | hx
      · exact hsl.1
      · exact h4 x hx

end dip

namespace dip

/-- What `Aliases` works on for a view described by slots, of a normal layout with the sizes
`sizes` and `T` tensor elements: the arrays of the view in `subDims` form, its origin moved to
the pixel with the lowest offset, and the bounds its early tests rely on. -/
theorem Slots_forms (slots slots2 : List Slot) (sizes : List Nat) (T : Nat)
    (hv : ∀ sl ∈ slots, sl.Valid) (hperm : slots.Perm slots2)
    (hkey : slots2.map Slot.key = (normalSlots sizes T).map Slot.key)
    (hT : 1 ≤ T) (hpos : ∀ p ∈ sizes, 1 ≤ p) (hlim : T * sizes.prod ≤ UINT_MAX) :
    SubValid (T :: sizes) (slotSubs T slots2) ∧
      (∀ x ∈ tensorSizes slots T, x ≠ 0) ∧ (tensorSizes slots T).prod ≤ UINT_MAX ∧
      (slots.map Slot.first).sum + T ≤ T * sizes.prod ∧
      subOrigin (T :: sizes) (slotSubs T slots2) 1 ≤ (slots.map Slot.first).sum ∧
      (∃ d, unMirror (removeSingletons ((tensorStrides slots T).zip (tensorSizes slots T)))
            (slots.map Slot.first).sum = (d, subOrigin (T :: sizes) (slotSubs T slots2) 1) ∧
          (sortStrides d).dropWhile (fun p => decide (p.1 = 0)) =
            subDims (T :: sizes) (slotSubs T slots2) 1) ∧
      (((slots.map Slot.first).sum : Nat) : Int) +
          (FindDataBlockSizeAndStartExact (tensorStrides slots T) (tensorSizes slots T)).2 =
        ((subOrigin (T :: sizes) (slotSubs T slots2) 1 : Nat) : Int) := by
  have hv2 : ∀ sl ∈ slots2, sl.Valid := fun sl hsl => hv sl (hperm.mem_iff.mpr hsl)
  obtain ⟨g1, g2, g3⟩ := gridSlots_facts sizes T slots2 hkey hv2
  obtain ⟨b1, b2, b3, b4⟩ := slots_bounds slots hv
  obtain ⟨w1, w2⟩ := normalSlots_weight sizes T hpos
  have hkp : (slots.map Slot.key).Perm ((normalSlots sizes T).map Slot.key) := by
    rw [← hkey]
    exact hperm.map _
  have hW : ((slots.map Slot.key).map (fun q => (q.2 - 1) * q.1)).sum + T = T * sizes.prod := by
    rw [(hkp.map _).sum_eq]
    exact w1
  have hP : ((slots.map Slot.key).map (fun q => q.2)).prod = sizes.prod := by
    rw [(hkp.map _).prod_eq]
    exact w2
  have hsv : SubValid (T :: sizes) (slotSubs T slots2) := by
    refine ⟨hT, le_refl 1, ?_, g3⟩
    simp only
    omega
  have hso : subOrigin (T :: sizes) (slotSubs T slots2) 1 =
      (slots.map (fun sl => sl.sub.lo * sl.stride)).sum := by
    simp only [slotSubs, subOrigin, Nat.one_mul, Nat.zero_mul, Nat.zero_add, g2]
    exact ((hperm.map _).sum_eq).symm
  have hsd : subDims (T :: sizes) (slotSubs T slots2) 1 =
      (if T = 1 then [] else [((1 : Int), T)]) ++
        (slots2.filter (fun sl => decide (sl.sub.count ≠ 1))).map Slot.posPair := by
    simp only [slotSubs, subDims, Nat.one_mul, g1]
    split_ifs <;> simp
  have hfirst : (slots.map Slot.first).sum ≤ UINT_MAX := by omega
  refine ⟨hsv, ?_, ?_, by omega, by omega, ?_, ?_⟩
  · intro x hx
    simp only [tensorSizes, List.mem_append] at hx
    rcases hx with hx | hx
    · have := b4 x hx
      omega
    · split_ifs at hx with h1
      · simp only [List.mem_singleton] at hx
        omega
      · simp at hx
  · simp only [tensorSizes, List.prod_append]
    have h1 : (if T > 1 then [T] else []).prod = T := by
      split_ifs with h
      · simp
      · have : T = 1 := by omega
        simp [this]
    rw [h1]
    have := Nat.mul_le_mul_right T b3
    rw [hP] at this
    have e : sizes.prod * T = T * sizes.prod := Nat.mul_comm _ _
    omega
  · refine ⟨(slots.filter (fun sl => decide (sl.sub.count ≠ 1))).map Slot.posPair ++
      (if T > 1 then [((1 : Int), T)] else []), ?_, ?_⟩
    · rw [tensor_zip, unMirror_slots slots _ _ hv ?_ hfirst (by omega), hso]
      · congr 1
        omega
      · intro q hq
        split_ifs at hq with h1
        · simp only [List.mem_singleton] at hq
          rw [hq]
          simp
        · simp at hq
    · have hsorted := subDims_sorted (T :: sizes) (slotSubs T slots2) 1 hsv (le_refl 1)
      rw [sortStrides_eq_of_perm _ (subDims (T :: sizes) (slotSubs T slots2) 1) ?_ hsorted]
      · apply dropWhile_of_all_false
        intro q hq
        obtain ⟨n, e1, e2, -⟩ := subDims_form (T :: sizes) (slotSubs T slots2) 1 hsv q hq
        simp only [decide_eq_false_iff_not, e1]
        have : n ≠ 0 := by omega
        exact_mod_cast this
      · rw [hsd]
        have hp1 : ((slots.filter (fun sl => decide (sl.sub.count ≠ 1))).map Slot.posPair).Perm
            ((slots2.filter (fun sl => decide (sl.sub.count ≠ 1))).map Slot.posPair) :=
          (hperm.filter _).map _
        have hB : (if T > 1 then [((1 : Int), T)] else []) =
            (if T = 1 then [] else [((1 : Int), T)]) := by
          by_cases h : T = 1
          · simp [h]
          · have : T > 1 := by omega
            simp [h, this]
        rw [hB]
        exact List.perm_append_comm.trans (List.Perm.append_left _ hp1)
  · have hl := FindDataBlockSizeAndStartExact.loop_slots slots (if T > 1 then [1] else [])
      (if T > 1 then [T] else []) hv
    have hB : (FindDataBlockSizeAndStartExact.loop (if T > 1 then [(1 : Int)] else [])
        (if T > 1 then [T] else []) 0 0).1 = 0 := by
      split_ifs with h
      · have h0 : ¬ ((T : Int) - 1) * 1 < 0 := by omega
        simp only [FindDataBlockSizeAndStartExact.loop, if_neg h0]
      · simp [FindDataBlockSizeAndStartExact.loop]
    rw [hB] at hl
    simp only [FindDataBlockSizeAndStartExact, tensorStrides, tensorSizes, hl, hso]
    have : (((slots.map Slot.first).sum : Nat) : Int) =
        (((slots.map (fun sl => sl.sub.lo * sl.stride)).sum : Nat) : Int) +
          (((slots.map Slot.back).sum : Nat) : Int) := by
      rw [← b1]
      push_cast
      rfl
    rw [this]
    ring

end dip

namespace dip

/-! ## A normal layout and a view derived from it -/

end dip

namespace dip

/-! ## The merge walk on two views of the same normal layout -/

theorem subDims_head_gt (ps : List Nat) (vs : List SubDim) (s p : Nat) (v : SubDim)
    (hv : SubValid ps vs) (hs : 1 ≤ s) (h2 : 1 ≤ v.step)
    (h3 : v.lo + v.step * (v.count - 1) < p) :
    ∀ q ∈ (subDims ps vs (s * p)).head?, ((v.step * s * (v.count - 1) : Nat) : Int) < q.1 := by
  intro q hq
  obtain ⟨n, e1, e2, -⟩ := subDims_form ps vs (s * p) hv q (List.mem_of_mem_head? hq)
  obtain ⟨hlt, -⟩ := step_count_lt p v h2 h3 s hs
  rw [e1]
  have : v.step * s * (v.count - 1) < n := by omega
  exact_mod_cast this

theorem mergeWalk_pair (ps : List Nat) (vs1 vs2 : List SubDim) (s : Nat) (first : Bool)
    (fuel : Nat) (hv1 : SubValid ps vs1) (hv2 : SubValid ps vs2) (hal : Aligned ps vs1 vs2 s)
    (hs : 1 ≤ s) (hfuel : (subDims ps vs1 s).length + (subDims ps vs2 s).length ≤ fuel) :
    mergeWalk fuel (subDims ps vs1 s) (subDims ps vs2 s) first = mergedPair ps vs1 vs2 s first := by
  induction ps generalizing vs1 vs2 s first fuel with
  | nil =>
    cases vs1 <;> cases vs2 <;> simp [subDims, mergedPair, mergeWalk_nil]
  | cons p ps ih =>
    cases vs1 with
    | nil => simp [SubValid] at hv1
    | cons v1 vs1 =>
      cases vs2 with
      | nil => simp [SubValid] at hv2
      | cons v2 vs2 =>
        obtain ⟨a1, a2, a3, a4⟩ := SubValid_cons p ps v1 vs1 hv1
        obtain ⟨b1, b2, b3, b4⟩ := SubValid_cons p ps v2 vs2 hv2
        obtain ⟨al1, al2, al3⟩ := hal
        have hsp : 1 ≤ s * p :=
          Nat.one_le_iff_ne_zero.mpr (Nat.mul_ne_zero (by omega) (by omega))
        have hg1 := subDims_head_gt ps vs1 s p v1 a4 hs a2 a3
        have hg2 := subDims_head_gt ps vs1 s p v2 a4 hs b2 b3
        have hg3 := subDims_head_gt ps vs2 s p v1 b4 hs a2 a3
        have hg4 := subDims_head_gt ps vs2 s p v2 b4 hs b2 b3
        have hk1 : v1.step * s ≠ 0 := Nat.mul_ne_zero (by omega) (by omega)
        have hk2 : v2.step * s ≠ 0 := Nat.mul_ne_zero (by omega) (by omega)
        by_cases hc1 : v1.count = 1
        · by_cases hc2 : v2.count = 1
          · simp only [subDims, mergedPair, hc1, hc2, if_true, and_self] at hfuel ⊢
            exact ih vs1 vs2 _ first fuel a4 b4 al3 hsp hfuel
          · simp only [subDims, mergedPair, hc1, hc2, if_true, if_false, and_false,
              List.length_cons] at hfuel ⊢
            obtain ⟨f, rfl⟩ : ∃ f, fuel = f + 1 := ⟨fuel - 1, by omega⟩
            have hrec := ih vs1 vs2 (s * p) false f a4 b4 al3 hsp (by omega)
            have hle := al2 hc2 hc1
            cases hl1 : subDims ps vs1 (s * p) with
            | nil =>
              rw [mergeWalk_left_end]
              rw [hl1] at hrec
              rw [hrec]
            | cons q1 t1 =>
              obtain ⟨q, hq, hqle⟩ := hle q1 (by rw [hl1]; simp)
              obtain ⟨t2, hl2⟩ : ∃ t2, subDims ps vs2 (s * p) = q :: t2 := by
                cases hl : subDims ps vs2 (s * p) with
                | nil => rw [hl] at hq; simp at hq
                | cons x t =>
                  rw [hl] at hq
                  simp only [List.head?_cons, Option.mem_def, Option.some.injEq] at hq
                  exact ⟨t, by rw [hq]⟩
              obtain ⟨n1, e1, e2, e3⟩ := subDims_form ps vs1 (s * p) a4 q1 (by rw [hl1]; simp)
              have hq1 : q1 = (((n1 : Nat) : Int), q1.2) := by rw [← e1]
              rw [hl1, hl2] at hrec
              rw [hl2]
              rw [hq1] at hrec ⊢
              rw [mergeWalk_skip_first _ _ _ _ _ _ _ _ _ (by omega) hk2, hrec]
              · intro x hx
                have hx2 : x ∈ subDims ps vs1 (s * p) := by
                  rw [hl1]
                  exact List.mem_cons_of_mem _ (List.mem_of_mem_head? hx)
                obtain ⟨n, f1, f2, -⟩ := subDims_form ps vs1 (s * p) a4 x hx2
                obtain ⟨hlt, -⟩ := step_count_lt p v2 b2 b3 s hs
                rw [f1]
                have : v2.step * s * (v2.count - 1) < n := by omega
                exact_mod_cast this
              · rw [e1] at hqle
                push_cast
                exact hqle
        · by_cases hc2 : v2.count = 1
          · simp only [subDims, mergedPair, hc1, hc2, if_true, if_false, false_and,
              List.length_cons] at hfuel ⊢
            obtain ⟨f, rfl⟩ : ∃ f, fuel = f + 1 := ⟨fuel - 1, by omega⟩
            have hrec := ih vs1 vs2 (s * p) false f a4 b4 al3 hsp (by omega)
            have hle := al1 hc1 hc2
            cases hl2 : subDims ps vs2 (s * p) with
            | nil =>
              rw [mergeWalk_right_end _ _ _ _ _ hk1]
              rw [hl2] at hrec
              rw [hrec]
            | cons q2 t2 =>
              obtain ⟨q, hq, hqle⟩ := hle q2 (by rw [hl2]; simp)
              obtain ⟨t1, hl1⟩ : ∃ t1, subDims ps vs1 (s * p) = q :: t1 := by
                cases hl : subDims ps vs1 (s * p) with
                | nil => rw [hl] at hq; simp at hq
                | cons x t =>
                  rw [hl] at hq
                  simp only [List.head?_cons, Option.mem_def, Option.some.injEq] at hq
                  exact ⟨t, by rw [hq]⟩
              obtain ⟨n2, e1, e2, e3⟩ := subDims_form ps vs2 (s * p) b4 q2 (by rw [hl2]; simp)
              have hq2 : q2 = (((n2 : Nat) : Int), q2.2) := by rw [← e1]
              rw [hl1, hl2] at hrec
              rw [hl1]
              rw [hq2] at hrec ⊢
              rw [mergeWalk_skip_second _ _ _ _ _ _ _ _ _ hk1 (by omega), hrec]
              · rw [e1] at hqle
                push_cast
                exact hqle
          · simp only [subDims, mergedPair, hc1, hc2, if_false, false_and,
              List.length_cons] at hfuel ⊢
            obtain ⟨f, rfl⟩ : ∃ f, fuel = f + 1 := ⟨fuel - 1, by omega⟩
            have hrec := ih vs1 vs2 (s * p) false f a4 b4 al3 hsp (by omega)
            rw [mergeWalk_match _ _ _ _ _ _ _ _ hk1 hk2 hg2 hg3, hrec]

end dip

namespace dip

/-! ## Two views that differ from the whole layout along one dimension only -/

theorem SubValid_set (ps : List Nat) (n : Nat) (v : SubDim) (hpos : ∀ p ∈ ps, 1 ≤ p)
    (h1 : 1 ≤ v.count) (h2 : 1 ≤ v.step) (h3 : v.lo + v.step * (v.count - 1) < ps.getD n 0) :
    SubValid ps ((fullSub ps).set n v) := by
  induction ps generalizing n with
  | nil => simp [fullSub, SubValid]
  | cons p ps ih =>
    have hp : 1 ≤ p := hpos p (by simp)
    have hpos2 : ∀ x ∈ ps, 1 ≤ x := fun x hx => hpos x (by simp [hx])
    cases n with
    | zero =>
      have := SubValid_fullSub ps hpos2
      simp only [fullSub, List.map_cons, List.set_cons_zero, SubValid] at this ⊢
      exact ⟨h1, h2, by simpa using h3, this⟩
    | succ n =>
      have := ih n hpos2 (by simpa using h3)
      simp only [fullSub, List.map_cons, List.set_cons_succ, SubValid] at this ⊢
      exact ⟨hp, le_refl 1, by omega, this⟩

theorem HeadLe_self (ps : List Nat) (s : Nat) (hpos : ∀ p ∈ ps, 1 ≤ p) :
    HeadLe (gridDims ps s) (gridDims ps s) := by
  intro q hq
  refine ⟨q, hq, ?_⟩
  obtain ⟨n, e1, e2, e3⟩ := gridDims_form ps s hpos q (List.mem_of_mem_head? hq)
  rw [e1]
  have : n ≤ n * (q.2 - 1) := Nat.le_mul_of_pos_right n (by omega)
  exact_mod_cast this

theorem Aligned_self (ps : List Nat) (vs : List SubDim) (s : Nat) : Aligned ps vs vs s := by
  induction ps generalizing vs s with
  | nil => cases vs <;> simp [Aligned]
  | cons p ps ih =>
    cases vs with
    | nil => simp [Aligned]
    | cons v vs =>
      refine ⟨fun h1 h2 => absurd h2 h1, fun h1 h2 => absurd h2 h1, ih vs _⟩

theorem Aligned_set (ps : List Nat) (n : Nat) (v1 v2 : SubDim) (s : Nat)
    (hpos : ∀ p ∈ ps, 1 ≤ p) :
    Aligned ps ((fullSub ps).set n v1) ((fullSub ps).set n v2) s := by
  induction ps generalizing n s with
  | nil => simp [fullSub, Aligned]
  | cons p ps ih =>
    have hpos2 : ∀ x ∈ ps, 1 ≤ x := fun x hx => hpos x (by simp [hx])
    cases n with
    | zero =>
      have ha := Aligned_self ps (fullSub ps) (s * p)
      have hh := HeadLe_self ps (s * p) hpos2
      rw [← subDims_fullSub] at hh
      simp only [fullSub, List.map_cons, List.set_cons_zero, Aligned] at ha hh ⊢
      exact ⟨fun _ _ => hh, fun _ _ => hh, ha⟩
    | succ n =>
      have := ih n (s * p) hpos2
      simp only [fullSub, List.map_cons, List.set_cons_succ, Aligned] at this ⊢
      exact ⟨fun h1 h2 => absurd h2 h1, fun h1 h2 => absurd h2 h1, this⟩

theorem subOrigin_set (ps : List Nat) (n : Nat) (v : SubDim) (s : Nat) (hn : n < ps.length) :
    subOrigin ps ((fullSub ps).set n v) s = v.lo * (s * (ps.take n).prod) := by
  induction ps generalizing n s with
  | nil => simp at hn
  | cons p ps ih =>
    cases n with
    | zero =>
      have := subOrigin_fullSub ps (s * p)
      simp only [fullSub, List.map_cons, List.set_cons_zero, subOrigin] at this ⊢
      rw [this]
      simp
    | succ n =>
      have := ih n (s * p) (by simpa using hn)
      simp only [fullSub, List.map_cons, List.set_cons_succ, subOrigin, List.take_succ_cons,
        List.prod_cons] at this ⊢
      rw [this]
      ring

theorem mergedPair_fullSub (ps : List Nat) (s : Nat) (hs : 1 ≤ s) (hpos : ∀ p ∈ ps, 1 ≤ p) :
    mergedPair ps (fullSub ps) (fullSub ps) s false = mergedFull ps (fullSub ps) s := by
  induction ps generalizing s with
  | nil => simp [fullSub, mergedPair, mergedFull]
  | cons p ps ih =>
    have hp : 1 ≤ p := hpos p (by simp)
    have hsp : 1 ≤ s * p := Nat.one_le_iff_ne_zero.mpr (Nat.mul_ne_zero (by omega) (by omega))
    have := ih (s * p) hsp (fun x hx => hpos x (by simp [hx]))
    simp only [fullSub, List.map_cons, mergedPair, mergedFull] at this ⊢
    by_cases hp1 : p = 1
    · simp only [hp1, and_self, if_true] at this ⊢
      exact this
    · simp only [hp1, and_self, if_false, Nat.one_mul, this]
      rw [MergedDim.make_same false s p p hs (by simp)]

end dip

namespace dip

theorem mergedAt_zero (p : Nat) (ps : List Nat) (k c1 l1 c2 l2 s : Nat) (first : Bool) :
    mergedAt (p :: ps) 0 ⟨k, c1, l1⟩ ⟨k, c2, l2⟩ s first =
      if c1 = 1 ∧ c2 = 1 then mergedPair ps (fullSub ps) (fullSub ps) (s * p) first
      else MergedDim.make first (k * s) (k * s) c1 c2 ::
        mergedPair ps (fullSub ps) (fullSub ps) (s * p) false := by
  simp only [mergedAt, fullSub, List.map_cons, List.set_cons_zero, mergedPair]
  by_cases hc1 : c1 = 1 <;> by_cases hc2 : c2 = 1 <;> simp [hc1, hc2]

theorem mergedAt_succ (p : Nat) (ps : List Nat) (n : Nat) (v1 v2 : SubDim) (s : Nat)
    (first : Bool) :
    mergedAt (p :: ps) (n + 1) v1 v2 s first =
      if p = 1 then mergedAt ps n v1 v2 (s * p) first
      else MergedDim.make first s s p p :: mergedAt ps n v1 v2 (s * p) false := by
  simp only [mergedAt, fullSub, List.map_cons, List.set_cons_succ, mergedPair, Nat.one_mul]
  by_cases hp : p = 1 <;> simp [hp]

theorem overlapCheck_cons_false (m : MergedDim) (ms : List MergedDim) (o1 o2 : Nat)
    (os1 os2 : List Nat) (h : overlapCheck ms os1 os2 = false) :
    overlapCheck (m :: ms) (o1 :: os1) (o2 :: os2) = false := by
  simp only [overlapCheck, h]
  split_ifs <;> rfl

theorem mod_ne_tmod (l1 l2 k : Nat) (hk1 : 1 ≤ k) (h : l1 % k ≠ l2 % k) :
    k > 1 ∧ ((l1 : Int) - (l2 : Int)).tmod (k : Int) ≠ 0 := by
  constructor
  · rcases Nat.lt_or_ge 1 k with hk | hk
    · exact hk
    · exfalso
      apply h
      have : k = 1 := by omega
      subst this
      simp [Nat.mod_one]
  · intro h0
    apply h
    have hdvd : (k : Int) ∣ (l1 : Int) - (l2 : Int) := Int.dvd_of_tmod_eq_zero h0
    have := Int.emod_emod_of_dvd (l1 : Int) (dvd_refl (k : Int))
    have h1 : (l1 : Int) % (k : Int) = (l2 : Int) % (k : Int) := by
      have := (Int.emod_eq_emod_iff_emod_sub_eq_zero (m := (l1 : Int)) (n := (k : Int))
        (k := (l2 : Int))).mpr (Int.emod_eq_zero_of_dvd hdvd)
      exact this
    exact_mod_cast h1

end dip

namespace dip

/-- Two views that take all pixels along every dimension except one, where they take pixels
the same step apart that do not meet (no pixel in common modulo the step, or one pixel each):
the last loop of `Aliases` answers false as soon as there is a dimension of more than one
pixel below that dimension, or when the first entry of the merge walk is not below it. -/
theorem mergedAt_residue (ps : List Nat) (n k c1 l1 c2 l2 s : Nat) (first : Bool)
    (y1 y2 : Nat) (hpos : ∀ p ∈ ps, 1 ≤ p) (hn : n < ps.length) (hs : 1 ≤ s)
    (hf : first = true → s = 1) (hk : 1 ≤ k)
    (hb1 : l1 + k * (c1 - 1) < ps.getD n 0) (hb2 : l2 + k * (c2 - 1) < ps.getD n 0)
    (hy1 : y1 = if c1 = 1 ∧ c2 = 1 then l1 else l1 % k)
    (hy2 : y2 = if c1 = 1 ∧ c2 = 1 then l2 else l2 % k) (hne : y1 ≠ y2) :
    ((∃ p ∈ ps.take n, p ≠ 1) →
        overlapCheck (mergedAt ps n ⟨k, c1, l1⟩ ⟨k, c2, l2⟩ s first)
          (OffsetToCoordinates.loop
            ((mergedAt ps n ⟨k, c1, l1⟩ ⟨k, c2, l2⟩ s first).map MergedDim.comstride)
            (l1 * (s * (ps.take n).prod))).1
          (OffsetToCoordinates.loop
            ((mergedAt ps n ⟨k, c1, l1⟩ ⟨k, c2, l2⟩ s first).map MergedDim.comstride)
            (l2 * (s * (ps.take n).prod))).1 = false) ∧
      (first = true → mergedAt ps n ⟨k, c1, l1⟩ ⟨k, c2, l2⟩ s first ≠ [] →
        overlapCheck (mergedAt ps n ⟨k, c1, l1⟩ ⟨k, c2, l2⟩ s first)
          (OffsetToCoordinates.loop
            ((mergedAt ps n ⟨k, c1, l1⟩ ⟨k, c2, l2⟩ s first).map MergedDim.comstride)
            (l1 * (s * (ps.take n).prod))).1
          (OffsetToCoordinates.loop
            ((mergedAt ps n ⟨k, c1, l1⟩ ⟨k, c2, l2⟩ s first).map MergedDim.comstride)
            (l2 * (s * (ps.take n).prod))).1 = false) ∧
      (first = false → (∀ p ∈ ps.take n, p = 1) →
        (OffsetToCoordinates.loop
            ((mergedAt ps n ⟨k, c1, l1⟩ ⟨k, c2, l2⟩ s first).map MergedDim.comstride)
            (l1 * (s * (ps.take n).prod))).2 = y1 * s ∧
          (OffsetToCoordinates.loop
            ((mergedAt ps n ⟨k, c1, l1⟩ ⟨k, c2, l2⟩ s first).map MergedDim.comstride)
            (l2 * (s * (ps.take n).prod))).2 = y2 * s) := by
  induction ps generalizing n s first with
  | nil => simp at hn
  | cons p ps ih =>
    have hp : 1 ≤ p := hpos p (by simp)
    have hpos2 : ∀ x ∈ ps, 1 ≤ x := fun x hx => hpos x (by simp [hx])
    have hsp : 1 ≤ s * p := Nat.one_le_iff_ne_zero.mpr (Nat.mul_ne_zero (by omega) (by omega))
    have hvf := SubValid_fullSub ps hpos2
    cases n with
    | zero =>
      simp only [List.getD_cons_zero] at hb1 hb2
      have hl1 : l1 < p := by omega
      have hl2 : l2 < p := by omega
      have ho1 : l1 * s < s * p := by
        rw [Nat.mul_comm l1 s]
        exact Nat.mul_lt_mul_of_pos_left hl1 (by omega)
      have ho2 : l2 * s < s * p := by
        rw [Nat.mul_comm l2 s]
        exact Nat.mul_lt_mul_of_pos_left hl2 (by omega)
      have hd1 := OffsetToCoordinates_loop_sub ps (fullSub ps) (s * p) (l1 * s) hvf hsp ho1
      have hd2 := OffsetToCoordinates_loop_sub ps (fullSub ps) (s * p) (l2 * s) hvf hsp ho2
      rw [subOrigin_fullSub, Nat.zero_add] at hd1 hd2
      have hmf := mergedPair_fullSub ps (s * p) hsp hpos2
      have hcs := mergedFull_comstrides ps (fullSub ps) (s * p) hvf
      simp only [List.take_zero, List.prod_nil, Nat.mul_one, List.not_mem_nil, false_and,
        exists_false, IsEmpty.forall_iff, true_and, implies_true, forall_const]
      rw [mergedAt_zero]
      by_cases hboth : c1 = 1 ∧ c2 = 1
      · rw [if_pos hboth] at hy1 hy2 ⊢
        subst hy1 hy2
        constructor
        · intro hft hM
          have hs1 := hf hft
          subst hs1
          subst hft
          have hw := mergeWalk_pair ps (fullSub ps) (fullSub ps) (1 * p) true
            ((gridDims ps (1 * p)).length + (gridDims ps (1 * p)).length) hvf hvf
            (Aligned_self _ _ _) hsp (by rw [subDims_fullSub])
          rw [subDims_fullSub] at hw
          have hnil : gridDims ps (1 * p) ≠ [] := by
            intro h0
            apply hM
            rw [← hw, h0]
            simp [mergeWalk_nil]
          rw [← hw]
          simp only [Nat.mul_one] at ho1 ho2 ⊢
          exact overlapCheck_same_grid ps (1 * p) y1 y2 hpos2 (by omega) ho1 ho2 hne hnil
        · intro hff
          subst hff
          rw [hmf, hcs, hd1, hd2]
          exact ⟨rfl, rfl⟩
      · rw [if_neg hboth] at hy1 hy2 ⊢
        subst hy1 hy2
        constructor
        · intro hft _
          have hs1 := hf hft
          subst hs1
          subst hft
          have hmk : MergedDim.make true (k * 1) (k * 1) c1 c2 = ⟨1, k, k, c1, c2⟩ := by
            simp [MergedDim.make]
          simp only [Nat.mul_one] at hd1 hd2
          rw [hmk, hmf]
          simp only [Nat.mul_one, List.map_cons, hcs, OffsetToCoordinates.loop, hd1, hd2,
            Nat.div_one, overlapCheck]
          obtain ⟨m1, m2⟩ := mod_ne_tmod l1 l2 k hk hne
          split_ifs with t1 t2 t3
          · rfl
          · rfl
          · rfl
          · exact absurd ⟨trivial, m1, m2⟩ t3
        · intro hff
          subst hff
          have hmk : (MergedDim.make false (k * s) (k * s) c1 c2).comstride = k * s := by
            simp [MergedDim.make]
          rw [hmf]
          simp only [List.map_cons, hcs, hmk, OffsetToCoordinates.loop, hd1, hd2]
          exact ⟨Nat.mul_mod_mul_right _ _ _, Nat.mul_mod_mul_right _ _ _⟩
    | succ n =>
      simp only [List.getD_cons_succ] at hb1 hb2
      have hn2 : n < ps.length := by simpa using hn
      have ho : ∀ l : Nat, l * (s * (p * (ps.take n).prod)) = l * (s * p * (ps.take n).prod) := by
        intro l
        ring
      simp only [List.take_succ_cons, List.prod_cons, ho]
      rw [mergedAt_succ]
      by_cases hp1 : p = 1
      · rw [if_pos hp1]
        obtain ⟨i1, i2, i3⟩ := ih n (s * p) first hpos2 hn2 hsp (fun h => by rw [hf h, hp1])
          hb1 hb2
        refine ⟨?_, i2, ?_⟩
        · rintro ⟨x, hx, hx1⟩
          rcases List.mem_cons.mp hx with hx | hx
          · exact absurd (hx.trans hp1) hx1
          · exact i1 ⟨x, hx, hx1⟩
        · intro hff hall
          have := i3 hff (fun x hx => hall x (List.mem_cons_of_mem _ hx))
          rw [hp1, Nat.mul_one] at this
          rw [hp1, Nat.mul_one]
          exact this
      · rw [if_neg hp1, MergedDim.make_same first s p p hs hf]
        obtain ⟨i1, -, i3⟩ := ih n (s * p) false hpos2 hn2 hsp (by simp) hb1 hb2
        have hmain : overlapCheck
            (⟨s, 1, 1, p, p⟩ :: mergedAt ps n ⟨k, c1, l1⟩ ⟨k, c2, l2⟩ (s * p) false)
            (OffsetToCoordinates.loop
              ((⟨s, 1, 1, p, p⟩ ::
                mergedAt ps n ⟨k, c1, l1⟩ ⟨k, c2, l2⟩ (s * p) false).map MergedDim.comstride)
              (l1 * (s * p * (ps.take n).prod))).1
            (OffsetToCoordinates.loop
              ((⟨s, 1, 1, p, p⟩ ::
                mergedAt ps n ⟨k, c1, l1⟩ ⟨k, c2, l2⟩ (s * p) false).map MergedDim.comstride)
              (l2 * (s * p * (ps.take n).prod))).1 = false := by
          simp only [List.map_cons, OffsetToCoordinates.loop]
          by_cases hex : ∃ x ∈ ps.take n, x ≠ 1
          · exact overlapCheck_cons_false _ _ _ _ _ _ (i1 hex)
          · have hall : ∀ x ∈ ps.take n, x = 1 := by
              intro x hx
              by_contra hx1
              exact hex ⟨x, hx, hx1⟩
            obtain ⟨r1, r2⟩ := i3 rfl hall
            rw [r1, r2]
            have e1 : y1 * (s * p) / s = y1 * p := by
              rw [show y1 * (s * p) = y1 * p * s by ring]
              exact Nat.mul_div_cancel _ (by omega)
            have e2 : y2 * (s * p) / s = y2 * p := by
              rw [show y2 * (s * p) = y2 * p * s by ring]
              exact Nat.mul_div_cancel _ (by omega)
            rw [e1, e2]
            simp only [overlapCheck]
            rcases Nat.lt_or_gt_of_ne hne with hlt | hgt
            · have := Nat.mul_le_mul_right p (show y1 + 1 ≤ y2 by omega)
              have e3 : (y1 + 1) * p = y1 * p + p := by ring
              rw [if_pos (by omega)]
            · have := Nat.mul_le_mul_right p (show y2 + 1 ≤ y1 by omega)
              have e3 : (y2 + 1) * p = y2 * p + p := by ring
              split_ifs
              · rfl
              · rfl
              · omega
              · omega
        refine ⟨fun _ => hmain, fun _ _ => hmain, ?_⟩
        intro _ hall
        exact absurd (hall p (by simp)) hp1

end dip

namespace dip

theorem mergedPair_eq_nil (ps : List Nat) (vs1 vs2 : List SubDim) (s : Nat) (first : Bool)
    (hv1 : SubValid ps vs1) (hv2 : SubValid ps vs2) (h : mergedPair ps vs1 vs2 s first = []) :
    subDims ps vs1 s = [] ∧ subDims ps vs2 s = [] := by
  induction ps generalizing vs1 vs2 s first with
  | nil => cases vs1 <;> cases vs2 <;> simp [subDims]
  | cons p ps ih =>
    cases vs1 with
    | nil => simp [SubValid] at hv1
    | cons v1 vs1 =>
      cases vs2 with
      | nil => simp [SubValid] at hv2
      | cons v2 vs2 =>
        simp only [mergedPair] at h
        by_cases hb : v1.count = 1 ∧ v2.count = 1
        · rw [if_pos hb] at h
          have := ih vs1 vs2 (s * p) first hv1.2.2.2 hv2.2.2.2 h
          simp only [subDims, hb.1, hb.2, if_true]
          exact this
        · rw [if_neg hb] at h
          split_ifs at h

theorem subDims_eq_nil_counts (ps : List Nat) (vs : List SubDim) (s : Nat)
    (hv : SubValid ps vs) (h : subDims ps vs s = []) : ∀ v ∈ vs, v.count = 1 := by
  induction ps generalizing vs s with
  | nil =>
    cases vs with
    | nil => simp
    | cons v vs => simp [SubValid] at hv
  | cons p ps ih =>
    cases vs with
    | nil => simp
    | cons v vs =>
      simp only [subDims] at h
      split_ifs at h with hc
      intro x hx
      rcases List.mem_cons.mp hx with hx | hx
      · rw [hx]
        exact hc
      · exact ih vs _ hv.2.2.2 h x hx

theorem FindDataBlockSizeAndStartExact_all_one (sts : List Int) (szs : List Nat)
    (h : ∀ x ∈ szs, x = 1) : FindDataBlockSizeAndStartExact sts szs = (1, 0) := by
  have hl : FindDataBlockSizeAndStartExact.loop sts szs 0 0 = (0, 0) := by
    induction sts generalizing szs with
    | nil => cases szs <;> simp [FindDataBlockSizeAndStartExact.loop]
    | cons st sts ih =>
      cases szs with
      | nil => simp [FindDataBlockSizeAndStartExact.loop]
      | cons sz szs =>
        have h1 : sz = 1 := h sz (by simp)
        subst h1
        simp only [FindDataBlockSizeAndStartExact.loop]
        simp only [Nat.cast_one, sub_self, zero_mul, lt_irrefl, if_false, add_zero]
        exact ih szs (fun x hx => h x (by simp [hx]))
  simp [FindDataBlockSizeAndStartExact, hl]

theorem aliasesGeneral_pair (st1 : List Int) (sz1 : List Nat) (o1 : Nat) (st2 : List Int)
    (sz2 : List Nat) (o2 : Nat) (d1 d2 : List (Int × Nat)) (ps : List Nat) (n : Nat)
    (v1 v2 : SubDim) (hpos : ∀ p ∈ ps, 1 ≤ p)
    (hv1 : SubValid ps ((fullSub ps).set n v1)) (hv2 : SubValid ps ((fullSub ps).set n v2))
    (h1 : unMirror (removeSingletons (st1.zip sz1)) o1 =
      (d1, subOrigin ps ((fullSub ps).set n v1) 1))
    (h1s : (sortStrides d1).dropWhile (fun p => decide (p.1 = 0)) =
      subDims ps ((fullSub ps).set n v1) 1)
    (h2 : unMirror (removeSingletons (st2.zip sz2)) o2 =
      (d2, subOrigin ps ((fullSub ps).set n v2) 1))
    (h2s : (sortStrides d2).dropWhile (fun p => decide (p.1 = 0)) =
      subDims ps ((fullSub ps).set n v2) 1) :
    aliasesGeneral st1 sz1 o1 st2 sz2 o2 =
      overlapCheck (mergedAt ps n v1 v2 1 true)
        (OffsetToCoordinates (subOrigin ps ((fullSub ps).set n v1) 1)
          ((mergedAt ps n v1 v2 1 true).map MergedDim.comstride))
        (OffsetToCoordinates (subOrigin ps ((fullSub ps).set n v2) 1)
          ((mergedAt ps n v1 v2 1 true).map MergedDim.comstride)) := by
  rw [aliasesGeneral_forms _ _ _ _ _ _ _ _ _ _ _ _ h1 h1s h2 h2s,
    mergeWalk_pair ps _ _ 1 true _ hv1 hv2 (Aligned_set ps n v1 v2 1 hpos) (le_refl 1)
      (le_refl _)]
  rfl

theorem aliasesSameSample_pair_false (st1 : List Int) (sz1 : List Nat) (o1 : Nat)
    (st2 : List Int) (sz2 : List Nat) (o2 : Nat) (d1 d2 : List (Int × Nat)) (ps : List Nat)
    (n k c1 l1 c2 l2 : Nat) (hpos : ∀ p ∈ ps, 1 ≤ p) (hn : n < ps.length)
    (hc1 : 1 ≤ c1) (hc2 : 1 ≤ c2) (hk : 1 ≤ k)
    (hb1 : l1 + k * (c1 - 1) < ps.getD n 0) (hb2 : l2 + k * (c2 - 1) < ps.getD n 0)
    (hne : (if c1 = 1 ∧ c2 = 1 then l1 else l1 % k) ≠ (if c1 = 1 ∧ c2 = 1 then l2 else l2 % k))
    (hnz1 : ∀ x ∈ sz1, x ≠ 0) (hprod1 : sz1.prod ≤ UINT_MAX)
    (hnz2 : ∀ x ∈ sz2, x ≠ 0) (hprod2 : sz2.prod ≤ UINT_MAX)
    (h1 : unMirror (removeSingletons (st1.zip sz1)) o1 =
      (d1, subOrigin ps ((fullSub ps).set n ⟨k, c1, l1⟩) 1))
    (h1s : (sortStrides d1).dropWhile (fun p => decide (p.1 = 0)) =
      subDims ps ((fullSub ps).set n ⟨k, c1, l1⟩) 1)
    (h2 : unMirror (removeSingletons (st2.zip sz2)) o2 =
      (d2, subOrigin ps ((fullSub ps).set n ⟨k, c2, l2⟩) 1))
    (h2s : (sortStrides d2).dropWhile (fun p => decide (p.1 = 0)) =
      subDims ps ((fullSub ps).set n ⟨k, c2, l2⟩) 1)
    (hst1 : (o1 : Int) + (FindDataBlockSizeAndStartExact st1 sz1).2 =
      ((subOrigin ps ((fullSub ps).set n ⟨k, c1, l1⟩) 1 : Nat) : Int))
    (hst2 : (o2 : Int) + (FindDataBlockSizeAndStartExact st2 sz2).2 =
      ((subOrigin ps ((fullSub ps).set n ⟨k, c2, l2⟩) 1 : Nat) : Int))
    (hone1 : subDims ps ((fullSub ps).set n ⟨k, c1, l1⟩) 1 = [] →
      (FindDataBlockSizeAndStartExact st1 sz1).1 = 1)
    (hone2 : subDims ps ((fullSub ps).set n ⟨k, c2, l2⟩) 1 = [] →
      (FindDataBlockSizeAndStartExact st2 sz2).1 = 1) :
    aliasesSameSample st1 sz1 o1 st2 sz2 o2 = .ok false := by
  have hv1 : SubValid ps ((fullSub ps).set n ⟨k, c1, l1⟩) := SubValid_set ps n _ hpos hc1 hk hb1
  have hv2 : SubValid ps ((fullSub ps).set n ⟨k, c2, l2⟩) := SubValid_set ps n _ hpos hc2 hk hb2
  obtain ⟨r1, a3, a4, a5, -⟩ := FindSimpleStrideSizeAndStartExact_ok st1 sz1 hnz1 hprod1
  obtain ⟨r2, b3, b4, b5, -⟩ := FindSimpleStrideSizeAndStartExact_ok st2 sz2 hnz2 hprod2
  rw [aliasesSameSample_eq _ _ _ _ _ _ r1 r2 a3 b3]
  split_ifs with hq hr
  · rfl
  · rfl
  · by_cases hM : mergedAt ps n ⟨k, c1, l1⟩ ⟨k, c2, l2⟩ 1 true = []
    · exfalso
      apply hr
      obtain ⟨e1, e2⟩ := mergedPair_eq_nil ps _ _ 1 true hv1 hv2 hM
      rw [a4, a5, b4, b5, hone1 e1, hone2 e2]
      have hboth : c1 = 1 ∧ c2 = 1 := by
        have m1 := subDims_eq_nil_counts ps _ 1 hv1 e1 ⟨k, c1, l1⟩
          (List.mem_iff_getElem.mpr ⟨n, by simpa [fullSub] using hn, by simp⟩)
        have m2 := subDims_eq_nil_counts ps _ 1 hv2 e2 ⟨k, c2, l2⟩
          (List.mem_iff_getElem.mpr ⟨n, by simpa [fullSub] using hn, by simp⟩)
        exact ⟨m1, m2⟩
      rw [if_pos hboth, if_pos hboth] at hne
      rw [subOrigin_set ps n _ 1 hn] at hst1 hst2
      simp only [Nat.one_mul] at hst1 hst2
      have hpp : 1 ≤ (ps.take n).prod :=
        prod_pos_of_pos _ (fun x hx => hpos x (List.mem_of_mem_take hx))
      rcases Nat.lt_or_gt_of_ne hne with hlt | hgt
      · left
        have := Nat.mul_le_mul_right (ps.take n).prod (show l1 + 1 ≤ l2 by omega)
        have e3 : (l1 + 1) * (ps.take n).prod = l1 * (ps.take n).prod + (ps.take n).prod := by
          ring
        have h5 : (((l1 * (ps.take n).prod : Nat) : Int)) + 1 ≤ ((l2 * (ps.take n).prod : Nat) : Int) := by
          have : l1 * (ps.take n).prod + 1 ≤ l2 * (ps.take n).prod := by omega
          exact_mod_cast this
        omega
      · right
        have := Nat.mul_le_mul_right (ps.take n).prod (show l2 + 1 ≤ l1 by omega)
        have e3 : (l2 + 1) * (ps.take n).prod = l2 * (ps.take n).prod + (ps.take n).prod := by
          ring
        have h5 : (((l2 * (ps.take n).prod : Nat) : Int)) + 1 ≤ ((l1 * (ps.take n).prod : Nat) : Int) := by
          have : l2 * (ps.take n).prod + 1 ≤ l1 * (ps.take n).prod := by omega
          exact_mod_cast this
        omega
    · rw [aliasesGeneral_pair _ _ _ _ _ _ d1 d2 ps n _ _ hpos hv1 hv2 h1 h1s h2 h2s,
        subOrigin_set ps n _ 1 hn, subOrigin_set ps n _ 1 hn]
      exact congrArg _ ((mergedAt_residue ps n k c1 l1 c2 l2 1 true _ _ hpos hn (le_refl 1)
        (fun _ => rfl) hk hb1 hb2 rfl rfl hne).2.1 rfl hM)

end dip

namespace dip

/-! ## Views obtained by range slicing along one dimension -/

theorem normalSlots_length (ps : List Nat) (s : Nat) : (normalSlots ps s).length = ps.length := by
  induction ps generalizing s with
  | nil => simp [normalSlots]
  | cons p ps ih => simp [normalSlots, ih]

theorem normalSlots_sub (ps : List Nat) (s : Nat) :
    (normalSlots ps s).map Slot.sub = fullSub ps := by
  induction ps generalizing s with
  | nil => simp [normalSlots, fullSub]
  | cons p ps ih =>
    have := ih (s * p)
    simp only [fullSub] at this
    simp [normalSlots, fullSub, this]

theorem normalSlots_neg (ps : List Nat) (s : Nat) : ∀ sl ∈ normalSlots ps s, sl.neg = false := by
  induction ps generalizing s with
  | nil => simp [normalSlots]
  | cons p ps ih =>
    intro sl hsl
    simp only [normalSlots, List.mem_cons] at hsl
    rcases hsl with rfl | hsl
    · rfl
    · exact ih _ sl hsl

theorem normalSlots_getD (ps : List Nat) (s d : Nat) (dflt : Slot) (hd : d < ps.length) :
    (normalSlots ps s).getD d dflt =
      ⟨s * (ps.take d).prod, ps.getD d 0, ⟨1, ps.getD d 0, 0⟩, false⟩ := by
  induction ps generalizing s d with
  | nil => simp at hd
  | cons p ps ih =>
    cases d with
    | zero => simp [normalSlots]
    | succ d =>
      have := ih (s * p) d (by simpa using hd)
      simp only [normalSlots, List.getD_cons_succ, List.take_succ_cons, List.prod_cons, this]
      simp [Nat.mul_assoc]

theorem Slice_slots (dt : DataType) (sizes : List Nat) (T block d a b step : Nat)
    (hpos : ∀ p ∈ sizes, 1 ≤ p) (hd : d < sizes.length) (hab : a ≤ b)
    (hb : b < sizes.getD d 0) (hstep : 1 ≤ step) :
    ∃ slots, Describes slots dt T block ((Image.forgedNormal dt sizes T block).Slice d a b step) ∧
      slots.map Slot.key = (normalSlots sizes T).map Slot.key ∧
      slotSubs T slots = (fullSub (T :: sizes)).set (d + 1) ⟨step, (b - a) / step + 1, a⟩ ∧
      ∀ sl ∈ slots, sl.neg = false := by
  have hp := Describes_parent dt sizes T block hpos
  obtain ⟨h1, h2⟩ := Describes_Slice _ dt T block _ d a b step hp
  have hg := normalSlots_getD sizes T d ⟨0, 0, ⟨0, 0, 0⟩, false⟩ hd
  have hcond : d < (normalSlots sizes T).length ∧ a ≤ b ∧
      b < ((normalSlots sizes T).getD d ⟨0, 0, ⟨0, 0, 0⟩, false⟩).sub.count ∧ 1 ≤ step := by
    rw [hg, normalSlots_length]
    exact ⟨hd, hab, hb, hstep⟩
  rw [if_pos hcond] at h1 h2
  refine ⟨_, h1, h2, ?_, ?_⟩
  · simp only [slotSubs, List.map_set, normalSlots_sub, fullSub, List.map_cons,
      List.set_cons_succ, hg, sliceSlot]
    simp
  · intro sl hsl
    rcases mem_set_cases _ _ _ _ hsl with rfl | hsl
    · rw [hg]
      rfl
    · exact normalSlots_neg sizes T sl hsl

/-- `Aliases` on two views described by slots of the same parent: true when the origins
coincide, and otherwise what the remainder of the function answers on their arrays. -/
theorem Aliases_described (slots1 slots2 : List Slot) (dt : DataType) (T block : Nat)
    (V1 V2 : Image) (hd1 : Describes slots1 dt T block V1) (hd2 : Describes slots2 dt T block V2)
    (hb1 : (slots1.map Slot.first).sum * dt.SizeOf ≤ UINT_MAX)
    (hb2 : (slots2.map Slot.first).sum * dt.SizeOf ≤ UINT_MAX) :
    V1.Aliases V2 =
      if (slots1.map Slot.first).sum = (slots2.map Slot.first).sum then .ok true
      else aliasesSameSample (tensorStrides slots1 T) (tensorSizes slots1 T)
        (slots1.map Slot.first).sum (tensorStrides slots2 T) (tensorSizes slots2 T)
        (slots2.map Slot.first).sum := by
  have hsz := DataType.SizeOf_pos dt
  obtain ⟨x1, x2⟩ := Describes_arrays slots1 dt T block V1 hd1
  obtain ⟨y1, y2⟩ := Describes_arrays slots2 dt T block V2 hd2
  obtain ⟨a1, a2, a3, a4, a5, a6, a7, a8⟩ := hd1
  obtain ⟨b1, b2, b3, b4, b5, b6, b7, b8⟩ := hd2
  have hf1 : V1.IsForged = true := by simp [Image.IsForged, a4]
  have hf2 : V2.IsForged = true := by simp [Image.IsForged, b4]
  have ho : ∀ (m : Nat), m * dt.SizeOf ≤ UINT_MAX →
      toUint (((m : Nat) : Int) * (dt.SizeOf : Int)) = m * dt.SizeOf := by
    intro m hm
    have : ((m : Nat) : Int) * (dt.SizeOf : Int) = ((m * dt.SizeOf : Nat) : Int) := by
      push_cast
      rfl
    rw [this]
    exact toUint_natCast _ hm
  have hdiv : ∀ m : Nat, m * dt.SizeOf / dt.SizeOf = m := fun m =>
    Nat.mul_div_cancel _ (by omega)
  rw [Image.Aliases_same_block _ _ hf1 hf2 (by rw [a4, b4]), a7, b7, ho _ hb1, ho _ hb2, a1, b1]
  simp only [gt_iff_lt, lt_irrefl, if_false, hdiv, x1, x2, y1, y2]
  by_cases he : (slots1.map Slot.first).sum = (slots2.map Slot.first).sum
  · simp [he]
  · have : ¬ (slots1.map Slot.first).sum * dt.SizeOf = (slots2.map Slot.first).sum * dt.SizeOf := by
      intro h
      exact he (Nat.eq_of_mul_eq_mul_right (by omega) h)
    rw [if_neg this, if_neg he]

/-- What the false answers of `Aliases` rely on, for a view described by slots. -/
theorem Slots_nil_size (slots slots2 : List Slot) (sizes : List Nat) (T : Nat)
    (hperm : slots.Perm slots2) (hsv : SubValid (T :: sizes) (slotSubs T slots2))
    (h : subDims (T :: sizes) (slotSubs T slots2) 1 = []) :
    (FindDataBlockSizeAndStartExact (tensorStrides slots T) (tensorSizes slots T)).1 = 1 := by
  have hc := subDims_eq_nil_counts _ _ 1 hsv h
  have hT : T = 1 := hc ⟨1, T, 0⟩ (by simp [slotSubs])
  rw [FindDataBlockSizeAndStartExact_all_one]
  intro x hx
  simp only [tensorSizes, hT, gt_iff_lt, lt_irrefl, if_false, List.append_nil,
    List.mem_map] at hx
  obtain ⟨sl, hsl, rfl⟩ := hx
  exact hc sl.sub (by
    simp only [slotSubs, List.mem_cons, List.mem_map]
    exact Or.inr ⟨sl, hperm.mem_iff.mp hsl, rfl⟩)

end dip

namespace dip

/-! ## The pixels with even and with odd index along a dimension -/

theorem mirrorSlots_proj (slots : List Slot) (process : List Bool) :
    (mirrorSlots slots process).map (fun sl => (sl.key, sl.sub)) =
      slots.map (fun sl => (sl.key, sl.sub)) := by
  induction slots generalizing process with
  | nil => cases process <;> simp [mirrorSlots]
  | cons sl sls ih =>
    cases process with
    | nil => simp [mirrorSlots]
    | cons b bs =>
      cases b
      · simp [mirrorSlots, ih]
      · simp only [mirrorSlots, if_true, List.map_cons, ih]
        rfl

theorem Rearranged_slots (slotsO : List Slot) (dt : DataType) (T block : Nat) (O V : Image)
    (hO : Describes slotsO dt T block O) (h : Rearranged O V) :
    ∃ slots, Describes slots dt T block V ∧
      (slots.map (fun sl => (sl.key, sl.sub))).Perm (slotsO.map (fun sl => (sl.key, sl.sub))) := by
  induction h with
  | self => exact ⟨slotsO, hO, List.Perm.refl _⟩
  | mirror V process _ ih =>
    obtain ⟨slots, hd, hp⟩ := ih
    obtain ⟨h1, -⟩ := Describes_Mirror slots dt T block V process hd
    exact ⟨_, h1, by rw [mirrorSlots_proj]; exact hp⟩
  | swap V dim1 dim2 _ ih =>
    obtain ⟨slots, hd, hp⟩ := ih
    obtain ⟨slots2, h1, h2⟩ := Describes_SwapDimensions slots dt T block V dim1 dim2 hd
    exact ⟨slots2, h1, (h2.map _).trans hp⟩

/-- C12: for a parent forged with normal strides (a non-empty shape whose byte count the size
check of `Forge` accepts, any number of tensor elements) and a dimension `d` of size at least
2, the view `E` of the pixels with even index along `d` (start 0, step 2) does not alias the
view `O` of the pixels with odd index (start 1, step 2), nor any view obtained from `O` by
mirroring and swapping dimensions: `E.Aliases( O' )` is false. -/
theorem Aliases_even_odd (dt : DataType) (sizes : List Nat) (T block d : Nat) (V : Image)
    (hT : 1 ≤ T) (hpos : ∀ p ∈ sizes, 1 ≤ p) (hsize : sizes.prod * T * dt.SizeOf ≤ UINT_MAX)
    (hd : d < sizes.length) (hp : 2 ≤ sizes.getD d 0)
    (h : Rearranged ((Image.forgedNormal dt sizes T block).Slice d 1 (sizes.getD d 0 - 1) 2) V) :
    ((Image.forgedNormal dt sizes T block).Slice d 0 (sizes.getD d 0 - 1) 2).Aliases V =
      .ok false := by
  have hsz := DataType.SizeOf_pos dt
  have hlim : T * sizes.prod ≤ UINT_MAX := by
    have h1 : sizes.prod * T * 1 ≤ sizes.prod * T * dt.SizeOf := Nat.mul_le_mul_left _ hsz
    have h2 : T * sizes.prod = sizes.prod * T := Nat.mul_comm _ _
    omega
  have hbound : ∀ m : Nat, m + T ≤ T * sizes.prod → m * dt.SizeOf ≤ UINT_MAX := by
    intro m hm
    have h1 : m * dt.SizeOf ≤ T * sizes.prod * dt.SizeOf := Nat.mul_le_mul_right _ (by omega)
    have h2 : T * sizes.prod * dt.SizeOf = sizes.prod * T * dt.SizeOf := by ring
    omega
  obtain ⟨slotsE, hdE, hkE, hsE, hnE⟩ := Slice_slots dt sizes T block d 0 (sizes.getD d 0 - 1) 2
    hpos hd (by omega) (by omega) (by omega)
  obtain ⟨slotsO, hdO, hkO, hsO, -⟩ := Slice_slots dt sizes T block d 1 (sizes.getD d 0 - 1) 2
    hpos hd (by omega) (by omega) (by omega)
  obtain ⟨slotsV, hdV, hpV⟩ := Rearranged_slots slotsO dt T block _ V hdO h
  obtain ⟨slots3, hperm3, hproj3⟩ := perm_map_inv (fun sl : Slot => (sl.key, sl.sub)) slotsV _ hpV
  have hk3 : slots3.map Slot.key = (normalSlots sizes T).map Slot.key := by
    have := congrArg (List.map Prod.fst) hproj3
    simp only [List.map_map] at this
    rw [← hkO]
    exact this
  have hs3 : slotSubs T slots3 =
      (fullSub (T :: sizes)).set (d + 1) ⟨2, (sizes.getD d 0 - 1 - 1) / 2 + 1, 1⟩ := by
    have := congrArg (List.map Prod.snd) hproj3
    simp only [List.map_map] at this
    rw [← hsO]
    simp only [slotSubs]
    congr 1
  obtain ⟨e1, e2, e3, e4, e5, ⟨dE, e6, e7⟩, e8⟩ :=
    Slots_forms slotsE slotsE sizes T hdE.2.2.2.2.2.2.2 (List.Perm.refl _) hkE hT hpos hlim
  obtain ⟨f1, f2, f3, f4, f5, ⟨dV, f6, f7⟩, f8⟩ :=
    Slots_forms slotsV slots3 sizes T hdV.2.2.2.2.2.2.2 hperm3 hk3 hT hpos hlim
  have hoE := Slots_nil_size slotsE slotsE sizes T (List.Perm.refl _) e1
  have hoV := Slots_nil_size slotsV slots3 sizes T hperm3 f1
  rw [hsE] at e1 e5 e6 e7 e8 hoE
  rw [hs3] at f1 f5 f6 f7 f8 hoV
  have hn : d + 1 < (T :: sizes).length := by simpa using hd
  have hpp : 1 ≤ ((T :: sizes).take (d + 1)).prod :=
    prod_pos_of_pos _ (fun x hx => by
      rcases List.mem_cons.mp (List.mem_of_mem_take hx) with hx | hx
      · omega
      · exact hpos x hx)
  have hfE : (slotsE.map Slot.first).sum = 0 := by
    have hnn : ∀ x ∈ tensorStrides slotsE T, 0 ≤ x := by
      intro x hx
      simp only [tensorStrides, List.mem_append, List.mem_map] at hx
      rcases hx with ⟨sl, hsl, rfl⟩ | hx
      · simp only [Slot.viewStride, hnE sl hsl, Bool.false_eq_true, if_false]
        omega
      · split_ifs at hx
        · simp only [List.mem_singleton] at hx
          omega
        · simp at hx
    have h2 := (FindDataBlockSizeAndStartExact_nonneg _ (tensorSizes slotsE T) hnn
      (fun x hx => Nat.one_le_iff_ne_zero.mpr (e2 x hx))).2
    rw [h2, subOrigin_set _ _ _ 1 hn] at e8
    simp only [Nat.zero_mul, Int.add_zero] at e8
    exact_mod_cast e8
  have hfV : (slotsV.map Slot.first).sum ≠ 0 := by
    rw [subOrigin_set _ _ _ 1 hn] at f5
    simp only [Nat.one_mul] at f5
    omega
  rw [Aliases_described slotsE slotsV dt T block _ V hdE hdV (hbound _ e4) (hbound _ f4),
    if_neg (by rw [hfE]; exact fun h => hfV h.symm)]
  have hgd : (T :: sizes).getD (d + 1) 0 = sizes.getD d 0 := by simp
  refine aliasesSameSample_pair_false _ _ _ _ _ _ dE dV (T :: sizes) (d + 1) 2
    ((sizes.getD d 0 - 1 - 0) / 2 + 1) 0 ((sizes.getD d 0 - 1 - 1) / 2 + 1) 1 ?_ hn (by omega)
    (by omega) (by omega) (by rw [hgd]; omega) (by rw [hgd]; omega) ?_ e2 e3 f2 f3 e6 e7 f6 f7
    e8 f8 hoE hoV
  · intro x hx
    rcases List.mem_cons.mp hx with hx | hx
    · omega
    · exact hpos x hx
  · split_ifs <;> simp

theorem Aliases_even_odd_witness :
    ((Image.forgedNormal .UINT8 [5, 4] 3 0).Slice 0 0 (List.getD [5, 4] 0 0 - 1) 2).Aliases
        ((((Image.forgedNormal .UINT8 [5, 4] 3 0).Slice 0 1 (List.getD [5, 4] 0 0 - 1) 2).Mirror
          [true, false]).SwapDimensions 0 1) = .ok false :=
  Aliases_even_odd .UINT8 [5, 4] 3 0 0 _ (by decide) (by decide)
    (by simp [DataType.SizeOf, UINT_MAX]) (by decide) (by decide)
    (Rearranged.swap _ 0 1 (Rearranged.mirror _ [true, false] Rearranged.self))

end dip

namespace dip

/-! ## Two runs of consecutive pixels along a dimension -/

end dip

namespace dip

end dip

namespace dip

end dip

namespace dip

/-! ## Byte sizes and classes of the data types -/

/-- C29: each of the 11 data types has the byte size 1 (BIN, UINT8, SINT8), 2 (UINT16,
SINT16), 4 (UINT32, SINT32, SFLOAT), 8 (DFLOAT, SCOMPLEX) or 16 (DCOMPLEX); of the sizes of
any two data types the smaller divides the larger; and the size of a complex type is twice the
size of the type that `Real` returns for it. -/
theorem SizeOf_values_and_ratios :
    DataType.BIN.SizeOf = 1 ∧ DataType.UINT8.SizeOf = 1 ∧ DataType.SINT8.SizeOf = 1 ∧
    DataType.UINT16.SizeOf = 2 ∧ DataType.SINT16.SizeOf = 2 ∧
    DataType.UINT32.SizeOf = 4 ∧ DataType.SINT32.SizeOf = 4 ∧ DataType.SFLOAT.SizeOf = 4 ∧
    DataType.DFLOAT.SizeOf = 8 ∧ DataType.SCOMPLEX.SizeOf = 8 ∧
    DataType.DCOMPLEX.SizeOf = 16 ∧
    (∀ dt : DataType, dt.SizeOf ∈ [1, 2, 4, 8, 16]) ∧
    (∀ a b : DataType, a.SizeOf ≤ b.SizeOf →
      ∃ k : Nat, 1 ≤ k ∧ b.SizeOf = k * a.SizeOf ∧ k = b.SizeOf / a.SizeOf) ∧
    (∀ dt : DataType, dt.IsComplex = true → dt.SizeOf = 2 * dt.Real.SizeOf) := by
  refine ⟨rfl, rfl, rfl, rfl, rfl, rfl, rfl, rfl, rfl, rfl, rfl, ?_, ?_, ?_⟩
  · intro dt
    cases dt <;> decide
  · intro a b h
    refine ⟨b.SizeOf / a.SizeOf, ?_, ?_, rfl⟩
    · cases a <;> cases b <;> first | decide | (exfalso; revert h; decide)
    · cases a <;> cases b <;> first | decide | (exfalso; revert h; decide)
  · intro dt h
    cases dt <;> first | rfl | (exfalso; revert h; decide)

/-- C30: for every data type exactly one of `IsBinary`, `IsInteger`, `IsFloat`, `IsComplex`
holds, exactly one of `IsBinary`, `IsReal`, `IsComplex` holds, and exactly one of
`IsUnsigned`, `IsSigned` holds; and each of the predicates is true exactly when the data type
is a member of the corresponding collection `Class_Binary`, `Class_Integer`, `Class_Float`,
`Class_Complex`, `Class_Real`, `Class_Unsigned`, `Class_Signed`. -/
theorem class_predicates_partition (dt : DataType) :
    ((([dt.IsBinary, dt.IsInteger, dt.IsFloat, dt.IsComplex].filter (fun b => b)).length = 1) ∧
     (([dt.IsBinary, dt.IsReal, dt.IsComplex].filter (fun b => b)).length = 1) ∧
     (([dt.IsUnsigned, dt.IsSigned].filter (fun b => b)).length = 1)) ∧
    (dt.IsBinary = Class_Binary.contains dt.toClasses ∧
     dt.IsInteger = Class_Integer.contains dt.toClasses ∧
     dt.IsFloat = Class_Float.contains dt.toClasses ∧
     dt.IsComplex = Class_Complex.contains dt.toClasses ∧
     dt.IsReal = Class_Real.contains dt.toClasses ∧
     dt.IsUnsigned = Class_Unsigned.contains dt.toClasses ∧
     dt.IsSigned = Class_Signed.contains dt.toClasses) := by
  cases dt <;> decide

end dip

namespace dip

/-! ## `Image::Offset`: errors and result -/

theorem ValidCoords_of_getD (c sizes : List Nat) (hlen : c.length = sizes.length)
    (h : ∀ i, i < c.length → c.getD i 0 < sizes.getD i 0) : ValidCoords c sizes := by
  induction c generalizing sizes with
  | nil =>
    cases sizes with
    | nil => trivial
    | cons sz szs => simp at hlen
  | cons x xs ih =>
    cases sizes with
    | nil => simp at hlen
    | cons sz szs =>
      refine ⟨by simpa using h 0 (by simp), ih szs (by simpa using hlen) ?_⟩
      intro i hi
      simpa using h (i + 1) (by simpa using hi)

theorem Image.Offset_loop_out_of_range (c sizes : List Nat) (strides : List Int) (acc : Int)
    (hlen : c.length = sizes.length) (hlen2 : strides.length = sizes.length)
    (h : ∃ i, i < c.length ∧ sizes.getD i 0 ≤ c.getD i 0) :
    Image.Offset.loop c sizes strides acc = .error .INDEX_OUT_OF_RANGE := by
  induction c generalizing sizes strides acc with
  | nil =>
    obtain ⟨i, hi, _⟩ := h
    simp at hi
  | cons x xs ih =>
    cases sizes with
    | nil => simp at hlen
    | cons sz szs =>
      cases strides with
      | nil => simp at hlen2
      | cons st sts =>
        simp only [Image.Offset.loop]
        by_cases hx : x ≥ sz
        · rw [if_pos hx]
        · rw [if_neg hx]
          apply ih szs sts _ (by simpa using hlen) (by simpa using hlen2)
          obtain ⟨i, hi, hge⟩ := h
          cases i with
          | zero => simp at hge; omega
          | succ j => exact ⟨j, by simpa using hi, by simpa using hge⟩

/-- Counterexample of C28: on the forged view of `dip::uint16` samples with the sizes
[2^63 + 1] and the stride 1 (the view that `ReForge` leaves on a block of 2 bytes) the
coordinate vector [2^63] is valid and the sum of `coords[ i ] * strides[ i ]` is 2^63, but
`Offset` returns -2^63: the sum is computed in a `dip::sint`. -/
theorem Offset_wraps :
    ValidCoords [2 ^ 63] [2 ^ 63 + 1] ∧ offsetSum [2 ^ 63] [1] = 2 ^ 63 ∧
      Image.Offset ⟨.UINT16, [2 ^ 63 + 1], [1], 1, 1, false, some 0, 0⟩ [2 ^ 63] =
        .ok (-(2 ^ 63)) ∧
      (-(2 ^ 63) : Int) ≠ 2 ^ 63 := by
  refine ⟨by simp [ValidCoords], by decide, rfl, by decide⟩

/-- C28 as amended: `Offset( coords )` on a view whose stride array has the length of its
size array throws `IMAGE_NOT_FORGED` when the view is raw; on a forged view it throws
`ARRAY_ILLEGAL_SIZE` when `coords` has not the length of the sizes; otherwise it throws
`INDEX_OUT_OF_RANGE` when some coordinate is not below the size of its dimension; and in the
only case left it returns the sum of `coords[ i ] * strides[ i ]` reduced to a `dip::sint`;
when the reach of the strides fits in a `dip::sint` this is the sum itself, and it lies
between `start` and `start + size - 1` for the `size` and `start` of
`GetDataBlockSizeAndStart`. -/
theorem Offset_errors_and_result (img : Image) (coords : List Nat)
    (hlen : img.strides_.length = img.sizes_.length) :
    (img.IsForged = false → img.Offset coords = .error .IMAGE_NOT_FORGED) ∧
    (img.IsForged = true → coords.length ≠ img.sizes_.length →
      img.Offset coords = .error .ARRAY_ILLEGAL_SIZE) ∧
    (img.IsForged = true → coords.length = img.sizes_.length →
      (∃ i, i < coords.length ∧ img.sizes_.getD i 0 ≤ coords.getD i 0) →
      img.Offset coords = .error .INDEX_OUT_OF_RANGE) ∧
    (img.IsForged = true → coords.length = img.sizes_.length →
      (∀ i, i < coords.length → coords.getD i 0 < img.sizes_.getD i 0) →
      img.Offset coords = .ok (wrapSint (offsetSum coords img.strides_)) ∧
      (reach img.sizes_ img.strides_ ≤ SINT_MAX →
        img.Offset coords = .ok (offsetSum coords img.strides_) ∧
        img.GetDataBlockSizeAndStart.2 ≤ offsetSum coords img.strides_ ∧
        offsetSum coords img.strides_ ≤
          img.GetDataBlockSizeAndStart.2 + (img.GetDataBlockSizeAndStart.1 : Int) - 1)) := by
  refine ⟨?_, ?_, ?_, ?_⟩
  · intro hf
    unfold Image.Offset
    rw [if_pos (by simp [hf])]
  · intro hf hl
    unfold Image.Offset
    rw [if_neg (by simp [hf]), if_pos hl]
  · intro hf hl h
    unfold Image.Offset
    rw [if_neg (by simp [hf]), if_neg (by simp [hl])]
    exact Image.Offset_loop_out_of_range coords _ _ 0 hl hlen h
  · intro hf hl h
    have hc := ValidCoords_of_getD coords img.sizes_ hl h
    refine ⟨Image.Offset_wrap img coords hf hlen.symm hc, ?_⟩
    intro hreach
    refine ⟨Image.Offset_valid img coords hf hlen.symm hc hreach, ?_⟩
    obtain ⟨h1, h2⟩ := FindDataBlockSizeAndStartExact.loop_bounds img.strides_ img.sizes_ coords hc hlen
    have hs := FindDataBlockSizeAndStartExact.loop_sign img.strides_ img.sizes_
    unfold Image.GetDataBlockSizeAndStart
    rw [FindDataBlockSizeAndStart_eq_exact _ _ (ValidCoords_pos coords _ hc) hreach]
    unfold FindDataBlockSizeAndStartExact
    simp only
    omega

/-- Witness of C28 as amended: a forged view with sizes [2, 3] and strides [3, -1]. -/
theorem Offset_errors_and_result_witness :
    (⟨.UINT8, [2, 3], [3, -1], 1, 1, false, some 0, 2⟩ : Image).strides_.length =
        (⟨.UINT8, [2, 3], [3, -1], 1, 1, false, some 0, 2⟩ : Image).sizes_.length ∧
      Image.Offset ⟨.UINT8, [2, 3], [3, -1], 1, 1, false, some 0, 2⟩ [1, 2] = .ok 1 ∧
      (Image.GetDataBlockSizeAndStart ⟨.UINT8, [2, 3], [3, -1], 1, 1, false, some 0, 2⟩).2 ≤ 1 ∧
      Image.Offset ⟨.UINT8, [2, 3], [3, -1], 1, 1, false, some 0, 2⟩ [1, 3] =
        .error .INDEX_OUT_OF_RANGE ∧
      Image.Offset ⟨.UINT8, [2, 3], [3, -1], 1, 1, false, some 0, 2⟩ [1] =
        .error .ARRAY_ILLEGAL_SIZE ∧
      Image.Offset ⟨.UINT8, [2, 3], [3, -1], 1, 1, false, none, 2⟩ [1, 2] =
        .error .IMAGE_NOT_FORGED :=
  ⟨rfl,
   (((Offset_errors_and_result ⟨.UINT8, [2, 3], [3, -1], 1, 1, false, some 0, 2⟩ [1, 2]
      rfl).2.2.2 rfl rfl (by decide)).2 (by decide)).1,
   (((Offset_errors_and_result ⟨.UINT8, [2, 3], [3, -1], 1, 1, false, some 0, 2⟩ [1, 2]
      rfl).2.2.2 rfl rfl (by decide)).2 (by decide)).2.1,
   (Offset_errors_and_result ⟨.UINT8, [2, 3], [3, -1], 1, 1, false, some 0, 2⟩ [1, 3]
      rfl).2.2.1 rfl rfl ⟨1, by decide, by decide⟩,
   (Offset_errors_and_result ⟨.UINT8, [2, 3], [3, -1], 1, 1, false, some 0, 2⟩ [1]
      rfl).2.1 rfl (by decide),
   (Offset_errors_and_result ⟨.UINT8, [2, 3], [3, -1], 1, 1, false, none, 2⟩ [1, 2]
      rfl).1 rfl⟩

end dip

namespace dip

/-! ## `Image::Forge`: the default allocation -/

/-- The image that the default allocation of `Forge` provides with a block: the image itself
when its strides are kept, and the image with normal strides otherwise. -/
theorem Image.forgeDefault_raw (img : Image) (size : Nat) (malloc : Nat → Option Nat)
    (hraw : img.IsForged = false) :
    img.forgeDefault size malloc =
      (malloc (size * img.dataType_.SizeOf % 2 ^ 64)).elim (.error .FAILED_TO_ALLOCATE) (fun p => .ok
        { (if img.HasValidStrides = true ∧ img.GetDataBlockSizeAndStartWithTensor.1 = size
            then img
            else { img with
              tensorStride_ := 1
              strides_ := ComputeStrides img.sizes_ img.tensorElements }) with
          dataBlock_ := some p
          origin_ := (if img.HasValidStrides = true
              then img.GetDataBlockSizeAndStartWithTensor.2 else 0) *
            (img.dataType_.SizeOf : Int) }) := by
  have hset : img.SetNormalStrides = .ok { img with
      tensorStride_ := 1
      strides_ := ComputeStrides img.sizes_ img.tensorElements } := by
    unfold Image.SetNormalStrides
    rw [if_neg (by simp [hraw])]
  unfold Image.forgeDefault
  rw [hset]
  by_cases hv : img.HasValidStrides = true
  · by_cases hs : img.GetDataBlockSizeAndStartWithTensor.1 = size
    · simp only [hv, hs, if_true, ne_eq, not_true_eq_false, if_false, and_self]
      cases malloc (size * img.dataType_.SizeOf % 2 ^ 64) <;> rfl
    · simp only [hv, hs, if_true, ne_eq, not_false_eq_true, and_false, if_false]
      cases malloc (size * img.dataType_.SizeOf % 2 ^ 64) <;> rfl
  · simp only [hv, if_false, false_and, Bool.false_eq_true]
    cases malloc (size * img.dataType_.SizeOf % 2 ^ 64) <;> rfl

theorem FindNumberOfPixels_ok_nonzero (sizes : List Nat) (n : Nat)
    (h : FindNumberOfPixels sizes = .ok n) (hn : n ≠ 0) :
    n = sizes.prod ∧ ∀ sz ∈ sizes, 1 ≤ sz := by
  have hnz : ∀ sz ∈ sizes, sz ≠ 0 := by
    intro sz hsz h0
    subst h0
    have := FindNumberOfPixels.loop_with_zero sizes 1 hsz (by decide)
    unfold FindNumberOfPixels at h
    rw [this] at h
    split_ifs at h
    simp only [Except.ok.injEq] at h
    exact hn h.symm
  refine ⟨?_, fun sz hsz => Nat.one_le_iff_ne_zero.mpr (hnz sz hsz)⟩
  rw [FindNumberOfPixels_nonzero sizes hnz] at h
  split_ifs at h
  simp only [Except.ok.injEq] at h
  exact h.symm

/-- A successful `Forge` of a raw image without external interface: the sizes are all at
least 1, the number of samples fits, and the result is that of the default allocation. -/
theorem Image.Forge_none_ok (img img2 : Image) (malloc : Nat → Option Nat)
    (hraw : img.IsForged = false) (h : img.Forge none malloc = .ok img2) :
    (∀ sz ∈ img.sizes_, 1 ≤ sz) ∧ img.sizes_.prod * img.tensorElements ≤ UINT_MAX ∧
      img.forgeDefault (img.sizes_.prod * img.tensorElements) malloc = .ok img2 := by
  unfold Image.Forge at h
  rw [if_neg (by simp [hraw])] at h
  cases hn : FindNumberOfPixels img.sizes_ with
  | error e => rw [hn] at h; simp at h
  | ok n =>
    rw [hn] at h
    simp only at h
    by_cases h0 : n = 0
    · rw [if_pos h0] at h; simp at h
    · rw [if_neg h0] at h
      by_cases h1 : img.tensorElements > UINT_MAX / n
      · rw [if_pos h1] at h; simp at h
      · rw [if_neg h1, if_neg (by simp [hraw])] at h
        obtain ⟨hp, hpos⟩ := FindNumberOfPixels_ok_nonzero img.sizes_ n hn h0
        subst hp
        refine ⟨hpos, ?_, h⟩
        have h2 : img.tensorElements ≤ UINT_MAX / img.sizes_.prod := by omega
        have := Nat.mul_le_mul_left img.sizes_.prod h2
        exact le_trans this (Nat.mul_div_le _ _)

/-- With normal strides and a number of samples that fits in a `dip::sint` the extent of the
data block, tensor dimension included, is the number of samples, and it starts at the
origin. -/
theorem Image.GetDataBlockSizeAndStartWithTensor_normal (img : Image)
    (hpos : ∀ sz ∈ img.sizes_, 1 ≤ sz) (ht : 1 ≤ img.tensorElements)
    (hfit : img.sizes_.prod * img.tensorElements ≤ SINT_MAX)
    (hts : img.tensorStride_ = 1)
    (hst : img.strides_ = ComputeStrides img.sizes_ img.tensorElements) :
    img.GetDataBlockSizeAndStartWithTensor = (img.sizes_.prod * img.tensorElements, 0) := by
  rw [ComputeStrides_eq_exact _ _ hpos (by rw [Nat.mul_comm]; exact hfit)] at hst
  obtain ⟨h1, _, h3, -⟩ := Image.normal_fits img hpos ht hfit hts hst
  have hg := GridArrays_tensor img.sizes_ 1 img.tensorElements hpos (le_refl 1) ht
  rw [Nat.one_mul] at hg
  obtain ⟨hnn, _, hp, _, _, _, _, _⟩ := hg
  have hcast : (((1 : Nat) : Int)) = 1 := rfl
  rw [hcast] at hnn
  have hstart : (FindDataBlockSizeAndStartExact img.stridesWithTensor img.sizesWithTensor).2 = 0 := by
    unfold Image.stridesWithTensor Image.sizesWithTensor
    rw [hst, hts]
    exact (FindDataBlockSizeAndStartExact_nonneg _ _ hnn hp).2
  unfold Image.GetDataBlockSizeAndStartWithTensor
  rw [FindDataBlockSizeAndStart_eq_exact _ _ h1 (by omega)]
  apply Prod.ext
  · simp only
    rw [FindDataBlockSizeAndStartExact_size _ _ h1, h3]
  · exact hstart

/-- C23: when the external interface of a raw image declines (it returns no block) and hands
back the strides and the tensor stride it received, `Forge` has the result it has without
external interface: the same error if the default allocation fails, and otherwise the same
forged image (strides, tensor stride, origin, block). -/
theorem Forge_declining_interface (img : Image) (allocateData : ExternalInterface)
    (malloc : Nat → Option Nat)
    (hdecline : (allocateData img.sizes_ img.strides_ img.tensorElements img.tensorStride_
      img.dataType_).dataBlock = none)
    (hst : (allocateData img.sizes_ img.strides_ img.tensorElements img.tensorStride_
      img.dataType_).strides = img.strides_)
    (hts : (allocateData img.sizes_ img.strides_ img.tensorElements img.tensorStride_
      img.dataType_).tensorStride = img.tensorStride_) :
    img.Forge (some allocateData) malloc = img.Forge none malloc := by
  unfold Image.Forge
  simp only [hdecline, hst, hts]

/-- Witness of C23: an external interface that always declines, on a raw image with sizes
[2, 3]; the default allocation then provides block 7. -/
theorem Forge_declining_interface_witness :
    Image.Forge ⟨.UINT8, [2, 3], [1, 2], 1, 1, false, none, 0⟩
        (some (fun _ st _ ts _ => ⟨none, st, ts⟩)) (fun _ => some 7) =
      Image.Forge ⟨.UINT8, [2, 3], [1, 2], 1, 1, false, none, 0⟩ none (fun _ => some 7) ∧
    Image.Forge ⟨.UINT8, [2, 3], [1, 2], 1, 1, false, none, 0⟩ none (fun _ => some 7) =
      .ok ⟨.UINT8, [2, 3], [1, 2], 1, 1, false, some 7, 0⟩ :=
  ⟨Forge_declining_interface ⟨.UINT8, [2, 3], [1, 2], 1, 1, false, none, 0⟩
    (fun _ st _ ts _ => ⟨none, st, ts⟩) (fun _ => some 7) rfl rfl rfl, rfl⟩

/-- C21, counterexample: a raw view of `7 * 1317624576693539402 * 1 = 2^63 + 6` samples (one
tensor element, type DFLOAT) with tensor stride 1 and the normal strides of its sizes, as
`SetNormalStrides` computes them: `[1, 7, -(2^63 - 6)]`, the last product being converted to
a `dip::sint`.  `HasValidStrides` is false on it (`2^63 - 6 <= 7 * 1317624576693539401`), so
that `Forge` calls `SetNormalStrides`, which writes the same strides again: the forged view
has the strides and the tensor stride of before the call although the condition did not
hold. -/
theorem Forge_same_strides_without_condition :
    Image.SetNormalStrides ⟨.DFLOAT, [7, 1317624576693539402, 1], [], 1, 0, false, none, 0⟩ =
      .ok ⟨.DFLOAT, [7, 1317624576693539402, 1], [1, 7, -(2 ^ 63 - 6)], 1, 1, false, none, 0⟩ ∧
    Image.HasValidStrides
      ⟨.DFLOAT, [7, 1317624576693539402, 1], [1, 7, -(2 ^ 63 - 6)], 1, 1, false, none, 0⟩ =
        false ∧
    Image.Forge
      ⟨.DFLOAT, [7, 1317624576693539402, 1], [1, 7, -(2 ^ 63 - 6)], 1, 1, false, none, 0⟩
      none (fun _ => some 7) =
      .ok ⟨.DFLOAT, [7, 1317624576693539402, 1], [1, 7, -(2 ^ 63 - 6)], 1, 1, false,
        some 7, 0⟩ := by
  refine ⟨?_, ?_, ?_⟩
  · set_option maxRecDepth 8000 in
    rfl
  · set_option maxRecDepth 8000 in
    rfl
  · set_option maxRecDepth 8000 in
    rfl

/-- C21 as amended: a successful `Forge` of a raw image without external interface (at least
one tensor element) keeps the strides and the tensor stride when `HasValidStrides` held and
the extent of the data block with the tensor dimension was the number of pixels times the
number of tensor elements; in every other case the forged image has tensor stride 1 and the
normal strides of its sizes; and when the number of samples fits in a `dip::sint` the strides
and tensor stride are those of before the call only in the first case. -/
theorem Forge_default_strides (img img2 : Image) (malloc : Nat → Option Nat)
    (hraw : img.IsForged = false) (ht : 1 ≤ img.tensorElements)
    (h : img.Forge none malloc = .ok img2) :
    (img.HasValidStrides = true ∧
        img.GetDataBlockSizeAndStartWithTensor.1 = img.sizes_.prod * img.tensorElements →
      img2.strides_ = img.strides_ ∧ img2.tensorStride_ = img.tensorStride_) ∧
    (¬ (img.HasValidStrides = true ∧
        img.GetDataBlockSizeAndStartWithTensor.1 = img.sizes_.prod * img.tensorElements) →
      img2.tensorStride_ = 1 ∧
      img2.strides_ = ComputeStrides img2.sizes_ img2.tensorElements) ∧
    (img.sizes_.prod * img.tensorElements ≤ SINT_MAX →
      (img2.strides_ = img.strides_ ∧ img2.tensorStride_ = img.tensorStride_ ↔
        img.HasValidStrides = true ∧
          img.GetDataBlockSizeAndStartWithTensor.1 = img.sizes_.prod * img.tensorElements)) ∧
    img2.sizes_ = img.sizes_ ∧ img2.tensorElements = img.tensorElements ∧
    img2.IsForged = true := by
  obtain ⟨hpos, _, hd⟩ := Image.Forge_none_ok img img2 malloc hraw h
  rw [Image.forgeDefault_raw img _ malloc hraw] at hd
  cases hm : malloc (img.sizes_.prod * img.tensorElements * img.dataType_.SizeOf % 2 ^ 64) with
  | none => rw [hm] at hd; simp [Option.elim] at hd
  | some p =>
    rw [hm] at hd
    simp only [Option.elim, Except.ok.injEq] at hd
    by_cases hc : img.HasValidStrides = true ∧
        img.GetDataBlockSizeAndStartWithTensor.1 = img.sizes_.prod * img.tensorElements
    · rw [if_pos hc] at hd
      subst hd
      simp [hc, Image.IsForged]
    · rw [if_neg hc] at hd
      subst hd
      refine ⟨fun hc2 => absurd hc2 hc, fun _ => ⟨rfl, rfl⟩, ?_, rfl, rfl, rfl⟩
      intro hfit
      constructor
      · intro hsame
        exfalso
        apply hc
        simp only at hsame
        exact ⟨Image.HasValidStrides_of_normal img hpos ht hfit hsame.2.symm hsame.1.symm,
          by rw [Image.GetDataBlockSizeAndStartWithTensor_normal img hpos ht hfit hsame.2.symm
            hsame.1.symm]⟩
      · intro hc2
        exact absurd hc2 hc

/-- Witness of C21 as amended: the strides [3, 1] of the sizes [2, 3] are kept; the strides
[4, 1] are replaced by the normal ones; and the strides [-(2^63 - 1), 3] of the sizes [3, 2],
whose extent is 6 in 64-bit arithmetic, are kept. -/
theorem Forge_default_strides_witness :
    Image.Forge ⟨.UINT8, [2, 3], [3, 1], 1, 1, false, none, 0⟩ none (fun _ => some 7) =
        .ok ⟨.UINT8, [2, 3], [3, 1], 1, 1, false, some 7, 0⟩ ∧
      Image.Forge ⟨.UINT8, [2, 3], [4, 1], 1, 1, false, none, 0⟩ none (fun _ => some 7) =
        .ok ⟨.UINT8, [2, 3], [1, 2], 1, 1, false, some 7, 0⟩ ∧
      Image.Forge ⟨.UINT8, [3, 2], [-(2 ^ 63 - 1), 3], 1, 1, false, none, 0⟩ none
          (fun _ => some 7) =
        .ok ⟨.UINT8, [3, 2], [-(2 ^ 63 - 1), 3], 1, 1, false, some 7, 0⟩ ∧
      (([3, 1] : List Int) = [3, 1] ∧ (1 : Int) = 1 ↔
        Image.HasValidStrides ⟨.UINT8, [2, 3], [3, 1], 1, 1, false, none, 0⟩ = true ∧
          (Image.GetDataBlockSizeAndStartWithTensor
            ⟨.UINT8, [2, 3], [3, 1], 1, 1, false, none, 0⟩).1 = [2, 3].prod * 1) :=
  ⟨rfl, rfl, by
    set_option maxRecDepth 8000 in
    rfl,
   (Forge_default_strides ⟨.UINT8, [2, 3], [3, 1], 1, 1, false, none, 0⟩
      ⟨.UINT8, [2, 3], [3, 1], 1, 1, false, some 7, 0⟩ (fun _ => some 7) rfl (by decide)
      rfl).2.2.1 (by decide)⟩

end dip

namespace dip

/-! ## `Image::Forge`: the origin of the forged image -/

/-- C22, failing inputs: `Forge` computes the origin as `p + start * sz` with the `start` of
`GetDataBlockSizeAndStartWithTensor`, which is zero or negative.  A raw image with sizes [2]
and the stride -1 is forged on a block of 2 bytes with its origin at byte -1, so that its two
samples are at the bytes -1 and -2, before the block.  A raw image with sizes [2, 3] and the
strides [-4, 1], which are valid but do not fill the block, gets the normal strides [1, 2] and
still the origin of the old strides, byte -4, so that its six samples are at the bytes -4 to
1 of a block of 6 bytes. -/
theorem Forge_origin_before_block :
    Image.IsForged ⟨.UINT8, [2], [-1], 1, 1, false, none, 0⟩ = false ∧
    Image.Forge ⟨.UINT8, [2], [-1], 1, 1, false, none, 0⟩ none (fun _ => some 7) =
      .ok ⟨.UINT8, [2], [-1], 1, 1, false, some 7, -1⟩ ∧
    ValidCoords [0] [2] ∧ ValidCoords [1] [2] ∧
    Image.sampleByte ⟨.UINT8, [2], [-1], 1, 1, false, some 7, -1⟩ [0] 0 = -1 ∧
    Image.sampleByte ⟨.UINT8, [2], [-1], 1, 1, false, some 7, -1⟩ [1] 0 = -2 ∧
    Image.IsForged ⟨.UINT8, [2, 3], [-4, 1], 1, 1, false, none, 0⟩ = false ∧
    Image.Forge ⟨.UINT8, [2, 3], [-4, 1], 1, 1, false, none, 0⟩ none (fun _ => some 7) =
      .ok ⟨.UINT8, [2, 3], [1, 2], 1, 1, false, some 7, -4⟩ ∧
    ValidCoords [0, 0] [2, 3] ∧
    Image.sampleByte ⟨.UINT8, [2, 3], [1, 2], 1, 1, false, some 7, -4⟩ [0, 0] 0 = -4 := by
  refine ⟨rfl, ?_, ?_, ?_, rfl, rfl, rfl, ?_, ?_, rfl⟩
  · set_option maxRecDepth 8000 in
    rfl
  · simp [ValidCoords]
  · simp [ValidCoords]
  · set_option maxRecDepth 8000 in
    rfl
  · simp [ValidCoords]

end dip

namespace dip

/-! ## `Image::Forge`: when the samples are within the block -/

theorem ValidCoords_append_one (c sizes : List Nat) (t T : Nat) (hc : ValidCoords c sizes)
    (ht : t < T) : ValidCoords (c ++ [t]) (sizes ++ [T]) := by
  induction c generalizing sizes with
  | nil =>
    cases sizes with
    | nil => exact ⟨ht, trivial⟩
    | cons sz szs => simp [ValidCoords] at hc
  | cons x xs ih =>
    cases sizes with
    | nil => simp [ValidCoords] at hc
    | cons sz szs => exact ⟨hc.1, ih szs hc.2⟩

/-- The offset of every sample of a view whose reach fits in a `dip::sint`, tensor index
included, lies in the extent that `GetDataBlockSizeAndStartWithTensor` computes. -/
theorem Image.sample_offset_bounds (img : Image)
    (hlen : img.strides_.length = img.sizes_.length)
    (hreach : reach img.sizesWithTensor img.stridesWithTensor ≤ SINT_MAX)
    (c : List Nat) (t : Nat)
    (hc : ValidCoords c img.sizes_) (ht : t < img.tensorElements) :
    img.GetDataBlockSizeAndStartWithTensor.2 ≤
        offsetSum c img.strides_ + (t : Int) * img.tensorStride_ ∧
      offsetSum c img.strides_ + (t : Int) * img.tensorStride_ ≤
        img.GetDataBlockSizeAndStartWithTensor.2 +
          (img.GetDataBlockSizeAndStartWithTensor.1 : Int) - 1 := by
  have hs := FindDataBlockSizeAndStartExact.loop_sign img.stridesWithTensor img.sizesWithTensor
  have hb : (FindDataBlockSizeAndStartExact.loop img.stridesWithTensor img.sizesWithTensor 0 0).1 ≤
        offsetSum c img.strides_ + (t : Int) * img.tensorStride_ ∧
      offsetSum c img.strides_ + (t : Int) * img.tensorStride_ ≤
        (FindDataBlockSizeAndStartExact.loop img.stridesWithTensor img.sizesWithTensor 0 0).2 := by
    unfold Image.stridesWithTensor Image.sizesWithTensor
    by_cases hT : img.tensorElements > 1
    · rw [if_pos hT, if_pos hT]
      have hv := ValidCoords_append_one c img.sizes_ t img.tensorElements hc ht
      have := FindDataBlockSizeAndStartExact.loop_bounds (img.strides_ ++ [img.tensorStride_])
        (img.sizes_ ++ [img.tensorElements]) (c ++ [t]) hv (by simp [hlen])
      rw [offsetSum_append c [t] img.strides_ [img.tensorStride_]
        (by rw [ValidCoords_length c _ hc, hlen])] at this
      simpa [offsetSum] using this
    · rw [if_neg hT, if_neg hT]
      have ht0 : t = 0 := by omega
      subst ht0
      have := FindDataBlockSizeAndStartExact.loop_bounds img.strides_ img.sizes_ c hc hlen
      simpa using this
  have hposT : ∀ sz ∈ img.sizesWithTensor, 1 ≤ sz := by
    intro sz hsz
    unfold Image.sizesWithTensor at hsz
    split_ifs at hsz with hT
    · rcases List.mem_append.mp hsz with h1 | h1
      · exact ValidCoords_pos c _ hc sz h1
      · simp only [List.mem_singleton] at h1
        omega
    · exact ValidCoords_pos c _ hc sz hsz
  unfold Image.GetDataBlockSizeAndStartWithTensor
  rw [FindDataBlockSizeAndStart_eq_exact _ _ hposT hreach]
  unfold FindDataBlockSizeAndStartExact
  simp only
  omega

/-- The part of C22 that holds: after a successful `Forge` of a raw image without external
interface, every sample of the forged image lies within the first pixels times tensor
elements times sample size bytes of the block, provided that the `start` computed from the
strides the image had was 0 whenever these strides were valid (which is the case when none of
them is negative), and that the number of samples and the reach of these strides fit in a
`dip::sint`. -/
theorem Image.Forge_samples_in_block (img img2 : Image) (malloc : Nat → Option Nat)
    (hraw : img.IsForged = false) (ht : 1 ≤ img.tensorElements)
    (h : img.Forge none malloc = .ok img2)
    (hstart : img.HasValidStrides = true → img.GetDataBlockSizeAndStartWithTensor.2 = 0)
    (hfit : img.sizes_.prod * img.tensorElements ≤ SINT_MAX)
    (hreach : reach img.sizesWithTensor img.stridesWithTensor ≤ SINT_MAX)
    (c : List Nat) (t : Nat) (hc : ValidCoords c img2.sizes_) (htt : t < img2.tensorElements) :
    0 ≤ img2.sampleByte c t ∧
      img2.sampleByte c t + (img2.dataType_.SizeOf : Int) ≤
        ((img2.sizes_.prod * img2.tensorElements * img2.dataType_.SizeOf : Nat) : Int) := by
  obtain ⟨hpos, _, hd⟩ := Image.Forge_none_ok img img2 malloc hraw h
  rw [Image.forgeDefault_raw img _ malloc hraw] at hd
  have key : img2.origin_ = 0 ∧ img2.strides_.length = img2.sizes_.length ∧
      img2.GetDataBlockSizeAndStartWithTensor =
        (img2.sizes_.prod * img2.tensorElements, 0) ∧
      reach img2.sizesWithTensor img2.stridesWithTensor ≤ SINT_MAX := by
    cases hm : malloc (img.sizes_.prod * img.tensorElements * img.dataType_.SizeOf % 2 ^ 64) with
    | none => rw [hm] at hd; simp [Option.elim] at hd
    | some p =>
      rw [hm] at hd
      simp only [Option.elim, Except.ok.injEq] at hd
      by_cases hcnd : img.HasValidStrides = true ∧
          img.GetDataBlockSizeAndStartWithTensor.1 = img.sizes_.prod * img.tensorElements
      · rw [if_pos hcnd, if_pos hcnd.1, hstart hcnd.1] at hd
        subst hd
        have hl : img.sizes_.length = img.strides_.length := by
          by_contra hne
          have hv := hcnd.1
          unfold Image.HasValidStrides at hv
          rw [if_pos hne] at hv
          simp at hv
        refine ⟨by simp, hl.symm, ?_, hreach⟩
        show img.GetDataBlockSizeAndStartWithTensor = _
        exact Prod.ext hcnd.2 (hstart hcnd.1)
      · rw [if_neg hcnd] at hd
        have h0 : (if img.HasValidStrides = true
            then img.GetDataBlockSizeAndStartWithTensor.2 else 0) = 0 := by
          split_ifs with hv
          · exact hstart hv
          · rfl
        rw [h0] at hd
        subst hd
        refine ⟨by simp, by simp [ComputeStrides_length], ?_, ?_⟩
        · exact Image.GetDataBlockSizeAndStartWithTensor_normal _ hpos ht hfit rfl rfl
        · exact Image.normal_reach_le _ hpos ht hfit rfl rfl
  obtain ⟨ho, hl, hext, hr2⟩ := key
  obtain ⟨b1, b2⟩ := Image.sample_offset_bounds img2 hl hr2 c t hc htt
  rw [hext] at b1 b2
  simp only at b1 b2
  unfold Image.sampleByte
  rw [ho]
  have hsz : (1 : Int) ≤ (img2.dataType_.SizeOf : Int) := by
    exact_mod_cast DataType.SizeOf_pos img2.dataType_
  constructor
  · have := mul_nonneg b1 (by omega : (0 : Int) ≤ (img2.dataType_.SizeOf : Int))
    omega
  · have h3 : (offsetSum c img2.strides_ + (t : Int) * img2.tensorStride_ + 1) *
        (img2.dataType_.SizeOf : Int) ≤
        ((img2.sizes_.prod * img2.tensorElements : Nat) : Int) *
          (img2.dataType_.SizeOf : Int) :=
      mul_le_mul_of_nonneg_right (by omega) (by omega)
    have h4 : ((img2.sizes_.prod * img2.tensorElements * img2.dataType_.SizeOf : Nat) : Int) =
        ((img2.sizes_.prod * img2.tensorElements : Nat) : Int) *
          (img2.dataType_.SizeOf : Int) := by push_cast; ring
    rw [h4]
    linarith

end dip

namespace dip

/-! ## `Image::ReForge` -/

theorem Image.forgeDefault_ok_fields (img img2 : Image) (size : Nat)
    (malloc : Nat → Option Nat) (hraw : img.IsForged = false)
    (h : img.forgeDefault size malloc = .ok img2) :
    img2.dataType_ = img.dataType_ ∧ img2.sizes_ = img.sizes_ ∧
      img2.tensorElements = img.tensorElements ∧ img2.protect_ = img.protect_ ∧
      img2.IsForged = true := by
  rw [Image.forgeDefault_raw img size malloc hraw] at h
  cases hm : malloc (size * img.dataType_.SizeOf % 2 ^ 64) with
  | none => rw [hm] at h; simp [Option.elim] at h
  | some p =>
    rw [hm] at h
    simp only [Option.elim, Except.ok.injEq] at h
    subst h
    split_ifs <;> simp [Image.IsForged]

theorem Image.Forge_ok_fields (img img2 : Image) (ext : Option ExternalInterface)
    (malloc : Nat → Option Nat) (h : img.Forge ext malloc = .ok img2) :
    img2.dataType_ = img.dataType_ ∧ img2.sizes_ = img.sizes_ ∧
      img2.tensorElements = img.tensorElements ∧ img2.protect_ = img.protect_ ∧
      img2.IsForged = true := by
  unfold Image.Forge at h
  by_cases hf : img.IsForged = true
  · rw [if_pos hf] at h
    simp only [Except.ok.injEq] at h
    subst h
    exact ⟨rfl, rfl, rfl, rfl, hf⟩
  · rw [if_neg hf] at h
    cases hn : FindNumberOfPixels img.sizes_ with
    | error e => rw [hn] at h; simp at h
    | ok n =>
      rw [hn] at h
      simp only at h
      rw [if_neg (by intro h0; rw [if_pos h0] at h; simp at h)] at h
      rw [if_neg (by intro h1; rw [if_pos h1] at h; simp at h)] at h
      cases ext with
      | none =>
        simp only at h
        rw [if_neg hf] at h
        exact Image.forgeDefault_ok_fields img img2 _ malloc (by simpa using hf) h
      | some allocateData =>
        simp only at h
        cases hb : (allocateData img.sizes_ img.strides_ img.tensorElements img.tensorStride_
          img.dataType_).dataBlock with
        | none =>
          rw [hb] at h
          simp only at h
          have hraw0 : Image.IsForged { img with
              strides_ := (allocateData img.sizes_ img.strides_ img.tensorElements
                img.tensorStride_ img.dataType_).strides
              tensorStride_ := (allocateData img.sizes_ img.strides_ img.tensorElements
                img.tensorStride_ img.dataType_).tensorStride } = false := by
            simpa [Image.IsForged] using hf
          rw [if_neg (by simp [hraw0])] at h
          have hfields := Image.forgeDefault_ok_fields _ img2 _ malloc hraw0 h
          exact hfields
        | some b =>
          rw [hb] at h
          simp only at h
          rw [if_pos (by simp [Image.IsForged])] at h
          simp only [Except.ok.injEq] at h
          subst h
          simp [Image.IsForged]

theorem Image.Forge_onError_fields (img : Image) (ext : Option ExternalInterface) :
    (Image.Forge.onError img ext).dataType_ = img.dataType_ ∧
      (Image.Forge.onError img ext).sizes_ = img.sizes_ ∧
      (Image.Forge.onError img ext).tensorElements = img.tensorElements ∧
      (Image.Forge.onError img ext).protect_ = img.protect_ ∧
      (Image.Forge.onError img ext).dataBlock_ = img.dataBlock_ := by
  unfold Image.Forge.onError
  cases ext <;> cases FindNumberOfPixels img.sizes_ <;> simp only <;> split_ifs <;> simp

theorem Image.reforgeAnew_ok_fields (img img2 : Image) (sizes : List Nat) (tensorElems : Nat)
    (dt : DataType) (ext : Option ExternalInterface) (malloc : Nat → Option Nat)
    (h : img.reforgeAnew sizes tensorElems dt ext malloc = (img2, none)) :
    img2.dataType_ = dt ∧ img2.sizes_ = sizes ∧ img2.tensorElements = tensorElems ∧
      img2.protect_ = img.protect_ ∧ img2.IsForged = true := by
  unfold Image.reforgeAnew at h
  simp only at h
  cases hF : Image.Forge { img.Strip with
      dataType_ := dt, sizes_ := sizes, tensorElements := tensorElems } ext malloc with
  | error e => rw [hF] at h; simp at h
  | ok img3 =>
    rw [hF] at h
    simp only [Prod.mk.injEq, and_true] at h
    subst h
    exact Image.Forge_ok_fields _ _ ext malloc hF

theorem Image.reforgeAnew_error_fields (img img2 : Image) (sizes : List Nat)
    (tensorElems : Nat) (dt : DataType) (ext : Option ExternalInterface)
    (malloc : Nat → Option Nat) (e : Error)
    (h : img.reforgeAnew sizes tensorElems dt ext malloc = (img2, some e)) :
    img2.dataType_ = dt ∧ img2.sizes_ = sizes ∧ img2.tensorElements = tensorElems ∧
      img2.protect_ = img.protect_ ∧ img2.IsForged = false := by
  unfold Image.reforgeAnew at h
  simp only at h
  cases hF : Image.Forge { img.Strip with
      dataType_ := dt, sizes_ := sizes, tensorElements := tensorElems } ext malloc with
  | ok img3 => rw [hF] at h; simp at h
  | error e2 =>
    rw [hF] at h
    simp only [Prod.mk.injEq] at h
    obtain ⟨h1, h2, h3, h4, h5⟩ := Image.Forge_onError_fields { img.Strip with
      dataType_ := dt, sizes_ := sizes, tensorElements := tensorElems } ext
    rw [← h.1]
    refine ⟨h1, h2, h3, h4, ?_⟩
    unfold Image.IsForged
    rw [h5]
    rfl

theorem Image.ReForge_same (img : Image) (sizes : List Nat) (tensorElems : Nat)
    (dt : DataType) (acceptDataTypeChange : AcceptDataTypeChange) (shared : Bool)
    (ext : Option ExternalInterface) (malloc : Nat → Option Nat)
    (hf : img.IsForged = true)
    (hsame : img.sizes_ = sizes ∧ img.tensorElements = tensorElems ∧ img.dataType_ =
      (if acceptDataTypeChange = .DO_ALLOW ∧ img.protect_ = true then img.dataType_ else dt)) :
    img.ReForge sizes tensorElems dt acceptDataTypeChange shared ext malloc = (img, none) := by
  unfold Image.ReForge
  simp only [hf, if_true]
  rw [if_pos hsame]

/-- What `ReForge` does on a forged image when the sizes, the number of tensor elements or
the data type asked for differ from those of the image: the block is used again exactly when
the image is not protected, not shared, has contiguous data, and the two byte counts are
equal modulo `2^64`; the image then has the sizes, number of tensor elements and data type
asked for, tensor stride 1, normal strides, the origin at the start of the block, and the
block it had.  Otherwise the image is stripped and forged. -/
theorem Image.ReForge_forged (img : Image) (sizes : List Nat) (tensorElems : Nat)
    (dt : DataType) (acceptDataTypeChange : AcceptDataTypeChange) (shared : Bool)
    (ext : Option ExternalInterface) (malloc : Nat → Option Nat)
    (hf : img.IsForged = true)
    (hne : ¬ (img.sizes_ = sizes ∧ img.tensorElements = tensorElems ∧ img.dataType_ =
      (if acceptDataTypeChange = .DO_ALLOW ∧ img.protect_ = true then img.dataType_ else dt))) :
    img.ReForge sizes tensorElems dt acceptDataTypeChange shared ext malloc =
      if img.protect_ = false ∧ shared = false ∧
          img.GetDataBlockSizeAndStartWithTensor.1 = img.sizes_.prod * img.tensorElements ∧
          (img.sizes_.prod * img.tensorElements * img.dataType_.SizeOf) % 2 ^ 64 =
            (sizes.prod * tensorElems * dt.SizeOf) % 2 ^ 64 then
        ({ img with
            dataType_ := dt
            sizes_ := sizes
            tensorElements := tensorElems
            tensorStride_ := 1
            strides_ := ComputeStrides sizes tensorElems
            origin_ := 0 }, none)
      else
        img.reforgeAnew sizes tensorElems
          (if acceptDataTypeChange = .DO_ALLOW ∧ img.protect_ = true then img.dataType_ else dt)
          ext malloc := by
  unfold Image.ReForge
  simp only [hf, if_true]
  rw [if_neg hne]
  have hcont : img.HasContiguousData = .ok (decide
      (img.GetDataBlockSizeAndStartWithTensor.1 = img.sizes_.prod * img.tensorElements)) := by
    unfold Image.HasContiguousData
    rw [if_neg (by simp [hf])]
  rw [hcont]
  by_cases hps : img.protect_ = false ∧ shared = false
  · have hdt : (if acceptDataTypeChange = .DO_ALLOW ∧ img.protect_ = true
        then img.dataType_ else dt) = dt := by simp [hps.1]
    rw [if_pos hps, hdt]
    simp only [decide_eq_true_eq]
    by_cases hc : img.GetDataBlockSizeAndStartWithTensor.1 = img.sizes_.prod * img.tensorElements ∧
        (img.sizes_.prod * img.tensorElements * img.dataType_.SizeOf) % 2 ^ 64 =
          (sizes.prod * tensorElems * dt.SizeOf) % 2 ^ 64
    · have hc2 : img.protect_ = false ∧ shared = false ∧
          img.GetDataBlockSizeAndStartWithTensor.1 = img.sizes_.prod * img.tensorElements ∧
          (img.sizes_.prod * img.tensorElements * img.dataType_.SizeOf) % 2 ^ 64 =
            (sizes.prod * tensorElems * dt.SizeOf) % 2 ^ 64 := ⟨hps.1, hps.2, hc⟩
      rw [if_pos hc, if_pos hc2]
    · have hc2 : ¬ (img.protect_ = false ∧ shared = false ∧
          img.GetDataBlockSizeAndStartWithTensor.1 = img.sizes_.prod * img.tensorElements ∧
          (img.sizes_.prod * img.tensorElements * img.dataType_.SizeOf) % 2 ^ 64 =
            (sizes.prod * tensorElems * dt.SizeOf) % 2 ^ 64) := fun h => hc h.2.2
      rw [if_neg hc, if_neg hc2]
  · have hc2 : ¬ (img.protect_ = false ∧ shared = false ∧
        img.GetDataBlockSizeAndStartWithTensor.1 = img.sizes_.prod * img.tensorElements ∧
        (img.sizes_.prod * img.tensorElements * img.dataType_.SizeOf) % 2 ^ 64 =
          (sizes.prod * tensorElems * dt.SizeOf) % 2 ^ 64) := fun h => hps ⟨h.1, h.2.1⟩
    rw [if_neg hps, if_neg hc2]

/-- C24: `ReForge` on a forged image with its own sizes, its own number of tensor elements and
a data type that, after the adjustment for a protected image, is its own, returns without an
exception and leaves every member of the image as it was, whether or not the image is shared
or protected. -/
theorem ReForge_same_parameters (img : Image) (dt : DataType)
    (acceptDataTypeChange : AcceptDataTypeChange) (shared : Bool)
    (ext : Option ExternalInterface) (malloc : Nat → Option Nat)
    (hf : img.IsForged = true)
    (hdt : (if acceptDataTypeChange = .DO_ALLOW ∧ img.protect_ = true then img.dataType_
      else dt) = img.dataType_) :
    img.ReForge img.sizes_ img.tensorElements dt acceptDataTypeChange shared ext malloc =
      (img, none) := by
  unfold Image.ReForge
  simp only [hf, if_true, hdt, and_self]

/-- Witness of C24: a protected and shared forged image, asked for another data type under
the policy that allows a change of data type. -/
theorem ReForge_same_parameters_witness :
    Image.ReForge ⟨.UINT8, [2, 3], [3, 1], 1, 1, true, some 7, 0⟩ [2, 3] 1 .SFLOAT .DO_ALLOW
        true none (fun _ => some 8) =
      (⟨.UINT8, [2, 3], [3, 1], 1, 1, true, some 7, 0⟩, none) :=
  ReForge_same_parameters ⟨.UINT8, [2, 3], [3, 1], 1, 1, true, some 7, 0⟩ .SFLOAT .DO_ALLOW
    true none (fun _ => some 8) rfl rfl

/-- C26: when the image is protected and `ReForge` is called with the policy `DO_ALLOW`, the
data type of the image after a `ReForge` that ends without exception is the data type before
the call, whatever data type was asked for. -/
theorem ReForge_protected_dataType (img img2 : Image) (sizes : List Nat) (tensorElems : Nat)
    (dt : DataType) (shared : Bool) (ext : Option ExternalInterface)
    (malloc : Nat → Option Nat) (hp : img.protect_ = true)
    (h : img.ReForge sizes tensorElems dt .DO_ALLOW shared ext malloc = (img2, none)) :
    img2.dataType_ = img.dataType_ := by
  by_cases hf : img.IsForged = true
  · by_cases hsame : img.sizes_ = sizes ∧ img.tensorElements = tensorElems ∧ img.dataType_ =
        (if AcceptDataTypeChange.DO_ALLOW = .DO_ALLOW ∧ img.protect_ = true
          then img.dataType_ else dt)
    · rw [Image.ReForge_same img sizes tensorElems dt .DO_ALLOW shared ext malloc hf hsame] at h
      simp only [Prod.mk.injEq, and_true] at h
      rw [h]
    · rw [Image.ReForge_forged img sizes tensorElems dt .DO_ALLOW shared ext malloc hf hsame,
        if_neg (by simp [hp])] at h
      have := (Image.reforgeAnew_ok_fields img img2 sizes tensorElems _ ext malloc h).1
      simpa [hp] using this
  · unfold Image.ReForge at h
    simp only [hf, Bool.false_eq_true, if_false] at h
    have := (Image.reforgeAnew_ok_fields img img2 sizes tensorElems _ ext malloc h).1
    simpa [hp] using this

/-- Witness of C26: a protected raw image of data type UINT8 that is reforged with the
request for SFLOAT is forged as UINT8. -/
theorem ReForge_protected_dataType_witness :
    Image.ReForge ⟨.UINT8, [], [], 1, 1, true, none, 0⟩ [2, 3] 1 .SFLOAT .DO_ALLOW false none
        (fun _ => some 7) = (⟨.UINT8, [2, 3], [1, 2], 1, 1, true, some 7, 0⟩, none) ∧
      (⟨.UINT8, [2, 3], [1, 2], 1, 1, true, some 7, 0⟩ : Image).dataType_ =
        (⟨.UINT8, [], [], 1, 1, true, none, 0⟩ : Image).dataType_ :=
  ⟨rfl, ReForge_protected_dataType ⟨.UINT8, [], [], 1, 1, true, none, 0⟩
    ⟨.UINT8, [2, 3], [1, 2], 1, 1, true, some 7, 0⟩ [2, 3] 1 .SFLOAT false none
    (fun _ => some 7) rfl rfl⟩

end dip

namespace dip

/-! ## `Image::ReForge`: reuse of the storage block and failure -/

/-- C25, failing input: a forged image of 2 pixels of type UINT8 (2 bytes, normal strides,
not protected, not shared) is reforged to `2^63 + 1` pixels of type UINT16, which take
`2^64 + 2` bytes.  The product of the `dip::uint` values that `ReForge` compares is 2 on both
sides, so the block of 2 bytes is used again: the image keeps block 7 and has the size
`2^63 + 1`, although the two byte counts differ; the sample with coordinate 1 is then at the
bytes 2 and 3, after the end of the block. -/
theorem ReForge_reuse_on_wrapped_byte_count :
    Image.IsForged ⟨.UINT8, [2], [1], 1, 1, false, some 7, 0⟩ = true ∧
    Image.HasContiguousData ⟨.UINT8, [2], [1], 1, 1, false, some 7, 0⟩ = .ok true ∧
    [2].prod * 1 * DataType.UINT8.SizeOf = 2 ∧
    [2 ^ 63 + 1].prod * 1 * DataType.UINT16.SizeOf = 2 ^ 64 + 2 ∧
    Image.ReForge ⟨.UINT8, [2], [1], 1, 1, false, some 7, 0⟩ [2 ^ 63 + 1] 1 .UINT16
        .DONT_ALLOW false none (fun _ => none) =
      (⟨.UINT16, [2 ^ 63 + 1], [1], 1, 1, false, some 7, 0⟩, none) ∧
    ValidCoords [1] [2 ^ 63 + 1] ∧
    Image.sampleByte ⟨.UINT16, [2 ^ 63 + 1], [1], 1, 1, false, some 7, 0⟩ [1] 0 = 2 := by
  refine ⟨rfl, ?_, rfl, ?_, ?_, ?_, ?_⟩
  · rfl
  · decide
  · rw [Image.ReForge_forged ⟨.UINT8, [2], [1], 1, 1, false, some 7, 0⟩ [2 ^ 63 + 1] 1 .UINT16
      .DONT_ALLOW false none (fun _ => none) rfl (by decide)]
    rw [if_pos ⟨rfl, rfl, by decide, by decide⟩]
    rfl
  · simp [ValidCoords]
  · simp [Image.sampleByte, offsetSum, DataType.SizeOf]

/-- C27, counterexample: a forged image with sizes [2] (block 7, not protected) is reforged
to the sizes [0], and to the sizes `[2^32, 2^32]`.  `Forge` throws in both cases (no pixels;
too many pixels), and the image is then raw, with the sizes asked for: the block was released
before `Forge` was called. -/
theorem ReForge_failure_strips :
    Image.IsForged ⟨.UINT8, [2], [1], 1, 1, false, some 7, 0⟩ = true ∧
    Image.ReForge ⟨.UINT8, [2], [1], 1, 1, false, some 7, 0⟩ [0] 1 .UINT8 .DONT_ALLOW false
        none (fun _ => some 8) =
      (⟨.UINT8, [0], [1], 1, 1, false, none, 0⟩, some .CANNOT_FORGE_WITHOUT_PIXELS) ∧
    Image.IsForged ⟨.UINT8, [0], [1], 1, 1, false, none, 0⟩ = false ∧
    Image.ReForge ⟨.UINT8, [2], [1], 1, 1, false, some 7, 0⟩ [2 ^ 32, 2 ^ 32] 1 .UINT8
        .DONT_ALLOW false none (fun _ => some 8) =
      (⟨.UINT8, [2 ^ 32, 2 ^ 32], [1], 1, 1, false, none, 0⟩, some .SIZE_EXCEEDS_LIMIT) := by
  refine ⟨rfl, ?_, rfl, ?_⟩
  · rfl
  · rw [Image.ReForge_forged ⟨.UINT8, [2], [1], 1, 1, false, some 7, 0⟩ [2 ^ 32, 2 ^ 32] 1
      .UINT8 .DONT_ALLOW false none (fun _ => some 8) rfl (by decide)]
    rw [if_neg (by decide)]
    rfl

/-- C27 as amended: when `ReForge` on a forged image ends with an exception, the image is
left raw, with the sizes and the number of tensor elements asked for, the data type asked for
(its own data type if it is protected and the policy is `DO_ALLOW`), and its protect flag. -/
theorem ReForge_failure_state (img img2 : Image) (sizes : List Nat) (tensorElems : Nat)
    (dt : DataType) (acceptDataTypeChange : AcceptDataTypeChange) (shared : Bool)
    (ext : Option ExternalInterface) (malloc : Nat → Option Nat) (e : Error)
    (hf : img.IsForged = true)
    (h : img.ReForge sizes tensorElems dt acceptDataTypeChange shared ext malloc =
      (img2, some e)) :
    img2.IsForged = false ∧ img2.sizes_ = sizes ∧ img2.tensorElements = tensorElems ∧
      img2.dataType_ = (if acceptDataTypeChange = .DO_ALLOW ∧ img.protect_ = true
        then img.dataType_ else dt) ∧
      img2.protect_ = img.protect_ := by
  by_cases hne : img.sizes_ = sizes ∧ img.tensorElements = tensorElems ∧ img.dataType_ =
      (if acceptDataTypeChange = .DO_ALLOW ∧ img.protect_ = true then img.dataType_ else dt)
  · rw [Image.ReForge_same img sizes tensorElems dt acceptDataTypeChange shared ext malloc hf
      hne] at h
    simp at h
  · rw [Image.ReForge_forged img sizes tensorElems dt acceptDataTypeChange shared ext malloc
      hf hne] at h
    by_cases hc : img.protect_ = false ∧ shared = false ∧
        img.GetDataBlockSizeAndStartWithTensor.1 = img.sizes_.prod * img.tensorElements ∧
        (img.sizes_.prod * img.tensorElements * img.dataType_.SizeOf) % 2 ^ 64 =
          (sizes.prod * tensorElems * dt.SizeOf) % 2 ^ 64
    · rw [if_pos hc] at h
      simp at h
    · rw [if_neg hc] at h
      obtain ⟨h1, h2, h3, h4, h5⟩ :=
          Image.reforgeAnew_error_fields img img2 sizes tensorElems _ ext malloc e h
      exact ⟨h5, h2, h3, h1, h4⟩

/-- Witness of C27 as amended: the forged image with sizes [2] reforged to the sizes [0]. -/
theorem ReForge_failure_state_witness :
    Image.ReForge ⟨.UINT8, [2], [1], 1, 1, false, some 7, 0⟩ [0] 1 .UINT8 .DONT_ALLOW false
        none (fun _ => some 8) =
      (⟨.UINT8, [0], [1], 1, 1, false, none, 0⟩, some .CANNOT_FORGE_WITHOUT_PIXELS) ∧
    (⟨.UINT8, [0], [1], 1, 1, false, none, 0⟩ : Image).IsForged = false :=
  ⟨rfl, (ReForge_failure_state ⟨.UINT8, [2], [1], 1, 1, false, some 7, 0⟩
    ⟨.UINT8, [0], [1], 1, 1, false, none, 0⟩ [0] 1 .UINT8 .DONT_ALLOW false none
    (fun _ => some 8) .CANNOT_FORGE_WITHOUT_PIXELS rfl rfl).1⟩

end dip

namespace dip

/-! ## Names of the data types -/

/-- C31: the constructor of a data type from a string inverts `Name`: for each of the 11 data
types `dt`, the construction from `dt.Name` yields `dt`; different data types have different
names; and the construction from a string that is the name of none of the 11 data types fails
(with the message "Illegal data type name: " followed by the string). -/
theorem DataType_ofName_Name :
    (∀ dt : DataType, DataType.ofName dt.Name = .ok dt) ∧
    (∀ a b : DataType, a.Name = b.Name → a = b) ∧
    (∀ name : String, (∀ dt : DataType, name ≠ dt.Name) →
      DataType.ofName name = .error ("Illegal data type name: " ++ name)) ∧
    (∀ name : String, ∀ dt : DataType, DataType.ofName name = .ok dt → name = dt.Name) := by
  have h1 : ∀ dt : DataType, DataType.ofName dt.Name = .ok dt := by
    intro dt
    cases dt <;> rfl
  refine ⟨h1, ?_, ?_, ?_⟩
  · intro a b h
    have ha := h1 a
    rw [h, h1 b] at ha
    simpa using ha.symm
  · intro name h
    unfold DataType.ofName
    rw [if_neg (show name ≠ "BIN" from h .BIN), if_neg (show name ≠ "UINT8" from h .UINT8),
      if_neg (show name ≠ "SINT8" from h .SINT8), if_neg (show name ≠ "UINT16" from h .UINT16),
      if_neg (show name ≠ "SINT16" from h .SINT16),
      if_neg (show name ≠ "UINT32" from h .UINT32),
      if_neg (show name ≠ "SINT32" from h .SINT32),
      if_neg (show name ≠ "SFLOAT" from h .SFLOAT),
      if_neg (show name ≠ "DFLOAT" from h .DFLOAT),
      if_neg (show name ≠ "SCOMPLEX" from h .SCOMPLEX),
      if_neg (show name ≠ "DCOMPLEX" from h .DCOMPLEX)]
  · intro name dt h
    by_cases hex : ∃ d : DataType, name = d.Name
    · obtain ⟨d, hd⟩ := hex
      rw [hd, h1 d] at h
      simp only [Except.ok.injEq] at h
      rw [hd, h]
    · exfalso
      have hall : ∀ d : DataType, name ≠ d.Name := fun d hd => hex ⟨d, hd⟩
      unfold DataType.ofName at h
      rw [if_neg (show name ≠ "BIN" from hall .BIN),
        if_neg (show name ≠ "UINT8" from hall .UINT8),
        if_neg (show name ≠ "SINT8" from hall .SINT8),
        if_neg (show name ≠ "UINT16" from hall .UINT16),
        if_neg (show name ≠ "SINT16" from hall .SINT16),
        if_neg (show name ≠ "UINT32" from hall .UINT32),
        if_neg (show name ≠ "SINT32" from hall .SINT32),
        if_neg (show name ≠ "SFLOAT" from hall .SFLOAT),
        if_neg (show name ≠ "DFLOAT" from hall .DFLOAT),
        if_neg (show name ≠ "SCOMPLEX" from hall .SCOMPLEX),
        if_neg (show name ≠ "DCOMPLEX" from hall .DCOMPLEX)] at h
      cases h

end dip

namespace dip

/-! ## The processing dimension -/

/-- The state of the loop of `OptimalProcessingDim` after the iterations for 1 to `m`. -/
theorem OptimalProcessingDim.loop_succ (strides : List Int) (sizes : List Nat) (m : Nat) :
    (List.range' 1 (m + 1)).foldl (OptimalProcessingDim.step strides sizes) 0 =
      OptimalProcessingDim.step strides sizes
        ((List.range' 1 m).foldl (OptimalProcessingDim.step strides sizes) 0) (m + 1) := by
  rw [List.range'_1_concat, List.foldl_append]
  simp [Nat.add_comm]

theorem OptimalProcessingDim.loop_large (strides : List Int) (sizes : List Nat)
    (hbig : ∀ i, i < strides.length → SMALL_IMAGE < sizes.getD i 0) (m : Nat)
    (hm : m + 1 ≤ strides.length) :
    (List.range' 1 m).foldl (OptimalProcessingDim.step strides sizes) 0 ≤ m ∧
    (∀ i, i ≤ m → strides.getD
      ((List.range' 1 m).foldl (OptimalProcessingDim.step strides sizes) 0) 0 ≤
        strides.getD i 0) ∧
    (∀ i, i < (List.range' 1 m).foldl (OptimalProcessingDim.step strides sizes) 0 →
      strides.getD ((List.range' 1 m).foldl (OptimalProcessingDim.step strides sizes) 0) 0 <
        strides.getD i 0) := by
  induction m with
  | zero =>
    refine ⟨by simp, ?_, ?_⟩
    · intro i hi
      have : i = 0 := by omega
      subst this
      simp
    · intro i hi
      simp at hi
  | succ m ih =>
    obtain ⟨h1, h2, h3⟩ := ih (by omega)
    rw [OptimalProcessingDim.loop_succ]
    generalize (List.range' 1 m).foldl (OptimalProcessingDim.step strides sizes) 0 = pd
      at h1 h2 h3 ⊢
    unfold OptimalProcessingDim.step
    have hb1 := hbig (m + 1) (by omega)
    have hb2 := hbig pd (by omega)
    by_cases hlt : strides.getD (m + 1) 0 < strides.getD pd 0
    · rw [if_pos hlt, if_pos (Or.inl hb1)]
      refine ⟨le_refl _, ?_, ?_⟩
      · intro i hi
        by_cases hi2 : i = m + 1
        · rw [hi2]
        · have := h2 i (by omega)
          omega
      · intro i hi
        have := h2 i (by omega)
        omega
    · rw [if_neg hlt, if_neg (by omega)]
      refine ⟨by omega, ?_, h3⟩
      intro i hi
      by_cases hi2 : i = m + 1
      · rw [hi2]; omega
      · exact h2 i (by omega)

theorem OptimalProcessingDim.loop_small (strides : List Int) (sizes : List Nat) (m : Nat) :
    (List.range' 1 m).foldl (OptimalProcessingDim.step strides sizes) 0 ≤ m ∧
    (sizes.getD ((List.range' 1 m).foldl (OptimalProcessingDim.step strides sizes) 0) 0 ≤
        SMALL_IMAGE →
      ∀ i, i ≤ m → sizes.getD i 0 ≤
        sizes.getD ((List.range' 1 m).foldl (OptimalProcessingDim.step strides sizes) 0) 0) := by
  induction m with
  | zero =>
    refine ⟨by simp, ?_⟩
    intro _ i hi
    have : i = 0 := by omega
    subst this
    simp
  | succ m ih =>
    obtain ⟨h1, h2⟩ := ih
    rw [OptimalProcessingDim.loop_succ]
    generalize (List.range' 1 m).foldl (OptimalProcessingDim.step strides sizes) 0 = pd
      at h1 h2 ⊢
    unfold OptimalProcessingDim.step
    have key : ∀ i, i ≤ m + 1 → i ≠ m + 1 → i ≤ m := fun i h1 h2 => by omega
    split_ifs with c1 c2 c3
    · refine ⟨le_refl _, ?_⟩
      intro hs i hi
      by_cases hi2 : i = m + 1
      · rw [hi2]
      · have := h2 (by omega) i (key i hi hi2)
        omega
    · refine ⟨by omega, ?_⟩
      intro hs i hi
      by_cases hi2 : i = m + 1
      · rw [hi2]; omega
      · exact h2 hs i (key i hi hi2)
    · refine ⟨le_refl _, ?_⟩
      intro hs i hi
      by_cases hi2 : i = m + 1
      · rw [hi2]
      · have := h2 c3.1 i (key i hi hi2)
        omega
    · refine ⟨by omega, ?_⟩
      intro hs i hi
      by_cases hi2 : i = m + 1
      · rw [hi2]
        by_contra hgt
        exact c3 ⟨hs, by omega⟩
      · exact h2 hs i (key i hi hi2)

/-- C32: for every view with at least one dimension (as many strides as sizes) in which
every size is above the threshold `SMALL_IMAGE` = 63, `OptimalProcessingDim` returns the first
dimension whose stride is the smallest of all strides: the stride of the returned dimension is
at most every stride, and smaller than the stride of every dimension before it. -/
theorem OptimalProcessingDim_smallest_stride (img : Image)
    (hlen : img.strides_.length = img.sizes_.length) (hdim : 1 ≤ img.sizes_.length)
    (hbig : ∀ sz ∈ img.sizes_, SMALL_IMAGE < sz) :
    OptimalProcessingDim img < img.sizes_.length ∧
    (∀ i, i < img.sizes_.length →
      img.strides_.getD (OptimalProcessingDim img) 0 ≤ img.strides_.getD i 0) ∧
    (∀ i, i < OptimalProcessingDim img →
      img.strides_.getD (OptimalProcessingDim img) 0 < img.strides_.getD i 0) := by
  have hb : ∀ i, i < img.strides_.length → SMALL_IMAGE < img.sizes_.getD i 0 := by
    intro i hi
    rw [List.getD_eq_getElem _ _ (by omega)]
    exact hbig _ (List.getElem_mem _)
  obtain ⟨h1, h2, h3⟩ := OptimalProcessingDim.loop_large img.strides_ img.sizes_ hb
    (img.strides_.length - 1) (by omega)
  unfold OptimalProcessingDim
  exact ⟨by omega, fun i hi => h2 i (by omega), h3⟩

/-- Witness of C32: sizes [100, 70, 64] with the strides [5, 2, 2]; dimension 1 is the first
one with the smallest stride. -/
theorem OptimalProcessingDim_smallest_stride_witness :
    OptimalProcessingDim ⟨.UINT8, [100, 70, 64], [5, 2, 2], 1, 1, false, some 0, 0⟩ = 1 ∧
    OptimalProcessingDim ⟨.UINT8, [100, 70, 64], [5, 2, 2], 1, 1, false, some 0, 0⟩ < 3 :=
  ⟨rfl, (OptimalProcessingDim_smallest_stride
    ⟨.UINT8, [100, 70, 64], [5, 2, 2], 1, 1, false, some 0, 0⟩ rfl (by decide)
    (by decide)).1⟩

/-- C36: for every view (as many strides as sizes) `OptimalProcessingDim` returns a valid
dimension, 0 for a view without dimensions and otherwise an index below the number of
dimensions; and whenever the size of the returned dimension is at most the threshold
`SMALL_IMAGE` = 63, no dimension of the view is larger than the returned one. -/
theorem OptimalProcessingDim_valid (img : Image)
    (hlen : img.strides_.length = img.sizes_.length) :
    (img.sizes_.length = 0 → OptimalProcessingDim img = 0) ∧
    (1 ≤ img.sizes_.length → OptimalProcessingDim img < img.sizes_.length) ∧
    (img.sizes_.getD (OptimalProcessingDim img) 0 ≤ SMALL_IMAGE →
      ∀ i, i < img.sizes_.length →
        img.sizes_.getD i 0 ≤ img.sizes_.getD (OptimalProcessingDim img) 0) := by
  obtain ⟨h1, h2⟩ := OptimalProcessingDim.loop_small img.strides_ img.sizes_
    (img.strides_.length - 1)
  unfold OptimalProcessingDim
  refine ⟨?_, ?_, ?_⟩
  · intro h0
    omega
  · intro hd
    omega
  · intro hs i hi
    exact h2 hs i (by omega)

/-- Witness of C36: sizes [3, 60, 10] with the strides [1, 3, 180]: the first dimension has
the smallest stride but is small, and the longer dimension 1 is returned. -/
theorem OptimalProcessingDim_valid_witness :
    OptimalProcessingDim ⟨.UINT8, [3, 60, 10], [1, 3, 180], 1, 1, false, some 0, 0⟩ = 1 ∧
    OptimalProcessingDim ⟨.UINT8, [3, 60, 10], [1, 3, 180], 1, 1, false, some 0, 0⟩ < 3 ∧
    ∀ i, i < 3 → ([3, 60, 10] : List Nat).getD i 0 ≤ ([3, 60, 10] : List Nat).getD 1 0 :=
  ⟨rfl,
   (OptimalProcessingDim_valid
    ⟨.UINT8, [3, 60, 10], [1, 3, 180], 1, 1, false, some 0, 0⟩ rfl).2.1 (by decide),
   (OptimalProcessingDim_valid
    ⟨.UINT8, [3, 60, 10], [1, 3, 180], 1, 1, false, some 0, 0⟩ rfl).2.2 (by decide)⟩

end dip

namespace dip

/-! ## `Image::HasSameDimensionOrder` -/

/-- C34, failing inputs: `RemoveSingletonsFromStrideArray` receives the stride array by value,
so `HasSameDimensionOrder` compares the full stride arrays, those of the dimensions of size 1
included.  For a forged view with sizes [5, 1, 6] and strides [1, 5, 5] against one with sizes
[5, 6] and strides [1, 5] the stride arrays with the singleton dimensions removed are both
[1, 5], yet the result is false, as the full arrays differ in length.  For sizes [5, 1, 6] in
both views, with strides [1, 100, 5] and [1, 0, 5], the result is false as well: the stride
100 of the dimension of size 1 is sorted to the end, and moves the stride 0 behind the 5. -/
theorem HasSameDimensionOrder_keeps_singletons :
    RemoveSingletonsFromStrideArray [5, 1, 6] [1, 5, 5] = [1, 5] ∧
    RemoveSingletonsFromStrideArray [5, 6] [1, 5] = [1, 5] ∧
    Image.HasSameDimensionOrder ⟨.UINT8, [5, 1, 6], [1, 5, 5], 1, 1, false, some 0, 0⟩
      ⟨.UINT8, [5, 6], [1, 5], 1, 1, false, some 1, 0⟩ = .ok false ∧
    RemoveSingletonsFromStrideArray [5, 1, 6] [1, 100, 5] = [1, 5] ∧
    RemoveSingletonsFromStrideArray [5, 1, 6] [1, 0, 5] = [1, 5] ∧
    Image.HasSameDimensionOrder ⟨.UINT8, [5, 1, 6], [1, 100, 5], 1, 1, false, some 0, 0⟩
      ⟨.UINT8, [5, 1, 6], [1, 0, 5], 1, 1, false, some 1, 0⟩ = .ok false ∧
    Image.HasSameDimensionOrder ⟨.UINT8, [5, 6], [1, 5], 1, 1, false, some 0, 0⟩
      ⟨.UINT8, [5, 6], [1, 5], 1, 1, false, some 1, 0⟩ = .ok true := by
  refine ⟨rfl, rfl, rfl, rfl, rfl, rfl, rfl⟩

/-! ## `Image::Forge`: the number of bytes asked for -/

theorem Image.Forge_none_eq (img : Image) (malloc : Nat → Option Nat)
    (hraw : img.IsForged = false) (n : Nat) (hn : FindNumberOfPixels img.sizes_ = .ok n)
    (h0 : n ≠ 0) (ht : ¬ img.tensorElements > UINT_MAX / n) :
    img.Forge none malloc = img.forgeDefault (n * img.tensorElements) malloc := by
  unfold Image.Forge
  rw [if_neg (by simp [hraw]), hn]
  simp only
  rw [if_neg h0, if_neg ht, if_neg (by simp [hraw])]

/-- C38, failing input: a raw view of `2^63` pixels of type UINT16 (one tensor element)
passes the size tests of `Forge` (`2^63` samples fit in a `dip::uint`); the number of bytes
asked for is the product `2^63 * 2` of `dip::uint` values, which is 0 and not the exact
product `2^64`: whatever the allocator, the view is forged on the block returned for a request
of 0 bytes. -/
theorem Forge_byte_count_wraps (malloc : Nat → Option Nat) :
    FindNumberOfPixels [2 ^ 63] = .ok (2 ^ 63) ∧
    ¬ (1 > UINT_MAX / 2 ^ 63) ∧
    [2 ^ 63].prod * 1 * DataType.UINT16.SizeOf = 2 ^ 64 ∧
    Image.Forge ⟨.UINT16, [2 ^ 63], [1], 1, 1, false, none, 0⟩ none malloc =
      (malloc 0).elim (.error .FAILED_TO_ALLOCATE)
        (fun p => .ok ⟨.UINT16, [2 ^ 63], [1], 1, 1, false, some p, 0⟩) := by
  refine ⟨rfl, by decide, by decide, ?_⟩
  have h := Image.Forge_none_eq ⟨.UINT16, [2 ^ 63], [1], 1, 1, false, none, 0⟩ malloc rfl
    (2 ^ 63) (show FindNumberOfPixels [2 ^ 63] = .ok (2 ^ 63) from rfl) (by decide)
    (by decide)
  rw [h, Image.forgeDefault_raw ⟨.UINT16, [2 ^ 63], [1], 1, 1, false, none, 0⟩ _ malloc rfl]
  have hb : 2 ^ 63 * 1 * DataType.UINT16.SizeOf % 2 ^ 64 = 0 := by decide
  simp only [hb]
  cases malloc 0 <;> rfl

end dip

namespace dip

/-! ## Normal strides: `SetNormalStrides`, `Forge` and `HasNormalStrides` -/

/-- The normal strides as the machine computes them depend on the first stride modulo
`2^64` only. -/
theorem ComputeStrides_mod (sizes : List Nat) (s : Nat) :
    ComputeStrides sizes (s % 2 ^ 64) = ComputeStrides sizes s := by
  cases sizes with
  | nil => rfl
  | cons sz rest =>
    simp only [ComputeStrides]
    rw [toSint_mod, Nat.mod_mul_mod]

/-- Every stride that `ComputeStrides` sets is the product of the first stride and the sizes
before its dimension, converted to a `dip::sint`. -/
theorem ComputeStrides_getElem? (sizes : List Nat) (s i : Nat) (h : i < sizes.length) :
    (ComputeStrides sizes s)[i]? = some (toSint (s * (sizes.take i).prod)) := by
  induction sizes generalizing s i with
  | nil => simp at h
  | cons sz rest ih =>
    cases i with
    | zero => simp [ComputeStrides]
    | succ i =>
      simp only [ComputeStrides, List.getElem?_cons_succ, List.take_succ_cons, List.prod_cons]
      rw [ComputeStrides_mod, ih (s * sz) i (by simpa using h), mul_assoc]

/-- The strides are the normal ones exactly when each of them is the product of the number
of tensor elements and the sizes before its dimension, converted to a `dip::sint`. -/
theorem ComputeStrides_eq_iff (sizes : List Nat) (strides : List Int) (s : Nat)
    (hlen : strides.length = sizes.length) :
    strides = ComputeStrides sizes s ↔
      ∀ i, i < sizes.length → strides[i]? = some (toSint (s * (sizes.take i).prod)) := by
  constructor
  · intro h i hi
    rw [h]
    exact ComputeStrides_getElem? sizes s i hi
  · intro h
    apply List.ext_getElem?
    intro i
    by_cases hi : i < sizes.length
    · rw [h i hi, ComputeStrides_getElem? sizes s i hi]
    · rw [List.getElem?_eq_none (by omega),
        List.getElem?_eq_none (by rw [ComputeStrides_length]; omega)]

/-- `Forge` without external interface succeeds on a raw image whose sizes are at least 1
and whose number of samples fits in a `dip::uint` when the allocator returns a block. -/
theorem Image.Forge_none_succeeds (img : Image) (malloc : Nat → Option Nat) (p : Nat)
    (hraw : img.IsForged = false) (hpos : ∀ sz ∈ img.sizes_, 1 ≤ sz)
    (ht : 1 ≤ img.tensorElements) (hfit : img.sizes_.prod * img.tensorElements ≤ UINT_MAX)
    (hm : malloc (img.sizes_.prod * img.tensorElements * img.dataType_.SizeOf % 2 ^ 64) =
      some p) :
    ∃ img2, img.Forge none malloc = .ok img2 := by
  have hp : 1 ≤ img.sizes_.prod := Nat.one_le_iff_ne_zero.mpr
    (List.prod_ne_zero (fun h0 => by have := hpos 0 h0; omega))
  have hple : img.sizes_.prod ≤ UINT_MAX :=
    le_trans (Nat.le_mul_of_pos_right _ ht) hfit
  have hn : FindNumberOfPixels img.sizes_ = .ok img.sizes_.prod := by
    rw [FindNumberOfPixels_nonzero img.sizes_ (fun sz hsz => by have := hpos sz hsz; omega),
      if_pos hple]
  have hdiv : ¬ img.tensorElements > UINT_MAX / img.sizes_.prod := by
    rw [gt_iff_lt, Nat.div_lt_iff_lt_mul (by omega), Nat.mul_comm]
    omega
  rw [Image.Forge_none_eq img malloc hraw _ hn (by omega) hdiv,
    Image.forgeDefault_raw img _ malloc hraw, hm]
  exact ⟨_, rfl⟩

/-- A view with normal strides that `Forge` forges without external interface has normal
strides. -/
theorem Image.Forge_normal_HasNormalStrides (img1 img2 : Image) (malloc : Nat → Option Nat)
    (hraw : img1.IsForged = false) (hts : img1.tensorStride_ = 1)
    (hst : img1.strides_ = ComputeStrides img1.sizes_ img1.tensorElements)
    (h : img1.Forge none malloc = .ok img2) : img2.HasNormalStrides = .ok true := by
  obtain ⟨-, -, hd⟩ := Image.Forge_none_ok img1 img2 malloc hraw h
  rw [Image.forgeDefault_raw img1 _ malloc hraw] at hd
  cases hm : malloc (img1.sizes_.prod * img1.tensorElements * img1.dataType_.SizeOf % 2 ^ 64) with
  | none =>
    rw [hm] at hd
    simp [Option.elim] at hd
  | some p =>
    rw [hm] at hd
    simp only [Option.elim, Except.ok.injEq] at hd
    subst hd
    apply Image.HasNormalStrides_of_normal
    · rfl
    · simp only
      split_ifs
      · exact hts
      · rfl
    · simp only
      split_ifs
      · exact hst
      · rfl

/-- C16, counterexample: for the sizes [2^32, 2^32, 2, 2] and one tensor element
`SetNormalStrides` sets the strides [1, 2^32, 0, 0]: the products `2^64` and `2^65` of the
sizes before the last two dimensions are computed in a `dip::uint` and are 0. -/
theorem SetNormalStrides_wraps :
    Image.SetNormalStrides ⟨.UINT8, [2 ^ 32, 2 ^ 32, 2, 2], [], 1, 0, false, none, 0⟩ =
      .ok ⟨.UINT8, [2 ^ 32, 2 ^ 32, 2, 2], [1, 2 ^ 32, 0, 0], 1, 1, false, none, 0⟩ ∧
    1 * (([2 ^ 32, 2 ^ 32, 2, 2] : List Nat).take 2).prod = 2 ^ 64 ∧
    1 * (([2 ^ 32, 2 ^ 32, 2, 2] : List Nat).take 3).prod = 2 ^ 65 := by
  refine ⟨?_, by decide, by decide⟩
  set_option maxRecDepth 8000 in
  rfl

/-- C16 as amended: `SetNormalStrides` on a raw view sets the tensor stride to 1 and
`strides[i]` to the number of tensor elements times the product of `sizes[j]` for `j < i`,
computed in a `dip::uint` and converted to a `dip::sint`, for every dimension `i`, changing
nothing else; this is the exact product whenever that fits in a `dip::sint`.  For a forged
view `v` (with as many strides as sizes) `HasNormalStrides` returns true exactly when its
tensor stride is 1 and its strides are that array.  So `Forge` without external interface,
called right after `SetNormalStrides`, gives a view with normal strides whenever it succeeds,
and it succeeds when the sizes and the number of tensor elements are at least 1, the number
of samples fits in a `dip::uint` and the allocator returns a block. -/
theorem SetNormalStrides_HasNormalStrides (img v : Image)
    (hraw : img.IsForged = false) (hv : v.IsForged = true)
    (hlen : v.strides_.length = v.sizes_.length) :
    (∃ img1, img.SetNormalStrides = .ok img1 ∧
        img1 = { img with tensorStride_ := 1,
                          strides_ := ComputeStrides img.sizes_ img.tensorElements } ∧
        img1.strides_.length = img.sizes_.length ∧
        (∀ i, i < img.sizes_.length →
          img1.strides_[i]? = some (toSint (img.tensorElements * (img.sizes_.take i).prod))) ∧
        (∀ i, i < img.sizes_.length →
          img.tensorElements * (img.sizes_.take i).prod ≤ SINT_MAX →
          img1.strides_[i]? =
            some ((img.tensorElements * (img.sizes_.take i).prod : Nat) : Int)) ∧
        (∀ malloc img2, img1.Forge none malloc = .ok img2 →
          img2.HasNormalStrides = .ok true) ∧
        (∀ (malloc : Nat → Option Nat) (p : Nat), (∀ sz ∈ img.sizes_, 1 ≤ sz) →
          1 ≤ img.tensorElements → img.sizes_.prod * img.tensorElements ≤ UINT_MAX →
          malloc (img.sizes_.prod * img.tensorElements * img.dataType_.SizeOf % 2 ^ 64) =
            some p →
          ∃ img2, img1.Forge none malloc = .ok img2)) ∧
      (v.HasNormalStrides = .ok true ↔
        v.tensorStride_ = 1 ∧ ∀ i, i < v.sizes_.length →
          v.strides_[i]? = some (toSint (v.tensorElements * (v.sizes_.take i).prod))) ∧
      (v.HasNormalStrides = .ok true ∨ v.HasNormalStrides = .ok false) := by
  refine ⟨⟨_, by simp [Image.SetNormalStrides, hraw], rfl, ComputeStrides_length _ _,
    fun i hi => ComputeStrides_getElem? _ _ i hi, ?_, ?_, ?_⟩, ?_, ?_⟩
  · intro i hi hle
    have := ComputeStrides_getElem? img.sizes_ img.tensorElements i hi
    rw [toSint_of_le _ hle] at this
    exact this
  · intro malloc img2 h
    refine Image.Forge_normal_HasNormalStrides _ img2 malloc ?_ ?_ ?_ h
    · exact hraw
    · rfl
    · rfl
  · intro malloc p hpos ht hfit hm
    exact Image.Forge_none_succeeds _ malloc p hraw hpos ht hfit hm
  · rw [← ComputeStrides_eq_iff v.sizes_ v.strides_ v.tensorElements hlen]
    simp only [Image.HasNormalStrides, hv, not_true_eq_false, if_false, ne_eq]
    by_cases h1 : v.tensorStride_ = 1
    · have := Image.HasNormalStrides.loop_iff v.sizes_ v.strides_ v.tensorElements hlen
      simp [h1, this]
    · simp [h1]
  · simp only [Image.HasNormalStrides, hv, not_true_eq_false, if_false, ne_eq]
    by_cases h1 : v.tensorStride_ = 1
    · simp only [h1, not_true_eq_false, if_false]
      cases Image.HasNormalStrides.loop v.sizes_ v.strides_ (toSint v.tensorElements) <;> simp
    · simp [h1]

/-- Witness of C16 as amended: a raw view of sizes [50, 80, 30] with 3 tensor elements, which
gets the strides [3, 150, 12000] and is then forged, and a forged view with the same sizes and
strides. -/
theorem SetNormalStrides_HasNormalStrides_witness :
    Image.SetNormalStrides ⟨.SFLOAT, [50, 80, 30], [], 3, 0, false, none, 0⟩ =
        .ok ⟨.SFLOAT, [50, 80, 30], [3, 150, 12000], 3, 1, false, none, 0⟩ ∧
      Image.Forge ⟨.SFLOAT, [50, 80, 30], [3, 150, 12000], 3, 1, false, none, 0⟩ none
          (fun _ => some 7) =
        .ok ⟨.SFLOAT, [50, 80, 30], [3, 150, 12000], 3, 1, false, some 7, 0⟩ ∧
      Image.HasNormalStrides
        ⟨.SFLOAT, [50, 80, 30], [3, 150, 12000], 3, 1, false, some 7, 0⟩ = .ok true ∧
      (Image.HasNormalStrides ⟨.SFLOAT, [50, 80, 30], [3, 150, 12000], 3, 1, false, some 0, 0⟩ =
          .ok true ↔
        (1 : Int) = 1 ∧ ∀ i, i < 3 → ([3, 150, 12000] : List Int)[i]? =
          some (toSint (3 * (([50, 80, 30] : List Nat).take i).prod))) :=
  ⟨rfl, rfl, rfl,
    (SetNormalStrides_HasNormalStrides ⟨.SFLOAT, [50, 80, 30], [], 3, 0, false, none, 0⟩
      ⟨.SFLOAT, [50, 80, 30], [3, 150, 12000], 3, 1, false, some 0, 0⟩ rfl rfl rfl).2.1⟩

end dip

namespace dip

/-! ## `Image::Index` is a bijection -/

theorem sum_range_succ_shift (f : Nat → Nat) (n : Nat) :
    ((List.range (n + 1)).map f).sum = f 0 + ((List.range n).map (fun i => f (i + 1))).sum := by
  rw [List.range_succ_eq_map, List.map_cons, List.sum_cons, List.map_map]
  rfl

/-- The value of `Index` on valid coordinates, when the number of pixels fits in a
`dip::uint`: the sum of `c[ i ]` times the product of the sizes before dimension `i`, which
is below the number of pixels. -/
theorem Image.Index_loop_sum (c sizes : List Nat) (hc : ValidCoords c sizes)
    (hfit : sizes.prod ≤ UINT_MAX) :
    Image.Index.loop c sizes =
        .ok (((List.range c.length).map
          (fun i => c.getD i 0 * (sizes.take i).prod)).sum) ∧
      ((List.range c.length).map (fun i => c.getD i 0 * (sizes.take i).prod)).sum <
        sizes.prod := by
  induction c generalizing sizes with
  | nil =>
    cases sizes with
    | nil => simp [Image.Index.loop]
    | cons sz szs => simp [ValidCoords] at hc
  | cons x xs ih =>
    cases sizes with
    | nil => simp [ValidCoords] at hc
    | cons sz szs =>
      have e2 : UINT_MAX = 2 ^ 64 - 1 := rfl
      obtain ⟨hx, hxs⟩ := hc
      rw [List.prod_cons] at hfit
      have hle : szs.prod ≤ sz * szs.prod := Nat.le_mul_of_pos_left _ (by omega)
      obtain ⟨h1, h2⟩ := ih szs hxs (by omega)
      have hsum : ((List.range (xs.length + 1)).map
          (fun i => (x :: xs).getD i 0 * ((sz :: szs).take i).prod)).sum =
          ((List.range xs.length).map (fun i => xs.getD i 0 * (szs.take i).prod)).sum * sz
            + x := by
        rw [sum_range_succ_shift]
        simp only [List.getD_cons_zero, List.take_zero, List.prod_nil, Nat.mul_one,
          List.getD_cons_succ, List.take_succ_cons, List.prod_cons]
        have : (fun i => xs.getD i 0 * (sz * (szs.take i).prod)) =
            (fun i => sz * (xs.getD i 0 * (szs.take i).prod)) := by
          funext i
          ring
        rw [this, List.sum_map_mul_left]
        ring
      simp only [List.length_cons]
      rw [hsum]
      have hbound : ((List.range xs.length).map
          (fun i => xs.getD i 0 * (szs.take i).prod)).sum * sz + x < sz * szs.prod := by
        have h3 : ((List.range xs.length).map
            (fun i => xs.getD i 0 * (szs.take i).prod)).sum + 1 ≤ szs.prod := h2
        calc ((List.range xs.length).map (fun i => xs.getD i 0 * (szs.take i).prod)).sum * sz
              + x
            < ((List.range xs.length).map
                (fun i => xs.getD i 0 * (szs.take i).prod)).sum * sz + sz := by omega
          _ = (((List.range xs.length).map
                (fun i => xs.getD i 0 * (szs.take i).prod)).sum + 1) * sz := by ring
          _ ≤ szs.prod * sz := Nat.mul_le_mul_right sz h3
          _ = sz * szs.prod := Nat.mul_comm _ _
      constructor
      · simp only [Image.Index.loop, h1]
        rw [if_neg (by omega), Nat.mod_eq_of_lt (by omega)]
      · simp only [List.prod_cons]
        exact hbound

/-- Every index below the number of pixels is the index of valid coordinates. -/
theorem Image.Index_loop_surjective (sizes : List Nat) (k : Nat) (hk : k < sizes.prod)
    (hfit : sizes.prod ≤ UINT_MAX) :
    ∃ c, ValidCoords c sizes ∧ Image.Index.loop c sizes = .ok k := by
  induction sizes generalizing k with
  | nil => exact ⟨[], trivial, by simp at hk; simp [Image.Index.loop, hk]⟩
  | cons sz szs ih =>
    have e2 : UINT_MAX = 2 ^ 64 - 1 := rfl
    simp only [List.prod_cons] at hk hfit
    have hsz : 0 < sz := by
      rcases Nat.eq_zero_or_pos sz with h0 | h0
      · rw [h0] at hk; simp at hk
      · exact h0
    have hle : szs.prod ≤ sz * szs.prod := Nat.le_mul_of_pos_left _ hsz
    have hdiv : k / sz < szs.prod := Nat.div_lt_of_lt_mul hk
    obtain ⟨cs, hcs, hloop⟩ := ih (k / sz) hdiv (by omega)
    refine ⟨(k % sz) :: cs, ⟨Nat.mod_lt k hsz, hcs⟩, ?_⟩
    have hval : k / sz * sz + k % sz = k := by
      rw [Nat.mul_comm]
      exact Nat.div_add_mod k sz
    simp only [Image.Index.loop, hloop]
    rw [if_neg (by have := Nat.mod_lt k hsz; omega), hval, Nat.mod_eq_of_lt (by omega)]

/-- Counterexample of C35: the forged view of `dip::uint16` samples with the sizes
[2^63 + 1].  The index 5 is below the number of pixels, `IndexToCoordinates( 5 )` is
[2^63 - 7], and `Index` of these coordinates is 2^63 - 7, not 5. -/
theorem IndexToCoordinates_not_inverse :
    5 < ([2 ^ 63 + 1] : List Nat).prod ∧
      Image.IndexToCoordinates ⟨.UINT16, [2 ^ 63 + 1], [1], 1, 1, false, some 0, 0⟩ 5 =
        .ok [2 ^ 63 - 7] ∧
      Image.Index ⟨.UINT16, [2 ^ 63 + 1], [1], 1, 1, false, some 0, 0⟩ [2 ^ 63 - 7] =
        .ok (2 ^ 63 - 7) ∧
      (2 ^ 63 - 7 : Nat) ≠ 5 := by
  refine ⟨by decide, rfl, rfl, by decide⟩

/-- C35 as amended: on a forged view with a number of pixels that fits in a `dip::sint`
(all sizes are at least 1 as soon as there is a valid coordinate vector), `Index` is a
bijection between the valid coordinate vectors and the integers from 0 to the number of
pixels minus one: `Index( c )` is the sum over `i` of
`c[ i ]` times the product of the sizes `sizes[ j ]`, `j < i`, and is below the number of
pixels; for every `k` below the number of pixels `IndexToCoordinates( k )` is a valid
coordinate vector, and `Index` of it is `k`; and valid coordinate vectors with the same index
are equal. -/
theorem Index_bijection (img : Image) (hf : img.IsForged = true)
    (hfit : img.sizes_.prod ≤ SINT_MAX) :
    (∀ c, ValidCoords c img.sizes_ →
      img.Index c = .ok (((List.range c.length).map
        (fun i => c.getD i 0 * (img.sizes_.take i).prod)).sum) ∧
      ((List.range c.length).map (fun i => c.getD i 0 * (img.sizes_.take i).prod)).sum <
        img.sizes_.prod) ∧
    (∀ k, k < img.sizes_.prod →
      ∃ c, img.IndexToCoordinates k = .ok c ∧ ValidCoords c img.sizes_ ∧
        img.Index c = .ok k) ∧
    (∀ c1 c2, ValidCoords c1 img.sizes_ → ValidCoords c2 img.sizes_ →
      img.Index c1 = img.Index c2 → c1 = c2) := by
  have e1 : SINT_MAX = 2 ^ 63 - 1 := rfl
  have e2 : UINT_MAX = 2 ^ 64 - 1 := rfl
  have hfitU : img.sizes_.prod ≤ UINT_MAX := by omega
  have hIndex : ∀ c, ValidCoords c img.sizes_ →
      img.Index c = Image.Index.loop c img.sizes_ := by
    intro c hc
    unfold Image.Index
    rw [if_neg (by simp [hf]), if_neg (by simp [ValidCoords_length c _ hc])]
  refine ⟨?_, ?_, ?_⟩
  · intro c hc
    rw [hIndex c hc]
    exact Image.Index_loop_sum c img.sizes_ hc hfitU
  · intro k hk
    obtain ⟨c, hc, hloop⟩ := Image.Index_loop_surjective img.sizes_ k hk hfitU
    exact ⟨c, Image.IndexToCoordinates_loop img c k hf hfit hc hloop, hc,
      by rw [hIndex c hc, hloop]⟩
  · intro c1 c2 hc1 hc2 h
    obtain ⟨h1, _⟩ := Image.Index_loop_sum c1 img.sizes_ hc1 hfitU
    obtain ⟨h2, _⟩ := Image.Index_loop_sum c2 img.sizes_ hc2 hfitU
    rw [hIndex c1 hc1, hIndex c2 hc2, h2] at h
    have d1 := Image.IndexToCoordinates_loop img c1 _ hf hfit hc1 h
    have d2 := Image.IndexToCoordinates_loop img c2 _ hf hfit hc2 h2
    rw [d1] at d2
    simpa using d2

/-- Witness of C35 as amended: a view of 3 by 4 pixels with mirrored, exchanged strides; the
pixel [2, 1] has index 5 = 2 + 1 * 3, and index 5 is decoded to [2, 1]. -/
theorem Index_bijection_witness :
    Image.Index ⟨.UINT8, [3, 4], [-4, 1], 1, 1, false, some 0, 8⟩ [2, 1] = .ok 5 ∧
    Image.IndexToCoordinates ⟨.UINT8, [3, 4], [-4, 1], 1, 1, false, some 0, 8⟩ 5 =
      .ok [2, 1] ∧
    ∃ c, Image.IndexToCoordinates ⟨.UINT8, [3, 4], [-4, 1], 1, 1, false, some 0, 8⟩ 11 =
        .ok c ∧ ValidCoords c [3, 4] ∧
      Image.Index ⟨.UINT8, [3, 4], [-4, 1], 1, 1, false, some 0, 8⟩ c = .ok 11 :=
  ⟨rfl, rfl, (Index_bijection ⟨.UINT8, [3, 4], [-4, 1], 1, 1, false, some 0, 8⟩ rfl
    (by decide)).2.1 11 (by decide)⟩

end dip

namespace dip

/-! ## The offset decoder on views with singleton and singleton-expanded dimensions -/

theorem sum_filter_active (l : List (Nat × Nat)) (P A : Nat × Nat → Bool) (f : Nat × Nat → Nat)
    (h0 : ∀ q ∈ l, A q = false → f q = 0) :
    ((l.filter P).map f).sum = (((l.filter A).filter P).map f).sum := by
  induction l with
  | nil => rfl
  | cons q l ih =>
    have ih2 := ih (fun x hx => h0 x (by simp [hx]))
    by_cases hA : A q = true
    · by_cases hP : P q = true
      · simp [List.filter_cons, hA, hP, ih2]
      · simp [List.filter_cons, hA, hP, ih2]
    · have hz := h0 q (by simp) (by simpa using hA)
      by_cases hP : P q = true
      · simp [List.filter_cons, hA, hP, ih2, hz]
      · simp [List.filter_cons, hA, hP, ih2]

/-- The strides are dominant as soon as those of the dimensions that have a size other than 1
and a stride other than 0 are. -/
theorem Dominant_of_active (dims : List (Nat × Nat))
    (h : Dominant (dims.filter (fun p => decide (p.1 ≠ 1 ∧ p.2 ≠ 0)))) : Dominant dims := by
  intro p hp h1 h2
  have hmem : p ∈ dims.filter (fun p => decide (p.1 ≠ 1 ∧ p.2 ≠ 0)) := by
    simp [List.mem_filter, hp, h1, h2]
  have := h p hmem h1 h2
  rw [sum_filter_active dims (fun q => decide (q.2 ≤ p.2))
    (fun p => decide (p.1 ≠ 1 ∧ p.2 ≠ 0)) (fun q => (q.1 - 1) * q.2)]
  · exact this
  · intro q _ hq
    simp only [ne_eq, decide_eq_false_iff_not, not_and, not_not] at hq
    by_cases hq1 : q.1 = 1
    · simp [hq1]
    · simp [hq hq1]

/-- Counterexample of C33: a forged view with one singleton-expanded dimension of size
2^63 + 1 (stride 0).  Every valid coordinate vector has the offset 0, and the decoder returns
2^63 - 2 in that dimension, not 0: it keeps the size in a `dip::sint`, where it reads as
negative, the mark of a mirrored dimension. -/
theorem OffsetToCoordinates_expanded_large :
    ValidCoords [5] [2 ^ 63 + 1] ∧
      Image.Offset ⟨.UINT8, [2 ^ 63 + 1], [0], 1, 1, false, some 0, 0⟩ [5] = .ok 0 ∧
      Image.OffsetToCoordinates ⟨.UINT8, [2 ^ 63 + 1], [0], 1, 1, false, some 0, 0⟩ 0 =
        .ok [2 ^ 63 - 2] ∧
      ([2 ^ 63 - 2] : List Nat) ≠ [0] := by
  refine ⟨by simp [ValidCoords], rfl, rfl, by decide⟩

/-- C33 as amended: for a forged view whose sizes and reach fit in a `dip::sint` and in which
the dimensions that have a size other than 1 and a stride other than 0 carry, up to their
order and the sign of the strides, the strides of the normal layout of their sizes `ps`, and
for every valid coordinate vector `c`, the offset decoder applied to `Offset( c )` returns a
coordinate vector with 0 in every dimension of size 1 and every dimension of stride 0, and
`c[ i ]` in every other dimension `i`. -/
theorem OffsetToCoordinates_singleton_dims (img : Image) (c ps : List Nat) (s : Nat)
    (hf : img.IsForged = true) (hlen : img.sizes_.length = img.strides_.length)
    (hfit : ∀ sz ∈ img.sizes_, sz ≤ SINT_MAX)
    (hreach : reach img.sizes_ img.strides_ ≤ SINT_MAX) (hc : ValidCoords c img.sizes_)
    (hps : ∀ p ∈ ps, 1 ≤ p) (hs : 1 ≤ s)
    (hperm : ((absDims img.sizes_ img.strides_).filter
      (fun p => decide (p.1 ≠ 1 ∧ p.2 ≠ 0))).Perm (absDims ps (ComputeStridesExact ps s))) :
    ∃ offset r, img.Offset c = .ok offset ∧ img.OffsetToCoordinates offset = .ok r ∧
      r.length = img.sizes_.length ∧
      ∀ i, i < img.sizes_.length →
        r.getD i 0 = if img.sizes_.getD i 0 = 1 ∨ img.strides_.getD i 0 = 0 then 0
          else c.getD i 0 := by
  have hdom : Dominant (absDims img.sizes_ img.strides_) :=
    Dominant_of_active _ (Dominant_of_perm _ _ hperm.symm (Dominant_normal ps s hs hps))
  obtain ⟨cc, hcc, happ⟩ := CoordinatesComputer.decode_offset img.sizes_ img.strides_ c hlen hc
    hfit hreach hdom
  have hclen := ValidCoords_length c img.sizes_ hc
  refine ⟨offsetSum c img.strides_, expectedCoords c img.strides_,
    Image.Offset_valid img c hf hlen hc hreach, ?_, ?_, ?_⟩
  · unfold Image.OffsetToCoordinates Image.OffsetToCoordinatesComputer
    rw [if_neg (by simp [hf]), hcc]
    simp only [happ]
  · rw [expectedCoords_length c _ (by omega), hclen]
  · intro i hi
    rw [expectedCoords_getD c _ i (by omega)]
    have hci := ValidCoords_getD c img.sizes_ hc i hi
    by_cases h0 : img.strides_.getD i 0 = 0
    · rw [if_pos h0, if_pos (Or.inr h0)]
    · by_cases h1 : img.sizes_.getD i 0 = 1
      · rw [if_neg h0, if_pos (Or.inl h1)]
        omega
      · rw [if_neg h0, if_neg (fun h => h.elim h1 h0)]

/-- Witness of C33 as amended: sizes [3, 1, 4, 5] with strides [-4, 7, 1, 0]: dimension 1 is
of size 1, dimension 3 is singleton-expanded, and the dimensions 0 and 2 carry the strides of
the normal layout of the sizes [4, 3], exchanged and with dimension 0 mirrored.  The
coordinates [2, 0, 3, 4] are decoded to [2, 0, 3, 0]. -/
theorem OffsetToCoordinates_singleton_dims_witness :
    Image.Offset ⟨.UINT8, [3, 1, 4, 5], [-4, 7, 1, 0], 1, 1, false, some 0, 8⟩ [2, 0, 3, 4] =
      .ok (-5) ∧
    Image.OffsetToCoordinates ⟨.UINT8, [3, 1, 4, 5], [-4, 7, 1, 0], 1, 1, false, some 0, 8⟩
      (-5) = .ok [2, 0, 3, 0] ∧
    ∃ offset r,
      Image.Offset ⟨.UINT8, [3, 1, 4, 5], [-4, 7, 1, 0], 1, 1, false, some 0, 8⟩ [2, 0, 3, 4] =
        .ok offset ∧
      Image.OffsetToCoordinates ⟨.UINT8, [3, 1, 4, 5], [-4, 7, 1, 0], 1, 1, false, some 0, 8⟩
        offset = .ok r ∧
      r.length = 4 ∧
      ∀ i, i < 4 → r.getD i 0 =
        if ([3, 1, 4, 5] : List Nat).getD i 0 = 1 ∨ ([-4, 7, 1, 0] : List Int).getD i 0 = 0
        then 0 else ([2, 0, 3, 4] : List Nat).getD i 0 :=
  ⟨by
    set_option maxRecDepth 8000 in
    rfl, by
    set_option maxRecDepth 8000 in
    rfl, OffsetToCoordinates_singleton_dims
    ⟨.UINT8, [3, 1, 4, 5], [-4, 7, 1, 0], 1, 1, false, some 0, 8⟩ [2, 0, 3, 4] [4, 3] 1
    rfl rfl (by decide) (by decide) (by simp [ValidCoords]) (by decide) (by decide)
    (by
      show List.Perm [((3 : Nat), (4 : Nat)), (4, 1)] [(4, 1), (3, 4)]
      exact List.Perm.swap _ _ _)⟩

end dip

namespace dip

/-! ## Valid strides and distinct samples -/

/-- C37, counterexample: for the sizes [2, 2, 2] and the strides [2, 3, 5] `HasValidStrides`
returns true (3 > 2 * 1 and 5 > 3 * 1: each stride is only compared with the next smaller
one), and the pixels [1, 1, 0] and [0, 0, 1] have the same offset 5.  For the sizes [3, 2, 2]
and the strides [1, 4, 5], which `Forge` keeps (the extent is the number of pixels, 12), the
pixels [1, 1, 0] and [0, 0, 1] of the forged view have the same offset 5 as well.  With two
dimensions only, the sizes [2^63 + 1, 2] and the strides [1, 2] pass the test too, because the
size is converted to a `dip::sint` (the test is `2 <= 1 * -2^63`), and the pixels [2, 0] and
[0, 1] have the same offset 2. -/
theorem HasValidStrides_true_with_shared_offset :
    Image.HasValidStrides ⟨.UINT8, [2, 2, 2], [2, 3, 5], 1, 1, false, none, 0⟩ = true ∧
    ValidCoords [1, 1, 0] [2, 2, 2] ∧ ValidCoords [0, 0, 1] [2, 2, 2] ∧
    offsetSum [1, 1, 0] [2, 3, 5] + ((0 : Nat) : Int) * 1 = 5 ∧
    offsetSum [0, 0, 1] [2, 3, 5] + ((0 : Nat) : Int) * 1 = 5 ∧
    ([1, 1, 0] : List Nat) ≠ [0, 0, 1] ∧
    Image.HasValidStrides ⟨.UINT8, [3, 2, 2], [1, 4, 5], 1, 1, false, none, 0⟩ = true ∧
    Image.Forge ⟨.UINT8, [3, 2, 2], [1, 4, 5], 1, 1, false, none, 0⟩ none (fun _ => some 7) =
      .ok ⟨.UINT8, [3, 2, 2], [1, 4, 5], 1, 1, false, some 7, 0⟩ ∧
    ValidCoords [1, 1, 0] [3, 2, 2] ∧ ValidCoords [0, 0, 1] [3, 2, 2] ∧
    offsetSum [1, 1, 0] [1, 4, 5] = offsetSum [0, 0, 1] [1, 4, 5] ∧
    Image.HasValidStrides ⟨.UINT8, [2 ^ 63 + 1, 2], [1, 2], 1, 1, false, none, 0⟩ = true ∧
    ValidCoords [2, 0] [2 ^ 63 + 1, 2] ∧ ValidCoords [0, 1] [2 ^ 63 + 1, 2] ∧
    offsetSum [2, 0] [1, 2] = offsetSum [0, 1] [1, 2] := by
  refine ⟨rfl, ?_, ?_, rfl, rfl, by decide, rfl, rfl, ?_, ?_, rfl, rfl, ?_, ?_, rfl⟩ <;>
    simp [ValidCoords]

theorem abs_mul_lt_of_ne (a b : Int) (n : Nat) (x y u v : Nat) (hx : x < n) (hy : y < n)
    (hb : |a| * ((n : Int) - 1) < |b|) (h : (x : Int) * a + (u : Int) * b =
      (y : Int) * a + (v : Int) * b) : u = v := by
  by_contra hne
  have h1 : ((x : Int) - y) * a = ((v : Int) - u) * b := by linarith
  have h2 : |(x : Int) - y| * |a| = |(v : Int) - u| * |b| := by
    rw [← abs_mul, ← abs_mul, h1]
  have h3 : |(x : Int) - y| ≤ (n : Int) - 1 := abs_le.mpr ⟨by omega, by omega⟩
  have h4 : 1 ≤ |(v : Int) - u| := Int.one_le_abs (by omega)
  have h5 : |b| ≤ |(v : Int) - u| * |b| :=
    le_mul_of_one_le_left (abs_nonneg b) h4
  have h6 : |(x : Int) - y| * |a| ≤ ((n : Int) - 1) * |a| :=
    mul_le_mul_of_nonneg_right h3 (abs_nonneg a)
  linarith

theorem mul_right_cancel_coord (a : Int) (n x y : Nat) (hx : x < n) (hy : y < n)
    (hz : a = 0 → n = 1) (h : (x : Int) * a = (y : Int) * a) : x = y := by
  by_cases ha : a = 0
  · have := hz ha
    omega
  · have := mul_right_cancel₀ ha h
    exact_mod_cast this

/-- With at most two dimensions, strides that pass the test of `HasValidStrides` and are 0
only in dimensions of size 1 give different offsets to different coordinates. -/
theorem offsetSum_injective_two (s : List Int) (d : List Nat) (hlen : s.length = d.length)
    (h2 : s.length ≤ 2) (hz : ∀ p ∈ s.zip d, p.1 = 0 → p.2 = 1)
    (hv : s.length < 2 ∨
      Image.HasValidStrides.loopExact (sortStrides ((s.map (fun st => |st|)).zip d)) = true)
    (x y : List Nat) (hx : ValidCoords x d) (hy : ValidCoords y d)
    (h : offsetSum x s = offsetSum y s) : x = y := by
  match s, d, x, y with
  | [], [], [], [] => rfl
  | [a], [n], [x0], [y0] =>
    simp only [ValidCoords, and_true] at hx hy
    simp only [offsetSum, add_zero] at h
    have := mul_right_cancel_coord a n x0 y0 hx hy (fun ha => hz (a, n) (by simp) ha) h
    rw [this]
  | [a, b], [n, m], [x0, x1], [y0, y1] =>
    simp only [ValidCoords, and_true] at hx hy
    simp only [offsetSum, add_zero] at h
    have hza : a = 0 → n = 1 := fun ha => hz (a, n) (by simp) ha
    have hzb : b = 0 → m = 1 := fun hb => hz (b, m) (by simp) hb
    rcases hv with hv | hv
    · simp at hv
    · simp only [List.map_cons, List.map_nil, List.zip_cons_cons, List.zip_nil_right,
        sortStrides, insertionSort, List.foldl_cons, List.foldl_nil, insertFromRight] at hv
      by_cases hab : |a| > |b|
      · simp only [hab, decide_True, if_true, insertFromRight, List.reverse_cons,
          List.reverse_nil, List.nil_append, List.singleton_append,
          Image.HasValidStrides.loopExact] at hv
        split_ifs at hv with hle
        have hlt : |b| * ((m : Int) - 1) < |a| := by omega
        have e0 : x0 = y0 := abs_mul_lt_of_ne b a m x1 y1 x0 y0 hx.2 hy.2 hlt (by linarith)
        subst e0
        have e1 : x1 = y1 :=
          mul_right_cancel_coord b m x1 y1 hx.2 hy.2 hzb (by linarith)
        rw [e1]
      · simp only [hab, decide_False, if_false, List.reverse_cons, List.reverse_nil,
          List.nil_append, List.singleton_append, Image.HasValidStrides.loopExact,
          Bool.false_eq_true] at hv
        split_ifs at hv with hle
        have hlt : |a| * ((n : Int) - 1) < |b| := by omega
        have e1 : x1 = y1 := abs_mul_lt_of_ne a b n x0 y0 x1 y1 hx.1 hy.1 hlt h
        subst e1
        have e0 : x0 = y0 :=
          mul_right_cancel_coord a n x0 y0 hx.1 hy.1 hza (by linarith)
        rw [e0]
  | _ :: _ :: _ :: _, _, _, _ => simp at h2

/-- C37 as amended: `HasValidStrides` compares each stride only with the next smaller one, so
it guarantees distinct memory locations for distinct samples only for views with at most two
dimensions, the tensor dimension counted: when it returns true for such a view, with strides,
sizes and a reach that fit in a `dip::sint` (tensor dimension included), in which a stride is 0
only in a dimension of size 1, any two (coordinate vector, tensor index) pairs within the
sizes and the tensor count that differ have different offsets
`sum( c[i] * strides[i] ) + t * tensorStride`. -/
theorem HasValidStrides_distinct_samples (img : Image) (hv : img.HasValidStrides = true)
    (h2 : img.stridesWithTensor.length ≤ 2)
    (hfit : ∀ sz ∈ img.sizesWithTensor, sz ≤ SINT_MAX)
    (hstr : ∀ st ∈ img.stridesWithTensor, st.natAbs ≤ SINT_MAX)
    (hreach : reach img.sizesWithTensor img.stridesWithTensor ≤ SINT_MAX)
    (hz : ∀ p ∈ img.stridesWithTensor.zip img.sizesWithTensor, p.1 = 0 → p.2 = 1)
    (c1 c2 : List Nat) (t1 t2 : Nat)
    (hc1 : ValidCoords c1 img.sizes_) (ht1 : t1 < img.tensorElements)
    (hc2 : ValidCoords c2 img.sizes_) (ht2 : t2 < img.tensorElements)
    (hne : c1 ≠ c2 ∨ t1 ≠ t2) :
    offsetSum c1 img.strides_ + (t1 : Int) * img.tensorStride_ ≠
      offsetSum c2 img.strides_ + (t2 : Int) * img.tensorStride_ := by
  intro h
  have hposT : ∀ sz ∈ img.sizesWithTensor, 1 ≤ sz := by
    intro sz hsz
    unfold Image.sizesWithTensor at hsz
    split_ifs at hsz with hT
    · rcases List.mem_append.mp hsz with h1 | h1
      · exact ValidCoords_pos c1 _ hc1 sz h1
      · simp only [List.mem_singleton] at h1
        omega
    · exact ValidCoords_pos c1 _ hc1 sz hsz
  rw [Image.HasValidStrides_eq_exact img hposT hfit hstr hreach] at hv
  have hgoal : c1 = c2 ∧ t1 = t2 := by
    clear hne
    revert h
    intro h
    have hlen : img.sizes_.length = img.strides_.length := by
      by_contra hne
      unfold Image.HasValidStridesExact at hv
      rw [if_pos hne] at hv
      simp at hv
    have hloop : img.stridesWithTensor.length < 2 ∨
        Image.HasValidStrides.loopExact (sortStrides
          ((img.stridesWithTensor.map (fun st => |st|)).zip img.sizesWithTensor)) = true := by
      unfold Image.HasValidStridesExact at hv
      rw [if_neg (by simp [hlen])] at hv
      simp only at hv
      by_cases hl : img.stridesWithTensor.length < 2
      · exact Or.inl hl
      · rw [if_neg hl] at hv
        exact Or.inr hv
    have hl1 := ValidCoords_length c1 _ hc1
    have hl2 := ValidCoords_length c2 _ hc2
    by_cases hT : img.tensorElements > 1
    · have hs : img.stridesWithTensor = img.strides_ ++ [img.tensorStride_] := by
        unfold Image.stridesWithTensor
        rw [if_pos hT]
      have hd : img.sizesWithTensor = img.sizes_ ++ [img.tensorElements] := by
        unfold Image.sizesWithTensor
        rw [if_pos hT]
      have hx := ValidCoords_append_one c1 img.sizes_ t1 img.tensorElements hc1 ht1
      have hy := ValidCoords_append_one c2 img.sizes_ t2 img.tensorElements hc2 ht2
      rw [← hd] at hx hy
      have hsum : offsetSum (c1 ++ [t1]) img.stridesWithTensor =
          offsetSum (c2 ++ [t2]) img.stridesWithTensor := by
        rw [hs, offsetSum_append c1 [t1] _ _ (by omega), offsetSum_append c2 [t2] _ _ (by omega)]
        simpa [offsetSum] using h
      have heq := offsetSum_injective_two img.stridesWithTensor img.sizesWithTensor
        (by rw [hs, hd]; simp [hlen]) h2 hz hloop _ _ hx hy hsum
      have := List.append_inj heq (by omega)
      exact ⟨this.1, by simpa using this.2⟩
    · have hs : img.stridesWithTensor = img.strides_ := by
        unfold Image.stridesWithTensor
        rw [if_neg hT]
      have hd : img.sizesWithTensor = img.sizes_ := by
        unfold Image.sizesWithTensor
        rw [if_neg hT]
      have e1 : t1 = 0 := by omega
      have e2 : t2 = 0 := by omega
      subst e1 e2
      rw [hs, hd] at hloop hz
      rw [hs] at h2
      refine ⟨offsetSum_injective_two img.strides_ img.sizes_ hlen.symm h2 hz hloop _ _ hc1 hc2
        (by simpa using h), rfl⟩
  rcases hne with h1 | h1
  · exact h1 hgoal.1
  · exact h1 hgoal.2

/-- Witness of C37 as amended: sizes [3] with stride -2 and 4 tensor elements with tensor
stride 7; the samples ([1], 2) and ([2], 1) have the offsets 12 and 3. -/
theorem HasValidStrides_distinct_samples_witness :
    Image.HasValidStrides ⟨.UINT8, [3], [-2], 4, 7, false, none, 0⟩ = true ∧
    offsetSum [1] [-2] + ((2 : Nat) : Int) * 7 ≠ offsetSum [2] [-2] + ((1 : Nat) : Int) * 7 :=
  ⟨rfl, HasValidStrides_distinct_samples ⟨.UINT8, [3], [-2], 4, 7, false, none, 0⟩ (by rfl)
    (by decide) (by decide) (by decide) (by decide)
    (by
      intro p hp h0
      simp only [Image.stridesWithTensor, Image.sizesWithTensor] at hp
      simp at hp
      rcases hp with rfl | rfl <;> simp at h0)
    [1] [2] 2 1 (by simp [ValidCoords]) (by decide) (by simp [ValidCoords]) (by decide)
    (Or.inl (by decide))⟩

end dip

namespace dip

/-! ## The merge walk of `Aliases` is safe -/

theorem MergedDim.make_safe (first : Bool) (s1 s2 d1 d2 : Nat) (h1 : 1 ≤ s1) :
    1 ≤ (MergedDim.make first s1 s2 d1 d2).comstride ∧
      (MergedDim.make first s1 s2 d1 d2).comstride ∣ s1 ∧
      (MergedDim.make first s1 s2 d1 d2).comstride ∣ s2 ∧
      (MergedDim.make first s1 s2 d1 d2).newstride1 =
        s1 / (MergedDim.make first s1 s2 d1 d2).comstride ∧
      (MergedDim.make first s1 s2 d1 d2).newstride2 =
        s2 / (MergedDim.make first s1 s2 d1 d2).comstride := by
  cases first
  · have hg : 1 ≤ Nat.gcd s1 s2 := Nat.gcd_pos_of_pos_left s2 (by omega)
    exact ⟨hg, Nat.gcd_dvd_left s1 s2, Nat.gcd_dvd_right s1 s2, rfl, rfl⟩
  · exact ⟨le_refl 1, one_dvd _, one_dvd _, rfl, rfl⟩

/-- One iteration of the merge walk on arrays with positive strides that are not both at their
end: it pushes one entry, made from two strides that are at least 1 and are strides of the
arrays, and goes on with arrays of which at least one is shorter. -/
theorem mergeWalk_step (l1 l2 : List (Int × Nat)) (first : Bool)
    (hp1 : ∀ p ∈ l1, 1 ≤ p.1) (hp2 : ∀ p ∈ l2, 1 ≤ p.1)
    (hne : ¬ (l1 = [] ∧ l2 = [])) :
    ∃ (s1 s2 d1 d2 : Nat) (r1 r2 : List (Int × Nat)),
      (∀ fuel, mergeWalk (fuel + 1) l1 l2 first =
        MergedDim.make first s1 s2 d1 d2 :: mergeWalk fuel r1 r2 false) ∧
      1 ≤ s1 ∧ 1 ≤ s2 ∧
      (∃ p ∈ l1 ++ l2, s1 = p.1.toNat) ∧ (∃ p ∈ l1 ++ l2, s2 = p.1.toNat) ∧
      r1.length + r2.length < l1.length + l2.length ∧
      (∀ p ∈ r1, p ∈ l1) ∧ (∀ p ∈ r2, p ∈ l2) := by
  cases l1 with
  | nil =>
    cases l2 with
    | nil => exact absurd ⟨rfl, rfl⟩ hne
    | cons q t2 =>
      have hq : 1 ≤ q.1 := hp2 q (by simp)
      refine ⟨q.1.toNat, q.1.toNat, 1, q.2, [], t2, ?_, by omega, by omega,
        ⟨q, by simp, rfl⟩, ⟨q, by simp, rfl⟩, by simp, by simp,
        fun p hp => List.mem_cons_of_mem _ hp⟩
      intro fuel
      simp [mergeWalk]
  | cons p t1 =>
    have hp : 1 ≤ p.1 := hp1 p (by simp)
    have hs1 : p.1.toNat ≠ 0 := by omega
    cases l2 with
    | nil =>
      refine ⟨p.1.toNat, p.1.toNat, p.2, 1, t1, [], ?_, by omega, by omega,
        ⟨p, by simp, rfl⟩, ⟨p, by simp, rfl⟩, by simp,
        fun x hx => List.mem_cons_of_mem _ hx, by simp⟩
      intro fuel
      simp [mergeWalk, hs1]
    | cons q t2 =>
      have hq : 1 ≤ q.1 := hp2 q (by simp)
      have hs2 : q.1.toNat ≠ 0 := by omega
      cases t1 with
      | nil =>
        cases t2 with
        | nil =>
          refine ⟨p.1.toNat, q.1.toNat, p.2, q.2, [], [], ?_, by omega, by omega,
            ⟨p, by simp, rfl⟩, ⟨q, by simp, rfl⟩, by simp, by simp, by simp⟩
          intro fuel
          simp only [mergeWalk, List.isEmpty_cons, List.isEmpty_nil, Bool.false_eq_true, false_and,
                and_false, if_false, hs1, hs2, List.tail_cons, List.tail_nil,
                decide_True, decide_False, if_true]
        | cons y t2 =>
          by_cases hy : y.1 ≤ ((p.1.toNat * (p.2 - 1) : Nat) : Int)
          · refine ⟨q.1.toNat, q.1.toNat, 1, q.2, [p], y :: t2, ?_, by omega, by omega,
              ⟨q, by simp, rfl⟩, ⟨q, by simp, rfl⟩, by simp only [List.length_cons, List.length_nil]; omega, by simp,
              fun x hx => List.mem_cons_of_mem _ hx⟩
            intro fuel
            simp only [mergeWalk, List.isEmpty_cons, List.isEmpty_nil, Bool.false_eq_true, false_and,
                and_false, if_false, hs1, hs2, List.tail_cons, List.tail_nil, hy,
                decide_True, decide_False, if_true]
          · refine ⟨p.1.toNat, q.1.toNat, p.2, q.2, [], y :: t2, ?_, by omega, by omega,
              ⟨p, by simp, rfl⟩, ⟨q, by simp, rfl⟩, by simp only [List.length_cons, List.length_nil]; omega, by simp,
              fun x hx => List.mem_cons_of_mem _ hx⟩
            intro fuel
            simp only [mergeWalk, List.isEmpty_cons, List.isEmpty_nil, Bool.false_eq_true, false_and,
                and_false, if_false, hs1, hs2, List.tail_cons, List.tail_nil, hy,
                decide_True, decide_False, if_true]
      | cons x t1 =>
        by_cases hx : x.1 ≤ ((q.1.toNat * (q.2 - 1) : Nat) : Int)
        · refine ⟨p.1.toNat, p.1.toNat, p.2, 1, x :: t1, q :: t2, ?_, by omega, by omega,
            ⟨p, by simp, rfl⟩, ⟨p, by simp, rfl⟩, by simp,
            fun z hz => List.mem_cons_of_mem _ hz, fun z hz => hz⟩
          intro fuel
          simp only [mergeWalk, List.isEmpty_cons, List.isEmpty_nil, Bool.false_eq_true, false_and,
                and_false, if_false, hs1, hs2, List.tail_cons, List.tail_nil, hx,
                decide_True, decide_False, if_true]
        · cases t2 with
          | nil =>
            refine ⟨p.1.toNat, q.1.toNat, p.2, q.2, x :: t1, [], ?_, by omega, by omega,
              ⟨p, by simp, rfl⟩, ⟨q, by simp, rfl⟩, by simp,
              fun z hz => List.mem_cons_of_mem _ hz, by simp⟩
            intro fuel
            simp only [mergeWalk, List.isEmpty_cons, List.isEmpty_nil, Bool.false_eq_true, false_and,
                and_false, if_false, hs1, hs2, List.tail_cons, List.tail_nil, hx,
                decide_True, decide_False, if_true]
          | cons y t2 =>
            by_cases hy : y.1 ≤ ((p.1.toNat * (p.2 - 1) : Nat) : Int)
            · refine ⟨q.1.toNat, q.1.toNat, 1, q.2, p :: x :: t1, y :: t2, ?_, by omega,
                by omega, ⟨q, by simp, rfl⟩, ⟨q, by simp, rfl⟩, by simp,
                fun z hz => hz, fun z hz => List.mem_cons_of_mem _ hz⟩
              intro fuel
              simp only [mergeWalk, List.isEmpty_cons, List.isEmpty_nil, Bool.false_eq_true, false_and,
                and_false, if_false, hs1, hs2, List.tail_cons, List.tail_nil, hx, hy,
                decide_True, decide_False, if_true]
            · refine ⟨p.1.toNat, q.1.toNat, p.2, q.2, x :: t1, y :: t2, ?_, by omega,
                by omega, ⟨p, by simp, rfl⟩, ⟨q, by simp, rfl⟩, by simp only [List.length_cons, List.length_nil]; omega,
                fun z hz => List.mem_cons_of_mem _ hz, fun z hz => List.mem_cons_of_mem _ hz⟩
              intro fuel
              simp only [mergeWalk, List.isEmpty_cons, List.isEmpty_nil, Bool.false_eq_true, false_and,
                and_false, if_false, hs1, hs2, List.tail_cons, List.tail_nil, hx, hy,
                decide_True, decide_False, if_true]

/-- The merge walk does not depend on the bound on its iterations once this bound is at least
the sum of the lengths of the two arrays: the walk ends by itself before. -/
theorem mergeWalk_fuel (fuel : Nat) (l1 l2 : List (Int × Nat)) (first : Bool) (fuel2 : Nat)
    (hp1 : ∀ p ∈ l1, 1 ≤ p.1) (hp2 : ∀ p ∈ l2, 1 ≤ p.1)
    (h1 : l1.length + l2.length ≤ fuel) (h2 : l1.length + l2.length ≤ fuel2) :
    mergeWalk fuel l1 l2 first = mergeWalk fuel2 l1 l2 first := by
  induction fuel generalizing l1 l2 first fuel2 with
  | zero =>
    have e1 : l1 = [] := List.length_eq_zero.mp (by omega)
    have e2 : l2 = [] := List.length_eq_zero.mp (by omega)
    rw [e1, e2, mergeWalk_nil, mergeWalk_nil]
  | succ fuel ih =>
    by_cases hne : l1 = [] ∧ l2 = []
    · rw [hne.1, hne.2, mergeWalk_nil, mergeWalk_nil]
    · obtain ⟨s1, s2, d1, d2, r1, r2, hstep, _, _, _, _, hlt, hr1, hr2⟩ :=
        mergeWalk_step l1 l2 first hp1 hp2 hne
      cases fuel2 with
      | zero =>
        exfalso
        have e1 : l1 = [] := List.length_eq_zero.mp (by omega)
        have e2 : l2 = [] := List.length_eq_zero.mp (by omega)
        exact hne ⟨e1, e2⟩
      | succ f2 =>
        rw [hstep fuel, hstep f2,
          ih r1 r2 false f2 (fun p hp => hp1 p (hr1 p hp)) (fun p hp => hp2 p (hr2 p hp))
            (by omega) (by omega)]

/-- The entries of the merge walk: there are at most as many as the two arrays have elements
together, every common stride is at least 1 and divides the two strides it was made from, and
the new strides are the quotients. -/
theorem mergeWalk_entries (fuel : Nat) (l1 l2 : List (Int × Nat)) (first : Bool)
    (hp1 : ∀ p ∈ l1, 1 ≤ p.1) (hp2 : ∀ p ∈ l2, 1 ≤ p.1) :
    (mergeWalk fuel l1 l2 first).length ≤ l1.length + l2.length ∧
    ∀ m ∈ mergeWalk fuel l1 l2 first, 1 ≤ m.comstride ∧
      ∃ s1 s2 : Nat, (∃ p ∈ l1 ++ l2, s1 = p.1.toNat) ∧ (∃ p ∈ l1 ++ l2, s2 = p.1.toNat) ∧
        m.comstride ∣ s1 ∧ m.comstride ∣ s2 ∧
        m.newstride1 = s1 / m.comstride ∧ m.newstride2 = s2 / m.comstride := by
  induction fuel generalizing l1 l2 first with
  | zero => simp [mergeWalk]
  | succ fuel ih =>
    by_cases hne : l1 = [] ∧ l2 = []
    · rw [hne.1, hne.2, mergeWalk_nil]
      simp
    · obtain ⟨s1, s2, d1, d2, r1, r2, hstep, hs1, hs2, hm1, hm2, hlt, hr1, hr2⟩ :=
        mergeWalk_step l1 l2 first hp1 hp2 hne
      obtain ⟨ihlen, ihall⟩ := ih r1 r2 false (fun p hp => hp1 p (hr1 p hp))
        (fun p hp => hp2 p (hr2 p hp))
      rw [hstep fuel]
      refine ⟨by simp only [List.length_cons]; omega, ?_⟩
      intro m hm
      rcases List.mem_cons.mp hm with rfl | hm
      · obtain ⟨a1, a2, a3, a4, a5⟩ := MergedDim.make_safe first s1 s2 d1 d2 hs1
        exact ⟨a1, s1, s2, hm1, hm2, a2, a3, a4, a5⟩
      · obtain ⟨b1, t1, t2, ⟨p, hp, e1⟩, ⟨q, hq, e2⟩, b2⟩ := ihall m hm
        refine ⟨b1, t1, t2, ⟨p, ?_, e1⟩, ⟨q, ?_, e2⟩, b2⟩
        · rcases List.mem_append.mp hp with h | h
          · exact List.mem_append.mpr (Or.inl (hr1 p h))
          · exact List.mem_append.mpr (Or.inr (hr2 p h))
        · rcases List.mem_append.mp hq with h | h
          · exact List.mem_append.mpr (Or.inl (hr1 q h))
          · exact List.mem_append.mpr (Or.inr (hr2 q h))

theorem unMirror_facts (l : List (Int × Nat)) (o : Nat) :
    (unMirror l o).1.length = l.length ∧ ∀ q ∈ (unMirror l o).1, 0 ≤ q.1 := by
  induction l generalizing o with
  | nil => simp [unMirror]
  | cons q l ih =>
    obtain ⟨st, sz⟩ := q
    simp only [unMirror]
    split_ifs with h
    · obtain ⟨h1, h2⟩ := ih (toUint ((o : Int) - ((sz : Int) - 1) * (-st)))
      refine ⟨by simp only [List.length_cons, h1], ?_⟩
      intro q hq
      rcases List.mem_cons.mp hq with rfl | hq
      · simp only; omega
      · exact h2 q hq
    · obtain ⟨h1, h2⟩ := ih o
      refine ⟨by simp only [List.length_cons, h1], ?_⟩
      intro q hq
      rcases List.mem_cons.mp hq with rfl | hq
      · simp only; omega
      · exact h2 q hq

theorem removeSingletons_length_le (l : List (Int × Nat)) :
    (removeSingletons l).length ≤ l.length := by
  induction l with
  | nil => simp [removeSingletons]
  | cons q l ih =>
    obtain ⟨st, sz⟩ := q
    simp only [removeSingletons]
    split_ifs <;> simp only [List.length_cons] <;> omega

theorem dropWhile_zero_pos (l : List (Int × Nat)) (hnn : ∀ q ∈ l, 0 ≤ q.1)
    (hs : l.Pairwise (fun x y => x.1 ≤ y.1)) :
    ∀ p ∈ l.dropWhile (fun p => decide (p.1 = 0)), 1 ≤ p.1 := by
  induction l with
  | nil => simp
  | cons q l ih =>
    rw [List.pairwise_cons] at hs
    by_cases h0 : q.1 = 0
    · rw [List.dropWhile_cons_of_pos (by simp [h0])]
      exact ih (fun x hx => hnn x (by simp [hx])) hs.2
    · rw [List.dropWhile_cons_of_neg (by simp [h0])]
      have hq : 1 ≤ q.1 := by
        have := hnn q (by simp)
        omega
      intro p hp
      rcases List.mem_cons.mp hp with rfl | hp
      · exact hq
      · have := hs.1 p hp
        omega

/-- The arrays the merge walk of `Aliases` starts from (the sorted, un-mirrored arrays without
their dimensions of size 1, after the leading strides 0): not longer than the arrays of the
view, and with strides that are at least 1. -/
theorem Aliases_walk_arrays (strides : List Int) (sizes : List Nat) (origin : Nat) :
    ((sortStrides (unMirror (removeSingletons (strides.zip sizes)) origin).1).dropWhile
        (fun p => decide (p.1 = 0))).length ≤ strides.length ∧
    ∀ p ∈ (sortStrides (unMirror (removeSingletons (strides.zip sizes)) origin).1).dropWhile
        (fun p => decide (p.1 = 0)), 1 ≤ p.1 := by
  obtain ⟨hl, hnn⟩ := unMirror_facts (removeSingletons (strides.zip sizes)) origin
  have hperm := insertionSort_perm (fun (p e : Int × Nat) => decide (p.1 > e.1))
    (unMirror (removeSingletons (strides.zip sizes)) origin).1
  have hsorted := insertionSort_pairwise (fun (p e : Int × Nat) => decide (p.1 > e.1))
    (by
      intro a b h
      simp only [gt_iff_lt, decide_eq_true_eq, decide_eq_false_iff_not, not_lt] at h ⊢
      omega)
    (by
      intro a b c h1 h2
      simp only [gt_iff_lt, decide_eq_false_iff_not, not_lt] at h1 h2 ⊢
      omega)
    (unMirror (removeSingletons (strides.zip sizes)) origin).1
  constructor
  · have h1 := ((List.dropWhile_suffix (fun (p : Int × Nat) => decide (p.1 = 0))
      (l := sortStrides (unMirror (removeSingletons (strides.zip sizes)) origin).1)).sublist).length_le
    have h2 : (sortStrides (unMirror (removeSingletons (strides.zip sizes)) origin).1).length =
        (unMirror (removeSingletons (strides.zip sizes)) origin).1.length := hperm.length_eq
    have h3 := removeSingletons_length_le (strides.zip sizes)
    have h4 : (strides.zip sizes).length ≤ strides.length := by
      rw [List.length_zip]
      exact Nat.min_le_left _ _
    omega
  · apply dropWhile_zero_pos
    · intro q hq
      exact hnn q (hperm.mem_iff.mp hq)
    · refine hsorted.imp ?_
      intro a b h
      simp only [gt_iff_lt, decide_eq_false_iff_not, not_lt] at h
      exact h

theorem OffsetToCoordinates_length (offset : Nat) (strides : List Nat) :
    (OffsetToCoordinates offset strides).length = strides.length := by
  unfold OffsetToCoordinates
  induction strides with
  | nil => rfl
  | cons s rest ih => simp [OffsetToCoordinates.loop, ih]

/-- C39: in the general case of `Aliases`, for all stride and size arrays and origins (with
`u1`, `u2` the un-mirrored arrays without singleton dimensions and the moved origins, `l1`,
`l2` the sorted arrays after their leading strides 0, `merged` the five arrays of the walk
and `comstrides` the first of them), the merge walk ends by itself within as many iterations as the two arrays have dimensions together
(the result is the same for every larger bound on the number of iterations, and it has at most
that many entries); each iteration pushes one entry on each of the five arrays, which so have
the same length; every common stride is at least 1 and divides the two strides (strides of
dimensions of the views) it was made from, the new strides being the quotients; the origin
coordinates, which are computed by divisions by the common strides, have the length of the
five arrays, so that every index of the last loop is in range. -/
theorem Aliases_merge_walk_safe (strides1 : List Int) (sizes1 : List Nat) (origin1 : Nat)
    (strides2 : List Int) (sizes2 : List Nat) (origin2 : Nat)
    (u1 u2 : List (Int × Nat) × Nat) (l1 l2 : List (Int × Nat)) (merged : List MergedDim)
    (comstrides : List Nat)
    (hu1 : u1 = unMirror (removeSingletons (strides1.zip sizes1)) origin1)
    (hu2 : u2 = unMirror (removeSingletons (strides2.zip sizes2)) origin2)
    (hl1 : l1 = (sortStrides u1.1).dropWhile (fun p => decide (p.1 = 0)))
    (hl2 : l2 = (sortStrides u2.1).dropWhile (fun p => decide (p.1 = 0)))
    (hmerged : merged = mergeWalk (l1.length + l2.length) l1 l2 true)
    (hcom : comstrides = merged.map MergedDim.comstride) :
    (∀ fuel, l1.length + l2.length ≤ fuel → mergeWalk fuel l1 l2 true = merged) ∧
    merged.length ≤ strides1.length + strides2.length ∧
    comstrides.length = merged.length ∧
    (merged.map MergedDim.newstride1).length = merged.length ∧
    (merged.map MergedDim.newstride2).length = merged.length ∧
    (merged.map MergedDim.newsize1).length = merged.length ∧
    (merged.map MergedDim.newsize2).length = merged.length ∧
    (∀ cs ∈ comstrides, 1 ≤ cs) ∧
    (∀ m ∈ merged, 1 ≤ m.comstride ∧
      ∃ s1 s2 : Nat, (∃ p ∈ l1 ++ l2, s1 = p.1.toNat) ∧ (∃ p ∈ l1 ++ l2, s2 = p.1.toNat) ∧
        m.comstride ∣ s1 ∧ m.comstride ∣ s2 ∧
        m.newstride1 = s1 / m.comstride ∧ m.newstride2 = s2 / m.comstride) ∧
    (OffsetToCoordinates u1.2 comstrides).length = merged.length ∧
    (OffsetToCoordinates u2.2 comstrides).length = merged.length ∧
    aliasesGeneral strides1 sizes1 origin1 strides2 sizes2 origin2 =
      overlapCheck merged (OffsetToCoordinates u1.2 comstrides)
        (OffsetToCoordinates u2.2 comstrides) := by
  subst hu1 hu2 hl1 hl2 hmerged hcom
  obtain ⟨hlen1, hpos1⟩ := Aliases_walk_arrays strides1 sizes1 origin1
  obtain ⟨hlen2, hpos2⟩ := Aliases_walk_arrays strides2 sizes2 origin2
  obtain ⟨hmlen, hentries⟩ := mergeWalk_entries _ _ _ true hpos1 hpos2
  refine ⟨?_, ?_, by simp, by simp, by simp, by simp, by simp, ?_, hentries, ?_, ?_, rfl⟩
  · intro fuel hfuel
    exact mergeWalk_fuel fuel _ _ true _ hpos1 hpos2 hfuel (le_refl _)
  · omega
  · intro cs hcs
    obtain ⟨m, hm, rfl⟩ := List.mem_map.mp hcs
    exact (hentries m hm).1
  · rw [OffsetToCoordinates_length]
    simp
  · rw [OffsetToCoordinates_length]
    simp

/-- Witness of C39: a view with sizes [3, 4] and strides [-1, 6] from origin 2 against a view
with sizes [2, 1, 5] and strides [3, 7, 0] from origin 1; the walk pushes two entries, with
the common strides 1 and 6. -/
theorem Aliases_merge_walk_safe_witness :
    (∀ fuel, 2 + 1 ≤ fuel →
      mergeWalk fuel [(1, 3), (6, 4)] [(3, 2)] true =
        [⟨1, 1, 3, 3, 2⟩, ⟨6, 1, 1, 4, 1⟩]) ∧
    ([⟨1, 1, 3, 3, 2⟩, ⟨6, 1, 1, 4, 1⟩] : List MergedDim).length ≤ 2 + 3 :=
  ⟨(Aliases_merge_walk_safe [-1, 6] [3, 4] 2 [3, 7, 0] [2, 1, 5] 1
      ([(1, 3), (6, 4)], 0) ([(3, 2), (0, 5)], 1) [(1, 3), (6, 4)] [(3, 2)]
      [⟨1, 1, 3, 3, 2⟩, ⟨6, 1, 1, 4, 1⟩] [1, 6] (by decide) (by decide) (by decide)
      (by decide) (by decide) rfl).1,
   (Aliases_merge_walk_safe [-1, 6] [3, 4] 2 [3, 7, 0] [2, 1, 5] 1
      ([(1, 3), (6, 4)], 0) ([(3, 2), (0, 5)], 1) [(1, 3), (6, 4)] [(3, 2)]
      [⟨1, 1, 3, 3, 2⟩, ⟨6, 1, 1, 4, 1⟩] [1, 6] (by decide) (by decide) (by decide)
      (by decide) (by decide) rfl).2.1⟩

end dip

namespace dip

/-! ## Aliasing: what a true answer means -/

theorem offsetSum_replicate_zero (n : Nat) (sts : List Int) :
    offsetSum (List.replicate n 0) sts = 0 := by
  induction n generalizing sts with
  | zero => simp [offsetSum]
  | succ n ih =>
    cases sts with
    | nil => simp [List.replicate, offsetSum]
    | cons st sts => simp [List.replicate, offsetSum, ih]

end dip
